import Mathlib

/-! # sql_parser: a shallow embedding of the Boost.Spirit grammar `SQLParser`

The C++ source (`sql_parser.h`) defines the grammar as Boost.Spirit Qi
expressions with Phoenix semantic actions.  Every rule of the grammar is a
Lean function of the same name from the remaining input to an outcome; the
Qi operators are unfolded at each use according to their library semantics:

* `a > b` (expect): if the first operand does not match, the sequence does
  not match; if a later operand does not match, `expectation_failure` is
  thrown, carrying the iterator of the sequence and `what()` of the operand;
* `a | b`, `*a`, `-a`, `a % b`: ordered choice, repetition, option and list;
  none of them catches an exception;
* `lexeme[a]`: pre-skip, then `a` without skipper;
* `no_case["kw"]`, `'c'`, `symbols`, `bool_`, `long_`, `real_parser`: pre-skip
  on the caller's iterator (it stays advanced when the match fails), then
  the primitive match;
* a `rule` defined with `=` and semantic actions passes no attribute to its
  right-hand side: every action synthesises a value-initialised attribute.

Input is a `std::string`; it is modelled as a list of characters, a
character above 127 standing for a non-ASCII byte.  `long` is the 64-bit
type of LP64 platforms.  A `double` is represented by the exact decimal
number that was read (sign, digits, power of ten); rounding to binary64 and
the range of `double` are not modelled.
-/

namespace SqlParser

abbrev Input := List Char

/-! ## AST (sql_parser.h, lines 8-122) -/

/-- `CompareOp::Type`; `none` is the value 0 of a value-initialised `Compare`. -/
inductive CompareOpType where
  | none | kTypeLT | kTypeGT | kTypeLE | kTypeGE | kTypeEQ | kTypeNE
  deriving DecidableEq, Repr, Inhabited

/-- `Literal::Type`. -/
inductive LiteralType where
  | kTypeNone | kTypeBool | kTypeLong | kTypeDouble | kTypeString
  deriving DecidableEq, Repr, Inhabited

/-- The number that `real_parser` reads for a `double`, before the library
converts it to binary64: the decimal `(-1)^neg * digits * 10^exp10`, or one of
the special values.  The conversion is not part of the source and is not
fixed here: the `double` that the program holds is a function of this value
(`Literal.rounded`). -/
inductive Real64 where
  | num (neg : Bool) (digits : Nat) (exp10 : Int)
  | nan (neg : Bool)
  | inf (neg : Bool)
  deriving DecidableEq, Repr, Inhabited

/-- The rational number denoted by a finite `Real64`. -/
def Real64.toRat : Real64 → Option Rat
  | .num neg d e => some ((if neg then -1 else 1) * (d : Rat) * (10 : Rat) ^ e)
  | _ => none

/-- `Literal::Value`, a `boost::variant<bool, long, double, std::string>`. -/
inductive Value where
  | bool (b : Bool)
  | long (n : Int)
  | double (x : Real64)
  | string (s : List Char)
  deriving DecidableEq, Repr, Inhabited

structure Literal where
  type : LiteralType
  value : Value
  deriving DecidableEq, Repr, Inhabited

/-- The value-initialised `Literal`: type 0, variant holding `bool()`. -/
def Literal.init : Literal := ⟨.kTypeNone, .bool false⟩

structure Compare where
  left : List Char
  op : CompareOpType
  right : Literal
  deriving DecidableEq, Repr, Inhabited

/-- The value-initialised `Compare` held by a default `Condition::NodeType`. -/
def Compare.init : Compare := ⟨[], .none, Literal.init⟩

/-- `Condition::OpType`. -/
inductive OpType where
  | kOpTypeNONE | kOpTypeAND | kOpTypeOR
  deriving DecidableEq, Repr, Inhabited

/-- `Condition::NodeType`, a `variant<Compare, recursive_wrapper<Condition>>`;
the second alternative carries the three members of the wrapped `Condition`. -/
inductive NodeType where
  | compare (c : Compare)
  | condition (left : NodeType) (op : OpType) (right : NodeType)
  deriving DecidableEq, Repr, Inhabited

structure Condition where
  left : NodeType
  op : OpType
  right : NodeType
  deriving DecidableEq, Repr, Inhabited

/-- `Condition()`: `op(kOpTypeNONE)`, both variants default-constructed. -/
def Condition.init : Condition := ⟨.compare Compare.init, .kOpTypeNONE, .compare Compare.init⟩

/-- Assignment of a `Condition` to a `NodeType` variant. -/
def Condition.toNode (c : Condition) : NodeType := .condition c.left c.op c.right

structure SelectSQL where
  fields : List (List Char)
  table : List Char
  has_condition : Bool
  condition : Condition
  deriving DecidableEq, Repr, Inhabited

/-- `SelectSQL()`: `has_condition(false)`, everything else default. -/
def SelectSQL.init : SelectSQL := ⟨[], [], false, Condition.init⟩

/-! ## Outcomes of a Qi parser -/

/-- `boost::spirit::info`: a tag and, for some parsers, a value. -/
inductive info where
  | tag (t : String)
  | str (t : String) (value : List Char)
  | nested (t : String) (sub : info)
  deriving DecidableEq, Repr, Inhabited

/-- Outcome of `parse(first, last, ...)`.
* `ok v rest`: matched, attribute `v`, iterator left at `rest`;
* `fail pos`: no match, the caller's iterator left at `pos`;
* `error what pos`: `expectation_failure` thrown with `what_` and `first`;
* `fuel`: the recursion bound of the model was reached (no C++ outcome). -/
inductive Result (α : Type) where
  | ok (val : α) (rest : Input)
  | fail (pos : Input)
  | error (what : info) (pos : Input)
  | fuel
  deriving DecidableEq, Repr, Inhabited

/-! ## Character classes of `boost::spirit::ascii` and the skipper -/

/-- `ischar`: the byte is in the 7-bit range. -/
def ischar (c : Char) : Bool := decide (c.toNat < 128)

/-- `ascii::space`: `isspace` of the 7-bit range (HT, LF, VT, FF, CR, space). -/
def isspace (c : Char) : Bool := decide (c.toNat = 32) || (decide (9 ≤ c.toNat) && decide (c.toNat ≤ 13))

/-- `ascii::alpha`. -/
def isalpha (c : Char) : Bool :=
  (decide (97 ≤ c.toNat) && decide (c.toNat ≤ 122)) || (decide (65 ≤ c.toNat) && decide (c.toNat ≤ 90))

/-- A decimal digit. -/
def isdigit (c : Char) : Bool := decide (48 ≤ c.toNat) && decide (c.toNat ≤ 57)

/-- `ascii::alnum`. -/
def isalnum (c : Char) : Bool := isalpha c || isdigit c

/-- The subject `alnum | char_('_')` of the repetition in `identifier`. -/
def isidchar (c : Char) : Bool := isalnum c || decide (c = '_')

/-- `qi::skip_over(first, last, ascii::space)`. -/
def skip_over (s : Input) : Input := s.dropWhile isspace

/-! ## Primitive parsers -/

/-- `detail::string_parse(lo, hi, first, last)`: every character equals the
one of `lo` or the one of `hi` at its place; `none` when it does not match
(the iterator is then unchanged). -/
def string_parse : List Char → List Char → Input → Option Input
  | [], _, s => some s
  | _ :: _, [], _ => none
  | _ :: _, _ :: _, [] => none
  | l :: lo, h :: hi, c :: cs => if c = l ∨ c = h then string_parse lo hi cs else none

/-- `ascii::no_case["kw"]`: pre-skip, then `kw` in any letter case. -/
def no_case (kw : String) (s : Input) : Result Unit :=
  match string_parse (kw.toList.map Char.toLower) (kw.toList.map Char.toUpper) (skip_over s) with
  | some rest => .ok () rest
  | none => .fail (skip_over s)

/-- `what()` of `no_case["kw"]`. -/
def no_case_what (kw : String) : info := .str "no-case-literal-string" (kw.toList.map Char.toLower)

/-- A literal character such as `','`, `'('`, `')'`: pre-skip, then that character. -/
def lit (ch : Char) (s : Input) : Result Unit :=
  match skip_over s with
  | c :: cs => if c = ch then .ok () cs else .fail (c :: cs)
  | [] => .fail []

/-- `what()` of a literal character. -/
def lit_what (ch : Char) : info := .str "literal-char" [ch]

/-- `what()` of a rule without a name. -/
def rule_what : info := .tag "unnamed-rule"

/-- The entries added to the symbol table in `CompareOp::CompareOp()`. -/
def compare_op_table : List (List Char × CompareOpType) :=
  [ ("<".toList, .kTypeLT), (">".toList, .kTypeGT), ("<=".toList, .kTypeLE),
    (">=".toList, .kTypeGE), ("=".toList, .kTypeEQ), ("!=".toList, .kTypeNE) ]

/-- The input starts with the spelling `k`. -/
def starts_with : List Char → Input → Bool
  | [], _ => true
  | _ :: _, [] => false
  | k :: ks, c :: cs => decide (k = c) && starts_with ks cs

/-- `tst::find`: among the spellings of the table that start the input, the
longest one; its length and its value. -/
def tst_find {α : Type} : List (List Char × α) → Input → Option (Nat × α)
  | [], _ => none
  | (k, v) :: t, s =>
    match tst_find t s with
    | some (n, w) => if starts_with k s && decide (n < k.length) then some (k.length, v) else some (n, w)
    | none => if starts_with k s then some (k.length, v) else none

/-- The parser `compare_op` (`qi::symbols::parse`): pre-skip, longest match. -/
def compare_op (s : Input) : Result CompareOpType :=
  match tst_find compare_op_table (skip_over s) with
  | some (n, v) => .ok v ((skip_over s).drop n)
  | none => .fail (skip_over s)

/-- The value of a run of decimal digits. -/
def decimal (ds : List Char) : Nat := ds.foldl (fun n c => 10 * n + (c.toNat - 48)) 0

/-- `extract_sign`: whether a sign was `-`, and the iterator after a sign. -/
def extract_sign : Input → Bool × Input
  | c :: cs => if c = '-' then (true, cs) else if c = '+' then (false, cs) else (false, c :: cs)
  | [] => (false, [])

/-- `extract_int<T, 10, 1, -1>` on a type with `bits` bits: sign, at least
one digit, no match when the value is out of range. -/
def extract_int (bits : Nat) (s : Input) : Option (Int × Input) :=
  let neg := (extract_sign s).1
  let s1 := (extract_sign s).2
  let ds := s1.takeWhile isdigit
  if ds = [] then none
  else if neg then
    (if decimal ds ≤ 2 ^ (bits - 1) then some (- (decimal ds : Int), s1.dropWhile isdigit) else none)
  else
    (if decimal ds < 2 ^ (bits - 1) then some ((decimal ds : Int), s1.dropWhile isdigit) else none)

/-- `qi::long_`: pre-skip, then `extract_int<long>`. -/
def long_ (s : Input) : Result Int :=
  match extract_int 64 (skip_over s) with
  | some (n, rest) => .ok n rest
  | none => .fail (skip_over s)

/-- `qi::bool_` with the default `bool_policies`: pre-skip, then the exact
spelling `true` or `false`. -/
def bool_ (s : Input) : Result Bool :=
  match string_parse "true".toList "true".toList (skip_over s) with
  | some rest => .ok true rest
  | none =>
    match string_parse "false".toList "false".toList (skip_over s) with
    | some rest => .ok false rest
    | none => .fail (skip_over s)

/-- `ureal_policies::parse_nan`: `nan` in any case, then optionally `(...)`.
When `(` is not closed the match fails with the iterator left after `nan`. -/
def parse_nan (s : Input) : Bool × Input :=
  match string_parse "nan".toList "NAN".toList s with
  | none => (false, s)
  | some rest =>
    match rest with
    | '(' :: more =>
      (match more.dropWhile (fun c => c != ')') with
       | _ :: after => (true, after)
       | [] => (false, rest))
    | _ => (true, rest)

/-- `ureal_policies::parse_inf`: `inf` or `infinity` in any case. -/
def parse_inf (s : Input) : Option Input :=
  match string_parse "inf".toList "INF".toList s with
  | none => none
  | some rest =>
    match string_parse "inity".toList "INITY".toList rest with
    | some rest2 => some rest2
    | none => some rest

/-- The exponent part of `real_impl::parse`, entered at `e_pos` with the
digits read so far and the number of fraction digits: `parse_exp`, then
`parse_exp_n` (an `int`); when no exponent value follows the letter, the
exponent is disregarded and the iterator goes back to `e_pos`. -/
def real_exponent (neg : Bool) (digits : Nat) (frac_digits : Nat) (e_pos : Input) : Result Real64 :=
  match e_pos with
  | c :: cs =>
    if c = 'e' ∨ c = 'E' then
      match extract_int 32 cs with
      | some (e, rest) => .ok (.num neg digits (e - frac_digits)) rest
      | none => .ok (.num neg digits (- (frac_digits : Int))) e_pos
    else .ok (.num neg digits (- (frac_digits : Int))) e_pos
  | [] => .ok (.num neg digits (- (frac_digits : Int))) e_pos

/-- The part of `real_impl::parse` after the integer part: `first` is the
iterator, `n` the digits of the integer part (none when `got_a_number` is
false).  `expect_dot` is true; `allow_trailing_dot` is true. -/
def real_tail (save : Input) (neg : Bool) (n : List Char) (first : Input) : Result Real64 :=
  match first with
  | '.' :: s3 =>
    if s3.takeWhile isdigit = [] ∧ n = [] then .fail save
    else real_exponent neg (decimal (n ++ s3.takeWhile isdigit)) (s3.takeWhile isdigit).length
      (s3.dropWhile isdigit)
  | c :: cs =>
    if n = [] then .fail save
    else if c = 'e' ∨ c = 'E' then real_exponent neg (decimal n) 0 (c :: cs)
    else .fail save
  | [] => .fail save

/-- `real_impl<double, strict_real_policies<double>>::parse` on the iterator
`save` (after the pre-skip); `allow_leading_dot` is true as inherited from
`ureal_policies`. -/
def real_impl (save : Input) : Result Real64 :=
  if save = [] then .fail save
  else if ((extract_sign save).2).takeWhile isdigit = [] then
    match parse_nan (extract_sign save).2 with
    | (true, rest) => .ok (.nan (extract_sign save).1) rest
    | (false, first) =>
      match parse_inf first with
      | some rest => .ok (.inf (extract_sign save).1) rest
      | none => real_tail save (extract_sign save).1 [] first
  else real_tail save (extract_sign save).1 (((extract_sign save).2).takeWhile isdigit)
    (((extract_sign save).2).dropWhile isdigit)

/-- The parser `real_parser<double, strict_real_policies<double>>()`. -/
def strict_real (s : Input) : Result Real64 := real_impl (skip_over s)

/-! ## The rules of the grammar (sql_parser.h, lines 141-211) -/

/-- Rule `identifier`: `lexeme[alpha > *(alnum | char_('_'))]`. -/
def identifier (s : Input) : Result (List Char) :=
  match skip_over s with
  | c :: cs =>
    if isalpha c then .ok (c :: cs.takeWhile isidchar) (cs.dropWhile isidchar)
    else .fail (c :: cs)
  | [] => .fail []

/-- Rule `bool_literal`: `bool_` with the action setting type and value. -/
def bool_literal (s : Input) : Result Literal :=
  match bool_ s with
  | .ok b rest => .ok ⟨.kTypeBool, .bool b⟩ rest
  | .fail pos => .fail pos
  | .error w p => .error w p
  | .fuel => .fuel

/-- Rule `number_literal`: the strict real parser, else `long_`. -/
def number_literal (s : Input) : Result Literal :=
  match strict_real s with
  | .ok x rest => .ok ⟨.kTypeDouble, .double x⟩ rest
  | .fail pos =>
    (match long_ pos with
     | .ok n rest => .ok ⟨.kTypeLong, .long n⟩ rest
     | .fail pos2 => .fail pos2
     | .error w p => .error w p
     | .fuel => .fuel)
  | .error w p => .error w p
  | .fuel => .fuel

/-- `what()` of the closing `char_(_a)` of `string_literal`, a lazy parser. -/
def quote_what (q : Char) : info := .nested "lazy" (lit_what q)

/-- Rule `string_literal`: inside `lexeme`, a quote character kept in `_a`,
then every `ascii::char_` that is not `_a`, appended by `StringLiteral`, then
`_a` again, expected. -/
def string_literal (s : Input) : Result Literal :=
  match skip_over s with
  | q :: cs =>
    if q = Char.ofNat 34 ∨ q = Char.ofNat 39 then
      match cs.dropWhile (fun c => ischar c && c != q) with
      | c :: rest =>
        if c = q then .ok ⟨.kTypeString, .string (cs.takeWhile (fun c => ischar c && c != q))⟩ rest
        else .error (quote_what q) (c :: rest)
      | [] => .error (quote_what q) []
    else .fail (q :: cs)
  | [] => .fail []

/-- Rule `literal`: `string_literal | bool_literal | number_literal`. -/
def literal (s : Input) : Result Literal :=
  match string_literal s with
  | .fail pos =>
    (match bool_literal pos with
     | .fail pos2 => number_literal pos2
     | r => r)
  | r => r

/-- Rule `table`: an `identifier`. -/
def table (s : Input) : Result (List Char) := identifier s

/-- The repetition of `identifier % ','`: as long as `,` and an identifier
follow; the iterator goes back before a `,` that no identifier follows. -/
def fields_rep : Nat → Input → Result (List (List Char))
  | 0, _ => .fuel
  | n + 1, s =>
    match lit ',' s with
    | .ok _ r1 =>
      (match identifier r1 with
       | .ok id r2 =>
         (match fields_rep n r2 with
          | .ok ids r3 => .ok (id :: ids) r3
          | r => r)
       | _ => .ok [] s)
    | _ => .ok [] s

/-- Rule `fields`: `identifier % ','`. -/
def fields (n : Nat) (s : Input) : Result (List (List Char)) :=
  match identifier s with
  | .ok id r1 =>
    (match fields_rep n r1 with
     | .ok ids r2 => .ok (id :: ids) r2
     | r => r)
  | _ => .fail s

/-- Rule `compare`: `identifier > compare_op > literal`. -/
def compare (s : Input) : Result Compare :=
  match identifier s with
  | .ok id r1 =>
    (match compare_op r1 with
     | .ok op r2 =>
       (match literal r2 with
        | .ok v r3 => .ok ⟨id, op, v⟩ r3
        | .fail pos => .error rule_what pos
        | .error w p => .error w p
        | .fuel => .fuel)
     | .fail pos => .error (.tag "symbols") pos
     | .error w p => .error w p
     | .fuel => .fuel)
  | _ => .fail s

/-- The node built by the actions of the repetitions in `condition` and
`condition_high`: `_a.left = _val`, `_a.op = op`, `_a.right = _1`. -/
def Condition.node (val : Condition) (op : OpType) (x : Condition) : Condition :=
  ⟨val.toNode, op, x.toNode⟩

/-- The node built by the action of `compare` in `condition_atom`: the left
member of a value-initialised `Condition` is set. -/
def Condition.leaf (c : Compare) : Condition := { Condition.init with left := .compare c }

mutual
/-- Rule `condition`: `condition_high > *(no_case["or"] > condition_high)`. -/
def condition : Nat → Input → Result Condition
  | 0, _ => .fuel
  | n + 1, s =>
    match condition_high n s with
    | .ok v rest => condition_rep n v rest
    | .fail _ => .fail s
    | r => r
/-- The repetition `*(no_case["or"] > condition_high[...])` of `condition`. -/
def condition_rep : Nat → Condition → Input → Result Condition
  | 0, _, _ => .fuel
  | n + 1, val, s =>
    match no_case "or" s with
    | .ok _ r1 =>
      (match condition_high n r1 with
       | .ok v r2 => condition_rep n (Condition.node val .kOpTypeOR v) r2
       | .fail pos => .error rule_what pos
       | r => r)
    | _ => .ok val s
/-- Rule `condition_high`: `condition_atom > *(no_case["and"] > condition_atom)`. -/
def condition_high : Nat → Input → Result Condition
  | 0, _ => .fuel
  | n + 1, s =>
    match condition_atom n s with
    | .ok v rest => condition_high_rep n v rest
    | .fail _ => .fail s
    | r => r
/-- The repetition `*(no_case["and"] > condition_atom[...])` of `condition_high`. -/
def condition_high_rep : Nat → Condition → Input → Result Condition
  | 0, _, _ => .fuel
  | n + 1, val, s =>
    match no_case "and" s with
    | .ok _ r1 =>
      (match condition_atom n r1 with
       | .ok v r2 => condition_high_rep n (Condition.node val .kOpTypeAND v) r2
       | .fail pos => .error rule_what pos
       | r => r)
    | _ => .ok val s
/-- Rule `condition_atom`: `compare | ('(' > condition > ')')`. -/
def condition_atom : Nat → Input → Result Condition
  | 0, _ => .fuel
  | n + 1, s =>
    match compare s with
    | .ok c rest => .ok (Condition.leaf c) rest
    | .fail _ =>
      (match lit '(' s with
       | .ok _ r1 =>
         (match condition n r1 with
          | .ok v r2 =>
            (match lit ')' r2 with
             | .ok _ r3 => .ok v r3
             | .fail pos => .error (lit_what ')') pos
             | .error w p => .error w p
             | .fuel => .fuel)
          | .fail pos => .error rule_what pos
          | r => r)
       | _ => .fail s)
    | .error w p => .error w p
    | .fuel => .fuel
end

/-- The optional group `-(no_case["where"] > condition)` of `select`: the
action of `where` sets `has_condition`, the action of `condition` stores the
tree; without `where` the attribute and the iterator are unchanged. -/
def where_opt (n : Nat) (val : SelectSQL) (s : Input) : Result SelectSQL :=
  match no_case "where" s with
  | .ok _ r5 =>
    (match condition n r5 with
     | .ok c r6 => .ok { val with has_condition := true, condition := c } r6
     | .fail pos => .error rule_what pos
     | .error w p => .error w p
     | .fuel => .fuel)
  | _ => .ok val s

/-- Rule `select` without its error handler:
`no_case["select"] > fields > no_case["from"] > table > -(no_case["where"] > condition)`,
the actions writing the members of the attribute `val`. -/
def select_body (n : Nat) (val : SelectSQL) (s : Input) : Result SelectSQL :=
  match no_case "select" s with
  | .ok _ r1 =>
    (match fields n r1 with
     | .ok fs r2 =>
       (match no_case "from" r2 with
        | .ok _ r3 =>
          (match table r3 with
           | .ok t r4 => where_opt n { val with fields := fs, table := t } r4
           | .fail pos => .error rule_what pos
           | .error w p => .error w p
           | .fuel => .fuel)
        | .fail pos => .error (no_case_what "from") pos
        | .error w p => .error w p
        | .fuel => .fuel)
     | .fail pos => .error rule_what pos
     | .error w p => .error w p
     | .fuel => .fuel)
  | _ => .fail s

/-- What `phrase_parse(begin, end, sql_parser, space, select_sql)` leaves.
* `succ sql begin`: it returned true; the attribute and the iterator;
* `failure diag`: it returned false; `diag` is what the `on_error` handler of
  `select` printed, if it ran: the expected construct and the text from the
  error position to the end;
* `fuel`: the recursion bound of the model was reached. -/
inductive Parsed where
  | succ (sql : SelectSQL) (begin : Input)
  | failure (diag : Option (info × Input))
  | fuel
  deriving DecidableEq, Repr, Inhabited

/-- Rule `select` under `on_error<fail>`, called by `phrase_parse`, which
skips the white space after a match. -/
def phrase_parse (n : Nat) (s : Input) (select_sql : SelectSQL) : Parsed :=
  match select_body n select_sql s with
  | .ok v rest => .succ v (skip_over rest)
  | .fail _ => .failure none
  | .error w p => .failure (some (w, p))
  | .fuel => .fuel

/-- The loop body of `main` in test.cc for one line `sql`: the statement that
is printed after `phrase_parse succ.`, or `none` when `[FAIL]` is printed.
The bound `3 * length + 3` is never reached (`phrase_parse_total`). -/
def parse_line (sql : Input) : Option SelectSQL :=
  match phrase_parse (3 * sql.length + 3) sql SelectSQL.init with
  | .succ v [] => some v
  | _ => none

/-! ## Vocabulary of the statements -/

/-- The input ends, or goes on with a character outside `p`. -/
def stops (p : Char → Bool) : Input → Bool
  | [] => true
  | c :: _ => !p c

/-- The text is `[A-Za-z][A-Za-z0-9_]*`. -/
def is_identifier : List Char → Bool
  | [] => false
  | c :: cs => isalpha c && cs.all isidchar

/-- The text is a non-empty run of decimal digits. -/
def is_digits (ds : List Char) : Bool := !ds.isEmpty && ds.all isdigit

/-- The spelling of a sign: none, `+` or `-`. -/
def sign_text : Option Bool → List Char
  | none => []
  | some false => ['+']
  | some true => ['-']

/-- The integer denoted by a sign and a run of digits. -/
def signed_value (sign : Option Bool) (ds : List Char) : Int :=
  if sign = some true then - (decimal ds : Int) else (decimal ds : Int)

/-- A character that can continue a number after its digits: a digit, the
decimal point or an exponent letter. -/
def isnumchar (c : Char) : Bool := isdigit c || decide (c = '.') || decide (c = 'e') || decide (c = 'E')

/-- A digit or an exponent letter. -/
def isexpchar (c : Char) : Bool := isdigit c || decide (c = 'e') || decide (c = 'E')

/-- The input ends, or goes on with a blank or a closing parenthesis. -/
def boundary : Input → Bool
  | [] => true
  | c :: _ => decide (c = ' ') || decide (c = ')')

/-- The input ends or goes on with a closing parenthesis. -/
def closes : Input → Bool
  | [] => true
  | c :: _ => decide (c = ')')

/-- `A` is the text of a comparison: the rule `compare` reads it as `a` and
stops after it, whenever the input ends there or goes on with a blank or a
closing parenthesis. -/
def is_comparison (A : Input) (a : Compare) : Prop :=
  ∀ rest, boundary rest = true → compare (A ++ rest) = .ok a rest

/-- A comparison of the form identifier, comparison operator, integer
literal: the column, an entry of the symbol table, a sign and digits. -/
structure IntComparison where
  col : Input
  op : List Char × CompareOpType
  sign : Option Bool
  digits : List Char

/-- The column is an identifier, the operator is in the symbol table, the
digits are digits and the value fits a signed 64-bit integer. -/
def IntComparison.valid (x : IntComparison) : Bool :=
  is_identifier x.col && decide (x.op ∈ compare_op_table) && is_digits x.digits
    && decide (-(2 : Int) ^ 63 ≤ signed_value x.sign x.digits)
    && decide (signed_value x.sign x.digits < (2 : Int) ^ 63)

/-- The text `col op sign digits`, without blanks. -/
def IntComparison.text (x : IntComparison) : Input :=
  x.col ++ x.op.1 ++ sign_text x.sign ++ x.digits

/-- The `Compare` that the text stands for. -/
def IntComparison.value (x : IntComparison) : Compare :=
  ⟨x.col, x.op.2, ⟨.kTypeLong, .long (signed_value x.sign x.digits)⟩⟩

/-- The text ` and A1 and A2 ...` after a first operand. -/
def and_tail : List (Input × Compare) → Input
  | [] => []
  | p :: ps => " and ".toList ++ p.1 ++ and_tail ps

/-- The text `A1 and A2 and ... and An` of a chain of comparisons. -/
def and_text (row : (Input × Compare) × List (Input × Compare)) : Input :=
  row.1.1 ++ and_tail row.2

/-- The tree `AND(...AND(AND(a1, a2), a3)..., an)`: the accumulated tree is the
left child of each new node; for one operand, its leaf. -/
def and_tree (row : (Input × Compare) × List (Input × Compare)) : Condition :=
  row.2.foldl (fun acc p => Condition.node acc .kOpTypeAND (Condition.leaf p.2))
    (Condition.leaf row.1.2)

/-- The text ` or H1 or H2 ...` after a first operand, each `H` a chain of `and`. -/
def or_tail : List ((Input × Compare) × List (Input × Compare)) → Input
  | [] => []
  | r :: rs => " or ".toList ++ and_text r ++ or_tail rs

/-- The text `H1 or H2 or ... or Hm`. -/
def or_text (h : (Input × Compare) × List (Input × Compare))
    (hs : List ((Input × Compare) × List (Input × Compare))) : Input :=
  and_text h ++ or_tail hs

/-- The tree `OR(...OR(OR(h1, h2), h3)..., hm)` over the trees of the chains. -/
def or_tree (h : (Input × Compare) × List (Input × Compare))
    (hs : List ((Input × Compare) × List (Input × Compare))) : Condition :=
  hs.foldl (fun acc r => Condition.node acc .kOpTypeOR (and_tree r)) (and_tree h)

/-- The text `, f2, ..., fn` after a first field. -/
def fields_tail : List Input → Input
  | [] => []
  | f :: fs => ", ".toList ++ f ++ fields_tail fs

/-- The text `select f1, f2, ..., fn from t`. -/
def select_text (f : Input) (fs : List Input) (t : Input) : Input :=
  "select ".toList ++ f ++ fields_tail fs ++ " from ".toList ++ t

/-- A recursion bound that suffices for the chains `rs`: the number of
comparisons plus the number of chains. -/
def or_size (rs : List ((Input × Compare) × List (Input × Compare))) : Nat :=
  (rs.map (fun r => r.2.length + 2)).sum

/-- The text after the table name of a statement, where the optional `where`
is looked for: the iterator after `select`, the fields, `from` and the table. -/
def after_table (n : Nat) (s : Input) : Option Input :=
  match no_case "select" s with
  | .ok _ r1 =>
    (match fields n r1 with
     | .ok _ r2 =>
       (match no_case "from" r2 with
        | .ok _ r3 =>
          (match table r3 with
           | .ok _ r4 => some r4
           | _ => none)
        | _ => none)
     | _ => none)
  | _ => none

/-- The text `k` spells the keyword `kw` in some letter case: letter by
letter, the lower-case or the upper-case form. -/
def spells : List Char → Input → Bool
  | [], [] => true
  | l :: lo, c :: cs => (decide (c = l.toLower) || decide (c = l.toUpper)) && spells lo cs
  | _, _ => false

/-- The source form of a condition: a comparison (its text and the `Compare`
it stands for), a condition in parentheses, or two operands around a keyword
in some spelling. -/
inductive Src where
  | cmp (A : Input) (a : Compare)
  | paren (e : Src)
  | bin (l : Src) (kw : Input) (op : OpType) (r : Src)

/-- The text of a source form: one blank on either side of a keyword, none
inside parentheses. -/
def Src.text : Src → Input
  | .cmp A _ => A
  | .paren e => '(' :: (e.text ++ [')'])
  | .bin l kw _ r => l.text ++ ' ' :: (kw ++ ' ' :: r.text)

/-- The tree a source form stands for; parentheses add no node. -/
def Src.tree : Src → Condition
  | .cmp _ a => Condition.leaf a
  | .paren e => e.tree
  | .bin l _ op r => Condition.node l.tree op r.tree

/-- The level of a source form: 0 for an atom, 1 for a chain of `and`, 2 for a
chain of `or`. -/
def Src.prec : Src → Nat
  | .cmp _ _ => 0
  | .paren _ => 0
  | .bin _ _ .kOpTypeAND _ => 1
  | .bin _ _ _ _ => 2

/-- A source form of the grammar: comparisons are texts of comparisons, `and`
joins a chain of `and` (or an atom) with an atom, `or` joins anything with a
chain of `and` (or an atom), each keyword in some letter case. -/
def Src.valid : Src → Prop
  | .cmp A a => is_comparison A a
  | .paren e => e.valid
  | .bin l kw op r => l.valid ∧ r.valid ∧
      ((op = .kOpTypeAND ∧ spells "and".toList kw = true ∧ l.prec ≤ 1 ∧ r.prec = 0)
        ∨ (op = .kOpTypeOR ∧ spells "or".toList kw = true ∧ r.prec ≤ 1))

/-- From some recursion bound on, the outcome is `R`. -/
def eventually {α : Type} (f : Nat → Result α) (R : Result α) : Prop :=
  ∃ N, ∀ n, N ≤ n → f n = R

/-- The text `select f1, ..., fn from t` with the two keywords in the
spellings `kS` and `kF`. -/
def statement_text (kS kF : Input) (f : Input) (fs : List Input) (t : Input) : Input :=
  kS ++ ' ' :: (f ++ (fields_tail fs ++ ' ' :: (kF ++ ' ' :: t)))

/-- The text ` where e` with the keyword in the spelling `kW`. -/
def where_text (kW : Input) (e : Src) : Input := ' ' :: (kW ++ ' ' :: e.text)

/-- The same source form with every keyword in lower case. -/
def Src.lower : Src → Src
  | .cmp A a => .cmp A a
  | .paren e => .paren e.lower
  | .bin l kw op r =>
    .bin l.lower
      (match op with
       | .kOpTypeAND => "and".toList
       | .kOpTypeOR => "or".toList
       | .kOpTypeNONE => kw)
      op r.lower

/-- What is read before an operand at one level of nesting: optionally a
condition and a keyword `or`, then optionally a chain of `and` and a keyword
`and`, each keyword in some spelling. -/
structure Frame where
  orp : Option (Src × Input)
  andp : Option (Src × Input)

/-- The text of an operand and a keyword after it, a blank on either side of
the keyword. -/
def keyword_pre : Option (Src × Input) → Input
  | some (h, kw) => h.text ++ ' ' :: (kw ++ [' '])
  | none => []

/-- The text of what is read before the operand. -/
def Frame.pre (fr : Frame) : Input := keyword_pre fr.orp ++ keyword_pre fr.andp

/-- A source form of the grammar and the keyword `or` in some spelling. -/
def or_pre_valid : Option (Src × Input) → Prop
  | some (h, kw) => h.valid ∧ spells "or".toList kw = true
  | none => True

/-- A chain of `and` of the grammar and the keyword `and` in some spelling. -/
def and_pre_valid : Option (Src × Input) → Prop
  | some (g, kw) => g.valid ∧ g.prec ≤ 1 ∧ spells "and".toList kw = true
  | none => True

/-- Both parts are source forms of the grammar and the keywords are spelled
`or` and `and`. -/
def Frame.valid (fr : Frame) : Prop := or_pre_valid fr.orp ∧ and_pre_valid fr.andp

/-- The operand `Z` inside the opened parentheses of the levels `frs`, the
outermost first: `( pre1 ( pre2 ... Z`. -/
def hole_atom : List Frame → Input → Input
  | [], Z => Z
  | fr :: frs, Z => '(' :: (fr.pre ++ hole_atom frs Z)

/-- Where the closing quote is missed: the end of the input, or the first
character outside the 7-bit range. -/
def unterminated_at (q : Char) (cs : Input) : Input :=
  cs.dropWhile (fun c => ischar c && c != q)

/-- A line whose condition, after the operands and keywords of `fr` and inside
the parentheses opened by `frs`, comes to the comparison `col op` and a text
literal opened by `q` that goes on with `cs` to the end of the input. -/
def unterminated_line (f : Input) (fs : List Input) (t : Input) (fr : Frame)
    (frs : List Frame) (col : Input) (e : List Char × CompareOpType) (q : Char) (cs : Input) :
    Input :=
  select_text f fs t ++ " where ".toList ++ fr.pre ++ hole_atom frs (col ++ e.1 ++ q :: cs)

/-- A `double` that the real parser can return: the decimal exponent of a
finite value is an `int` less a number of fraction digits. -/
def Real64.parsed : Real64 → Bool
  | .num _ _ e => decide (e < (2 : Int) ^ 31)
  | _ => true

/-- A `Literal` that the rule `literal` can return: the tag names the
alternative held by the variant, a `long` is in the 64-bit range, a text is
7-bit and lacks the double quote or lacks the single quote. -/
def Literal.parsed : Literal → Bool
  | ⟨.kTypeBool, .bool _⟩ => true
  | ⟨.kTypeLong, .long n⟩ => decide (-(2 : Int) ^ 63 ≤ n) && decide (n < (2 : Int) ^ 63)
  | ⟨.kTypeDouble, .double x⟩ => x.parsed
  | ⟨.kTypeString, .string s⟩ =>
    s.all ischar && (s.all (fun c => c != Char.ofNat 34) || s.all (fun c => c != Char.ofNat 39))
  | _ => false

/-- A `Compare` that the rule `compare` can return: the column is an
identifier, the operator is one of the six and the literal is a parsed one.
The value-initialised `Compare` is not of this kind. -/
def Compare.parsed (c : Compare) : Bool :=
  is_identifier c.left && decide (c.op ≠ .none) && c.right.parsed

/-- A well-formed node of a condition tree: a leaf, with `op` NONE, a parsed
`Compare` on the left and the value-initialised variant on the right, or a
node with `op` AND or OR whose two members both hold a well-formed
`Condition`. -/
def NodeType.well_formed : NodeType → Bool
  | .compare _ => false
  | .condition l op r =>
    match op with
    | .kOpTypeNONE =>
      (match l with
       | .compare c => c.parsed
       | .condition _ _ _ => false) && decide (r = .compare Compare.init)
    | _ => l.well_formed && r.well_formed

/-- A `Condition` all of whose nodes are well formed. -/
def Condition.well_formed (c : Condition) : Bool := c.toNode.well_formed

/-- The input ends, or goes on with white space or a closing parenthesis. -/
def ends : Input → Bool
  | [] => true
  | c :: _ => isspace c || decide (c = ')')

/-- After its white space the input ends or goes on with a closing parenthesis. -/
def closing (T : Input) : Bool := closes (skip_over T)

/-- The text `C` inside parentheses, one pair for each entry of the list, the
outermost first; an entry gives the white space after `(` and before `)`. -/
def wrapped : List (Input × Input) → Input → Input
  | [], C => C
  | l :: ls, C => '(' :: (l.1 ++ (wrapped ls C ++ (l.2 ++ [')'])))

/-- A call of a rule of the condition grammar: the rule, the recursion bound of
the model, the tree accumulated so far for a repetition, and the input. -/
inductive Call where
  | condition (n : Nat) (s : Input)
  | condition_rep (n : Nat) (val : Condition) (s : Input)
  | condition_high (n : Nat) (s : Input)
  | condition_high_rep (n : Nat) (val : Condition) (s : Input)
  | condition_atom (n : Nat) (s : Input)
  | compare (s : Input)
  | literal (s : Input)

/-- The call throws the expectation failure `what` at `pos`. -/
def Call.throws (a : Call) (what : info) (pos : Input) : Prop :=
  match a with
  | .condition n s => SqlParser.condition n s = .error what pos
  | .condition_rep n val s => SqlParser.condition_rep n val s = .error what pos
  | .condition_high n s => SqlParser.condition_high n s = .error what pos
  | .condition_high_rep n val s => SqlParser.condition_high_rep n val s = .error what pos
  | .condition_atom n s => SqlParser.condition_atom n s = .error what pos
  | .compare s => SqlParser.compare s = .error what pos
  | .literal s => SqlParser.literal s = .error what pos

/-- The relation `calls a b`: while it runs, the call `a` comes to the call
`b`.  Each constructor is one place of the rules where a rule applies another
one, with what was matched before that place. -/
inductive calls : Call → Call → Prop
  | here (a : Call) : calls a a
  | condition_first (n : Nat) (s : Input) (b : Call) :
      calls (.condition_high n s) b → calls (.condition (n + 1) s) b
  | condition_more (n : Nat) (s r : Input) (v : Condition) (b : Call) :
      SqlParser.condition_high n s = .ok v r → calls (.condition_rep n v r) b →
      calls (.condition (n + 1) s) b
  | rep_operand (n : Nat) (val : Condition) (s r1 : Input) (b : Call) :
      no_case "or" s = .ok () r1 → calls (.condition_high n r1) b →
      calls (.condition_rep (n + 1) val s) b
  | rep_more (n : Nat) (val v : Condition) (s r1 r2 : Input) (b : Call) :
      no_case "or" s = .ok () r1 → SqlParser.condition_high n r1 = .ok v r2 →
      calls (.condition_rep n (Condition.node val .kOpTypeOR v) r2) b →
      calls (.condition_rep (n + 1) val s) b
  | high_first (n : Nat) (s : Input) (b : Call) :
      calls (.condition_atom n s) b → calls (.condition_high (n + 1) s) b
  | high_more (n : Nat) (s r : Input) (v : Condition) (b : Call) :
      SqlParser.condition_atom n s = .ok v r → calls (.condition_high_rep n v r) b →
      calls (.condition_high (n + 1) s) b
  | high_rep_operand (n : Nat) (val : Condition) (s r1 : Input) (b : Call) :
      no_case "and" s = .ok () r1 → calls (.condition_atom n r1) b →
      calls (.condition_high_rep (n + 1) val s) b
  | high_rep_more (n : Nat) (val v : Condition) (s r1 r2 : Input) (b : Call) :
      no_case "and" s = .ok () r1 → SqlParser.condition_atom n r1 = .ok v r2 →
      calls (.condition_high_rep n (Condition.node val .kOpTypeAND v) r2) b →
      calls (.condition_high_rep (n + 1) val s) b
  | atom_compare (n : Nat) (s : Input) (b : Call) :
      calls (.compare s) b → calls (.condition_atom (n + 1) s) b
  | atom_group (n : Nat) (s p r1 : Input) (b : Call) :
      SqlParser.compare s = .fail p → lit '(' s = .ok () r1 → calls (.condition n r1) b →
      calls (.condition_atom (n + 1) s) b
  | compare_literal (s r1 r2 : Input) (id : List Char) (op : CompareOpType) (b : Call) :
      identifier s = .ok id r1 → compare_op r1 = .ok op r2 → calls (.literal r2) b →
      calls (.compare s) b

/-- The recursion bound of the call suffices for its input: the rule comes to
a result before the bound is reached (`condition_no_fuel`). -/
def Call.bounded : Call → Prop
  | .condition n s => 3 * s.length + 3 ≤ n
  | .condition_rep n _ s => 3 * s.length + 1 ≤ n
  | .condition_high n s => 3 * s.length + 2 ≤ n
  | .condition_high_rep n _ s => 3 * s.length + 1 ≤ n
  | .condition_atom n s => 3 * s.length + 1 ≤ n
  | .compare _ => True
  | .literal _ => True

/-- The letters of the keywords `select`, `from`, `where`, `and`, `or`. -/
def keyword_letters : List Char := "selctfromwhand".toList

/-- The two characters are equal, or the two cases of a keyword letter. -/
def same_letter (c d : Char) : Bool :=
  decide (c = d) || keyword_letters.any (fun l =>
    (decide (c = l) && decide (d = l.toUpper)) || (decide (c = l.toUpper) && decide (d = l)))

/-- The two texts are equal up to the case of keyword letters. -/
def same_letters : Input → Input → Bool
  | [], [] => true
  | c :: cs, d :: ds => same_letter c d && same_letters cs ds
  | _, _ => false

/-- A piece of a statement: a keyword of the grammar in the spelling `k`, or
other text. -/
inductive Piece where
  | keyword (kw : String) (k : Input)
  | text (t : Input)

/-- The characters of a piece. -/
def Piece.chars : Piece → Input
  | .keyword _ k => k
  | .text t => t

/-- The text of a list of pieces. -/
def pieces_text : List Piece → Input
  | [] => []
  | p :: ps => p.chars ++ pieces_text ps

/-- The keywords among the pieces, in order. -/
def pieces_keywords : List Piece → List String
  | [] => []
  | .keyword kw _ :: ps => kw :: pieces_keywords ps
  | .text _ :: ps => pieces_keywords ps

/-- The keywords of the grammar. -/
def keywords : List String := ["select", "from", "where", "and", "or"]

/-- Every keyword piece is a keyword of the grammar, spelled in some letter case. -/
def pieces_spelled : List Piece → Prop
  | [] => True
  | .keyword kw k :: ps => kw ∈ keywords ∧ spells kw.toList k = true ∧ pieces_spelled ps
  | .text _ :: ps => pieces_spelled ps

/-- The second list of pieces is the first one with its keywords spelled again:
the same text pieces, the same keywords, each in some letter case. -/
def respelled : List Piece → List Piece → Prop
  | [], [] => True
  | .keyword kw _ :: ps, .keyword kw2 k2 :: qs =>
    kw = kw2 ∧ spells kw.toList k2 = true ∧ respelled ps qs
  | .text t :: ps, .text t2 :: qs => t = t2 ∧ respelled ps qs
  | _, _ => False

/-- The rule `P` reads `X` up to `R` as `v`, and what it reads is robust: it
splits into pieces with the keywords `ks`, and `P` reads every respelling of
the pieces, followed by any text equal to `R` up to the case of keyword
letters, as `v` up to that text. -/
def robust (P : Input → Result Condition) (X R : Input) (v : Condition) (ks : List String) :
    Prop :=
  ∃ G, X = pieces_text G ++ R ∧ pieces_spelled G ∧ pieces_keywords G = ks
    ∧ ∀ G2 T, respelled G G2 → same_letters R T = true → P (pieces_text G2 ++ T) = .ok v T

/-- The keywords of a condition tree in the order of the source: those of the
left operand, `and` or `or`, those of the right operand. -/
def NodeType.keywords : NodeType → List String
  | .compare _ => []
  | .condition l op r =>
    l.keywords ++ (match op with
      | .kOpTypeNONE => []
      | .kOpTypeAND => ["and"]
      | .kOpTypeOR => ["or"]) ++ r.keywords

/-- The keywords of a statement in the order of the source. -/
def SelectSQL.keywords (v : SelectSQL) : List String :=
  "select" :: "from" :: (if v.has_condition then "where" :: v.condition.toNode.keywords else [])

/-- The literal as the program holds it.  A `double` is the binary64 number
that the library converts the decimal read to; a conversion is given by the
function `rnd`, which sends the decimal read to the decimal that stands for
its `double`: the one that the canonical printer prints for that `double`.
The other alternatives of the variant are held as read. -/
def Literal.rounded (rnd : Real64 → Real64) (l : Literal) : Literal :=
  match l.value with
  | .double x => ⟨l.type, .double (rnd x)⟩
  | _ => l

/-- The comparison as the program holds it, for the conversion `rnd`. -/
def Compare.rounded (rnd : Real64 → Real64) (c : Compare) : Compare :=
  ⟨c.left, c.op, c.right.rounded rnd⟩

/-- The node as the program holds it, for the conversion `rnd`. -/
def NodeType.rounded (rnd : Real64 → Real64) : NodeType → NodeType
  | .compare c => .compare (c.rounded rnd)
  | .condition l op r => .condition (l.rounded rnd) op (r.rounded rnd)

/-- The condition as the program holds it, for the conversion `rnd`. -/
def Condition.rounded (rnd : Real64 → Real64) (c : Condition) : Condition :=
  ⟨c.left.rounded rnd, c.op, c.right.rounded rnd⟩

/-- The statement as the program holds it, for the conversion `rnd`. -/
def SelectSQL.rounded (rnd : Real64 → Real64) (v : SelectSQL) : SelectSQL :=
  ⟨v.fields, v.table, v.has_condition, v.condition.rounded rnd⟩

theorem takeWhile_append_stops (p : Char → Bool) (l rest : Input)
    (hl : ∀ x ∈ l, p x = true) (hr : stops p rest = true) :
    (l ++ rest).takeWhile p = l := by
  induction l with
  | nil =>
    cases rest with
    | nil => rfl
    | cons c r => simp [stops] at hr; simp [List.takeWhile, hr]
  | cons a l ih =>
    have ha : p a = true := hl a (List.mem_cons_self a l)
    simp [List.takeWhile, ha]
    exact ih (fun x hx => hl x (List.mem_cons_of_mem a hx))

theorem dropWhile_append_stops (p : Char → Bool) (l rest : Input)
    (hl : ∀ x ∈ l, p x = true) (hr : stops p rest = true) :
    (l ++ rest).dropWhile p = rest := by
  induction l with
  | nil =>
    cases rest with
    | nil => rfl
    | cons c r => simp [stops] at hr; simp [List.dropWhile, hr]
  | cons a l ih =>
    have ha : p a = true := hl a (List.mem_cons_self a l)
    simp [List.dropWhile, ha]
    exact ih (fun x hx => hl x (List.mem_cons_of_mem a hx))

theorem skip_over_cons_of_not_space (c : Char) (s : Input) (h : isspace c = false) :
    skip_over (c :: s) = c :: s := by
  simp [skip_over, List.dropWhile, h]

theorem skip_over_cons_of_space (c : Char) (s : Input) (h : isspace c = true) :
    skip_over (c :: s) = skip_over s := by
  simp [skip_over, List.dropWhile, h]

theorem skip_over_idem (s : Input) : skip_over (skip_over s) = skip_over s := by
  induction s with
  | nil => rfl
  | cons c s ih =>
    by_cases h : isspace c = true
    · rw [skip_over_cons_of_space c s h]; exact ih
    · simp at h; rw [skip_over_cons_of_not_space c s h, skip_over_cons_of_not_space c s h]

/-- After the skipper the input is empty or starts with a non-space. -/
theorem skip_over_head (s : Input) : stops isspace (skip_over s) = true := by
  induction s with
  | nil => rfl
  | cons c s ih =>
    by_cases h : isspace c = true
    · rw [skip_over_cons_of_space c s h]; exact ih
    · simp at h; rw [skip_over_cons_of_not_space c s h]; simp [stops, h]

/-! ## Comparison operators -/

/-- C4: the comparison rule on `a <op> 1` yields, for each of the six
spellings, the operator of that spelling with column `a` and Integer 1; a
two-character spelling is never split: whatever follows, `>=`, `<=` and `!=`
yield GE, LE and NE and consume both characters. -/
theorem compare_op_longest_match :
    compare "a < 1".toList = .ok ⟨['a'], .kTypeLT, ⟨.kTypeLong, .long 1⟩⟩ []
    ∧ compare "a > 1".toList = .ok ⟨['a'], .kTypeGT, ⟨.kTypeLong, .long 1⟩⟩ []
    ∧ compare "a <= 1".toList = .ok ⟨['a'], .kTypeLE, ⟨.kTypeLong, .long 1⟩⟩ []
    ∧ compare "a >= 1".toList = .ok ⟨['a'], .kTypeGE, ⟨.kTypeLong, .long 1⟩⟩ []
    ∧ compare "a = 1".toList = .ok ⟨['a'], .kTypeEQ, ⟨.kTypeLong, .long 1⟩⟩ []
    ∧ compare "a != 1".toList = .ok ⟨['a'], .kTypeNE, ⟨.kTypeLong, .long 1⟩⟩ []
    ∧ (∀ rest : Input, compare_op ('>' :: '=' :: rest) = .ok .kTypeGE rest)
    ∧ (∀ rest : Input, compare_op ('<' :: '=' :: rest) = .ok .kTypeLE rest)
    ∧ (∀ rest : Input, compare_op ('!' :: '=' :: rest) = .ok .kTypeNE rest) := by
  refine ⟨by decide, by decide, by decide, by decide, by decide, by decide, ?_, ?_, ?_⟩
    <;> intro rest <;> rfl

/-! ## Literals -/

theorem string_literal_quoted (q : Char) (s rest : Input)
    (hq : q = Char.ofNat 34 ∨ q = Char.ofNat 39)
    (hs : ∀ c ∈ s, ischar c = true ∧ c ≠ q) :
    string_literal (q :: (s ++ q :: rest)) = .ok ⟨.kTypeString, .string s⟩ rest := by
  have hsp : isspace q = false := by rcases hq with h | h <;> subst h <;> decide
  have hl : ∀ x ∈ s, (fun c => ischar c && c != q) x = true := by
    intro x hx
    have := hs x hx
    simp [this.1, this.2]
  have hr : stops (fun c => ischar c && c != q) (q :: rest) = true := by simp [stops]
  unfold string_literal
  rw [skip_over_cons_of_not_space q _ hsp]
  simp only [hq, if_true]
  rw [dropWhile_append_stops _ s (q :: rest) hl hr, takeWhile_append_stops _ s (q :: rest) hl hr]
  simp

/-- C9: for a quote character `q` (the double or the single quote) and every
ASCII string `s` without `q`, the literal rule on `q s q` followed by
anything consumes exactly `q s q` and yields the Text `s`, unchanged and
without the quotes. -/
theorem literal_text_verbatim (q : Char) (s rest : Input)
    (hq : q = Char.ofNat 34 ∨ q = Char.ofNat 39)
    (hs : ∀ c ∈ s, ischar c = true ∧ c ≠ q) :
    literal (q :: (s ++ q :: rest)) = .ok ⟨.kTypeString, .string s⟩ rest := by
  unfold literal
  rw [string_literal_quoted q s rest hq hs]

theorem literal_text_verbatim_witness :
    literal "'say \"hi\", a\\b' and".toList
      = .ok ⟨.kTypeString, .string "say \"hi\", a\\b".toList⟩ " and".toList :=
  literal_text_verbatim (Char.ofNat 39) "say \"hi\", a\\b".toList " and".toList
    (Or.inr rfl) (by decide)

theorem string_parse_exact (k s rest : Input) :
    string_parse k k s = some rest ↔ s = k ++ rest := by
  induction k generalizing s with
  | nil => simp [string_parse, eq_comm]
  | cons a k ih =>
    cases s with
    | nil => simp [string_parse]
    | cons c cs =>
      by_cases h : c = a
      · subst h; simp [string_parse, ih]
      · have h2 : ¬ a = c := fun e => h e.symm
        simp [string_parse, h, h2]

theorem string_literal_fail_pos (s pos : Input) (h : string_literal s = .fail pos) :
    pos = skip_over s ∧ stops (fun c => decide (c = Char.ofNat 34 ∨ c = Char.ofNat 39)) pos = true := by
  unfold string_literal at h
  split at h
  · rename_i q cs hsk
    split at h
    · split at h
      · split at h <;> simp at h
      · simp at h
    · rename_i hq
      simp at h
      subst h
      refine ⟨hsk.symm, ?_⟩
      simpa [stops] using hq
  · rename_i hsk
    simp at h
    subst h
    exact ⟨hsk.symm, rfl⟩

theorem string_literal_ok_type (s rest : Input) (l : Literal) (h : string_literal s = .ok l rest) :
    l.type = .kTypeString := by
  unfold string_literal at h
  split at h
  · split at h
    · split at h
      · split at h
        · simp at h; rw [← h.1]
        · simp at h
      · simp at h
    · simp at h
  · simp at h

theorem number_literal_ok_type (s rest : Input) (l : Literal) (h : number_literal s = .ok l rest) :
    l.type = .kTypeDouble ∨ l.type = .kTypeLong := by
  unfold number_literal at h
  split at h
  · simp at h; left; rw [← h.1]
  · split at h
    · simp at h; right; rw [← h.1]
    all_goals simp at h
  all_goals simp at h

theorem bool_ok_iff (s rest : Input) (b : Bool) :
    bool_ s = .ok b rest ↔
      (skip_over s = "true".toList ++ rest ∧ b = true) ∨
      (skip_over s = "false".toList ++ rest ∧ b = false) := by
  unfold bool_
  constructor
  · intro h
    split at h
    · rename_i r hr
      simp at h
      left
      rw [← h.2]
      exact ⟨(string_parse_exact _ _ _).1 hr, h.1⟩
    · split at h
      · rename_i r hr
        simp at h
        right
        rw [← h.2]
        exact ⟨(string_parse_exact _ _ _).1 hr, h.1⟩
      · simp at h
  · rintro (⟨h, rfl⟩ | ⟨h, rfl⟩)
    · rw [(string_parse_exact _ _ _).2 h]
    · have h1 : string_parse "true".toList "true".toList (skip_over s) = none := by
        rw [h]; rfl
      rw [h1, (string_parse_exact _ _ _).2 h]

/-- C10 as the code has it: the literal rule yields a Bool exactly when the
text at the cursor, white space skipped, starts with the lower-case spelling
`true` or `false`; the value is the one spelled and the rest starts right
after the word, whatever character follows. -/
theorem literal_bool_iff (s rest : Input) (v : Value) :
    literal s = .ok ⟨.kTypeBool, v⟩ rest ↔
      (skip_over s = "true".toList ++ rest ∧ v = .bool true) ∨
      (skip_over s = "false".toList ++ rest ∧ v = .bool false) := by
  constructor
  · intro h
    unfold literal at h
    split at h
    · rename_i pos hpos
      have hp := (string_literal_fail_pos s pos hpos).1
      split at h
      · rename_i pos2 hpos2
        have := number_literal_ok_type _ _ _ h
        simp at this
      · rename_i r hr
        unfold bool_literal at h
        split at h
        · rename_i b rest2 hb
          simp at h
          rw [hp, h.2] at hb
          have := (bool_ok_iff _ _ _).1 hb
          rw [skip_over_idem] at this
          rcases this with ⟨h1, h2⟩ | ⟨h1, h2⟩
          · left; exact ⟨h1, by rw [← h.1, h2]⟩
          · right; exact ⟨h1, by rw [← h.1, h2]⟩
        all_goals simp at h
    · have := string_literal_ok_type _ _ _ h
      simp at this
  · intro h
    have hsk : ∃ c r, skip_over s = c :: r ∧ (c = 't' ∨ c = 'f') := by
      rcases h with ⟨h1, _⟩ | ⟨h1, _⟩
      · exact ⟨'t', _, h1, Or.inl rfl⟩
      · exact ⟨'f', _, h1, Or.inr rfl⟩
    obtain ⟨c, r, hcr, hc⟩ := hsk
    have hstr : string_literal s = .fail (skip_over s) := by
      unfold string_literal
      rw [hcr]
      rcases hc with rfl | rfl <;> simp
    have hb : ∀ b, v = .bool b → bool_ (skip_over s) = .ok b rest →
        literal s = .ok ⟨.kTypeBool, v⟩ rest := by
      intro b hv hb
      unfold literal
      rw [hstr]
      simp only [bool_literal, hb, hv]
    rcases h with ⟨h1, h2⟩ | ⟨h1, h2⟩
    · exact hb true h2 ((bool_ok_iff _ _ _).2 (Or.inl ⟨by rw [skip_over_idem]; exact h1, rfl⟩))
    · exact hb false h2 ((bool_ok_iff _ _ _).2 (Or.inr ⟨by rw [skip_over_idem]; exact h1, rfl⟩))

/-- C10 fails as stated: `TRUE` is not a literal at all, and `truex` yields
the Bool `true` with `x` left over. -/
theorem literal_bool_counterexample :
    literal "TRUE".toList = .fail "TRUE".toList
    ∧ literal "False".toList = .fail "False".toList
    ∧ literal "truex".toList = .ok ⟨.kTypeBool, .bool true⟩ ['x'] := by
  decide

/-! ## Numeric literals -/

theorem is_digits_cons (ds : List Char) (h : is_digits ds = true) :
    ∃ d t, ds = d :: t ∧ isdigit d = true ∧ ∀ x ∈ d :: t, isdigit x = true := by
  cases ds with
  | nil => simp [is_digits] at h
  | cons d t =>
    simp [is_digits] at h
    exact ⟨d, t, rfl, h.1, by simpa using h⟩

theorem extract_sign_digit (d : Char) (t : Input) (hd : isdigit d = true) :
    extract_sign (d :: t) = (false, d :: t) := by
  have h1 : d ≠ '-' := by rintro rfl; exact absurd hd (by decide)
  have h2 : d ≠ '+' := by rintro rfl; exact absurd hd (by decide)
  simp [extract_sign, h1, h2]

theorem extract_sign_text (sign : Option Bool) (d : Char) (t : Input) (hd : isdigit d = true) :
    extract_sign (sign_text sign ++ d :: t) = (decide (sign = some true), d :: t) := by
  rcases sign with _ | _ | _
  · simpa [sign_text] using extract_sign_digit d t hd
  · rfl
  · rfl

/-- A text that starts like a number is neither a text nor a Bool literal. -/
theorem literal_numeric_start (c : Char) (t : Input)
    (hc : c = '+' ∨ c = '-' ∨ c = '.' ∨ isdigit c = true) :
    literal (c :: t) = number_literal (c :: t) := by
  have hsp : isspace c = false := by
    rcases hc with rfl | rfl | rfl | h
    · decide
    · decide
    · decide
    · simp only [isdigit, Bool.and_eq_true, decide_eq_true_eq] at h
      simp only [isspace, Bool.or_eq_false_iff, Bool.and_eq_false_iff, decide_eq_false_iff_not]
      omega
  have hq : ¬ (c = Char.ofNat 34 ∨ c = Char.ofNat 39) := by
    rintro (rfl | rfl) <;> rcases hc with h | h | h | h <;> revert h <;> decide
  have ht : c ≠ 't' ∧ c ≠ 'f' := by
    constructor <;> rintro rfl <;> rcases hc with h | h | h | h <;> revert h <;> decide
  have h1 : string_literal (c :: t) = .fail (c :: t) := by
    unfold string_literal
    rw [skip_over_cons_of_not_space c t hsp]
    simp [hq]
  have h2 : bool_literal (c :: t) = .fail (c :: t) := by
    unfold bool_literal bool_
    rw [skip_over_cons_of_not_space c t hsp]
    simp [string_parse, ht.1, ht.2]
  unfold literal
  rw [h1]
  simp only [h2]

theorem sign_text_cons (sign : Option Bool) (d : Char) (t : Input) (hd : isdigit d = true) :
    ∃ c u, sign_text sign ++ d :: t = c :: u ∧ (c = '+' ∨ c = '-' ∨ c = '.' ∨ isdigit c = true) := by
  rcases sign with _ | _ | _
  · exact ⟨d, t, rfl, Or.inr (Or.inr (Or.inr hd))⟩
  · exact ⟨'+', d :: t, rfl, Or.inl rfl⟩
  · exact ⟨'-', d :: t, rfl, Or.inr (Or.inl rfl)⟩

theorem skip_over_numeric_start (c : Char) (t : Input)
    (hc : c = '+' ∨ c = '-' ∨ c = '.' ∨ isdigit c = true) : skip_over (c :: t) = c :: t := by
  apply skip_over_cons_of_not_space
  rcases hc with rfl | rfl | rfl | h
  · decide
  · decide
  · decide
  · simp only [isdigit, Bool.and_eq_true, decide_eq_true_eq] at h
    simp only [isspace, Bool.or_eq_false_iff, Bool.and_eq_false_iff, decide_eq_false_iff_not]
    omega

theorem stops_isnumchar (rest : Input) (h : stops isnumchar rest = true) :
    stops isdigit rest = true ∧
      (rest = [] ∨ ∃ c r, rest = c :: r ∧ c ≠ '.' ∧ c ≠ 'e' ∧ c ≠ 'E') := by
  cases rest with
  | nil => exact ⟨rfl, Or.inl rfl⟩
  | cons c r =>
    simp [stops, isnumchar] at h
    exact ⟨by simp [stops, h.1.1.1], Or.inr ⟨c, r, rfl, h.1.1.2, h.1.2, h.2⟩⟩

theorem stops_isexpchar (rest : Input) (h : stops isexpchar rest = true) :
    stops isdigit rest = true ∧ (rest = [] ∨ ∃ c r, rest = c :: r ∧ c ≠ 'e' ∧ c ≠ 'E') := by
  cases rest with
  | nil => exact ⟨rfl, Or.inl rfl⟩
  | cons c r =>
    simp [stops, isexpchar] at h
    exact ⟨by simp [stops, h.1.1], Or.inr ⟨c, r, rfl, h.1.2, h.2⟩⟩

/-- The strict real parser does not match a signed run of digits that no
decimal point and no exponent letter follows. -/
theorem real_impl_digits (sign : Option Bool) (ds rest : Input)
    (hds : is_digits ds = true) (hrest : stops isnumchar rest = true) :
    real_impl (sign_text sign ++ ds ++ rest) = .fail (sign_text sign ++ ds ++ rest) := by
  obtain ⟨d, t, rfl, hd, hall⟩ := is_digits_cons ds hds
  obtain ⟨hstop, hr⟩ := stops_isnumchar rest hrest
  have hne : sign_text sign ++ (d :: t) ++ rest ≠ [] := by
    rcases sign with _ | _ | _ <;> simp [sign_text]
  have hsign : extract_sign (sign_text sign ++ (d :: t) ++ rest)
      = (decide (sign = some true), (d :: t) ++ rest) := by
    have := extract_sign_text sign d (t ++ rest) hd
    simpa using this
  have htake : ((d :: t) ++ rest).takeWhile isdigit = d :: t :=
    takeWhile_append_stops isdigit (d :: t) rest hall hstop
  have hdrop : ((d :: t) ++ rest).dropWhile isdigit = rest :=
    dropWhile_append_stops isdigit (d :: t) rest hall hstop
  unfold real_impl
  rw [if_neg hne, hsign]
  simp only [htake, hdrop]
  rw [if_neg (by simp)]
  rcases hr with rfl | ⟨c, r, rfl, h1, h2, h3⟩
  · simp [real_tail]
  · unfold real_tail
    split
    · rename_i heq; simp at heq; exact absurd heq.1 h1
    · rename_i heq; simp at heq; obtain ⟨rfl, rfl⟩ := heq; simp [h2, h3]
    · rename_i heq; simp at heq

theorem long_digits (sign : Option Bool) (ds rest : Input)
    (hds : is_digits ds = true) (hrest : stops isdigit rest = true)
    (hlo : -(2 : Int) ^ 63 ≤ signed_value sign ds) (hhi : signed_value sign ds < (2 : Int) ^ 63) :
    long_ (sign_text sign ++ ds ++ rest) = .ok (signed_value sign ds) rest := by
  obtain ⟨d, t, rfl, hd, hall⟩ := is_digits_cons ds hds
  obtain ⟨c, u, hcu, hc⟩ := sign_text_cons sign d (t ++ rest) hd
  have hsk : skip_over (sign_text sign ++ (d :: t) ++ rest) = sign_text sign ++ (d :: t) ++ rest := by
    have := skip_over_numeric_start c u hc
    rw [← hcu] at this
    simpa using this
  have hsign : extract_sign (sign_text sign ++ (d :: t) ++ rest)
      = (decide (sign = some true), (d :: t) ++ rest) := by
    have := extract_sign_text sign d (t ++ rest) hd
    simpa using this
  have htake : ((d :: t) ++ rest).takeWhile isdigit = d :: t :=
    takeWhile_append_stops isdigit (d :: t) rest hall hrest
  have hdrop : ((d :: t) ++ rest).dropWhile isdigit = rest :=
    dropWhile_append_stops isdigit (d :: t) rest hall hrest
  unfold long_ extract_int
  rw [hsk, hsign]
  simp only [htake, hdrop]
  by_cases hs : sign = some true
  · subst hs
    simp [signed_value] at hlo
    simp [signed_value, hlo]
  · simp [signed_value, hs] at hhi
    simp [signed_value, hs, hhi]

theorem literal_integer (sign : Option Bool) (ds rest : Input)
    (hds : is_digits ds = true) (hrest : stops isnumchar rest = true)
    (hlo : -(2 : Int) ^ 63 ≤ signed_value sign ds) (hhi : signed_value sign ds < (2 : Int) ^ 63) :
    literal (sign_text sign ++ ds ++ rest)
      = .ok ⟨.kTypeLong, .long (signed_value sign ds)⟩ rest := by
  have hreal := real_impl_digits sign ds rest hds hrest
  have hlong := long_digits sign ds rest hds (stops_isnumchar rest hrest).1 hlo hhi
  obtain ⟨d, t, rfl, hd, _⟩ := is_digits_cons ds hds
  obtain ⟨c, u, hcu, hc⟩ := sign_text_cons sign d (t ++ rest) hd
  have hx : sign_text sign ++ (d :: t) ++ rest = c :: u := by simpa using hcu
  rw [hx] at hreal hlong ⊢
  rw [literal_numeric_start c u hc]
  unfold number_literal strict_real
  rw [skip_over_numeric_start c u hc, hreal]
  simp only [hlong]

theorem literal_real (sign : Option Bool) (ds1 ds2 rest : Input)
    (h1 : is_digits ds1 = true) (h2 : is_digits ds2 = true)
    (hrest : stops isexpchar rest = true) :
    literal (sign_text sign ++ ds1 ++ '.' :: ds2 ++ rest)
      = .ok ⟨.kTypeDouble, .double (.num (decide (sign = some true)) (decimal (ds1 ++ ds2))
          (- (ds2.length : Int)))⟩ rest := by
  obtain ⟨d, t, rfl, hd, hall⟩ := is_digits_cons ds1 h1
  obtain ⟨d2, t2, rfl, hd2, hall2⟩ := is_digits_cons ds2 h2
  obtain ⟨hstop, hr⟩ := stops_isexpchar rest hrest
  obtain ⟨c, u, hcu, hc⟩ := sign_text_cons sign d (t ++ '.' :: (d2 :: t2) ++ rest) hd
  have hx : sign_text sign ++ (d :: t) ++ '.' :: (d2 :: t2) ++ rest = c :: u := by
    simpa using hcu
  have hsign : extract_sign (c :: u)
      = (decide (sign = some true), (d :: t) ++ ('.' :: ((d2 :: t2) ++ rest))) := by
    rw [← hcu]
    have := extract_sign_text sign d (t ++ '.' :: (d2 :: t2) ++ rest) hd
    simpa using this
  have hdot : stops isdigit ('.' :: ((d2 :: t2) ++ rest)) = true := rfl
  have htake := takeWhile_append_stops isdigit (d :: t) _ hall hdot
  have hdrop := dropWhile_append_stops isdigit (d :: t) _ hall hdot
  have htake2 := takeWhile_append_stops isdigit (d2 :: t2) rest hall2 hstop
  have hdrop2 := dropWhile_append_stops isdigit (d2 :: t2) rest hall2 hstop
  have hexp : ∀ n k, real_exponent (decide (sign = some true)) n k rest
      = .ok (.num (decide (sign = some true)) n (- (k : Int))) rest := by
    intro n k
    rcases hr with rfl | ⟨e, r, rfl, he1, he2⟩
    · rfl
    · simp [real_exponent, he1, he2]
  rw [hx, literal_numeric_start c u hc]
  unfold number_literal strict_real
  rw [skip_over_numeric_start c u hc]
  unfold real_impl
  rw [if_neg (by simp), hsign]
  simp only [htake, hdrop]
  rw [if_neg (by simp)]
  unfold real_tail
  simp only [htake2, hdrop2]
  rw [if_neg (by simp), hexp]

/-- C8: numeric literals are tagged by their form.  An optionally signed run
of decimal digits whose value fits a signed 64-bit integer, not followed by a
digit, a decimal point or an exponent letter, yields Integer with that
value; digits, a decimal point and digits, not followed by a digit or an
exponent letter, yield Float with the decimal value read.  In particular
`a=1` gives Integer 1 and `a=1.0` gives Float 1.0. -/
theorem literal_numeric_tag :
    (∀ (sign : Option Bool) (ds rest : Input),
      is_digits ds = true → stops isnumchar rest = true →
      -(2 : Int) ^ 63 ≤ signed_value sign ds → signed_value sign ds < (2 : Int) ^ 63 →
      literal (sign_text sign ++ ds ++ rest)
        = .ok ⟨.kTypeLong, .long (signed_value sign ds)⟩ rest)
    ∧ (∀ (sign : Option Bool) (ds1 ds2 rest : Input),
      is_digits ds1 = true → is_digits ds2 = true → stops isexpchar rest = true →
      literal (sign_text sign ++ ds1 ++ '.' :: ds2 ++ rest)
        = .ok ⟨.kTypeDouble, .double (.num (decide (sign = some true)) (decimal (ds1 ++ ds2))
            (- (ds2.length : Int)))⟩ rest)
    ∧ compare "a=1".toList = .ok ⟨['a'], .kTypeEQ, ⟨.kTypeLong, .long 1⟩⟩ []
    ∧ compare "a=1.0".toList
        = .ok ⟨['a'], .kTypeEQ, ⟨.kTypeDouble, .double (.num false 10 (-1))⟩⟩ []
    ∧ Real64.toRat (.num false 10 (-1)) = some 1 := by
  refine ⟨literal_integer, literal_real, by decide, by decide, ?_⟩
  norm_num [Real64.toRat]

theorem literal_numeric_tag_witness :
    literal "-9223372036854775808 ".toList
        = .ok ⟨.kTypeLong, .long (-9223372036854775808)⟩ [' ']
    ∧ literal "+12.50)".toList
        = .ok ⟨.kTypeDouble, .double (.num false 1250 (-2))⟩ [')'] :=
  ⟨literal_numeric_tag.1 (some true) "9223372036854775808".toList [' ']
      (by decide) (by decide) (by decide) (by decide),
   literal_numeric_tag.2.1 (some false) "12".toList "50".toList [')']
      (by decide) (by decide) (by decide)⟩

/-! ## Identifiers and comparisons -/

theorem isalpha_not_space (c : Char) (h : isalpha c = true) : isspace c = false := by
  simp only [isalpha, Bool.or_eq_true, Bool.and_eq_true, decide_eq_true_eq] at h
  simp only [isspace, Bool.or_eq_false_iff, Bool.and_eq_false_iff, decide_eq_false_iff_not]
  omega

theorem is_identifier_cons (f : Input) (h : is_identifier f = true) :
    ∃ c t, f = c :: t ∧ isalpha c = true ∧ ∀ x ∈ t, isidchar x = true := by
  cases f with
  | nil => simp [is_identifier] at h
  | cons c t =>
    simp [is_identifier] at h
    exact ⟨c, t, rfl, h.1, h.2⟩

/-- The rule `identifier` reads an identifier that no identifier character follows. -/
theorem identifier_text (f rest : Input) (hf : is_identifier f = true)
    (hr : stops isidchar rest = true) : identifier (f ++ rest) = .ok f rest := by
  obtain ⟨c, t, rfl, hc, ht⟩ := is_identifier_cons f hf
  unfold identifier
  rw [List.cons_append, skip_over_cons_of_not_space c _ (isalpha_not_space c hc)]
  simp only [hc, if_true]
  rw [takeWhile_append_stops isidchar t rest ht hr, dropWhile_append_stops isidchar t rest ht hr]

theorem identifier_space (s : Input) : identifier (' ' :: s) = identifier s := rfl

theorem compare_space (s r : Input) (a : Compare) (h : compare s = .ok a r) :
    compare (' ' :: s) = .ok a r := by
  unfold compare at h ⊢
  rw [identifier_space]
  split at h
  · exact h
  · simp at h

/-- The symbol table finds each of its spellings when no `=` follows. -/
theorem compare_op_text (e : List Char × CompareOpType) (rest : Input)
    (he : e ∈ compare_op_table) (hr : stops (fun c => decide (c = '=')) rest = true) :
    compare_op (e.1 ++ rest) = .ok e.2 rest := by
  have h : rest = [] ∨ ∃ c r, rest = c :: r ∧ c ≠ '=' := by
    cases rest with
    | nil => exact Or.inl rfl
    | cons c r => exact Or.inr ⟨c, r, rfl, by simpa [stops] using hr⟩
  simp only [compare_op_table, List.mem_cons, List.mem_singleton, List.not_mem_nil, or_false] at he
  rcases he with rfl | rfl | rfl | rfl | rfl | rfl <;>
    rcases h with rfl | ⟨c, r, rfl, hc⟩ <;>
    first
      | rfl
      | (have hc2 : ¬ '=' = c := fun e => hc e.symm
         simp [compare_op, skip_over, isspace, tst_find, compare_op_table, starts_with, hc, hc2])

theorem op_char_stops (e : List Char × CompareOpType) (rest : Input)
    (he : e ∈ compare_op_table) : stops isidchar (e.1 ++ rest) = true := by
  simp only [compare_op_table, List.mem_cons, List.mem_singleton, List.not_mem_nil, or_false] at he
  rcases he with rfl | rfl | rfl | rfl | rfl | rfl <;> rfl

theorem boundary_stops_isnumchar (rest : Input) (h : boundary rest = true) :
    stops isnumchar rest = true := by
  cases rest with
  | nil => rfl
  | cons c r =>
    simp [boundary] at h
    rcases h with rfl | rfl <;> rfl

theorem boundary_stops_isidchar (rest : Input) (h : boundary rest = true) :
    stops isidchar rest = true := by
  cases rest with
  | nil => rfl
  | cons c r =>
    simp [boundary] at h
    rcases h with rfl | rfl <;> rfl

/-- An identifier, a spelling of the symbol table and a signed run of digits
in the 64-bit range form the text of a comparison. -/
theorem int_comparison_is_comparison (x : IntComparison) (hx : x.valid = true) :
    is_comparison x.text x.value := by
  obtain ⟨col, e, sign, ds⟩ := x
  simp only [IntComparison.valid, Bool.and_eq_true, decide_eq_true_eq] at hx
  obtain ⟨⟨⟨⟨hcol, he⟩, hds⟩, hlo⟩, hhi⟩ := hx
  intro rest hrest
  have hid : identifier (col ++ (e.1 ++ (sign_text sign ++ ds ++ rest)))
      = .ok col (e.1 ++ (sign_text sign ++ ds ++ rest)) :=
    identifier_text col _ hcol (op_char_stops e _ he)
  have hop : compare_op (e.1 ++ (sign_text sign ++ ds ++ rest))
      = .ok e.2 (sign_text sign ++ ds ++ rest) := by
    apply compare_op_text e _ he
    obtain ⟨d, t, rfl, hd, _⟩ := is_digits_cons ds hds
    obtain ⟨c, u, hcu, hc⟩ := sign_text_cons sign d (t ++ rest) hd
    have hx : sign_text sign ++ (d :: t) ++ rest = c :: u := by simpa using hcu
    rw [hx]
    have : c ≠ '=' := by
      rintro rfl
      rcases hc with h | h | h | h <;> revert h <;> decide
    simp [stops, this]
  have hlit := literal_integer sign ds rest hds (boundary_stops_isnumchar rest hrest) hlo hhi
  have hx : IntComparison.text ⟨col, e, sign, ds⟩ ++ rest
      = col ++ (e.1 ++ (sign_text sign ++ ds ++ rest)) := by
    simp [IntComparison.text, List.append_assoc]
  rw [hx]
  unfold compare
  rw [hid]
  simp only [hop, hlit, IntComparison.value]

/-- A comparison text does not start with `(`, so `compare` is the
alternative of `condition_atom` that reads it. -/
theorem condition_atom_comparison (n : Nat) (A rest : Input) (a : Compare)
    (hA : is_comparison A a) (hrest : boundary rest = true) :
    condition_atom (n + 1) (A ++ rest) = .ok (Condition.leaf a) rest := by
  unfold condition_atom
  rw [hA rest hrest]

theorem condition_atom_space_comparison (n : Nat) (A rest : Input) (a : Compare)
    (hA : is_comparison A a) (hrest : boundary rest = true) :
    condition_atom (n + 1) (' ' :: (A ++ rest)) = .ok (Condition.leaf a) rest := by
  unfold condition_atom
  rw [compare_space _ _ _ (hA rest hrest)]

/-- An identifier, a spelling of the symbol table and the text of a literal
(one that does not start with `=`) form the text of a comparison. -/
theorem comparison_of_literal (col : Input) (e : List Char × CompareOpType) (L : Input)
    (l : Literal) (hcol : is_identifier col = true) (he : e ∈ compare_op_table)
    (hstart : ∃ c t, L = c :: t ∧ c ≠ '=')
    (hL : ∀ rest, boundary rest = true → literal (L ++ rest) = .ok l rest) :
    is_comparison (col ++ e.1 ++ L) ⟨col, e.2, l⟩ := by
  intro rest hrest
  have hid : identifier (col ++ (e.1 ++ (L ++ rest))) = .ok col (e.1 ++ (L ++ rest)) :=
    identifier_text col _ hcol (op_char_stops e _ he)
  have hop : compare_op (e.1 ++ (L ++ rest)) = .ok e.2 (L ++ rest) := by
    apply compare_op_text e _ he
    obtain ⟨c, t, rfl, hc⟩ := hstart
    simp [stops, hc]
  have hx : col ++ e.1 ++ L ++ rest = col ++ (e.1 ++ (L ++ rest)) := by
    simp [List.append_assoc]
  rw [hx]
  unfold compare
  rw [hid]
  simp only [hop, hL rest hrest]

/-- A comparison with a quoted text. -/
theorem text_comparison_is_comparison (col : Input) (e : List Char × CompareOpType) (q : Char)
    (s : Input) (hcol : is_identifier col = true) (he : e ∈ compare_op_table)
    (hq : q = Char.ofNat 34 ∨ q = Char.ofNat 39) (hs : ∀ c ∈ s, ischar c = true ∧ c ≠ q) :
    is_comparison (col ++ e.1 ++ (q :: (s ++ [q]))) ⟨col, e.2, ⟨.kTypeString, .string s⟩⟩ := by
  apply comparison_of_literal col e _ _ hcol he
  · refine ⟨q, s ++ [q], rfl, ?_⟩
    rcases hq with rfl | rfl <;> decide
  · intro rest _
    have h := string_literal_quoted q s rest hq hs
    have hx : q :: (s ++ [q]) ++ rest = q :: (s ++ q :: rest) := by simp
    rw [hx]
    unfold literal
    rw [h]

/-- A comparison with `true` or `false`. -/
theorem bool_comparison_is_comparison (col : Input) (e : List Char × CompareOpType) (b : Bool)
    (hcol : is_identifier col = true) (he : e ∈ compare_op_table) :
    is_comparison (col ++ e.1 ++ (if b then "true".toList else "false".toList))
      ⟨col, e.2, ⟨.kTypeBool, .bool b⟩⟩ := by
  apply comparison_of_literal col e _ _ hcol he
  · cases b
    · exact ⟨'f', "alse".toList, rfl, by decide⟩
    · exact ⟨'t', "rue".toList, rfl, by decide⟩
  · intro rest _
    cases b <;> rfl

/-- A comparison with a real number `sign digits . digits`. -/
theorem real_comparison_is_comparison (col : Input) (e : List Char × CompareOpType)
    (sign : Option Bool) (ds1 ds2 : Input)
    (hcol : is_identifier col = true) (he : e ∈ compare_op_table)
    (h1 : is_digits ds1 = true) (h2 : is_digits ds2 = true) :
    is_comparison (col ++ e.1 ++ (sign_text sign ++ ds1 ++ '.' :: ds2))
      ⟨col, e.2, ⟨.kTypeDouble, .double (.num (decide (sign = some true)) (decimal (ds1 ++ ds2))
        (- (ds2.length : Int)))⟩⟩ := by
  apply comparison_of_literal col e _ _ hcol he
  · obtain ⟨d, t, rfl, hd, _⟩ := is_digits_cons ds1 h1
    obtain ⟨c, u, hcu, hc⟩ := sign_text_cons sign d (t ++ '.' :: ds2) hd
    refine ⟨c, u, by simpa using hcu, ?_⟩
    rintro rfl
    rcases hc with h | h | h | h <;> revert h <;> decide
  · intro rest hrest
    have hst : stops isexpchar rest = true := by
      cases rest with
      | nil => rfl
      | cons c r =>
        simp [boundary] at hrest
        rcases hrest with rfl | rfl <;> rfl
    have := literal_real sign ds1 ds2 rest h1 h2 hst
    have hx : sign_text sign ++ ds1 ++ '.' :: ds2 ++ rest
        = sign_text sign ++ ds1 ++ '.' :: (ds2 ++ rest) := by simp
    rw [hx]
    simpa using this

/-! ## Chains of `and` and `or` -/

theorem compare_space_fail (s p : Input) (h : compare s = .fail p) :
    compare (' ' :: s) = .fail (' ' :: s) := by
  unfold compare at h ⊢
  rw [identifier_space]
  cases hid : identifier s with
  | ok id r1 =>
    rw [hid] at h
    simp only at h
    split at h
    · split at h <;> simp at h
    all_goals simp at h
  | fail q => rfl
  | error w q => rfl
  | fuel => rfl

theorem lit_space (ch : Char) (s : Input) : lit ch (' ' :: s) = lit ch s := rfl

theorem condition_atom_space (n : Nat) (s r : Input) (v : Condition)
    (h : condition_atom n s = .ok v r) : condition_atom n (' ' :: s) = .ok v r := by
  cases n with
  | zero => simp [condition_atom] at h
  | succ n =>
    unfold condition_atom at h ⊢
    split at h
    · rename_i c rest hc
      rw [compare_space _ _ _ hc]
      exact h
    · rename_i p hc
      rw [compare_space_fail _ _ hc]
      simp only [lit_space]
      cases hl : lit '(' s with
      | ok u r1 => rw [hl] at h; exact h
      | fail q => rw [hl] at h; simp at h
      | error w q => rw [hl] at h; simp at h
      | fuel => rw [hl] at h; simp at h
    · simp at h
    · simp at h

theorem condition_high_space (n : Nat) (s r : Input) (v : Condition)
    (h : condition_high n s = .ok v r) : condition_high n (' ' :: s) = .ok v r := by
  cases n with
  | zero => simp [condition_high] at h
  | succ n =>
    unfold condition_high at h ⊢
    split at h
    · rename_i w rest hw
      rw [condition_atom_space _ _ _ _ hw]
      exact h
    · simp at h
    · rename_i hne1 hne2
      cases hx : condition_atom n s with
      | ok w rest => exact absurd hx (hne1 w rest)
      | fail p => exact absurd hx (hne2 p)
      | error w p => rw [hx] at h; simp at h
      | fuel => rw [hx] at h; simp at h

theorem and_tail_boundary (ps : List (Input × Compare)) (rest : Input)
    (h : boundary rest = true) : boundary (and_tail ps ++ rest) = true := by
  cases ps with
  | nil => exact h
  | cons p ps => rfl

theorem or_tail_boundary (rs : List ((Input × Compare) × List (Input × Compare))) (rest : Input)
    (h : boundary rest = true) : boundary (or_tail rs ++ rest) = true := by
  cases rs with
  | nil => exact h
  | cons p ps => rfl

theorem closes_boundary (rest : Input) (h : closes rest = true) : boundary rest = true := by
  cases rest with
  | nil => rfl
  | cons c r => simp [closes] at h; subst h; rfl

theorem closes_no_and (rest : Input) (h : closes rest = true) :
    no_case "and" rest = .fail (skip_over rest) := by
  cases rest with
  | nil => rfl
  | cons c r => simp [closes] at h; subst h; rfl

theorem closes_no_or (rest : Input) (h : closes rest = true) :
    no_case "or" rest = .fail (skip_over rest) := by
  cases rest with
  | nil => rfl
  | cons c r => simp [closes] at h; subst h; rfl

theorem or_tail_no_and (rs : List ((Input × Compare) × List (Input × Compare))) (rest : Input)
    (h : closes rest = true) :
    no_case "and" (or_tail rs ++ rest) = .fail (skip_over (or_tail rs ++ rest)) := by
  cases rs with
  | nil => exact closes_no_and rest h
  | cons p ps => rfl

/-- The repetition of `condition_high` folds a chain ` and A1 and A2 ...` to
the left onto the accumulated tree. -/
theorem condition_high_rep_chain (ps : List (Input × Compare)) :
    ∀ (fuel : Nat) (acc : Condition) (rest : Input),
      (∀ p ∈ ps, is_comparison p.1 p.2) → boundary rest = true →
      no_case "and" rest = .fail (skip_over rest) → ps.length + 1 ≤ fuel →
      condition_high_rep fuel acc (and_tail ps ++ rest)
        = .ok (ps.foldl (fun acc p => Condition.node acc .kOpTypeAND (Condition.leaf p.2)) acc)
            rest := by
  induction ps with
  | nil =>
    intro fuel acc rest _ _ hno hf
    obtain ⟨n, rfl⟩ : ∃ n, fuel = n + 1 := ⟨fuel - 1, by simp at hf; omega⟩
    simp only [and_tail, List.nil_append, List.foldl_nil]
    unfold condition_high_rep
    rw [hno]
  | cons p ps ih =>
    intro fuel acc rest hall hb hno hf
    obtain ⟨n, rfl⟩ : ∃ n, fuel = n + 1 + 1 := ⟨fuel - 2, by simp at hf; omega⟩
    have hkw : no_case "and" (and_tail (p :: ps) ++ rest)
        = .ok () (' ' :: (p.1 ++ (and_tail ps ++ rest))) := by
      simp only [and_tail, List.append_assoc]
      rfl
    have hat := condition_atom_space_comparison n p.1 (and_tail ps ++ rest) p.2
      (hall p (List.mem_cons_self p ps)) (and_tail_boundary ps rest hb)
    unfold condition_high_rep
    rw [hkw]
    simp only [hat, List.foldl_cons]
    exact ih (n + 1) _ rest (fun q hq => hall q (List.mem_cons_of_mem p hq)) hb hno
      (by simp at hf ⊢; omega)

/-- The rule `condition_high` reads a chain `A1 and ... and An`. -/
theorem condition_high_chain (row : (Input × Compare) × List (Input × Compare))
    (fuel : Nat) (rest : Input)
    (h1 : is_comparison row.1.1 row.1.2) (hall : ∀ p ∈ row.2, is_comparison p.1 p.2)
    (hb : boundary rest = true) (hno : no_case "and" rest = .fail (skip_over rest))
    (hf : row.2.length + 2 ≤ fuel) :
    condition_high fuel (and_text row ++ rest) = .ok (and_tree row) rest := by
  obtain ⟨n, rfl⟩ : ∃ n, fuel = n + 1 + 1 := ⟨fuel - 2, by omega⟩
  have hat := condition_atom_comparison n row.1.1 (and_tail row.2 ++ rest) row.1.2 h1
    (and_tail_boundary row.2 rest hb)
  unfold condition_high
  simp only [and_text, List.append_assoc, hat]
  exact condition_high_rep_chain row.2 (n + 1) _ rest hall hb hno (by omega)

/-- The repetition of `condition` folds ` or H1 or H2 ...` to the left. -/
theorem condition_rep_chain (rs : List ((Input × Compare) × List (Input × Compare))) :
    ∀ (fuel : Nat) (acc : Condition) (rest : Input),
      (∀ r ∈ rs, is_comparison r.1.1 r.1.2 ∧ ∀ p ∈ r.2, is_comparison p.1 p.2) →
      closes rest = true → or_size rs + 1 ≤ fuel →
      condition_rep fuel acc (or_tail rs ++ rest)
        = .ok (rs.foldl (fun acc r => Condition.node acc .kOpTypeOR (and_tree r)) acc) rest := by
  induction rs with
  | nil =>
    intro fuel acc rest _ hc hf
    obtain ⟨n, rfl⟩ : ∃ n, fuel = n + 1 := ⟨fuel - 1, by simp [or_size] at hf; omega⟩
    simp only [or_tail, List.nil_append, List.foldl_nil]
    unfold condition_rep
    rw [closes_no_or rest hc]
  | cons r rs ih =>
    intro fuel acc rest hall hc hf
    simp only [or_size, List.map_cons, List.sum_cons] at hf
    obtain ⟨n, rfl⟩ : ∃ n, fuel = n + 1 := ⟨fuel - 1, by omega⟩
    have hkw : no_case "or" (or_tail (r :: rs) ++ rest)
        = .ok () (' ' :: (and_text r ++ (or_tail rs ++ rest))) := by
      simp only [or_tail, List.append_assoc]
      rfl
    have hr := hall r (List.mem_cons_self r rs)
    have hhigh := condition_high_space _ _ _ _
      (condition_high_chain r n (or_tail rs ++ rest) hr.1 hr.2
        (or_tail_boundary rs rest (closes_boundary rest hc)) (or_tail_no_and rs rest hc)
        (by omega))
    unfold condition_rep
    rw [hkw]
    simp only [hhigh, List.foldl_cons]
    exact ih n _ rest (fun q hq => hall q (List.mem_cons_of_mem r hq)) hc
      (by simp only [or_size]; omega)

/-- The rule `condition` reads `H1 or ... or Hm`, each `H` a chain of `and`,
up to the end of the input or a closing parenthesis. -/
theorem condition_chain (h : (Input × Compare) × List (Input × Compare))
    (hs : List ((Input × Compare) × List (Input × Compare))) (fuel : Nat) (rest : Input)
    (hall : ∀ r ∈ h :: hs, is_comparison r.1.1 r.1.2 ∧ ∀ p ∈ r.2, is_comparison p.1 p.2)
    (hc : closes rest = true) (hf : or_size (h :: hs) + 1 ≤ fuel) :
    condition fuel (or_text h hs ++ rest) = .ok (or_tree h hs) rest := by
  simp only [or_size, List.map_cons, List.sum_cons] at hf
  obtain ⟨n, rfl⟩ : ∃ n, fuel = n + 1 := ⟨fuel - 1, by omega⟩
  have hh := hall h (List.mem_cons_self h hs)
  have hhigh := condition_high_chain h n (or_tail hs ++ rest) hh.1 hh.2
    (or_tail_boundary hs rest (closes_boundary rest hc)) (or_tail_no_and hs rest hc) (by omega)
  unfold condition
  simp only [or_text, List.append_assoc, hhigh]
  exact condition_rep_chain hs n _ rest (fun q hq => hall q (List.mem_cons_of_mem h hq)) hc
    (by simp only [or_size]; omega)

/-! ## The statement rule -/

theorem condition_space (n : Nat) (s r : Input) (v : Condition)
    (h : condition n s = .ok v r) : condition n (' ' :: s) = .ok v r := by
  cases n with
  | zero => simp [condition] at h
  | succ n =>
    unfold condition at h ⊢
    cases hx : condition_high n s with
    | ok w rest =>
      rw [hx] at h
      rw [condition_high_space _ _ _ _ hx]
      exact h
    | fail p => rw [hx] at h; simp at h
    | error w p => rw [hx] at h; simp at h
    | fuel => rw [hx] at h; simp at h

theorem fields_tail_stops (fs : List Input) (rest : Input) (h : stops isidchar rest = true) :
    stops isidchar (fields_tail fs ++ rest) = true := by
  cases fs with
  | nil => exact h
  | cons f fs => rfl

theorem fields_tail_length (fs : List Input) : fs.length ≤ (fields_tail fs).length := by
  induction fs with
  | nil => simp
  | cons f fs ih => simp [fields_tail]; omega

/-- The repetition of `fields` reads `, f2, ..., fn` in source order. -/
theorem fields_rep_text (fs : List Input) :
    ∀ (fuel : Nat) (rest : Input), (∀ f ∈ fs, is_identifier f = true) →
      stops isidchar rest = true → lit ',' rest = .fail (skip_over rest) →
      fs.length + 1 ≤ fuel →
      fields_rep fuel (fields_tail fs ++ rest) = .ok fs rest := by
  induction fs with
  | nil =>
    intro fuel rest _ _ hno hf
    obtain ⟨n, rfl⟩ : ∃ n, fuel = n + 1 := ⟨fuel - 1, by simp at hf; omega⟩
    simp only [fields_tail, List.nil_append]
    unfold fields_rep
    rw [hno]
  | cons f fs ih =>
    intro fuel rest hall hst hno hf
    obtain ⟨n, rfl⟩ : ∃ n, fuel = n + 1 := ⟨fuel - 1, by simp at hf; omega⟩
    have hcomma : lit ',' (fields_tail (f :: fs) ++ rest)
        = .ok () (' ' :: (f ++ (fields_tail fs ++ rest))) := by
      simp only [fields_tail, List.append_assoc]
      rfl
    have hid : identifier (' ' :: (f ++ (fields_tail fs ++ rest)))
        = .ok f (fields_tail fs ++ rest) := by
      rw [identifier_space]
      exact identifier_text f _ (hall f (List.mem_cons_self f fs)) (fields_tail_stops fs rest hst)
    unfold fields_rep
    rw [hcomma]
    simp only [hid]
    rw [ih n rest (fun g hg => hall g (List.mem_cons_of_mem f hg)) hst hno (by simp at hf; omega)]

/-- The statement rule on `select f1, ..., fn from t` and what follows: the
fields and the table are stored and the optional `where` group goes on. -/
theorem select_body_text (fuel : Nat) (val : SelectSQL) (f : Input) (fs : List Input)
    (t Y : Input) (hf : is_identifier f = true) (hfs : ∀ g ∈ fs, is_identifier g = true)
    (ht : is_identifier t = true) (hY : stops isidchar Y = true)
    (hfuel : fs.length + 1 ≤ fuel) :
    select_body fuel val (select_text f fs t ++ Y)
      = where_opt fuel { val with fields := f :: fs, table := t } Y := by
  have hsel : no_case "select" (select_text f fs t ++ Y)
      = .ok () (' ' :: (f ++ (fields_tail fs ++ (" from ".toList ++ (t ++ Y))))) := by
    simp only [select_text, List.append_assoc]
    rfl
  have hid : identifier (' ' :: (f ++ (fields_tail fs ++ (" from ".toList ++ (t ++ Y)))))
      = .ok f (fields_tail fs ++ (" from ".toList ++ (t ++ Y))) := by
    rw [identifier_space]
    exact identifier_text f _ hf (fields_tail_stops fs _ rfl)
  have hrep : fields_rep fuel (fields_tail fs ++ (" from ".toList ++ (t ++ Y)))
      = .ok fs (" from ".toList ++ (t ++ Y)) :=
    fields_rep_text fs fuel _ hfs rfl rfl hfuel
  have hfrom : no_case "from" (" from ".toList ++ (t ++ Y)) = .ok () (' ' :: (t ++ Y)) := rfl
  have htab : table (' ' :: (t ++ Y)) = .ok t Y := by
    unfold table
    rw [identifier_space]
    exact identifier_text t Y ht hY
  unfold select_body
  rw [hsel]
  simp only [fields, hid, hrep, hfrom, htab]

theorem where_opt_condition (n : Nat) (val : SelectSQL) (W rest : Input) (c : Condition)
    (h : condition n W = .ok c rest) :
    where_opt n val (" where".toList ++ W)
      = .ok { val with has_condition := true, condition := c } rest := by
  have hkw : no_case "where" (" where".toList ++ W) = .ok () W := rfl
  unfold where_opt
  rw [hkw]
  simp only [h]

theorem select_text_length (f : Input) (fs : List Input) (t : Input) :
    fs.length + 1 ≤ (select_text f fs t).length := by
  have := fields_tail_length fs
  simp [select_text]
  omega

/-- A line `select f1, ..., fn from t where W` is accepted with the tree of
`W` when the rule `condition` reads `W` to the end within the bound `N`. -/
theorem parse_line_where (f : Input) (fs : List Input) (t W : Input) (c : Condition) (N : Nat)
    (hf : is_identifier f = true) (hfs : ∀ g ∈ fs, is_identifier g = true)
    (ht : is_identifier t = true)
    (hcond : ∀ fuel, N ≤ fuel → condition fuel W = .ok c [])
    (hN : N ≤ 3 * W.length + 3) :
    parse_line (select_text f fs t ++ " where".toList ++ W) = some ⟨f :: fs, t, true, c⟩ := by
  have hlen := select_text_length f fs t
  have e : select_text f fs t ++ " where".toList ++ W
      = select_text f fs t ++ (" where".toList ++ W) := List.append_assoc _ _ _
  rw [e]
  have hbody := select_body_text (3 * (select_text f fs t ++ (" where".toList ++ W)).length + 3)
    SelectSQL.init f fs t (" where".toList ++ W) hf hfs ht rfl
    (by simp only [List.length_append]; omega)
  have hw := where_opt_condition (3 * (select_text f fs t ++ (" where".toList ++ W)).length + 3)
    ⟨f :: fs, t, false, Condition.init⟩ W [] c
    (hcond _ (by simp only [List.length_append]; omega))
  unfold parse_line phrase_parse
  rw [hbody]
  change (match (match where_opt _ ⟨f :: fs, t, false, Condition.init⟩ _ with
    | Result.ok v rest => Parsed.succ v (skip_over rest)
    | Result.fail pos => Parsed.failure none
    | Result.error w p => Parsed.failure (some (w, p))
    | Result.fuel => Parsed.fuel) with
    | Parsed.succ v [] => some v
    | x => none) = _
  rw [hw]
  rfl

/-- A line `select f1, ..., fn from t` is accepted without a condition. -/
theorem parse_line_select (f : Input) (fs : List Input) (t : Input)
    (hf : is_identifier f = true) (hfs : ∀ g ∈ fs, is_identifier g = true)
    (ht : is_identifier t = true) :
    parse_line (select_text f fs t) = some ⟨f :: fs, t, false, Condition.init⟩ := by
  have hlen := select_text_length f fs t
  have hbody := select_body_text (3 * (select_text f fs t).length + 3)
    SelectSQL.init f fs t [] hf hfs ht rfl (by omega)
  rw [List.append_nil] at hbody
  unfold parse_line phrase_parse
  rw [hbody]
  rfl

/-! ## Inversion of an accepted line -/

theorem parse_line_some (s : Input) (v : SelectSQL) (h : parse_line s = some v) :
    ∃ rest, select_body (3 * s.length + 3) SelectSQL.init s = .ok v rest ∧ skip_over rest = [] := by
  unfold parse_line phrase_parse at h
  cases hb : select_body (3 * s.length + 3) SelectSQL.init s with
  | ok w rest =>
    rw [hb] at h
    simp only at h
    cases hs : skip_over rest with
    | nil =>
      rw [hs] at h
      simp at h
      exact ⟨rest, by rw [h], hs⟩
    | cons c r => rw [hs] at h; simp at h
  | fail p => rw [hb] at h; simp at h
  | error w p => rw [hb] at h; simp at h
  | fuel => rw [hb] at h; simp at h

theorem no_case_cases (kw : String) (s : Input) :
    (∃ r, no_case kw s = .ok () r) ∨ no_case kw s = .fail (skip_over s) := by
  unfold no_case
  cases string_parse (kw.toList.map Char.toLower) (kw.toList.map Char.toUpper) (skip_over s) with
  | some r => exact Or.inl ⟨r, rfl⟩
  | none => exact Or.inr rfl

theorem where_opt_ok (n : Nat) (val v : SelectSQL) (s rest : Input)
    (h : where_opt n val s = .ok v rest) :
    (∃ r5, no_case "where" s = .ok () r5 ∧ condition n r5 = .ok v.condition rest
        ∧ v = { val with has_condition := true, condition := v.condition })
    ∨ (no_case "where" s = .fail (skip_over s) ∧ v = val ∧ rest = s) := by
  unfold where_opt at h
  rcases no_case_cases "where" s with ⟨r5, hk⟩ | hk
  · rw [hk] at h
    simp only at h
    left
    cases hc : condition n r5 with
    | ok c r6 =>
      rw [hc] at h
      simp only [Result.ok.injEq] at h
      obtain ⟨h1, h2⟩ := h
      subst h1 h2
      exact ⟨r5, hk, hc, rfl⟩
    | fail p => rw [hc] at h; simp at h
    | error w p => rw [hc] at h; simp at h
    | fuel => rw [hc] at h; simp at h
  · rw [hk] at h
    simp only [Result.ok.injEq] at h
    right
    exact ⟨hk, h.1.symm, h.2.symm⟩

theorem fields_ok_ne_nil (n : Nat) (s r : Input) (fs : List (List Char))
    (h : fields n s = .ok fs r) : fs ≠ [] := by
  unfold fields at h
  cases hid : identifier s with
  | ok id r1 =>
    rw [hid] at h
    simp only at h
    cases hrep : fields_rep n r1 with
    | ok ids r2 => rw [hrep] at h; simp at h; rw [← h.1]; simp
    | fail p => rw [hrep] at h; simp at h
    | error w p => rw [hrep] at h; simp at h
    | fuel => rw [hrep] at h; simp at h
  | fail p => rw [hid] at h; simp at h
  | error w p => rw [hid] at h; simp at h
  | fuel => rw [hid] at h; simp at h

theorem select_body_ok (n : Nat) (val v : SelectSQL) (s rest : Input)
    (h : select_body n val s = .ok v rest) :
    ∃ fs t r4, fs ≠ [] ∧ after_table n s = some r4
      ∧ where_opt n { val with fields := fs, table := t } r4 = .ok v rest := by
  unfold select_body at h
  unfold after_table
  cases h1 : no_case "select" s with
  | ok u r1 =>
    rw [h1] at h
    simp only at h ⊢
    cases h2 : fields n r1 with
    | ok fs r2 =>
      rw [h2] at h
      simp only at h ⊢
      cases h3 : no_case "from" r2 with
      | ok u3 r3 =>
        rw [h3] at h
        simp only at h ⊢
        cases h4 : table r3 with
        | ok t r4 =>
          rw [h4] at h
          simp only at h ⊢
          exact ⟨fs, t, r4, fields_ok_ne_nil _ _ _ _ h2, rfl, h⟩
        | fail p => rw [h4] at h; simp at h
        | error w p => rw [h4] at h; simp at h
        | fuel => rw [h4] at h; simp at h
      | fail p => rw [h3] at h; simp at h
      | error w p => rw [h3] at h; simp at h
      | fuel => rw [h3] at h; simp at h
    | fail p => rw [h2] at h; simp at h
    | error w p => rw [h2] at h; simp at h
    | fuel => rw [h2] at h; simp at h
  | fail p => rw [h1] at h; simp at h
  | error w p => rw [h1] at h; simp at h
  | fuel => rw [h1] at h; simp at h

theorem where_opt_fields (n : Nat) (val v : SelectSQL) (s rest : Input)
    (h : where_opt n val s = .ok v rest) : v.fields = val.fields ∧ v.table = val.table := by
  rcases where_opt_ok n val v s rest h with ⟨r5, _, _, hv⟩ | ⟨_, hv, _⟩
  · rw [hv]; exact ⟨rfl, rfl⟩
  · rw [hv]; exact ⟨rfl, rfl⟩

/-! ## Precedence, grouping and folding -/

/-- C1: `and` binds tighter than `or`.  For all identifiers `f`, `t` and all
comparisons `A`, `B`, `C` of the form identifier, operator, integer literal,
the line `select f from t where A or B and C` is accepted and its condition
is OR(a, AND(b, c)): the root has the operator OR, its left member is the leaf
of `A` (the column, the operator and the integer of `A`), its right member is
the node with the operator AND over the leaves of `B` and of `C`.  It is not
AND(OR(a, b), c). -/
theorem and_binds_tighter (f t : Input) (A B C : IntComparison)
    (hf : is_identifier f = true) (ht : is_identifier t = true)
    (hA : A.valid = true) (hB : B.valid = true) (hC : C.valid = true) :
    parse_line ("select ".toList ++ f ++ " from ".toList ++ t ++ " where ".toList
        ++ A.text ++ " or ".toList ++ B.text ++ " and ".toList ++ C.text)
      = some ⟨[f], t, true,
          ⟨.condition
              (.compare ⟨A.col, A.op.2, ⟨.kTypeLong, .long (signed_value A.sign A.digits)⟩⟩)
              .kOpTypeNONE (.compare Compare.init),
            .kOpTypeOR,
            .condition
              (.condition
                (.compare ⟨B.col, B.op.2, ⟨.kTypeLong, .long (signed_value B.sign B.digits)⟩⟩)
                .kOpTypeNONE (.compare Compare.init))
              .kOpTypeAND
              (.condition
                (.compare ⟨C.col, C.op.2, ⟨.kTypeLong, .long (signed_value C.sign C.digits)⟩⟩)
                .kOpTypeNONE (.compare Compare.init))⟩⟩
    ∧ parse_line ("select ".toList ++ f ++ " from ".toList ++ t ++ " where ".toList
        ++ A.text ++ " or ".toList ++ B.text ++ " and ".toList ++ C.text)
      ≠ some ⟨[f], t, true,
          ⟨.condition
              (.condition
                (.compare ⟨A.col, A.op.2, ⟨.kTypeLong, .long (signed_value A.sign A.digits)⟩⟩)
                .kOpTypeNONE (.compare Compare.init))
              .kOpTypeOR
              (.condition
                (.compare ⟨B.col, B.op.2, ⟨.kTypeLong, .long (signed_value B.sign B.digits)⟩⟩)
                .kOpTypeNONE (.compare Compare.init)),
            .kOpTypeAND,
            .condition
              (.compare ⟨C.col, C.op.2, ⟨.kTypeLong, .long (signed_value C.sign C.digits)⟩⟩)
              .kOpTypeNONE (.compare Compare.init)⟩⟩ := by
  have hall : ∀ r ∈ [((A.text, A.value), ([] : List (Input × Compare))),
        ((B.text, B.value), [(C.text, C.value)])],
      is_comparison r.1.1 r.1.2 ∧ ∀ p ∈ r.2, is_comparison p.1 p.2 := by
    intro r hr
    simp only [List.mem_cons, List.mem_singleton, List.not_mem_nil, or_false] at hr
    rcases hr with rfl | rfl
    · exact ⟨int_comparison_is_comparison A hA, by simp⟩
    · refine ⟨int_comparison_is_comparison B hB, ?_⟩
      intro p hp
      simp only [List.mem_singleton] at hp
      subst hp
      exact int_comparison_is_comparison C hC
  have hcond : ∀ fuel, 6 ≤ fuel →
      condition fuel (' ' :: (or_text ((A.text, A.value), [])
          [((B.text, B.value), [(C.text, C.value)])])) =
        .ok (or_tree ((A.text, A.value), []) [((B.text, B.value), [(C.text, C.value)])]) [] := by
    intro fuel hfuel
    apply condition_space
    have := condition_chain ((A.text, A.value), []) [((B.text, B.value), [(C.text, C.value)])]
      fuel [] hall rfl (by simpa [or_size] using hfuel)
    simpa using this
  have hline := parse_line_where f [] t _ _ 6 hf (by simp) ht hcond (by simp)
  have htext : "select ".toList ++ f ++ " from ".toList ++ t ++ " where ".toList
        ++ A.text ++ " or ".toList ++ B.text ++ " and ".toList ++ C.text
      = select_text f [] t ++ " where".toList ++ (' ' :: (or_text ((A.text, A.value), [])
          [((B.text, B.value), [(C.text, C.value)])])) := by
    simp [select_text, fields_tail, or_text, or_tail, and_text, and_tail, List.append_assoc]
  rw [htext, hline]
  constructor
  · rfl
  · simp [or_tree, and_tree, Condition.node, Condition.leaf, Condition.toNode, Condition.init]

theorem and_binds_tighter_witness :
    parse_line "select f from t where a<=1 or bb!=-22 and c_3>+333".toList
      = some ⟨["f".toList], "t".toList, true,
          ⟨.condition (.compare ⟨"a".toList, .kTypeLE, ⟨.kTypeLong, .long 1⟩⟩) .kOpTypeNONE
              (.compare ⟨[], .none, ⟨.kTypeNone, .bool false⟩⟩),
            .kOpTypeOR,
            .condition
              (.condition (.compare ⟨"bb".toList, .kTypeNE, ⟨.kTypeLong, .long (-22)⟩⟩)
                .kOpTypeNONE (.compare ⟨[], .none, ⟨.kTypeNone, .bool false⟩⟩))
              .kOpTypeAND
              (.condition (.compare ⟨"c_3".toList, .kTypeGT, ⟨.kTypeLong, .long 333⟩⟩)
                .kOpTypeNONE (.compare ⟨[], .none, ⟨.kTypeNone, .bool false⟩⟩))⟩⟩ :=
  (and_binds_tighter "f".toList "t".toList
    ⟨"a".toList, ("<=".toList, .kTypeLE), none, "1".toList⟩
    ⟨"bb".toList, ("!=".toList, .kTypeNE), some true, "22".toList⟩
    ⟨"c_3".toList, (">".toList, .kTypeGT), some false, "333".toList⟩
    (by decide) (by decide) (by decide) (by decide) (by decide)).1

/-- C2: parentheses override precedence.  For all identifiers `x`, `t` and
all comparisons `A`, `B`, `C` (texts that the rule `compare` reads as `a`,
`b`, `c`), the line `select x from t where (A or B) and C` is accepted with
the condition AND(OR(a, b), c): the root has the operator AND, its left member
is the node with the operator OR over the leaves of `a` and of `b`, its right
member is the leaf of `c`. -/
theorem parentheses_override (x t A B C : Input) (a b c : Compare)
    (hx : is_identifier x = true) (ht : is_identifier t = true)
    (hA : is_comparison A a) (hB : is_comparison B b) (hC : is_comparison C c) :
    parse_line ("select ".toList ++ x ++ " from ".toList ++ t ++ " where (".toList
        ++ A ++ " or ".toList ++ B ++ ") and ".toList ++ C)
      = some ⟨[x], t, true,
          ⟨.condition
              (.condition (.compare a) .kOpTypeNONE (.compare Compare.init))
              .kOpTypeOR
              (.condition (.compare b) .kOpTypeNONE (.compare Compare.init)),
            .kOpTypeAND,
            .condition (.compare c) .kOpTypeNONE (.compare Compare.init)⟩⟩ := by
  have hall : ∀ r ∈ [((A, a), ([] : List (Input × Compare))), ((B, b), [])],
      is_comparison r.1.1 r.1.2 ∧ ∀ p ∈ r.2, is_comparison p.1 p.2 := by
    intro r hr
    simp only [List.mem_cons, List.mem_singleton, List.not_mem_nil, or_false] at hr
    rcases hr with rfl | rfl
    · exact ⟨hA, by simp⟩
    · exact ⟨hB, by simp⟩
  have hcond : ∀ fuel, 8 ≤ fuel →
      condition fuel (' ' :: '(' :: (A ++ " or ".toList ++ B ++ ") and ".toList ++ C)) =
        .ok (Condition.node (Condition.node (Condition.leaf a) .kOpTypeOR (Condition.leaf b))
            .kOpTypeAND (Condition.leaf c)) [] := by
    intro fuel hfuel
    obtain ⟨n, rfl⟩ : ∃ n, fuel = n + 1 + 1 + 1 := ⟨fuel - 3, by omega⟩
    apply condition_space
    have hinner := condition_chain ((A, a), []) [((B, b), [])] n
      (')' :: (" and ".toList ++ C)) hall rfl (by simp [or_size]; omega)
    have htxt : A ++ " or ".toList ++ B ++ ") and ".toList ++ C
        = or_text ((A, a), []) [((B, b), [])] ++ ')' :: (" and ".toList ++ C) := by
      simp [or_text, or_tail, and_text, and_tail, List.append_assoc]
    have hatom : condition_atom (n + 1) ('(' :: (A ++ " or ".toList ++ B ++ ") and ".toList ++ C))
        = .ok (or_tree ((A, a), []) [((B, b), [])]) (" and ".toList ++ C) := by
      have hcmp : ∀ s, compare ('(' :: s) = .fail ('(' :: s) := fun _ => rfl
      have hopen : ∀ s, lit '(' ('(' :: s) = .ok () s := fun _ => rfl
      have hclose : ∀ s, lit ')' (')' :: s) = .ok () s := fun _ => rfl
      unfold condition_atom
      rw [hcmp]
      simp only [hopen, htxt, hinner, hclose]
    have hrep := condition_high_rep_chain [(C, c)] (n + 1)
      (or_tree ((A, a), []) [((B, b), [])]) [] (by simpa using hC) rfl rfl (by simp; omega)
    have hrep2 : condition_high_rep (n + 1) (or_tree ((A, a), []) [((B, b), [])])
        (" and ".toList ++ C) = .ok (Condition.node (or_tree ((A, a), []) [((B, b), [])])
          .kOpTypeAND (Condition.leaf c)) [] := by
      simpa [and_tail] using hrep
    have hor : ∀ v, condition_rep (n + 1 + 1) v [] = .ok v [] := by
      intro v
      unfold condition_rep
      rfl
    unfold condition condition_high
    simp only [hatom, hrep2, hor]
    rfl
  have hline := parse_line_where x [] t _ _ 8 hx (by simp) ht hcond (by simp; omega)
  have htext : "select ".toList ++ x ++ " from ".toList ++ t ++ " where (".toList
        ++ A ++ " or ".toList ++ B ++ ") and ".toList ++ C
      = select_text x [] t ++ " where".toList
          ++ (' ' :: '(' :: (A ++ " or ".toList ++ B ++ ") and ".toList ++ C)) := by
    simp [select_text, fields_tail, List.append_assoc]
  rw [htext, hline]
  rfl

theorem parentheses_override_witness :
    parse_line "select x from t where (a=1 or b=2) and c=3".toList
      = some ⟨["x".toList], "t".toList, true,
          ⟨.condition
              (.condition (.compare ⟨"a".toList, .kTypeEQ, ⟨.kTypeLong, .long 1⟩⟩) .kOpTypeNONE
                (.compare ⟨[], .none, ⟨.kTypeNone, .bool false⟩⟩))
              .kOpTypeOR
              (.condition (.compare ⟨"b".toList, .kTypeEQ, ⟨.kTypeLong, .long 2⟩⟩) .kOpTypeNONE
                (.compare ⟨[], .none, ⟨.kTypeNone, .bool false⟩⟩)),
            .kOpTypeAND,
            .condition (.compare ⟨"c".toList, .kTypeEQ, ⟨.kTypeLong, .long 3⟩⟩) .kOpTypeNONE
              (.compare ⟨[], .none, ⟨.kTypeNone, .bool false⟩⟩)⟩⟩
    ∧ parse_line "select x from t where (n!='a b' or ok=true) and p<=-1.50".toList
      = some ⟨["x".toList], "t".toList, true,
          ⟨.condition
              (.condition
                (.compare ⟨"n".toList, .kTypeNE, ⟨.kTypeString, .string "a b".toList⟩⟩)
                .kOpTypeNONE (.compare ⟨[], .none, ⟨.kTypeNone, .bool false⟩⟩))
              .kOpTypeOR
              (.condition (.compare ⟨"ok".toList, .kTypeEQ, ⟨.kTypeBool, .bool true⟩⟩)
                .kOpTypeNONE (.compare ⟨[], .none, ⟨.kTypeNone, .bool false⟩⟩)),
            .kOpTypeAND,
            .condition
              (.compare ⟨"p".toList, .kTypeLE, ⟨.kTypeDouble, .double (.num true 150 (-2))⟩⟩)
              .kOpTypeNONE (.compare ⟨[], .none, ⟨.kTypeNone, .bool false⟩⟩)⟩⟩ :=
  ⟨parentheses_override "x".toList "t".toList "a=1".toList "b=2".toList "c=3".toList _ _ _
    (by decide) (by decide)
    (int_comparison_is_comparison ⟨"a".toList, ("=".toList, .kTypeEQ), none, "1".toList⟩
      (by decide))
    (int_comparison_is_comparison ⟨"b".toList, ("=".toList, .kTypeEQ), none, "2".toList⟩
      (by decide))
    (int_comparison_is_comparison ⟨"c".toList, ("=".toList, .kTypeEQ), none, "3".toList⟩
      (by decide)),
   parentheses_override "x".toList "t".toList "n!='a b'".toList "ok=true".toList
    "p<=-1.50".toList _ _ _ (by decide) (by decide)
    (text_comparison_is_comparison "n".toList ("!=".toList, .kTypeNE) (Char.ofNat 39)
      "a b".toList (by decide) (by decide) (Or.inr rfl) (by decide))
    (bool_comparison_is_comparison "ok".toList ("=".toList, .kTypeEQ) true (by decide)
      (by decide))
    (real_comparison_is_comparison "p".toList ("<=".toList, .kTypeLE) (some true) "1".toList
      "50".toList (by decide) (by decide) (by decide) (by decide))⟩

/-- C3: each precedence level folds to the left.  On `A1 and ... and An`
(`n >= 1`, each `A` a comparison) the rule `condition` returns
AND(...AND(AND(a1, a2), a3)..., an) and reads the whole text; every further
operand becomes the right child of a new node whose left child is the tree
so far; one comparison alone gives its leaf without a node around it.  On
`H1 or ... or Hm`, each `H` such a chain of `and`, it returns the same fold
with OR nodes over the trees of the chains. -/
theorem condition_folds_left :
    (∀ (row : (Input × Compare) × List (Input × Compare)) (fuel : Nat),
      is_comparison row.1.1 row.1.2 → (∀ p ∈ row.2, is_comparison p.1 p.2) →
      row.2.length + 3 ≤ fuel →
      condition fuel (and_text row) = .ok (and_tree row) [])
    ∧ (∀ (A : Input) (a : Compare) (fuel : Nat), is_comparison A a → 3 ≤ fuel →
      condition fuel A = .ok (Condition.leaf a) [])
    ∧ (∀ (p : Input × Compare) (ps : List (Input × Compare)) (q : Input × Compare),
      and_tree (p, ps ++ [q])
        = ⟨(and_tree (p, ps)).toNode, .kOpTypeAND, (Condition.leaf q.2).toNode⟩)
    ∧ (∀ (h : (Input × Compare) × List (Input × Compare))
        (hs : List ((Input × Compare) × List (Input × Compare))) (fuel : Nat),
      (∀ r ∈ h :: hs, is_comparison r.1.1 r.1.2 ∧ ∀ p ∈ r.2, is_comparison p.1 p.2) →
      or_size (h :: hs) + 1 ≤ fuel →
      condition fuel (or_text h hs) = .ok (or_tree h hs) [])
    ∧ (∀ (h : (Input × Compare) × List (Input × Compare))
        (hs : List ((Input × Compare) × List (Input × Compare)))
        (k : (Input × Compare) × List (Input × Compare)),
      or_tree h (hs ++ [k]) = ⟨(or_tree h hs).toNode, .kOpTypeOR, (and_tree k).toNode⟩) := by
  have hchain : ∀ (row : (Input × Compare) × List (Input × Compare)) (fuel : Nat),
      is_comparison row.1.1 row.1.2 → (∀ p ∈ row.2, is_comparison p.1 p.2) →
      row.2.length + 3 ≤ fuel →
      condition fuel (and_text row) = .ok (and_tree row) [] := by
    intro row fuel h1 hall hf
    have := condition_chain row [] fuel []
      (by
        intro r hr
        simp only [List.mem_singleton] at hr
        subst hr
        exact ⟨h1, hall⟩)
      rfl (by simp [or_size]; omega)
    simpa [or_text, or_tail, or_tree] using this
  refine ⟨hchain, ?_, ?_, ?_, ?_⟩
  · intro A a fuel hA hf
    have := hchain ((A, a), []) fuel hA (by simp) (by simpa using hf)
    simpa [and_text, and_tail, and_tree] using this
  · intro p ps q
    simp [and_tree, List.foldl_append, Condition.node]
  · intro h hs fuel hall hf
    have := condition_chain h hs fuel [] hall rfl hf
    simpa using this
  · intro h hs k
    simp [or_tree, List.foldl_append, Condition.node]

theorem condition_folds_left_witness :
    condition 5 "a=1 and b=2 and c=3".toList
        = .ok ⟨.condition
                (.condition (.compare ⟨['a'], .kTypeEQ, ⟨.kTypeLong, .long 1⟩⟩) .kOpTypeNONE
                  (.compare Compare.init))
                .kOpTypeAND
                (.condition (.compare ⟨['b'], .kTypeEQ, ⟨.kTypeLong, .long 2⟩⟩) .kOpTypeNONE
                  (.compare Compare.init)),
              .kOpTypeAND,
              .condition (.compare ⟨['c'], .kTypeEQ, ⟨.kTypeLong, .long 3⟩⟩) .kOpTypeNONE
                (.compare Compare.init)⟩ []
    ∧ condition 3 "a=1".toList = .ok (Condition.leaf ⟨['a'], .kTypeEQ, ⟨.kTypeLong, .long 1⟩⟩) []
    ∧ condition 8 "a=1 and b=2 or c=3 or d=4".toList
        = .ok (Condition.node
            (Condition.node
              (Condition.node (Condition.leaf ⟨['a'], .kTypeEQ, ⟨.kTypeLong, .long 1⟩⟩) .kOpTypeAND
                (Condition.leaf ⟨['b'], .kTypeEQ, ⟨.kTypeLong, .long 2⟩⟩))
              .kOpTypeOR (Condition.leaf ⟨['c'], .kTypeEQ, ⟨.kTypeLong, .long 3⟩⟩))
            .kOpTypeOR (Condition.leaf ⟨['d'], .kTypeEQ, ⟨.kTypeLong, .long 4⟩⟩)) [] :=
  ⟨condition_folds_left.1
      (("a=1".toList, ⟨['a'], .kTypeEQ, ⟨.kTypeLong, .long 1⟩⟩),
        [("b=2".toList, ⟨['b'], .kTypeEQ, ⟨.kTypeLong, .long 2⟩⟩),
         ("c=3".toList, ⟨['c'], .kTypeEQ, ⟨.kTypeLong, .long 3⟩⟩)]) 5
      (int_comparison_is_comparison ⟨['a'], (['='], .kTypeEQ), none, ['1']⟩ (by decide))
      (by
        intro p hp
        simp only [List.mem_cons, List.mem_singleton, List.not_mem_nil, or_false] at hp
        rcases hp with rfl | rfl
        · exact int_comparison_is_comparison ⟨['b'], (['='], .kTypeEQ), none, ['2']⟩ (by decide)
        · exact int_comparison_is_comparison ⟨['c'], (['='], .kTypeEQ), none, ['3']⟩ (by decide))
      (by decide),
   condition_folds_left.2.1 "a=1".toList _ 3
      (int_comparison_is_comparison ⟨['a'], (['='], .kTypeEQ), none, ['1']⟩ (by decide))
      (by decide),
   condition_folds_left.2.2.2.1
      (("a=1".toList, ⟨['a'], .kTypeEQ, ⟨.kTypeLong, .long 1⟩⟩),
        [("b=2".toList, ⟨['b'], .kTypeEQ, ⟨.kTypeLong, .long 2⟩⟩)])
      [(("c=3".toList, ⟨['c'], .kTypeEQ, ⟨.kTypeLong, .long 3⟩⟩), []),
       (("d=4".toList, ⟨['d'], .kTypeEQ, ⟨.kTypeLong, .long 4⟩⟩), [])] 8
      (by
        intro r hr
        simp only [List.mem_cons, List.mem_singleton, List.not_mem_nil, or_false] at hr
        rcases hr with rfl | rfl | rfl
        · refine ⟨int_comparison_is_comparison ⟨['a'], (['='], .kTypeEQ), none, ['1']⟩
            (by decide), ?_⟩
          intro p hp
          simp only [List.mem_singleton] at hp
          subst hp
          exact int_comparison_is_comparison ⟨['b'], (['='], .kTypeEQ), none, ['2']⟩ (by decide)
        · exact ⟨int_comparison_is_comparison ⟨['c'], (['='], .kTypeEQ), none, ['3']⟩
            (by decide), by simp⟩
        · exact ⟨int_comparison_is_comparison ⟨['d'], (['='], .kTypeEQ), none, ['4']⟩
            (by decide), by simp⟩)
      (by decide)⟩

/-! ## Acceptance of a line -/

/-- C5: a statement is accepted only when the whole input is consumed.  When
the rule `select` matches a line, the line is accepted if and only if nothing
but white space remains after the match, and any other remainder makes it a
failure; when the rule does not match, the line is a failure as well. -/
theorem accepted_iff_consumed (s : Input) (v : SelectSQL) (rest : Input)
    (h : select_body (3 * s.length + 3) SelectSQL.init s = .ok v rest) :
    (parse_line s = some v ↔ skip_over rest = [])
    ∧ (skip_over rest ≠ [] → parse_line s = none)
    ∧ phrase_parse (3 * s.length + 3) s SelectSQL.init = .succ v (skip_over rest) := by
  have hp : phrase_parse (3 * s.length + 3) s SelectSQL.init = .succ v (skip_over rest) := by
    unfold phrase_parse
    rw [h]
  refine ⟨⟨?_, ?_⟩, ?_, hp⟩
  · intro hl
    obtain ⟨rest2, hb, hs⟩ := parse_line_some s v hl
    rw [h] at hb
    simp only [Result.ok.injEq, true_and] at hb
    rw [hb]
    exact hs
  · intro hs
    unfold parse_line
    rw [hp, hs]
  · intro hs
    unfold parse_line
    rw [hp]
    cases hr : skip_over rest with
    | nil => exact absurd hr hs
    | cons c r => rfl

theorem accepted_iff_consumed_witness :
    (parse_line "select a from t where a='it''s'".toList
        = some ⟨[['a']], ['t'], true,
            Condition.leaf ⟨['a'], .kTypeEQ, ⟨.kTypeString, .string ['i', 't']⟩⟩⟩
      ↔ skip_over "'s'".toList = [])
    ∧ (skip_over "'s'".toList ≠ [] → parse_line "select a from t where a='it''s'".toList = none)
    ∧ phrase_parse (3 * "select a from t where a='it''s'".toList.length + 3)
        "select a from t where a='it''s'".toList SelectSQL.init
        = .succ ⟨[['a']], ['t'], true,
            Condition.leaf ⟨['a'], .kTypeEQ, ⟨.kTypeString, .string ['i', 't']⟩⟩⟩
          (skip_over "'s'".toList) :=
  accepted_iff_consumed "select a from t where a='it''s'".toList _ _ (by decide)

/-- C6: the field list is one or more identifiers separated by commas, kept
in source order.  For all identifiers `f1, ..., fn` (`n >= 1`) and `t` the
line `select f1, f2, ..., fn from t` is accepted with exactly these fields,
the table `t` and no condition; and no accepted line has an empty field list. -/
theorem fields_in_source_order :
    (∀ (f : Input) (fs : List Input) (t : Input),
      is_identifier f = true → (∀ g ∈ fs, is_identifier g = true) → is_identifier t = true →
      parse_line (select_text f fs t) = some ⟨f :: fs, t, false, Condition.init⟩)
    ∧ (∀ (s : Input) (v : SelectSQL), parse_line s = some v → v.fields ≠ []) := by
  refine ⟨parse_line_select, ?_⟩
  intro s v h
  obtain ⟨rest, hb, _⟩ := parse_line_some s v h
  obtain ⟨fs, t, r4, hfs, _, hw⟩ := select_body_ok _ _ _ _ _ hb
  rw [(where_opt_fields _ _ _ _ _ hw).1]
  exact hfs

theorem fields_in_source_order_witness :
    parse_line "select b2, a, c_ from T1".toList
        = some ⟨["b2".toList, "a".toList, "c_".toList], "T1".toList, false, Condition.init⟩
    ∧ (⟨[['a']], ['t'], false, Condition.init⟩ : SelectSQL).fields ≠ [] :=
  ⟨fields_in_source_order.1 "b2".toList ["a".toList, "c_".toList] "T1".toList
      (by decide) (by decide) (by decide),
   fields_in_source_order.2 "select a from t".toList _ (by decide)⟩

/-- C7: for every accepted line, the statement has a condition exactly when
the keyword `where` (in any letter case, after optional white space) stands
after the table name.  When it stands there, the condition is the tree that
the rule `condition` reads from the text after `where`; when it does not,
`has_condition` is false and the condition is the default-constructed one. -/
theorem has_condition_iff_where (s : Input) (v : SelectSQL) (h : parse_line s = some v) :
    ∃ r4 rest, after_table (3 * s.length + 3) s = some r4 ∧ skip_over rest = []
      ∧ (v.has_condition = true ↔ ∃ r5, no_case "where" r4 = .ok () r5)
      ∧ (∀ r5, no_case "where" r4 = .ok () r5 →
          condition (3 * s.length + 3) r5 = .ok v.condition rest)
      ∧ ((¬ ∃ r5, no_case "where" r4 = .ok () r5) →
          v.has_condition = false ∧ v.condition = Condition.init ∧ rest = r4) := by
  obtain ⟨rest, hb, hs⟩ := parse_line_some s v h
  obtain ⟨fs, t, r4, _, hat, hw⟩ := select_body_ok _ _ _ _ _ hb
  refine ⟨r4, rest, hat, hs, ?_⟩
  rcases where_opt_ok _ _ _ _ _ hw with ⟨r5, hk, hc, hv⟩ | ⟨hk, hv, hr⟩
  · refine ⟨⟨fun _ => ⟨r5, hk⟩, fun _ => by rw [hv]⟩, ?_, ?_⟩
    · intro r5' hk'
      rw [hk] at hk'
      simp only [Result.ok.injEq, true_and] at hk'
      rw [← hk']
      exact hc
    · intro hno
      exact absurd ⟨r5, hk⟩ hno
  · have hno : ¬ ∃ r5, no_case "where" r4 = .ok () r5 := by
      rintro ⟨r5, h5⟩
      rw [hk] at h5
      simp at h5
    refine ⟨⟨fun hc => ?_, fun hex => absurd hex hno⟩, ?_, ?_⟩
    · rw [hv] at hc
      simp [SelectSQL.init] at hc
    · intro r5 h5
      exact absurd ⟨r5, h5⟩ hno
    · intro _
      rw [hv]
      exact ⟨rfl, rfl, hr⟩

theorem has_condition_iff_where_witness :
    ∃ r4 rest, after_table (3 * "select a from t WHERE a=1".toList.length + 3)
        "select a from t WHERE a=1".toList = some r4 ∧ skip_over rest = []
      ∧ ((⟨[['a']], ['t'], true, Condition.leaf ⟨['a'], .kTypeEQ, ⟨.kTypeLong, .long 1⟩⟩⟩
            : SelectSQL).has_condition = true ↔ ∃ r5, no_case "where" r4 = .ok () r5)
      ∧ (∀ r5, no_case "where" r4 = .ok () r5 →
          condition (3 * "select a from t WHERE a=1".toList.length + 3) r5
            = .ok (⟨[['a']], ['t'], true,
                Condition.leaf ⟨['a'], .kTypeEQ, ⟨.kTypeLong, .long 1⟩⟩⟩ : SelectSQL).condition
              rest)
      ∧ ((¬ ∃ r5, no_case "where" r4 = .ok () r5) →
          (⟨[['a']], ['t'], true, Condition.leaf ⟨['a'], .kTypeEQ, ⟨.kTypeLong, .long 1⟩⟩⟩
            : SelectSQL).has_condition = false
          ∧ (⟨[['a']], ['t'], true, Condition.leaf ⟨['a'], .kTypeEQ, ⟨.kTypeLong, .long 1⟩⟩⟩
            : SelectSQL).condition = Condition.init
          ∧ rest = r4) :=
  has_condition_iff_where "select a from t WHERE a=1".toList
    ⟨[['a']], ['t'], true, Condition.leaf ⟨['a'], .kTypeEQ, ⟨.kTypeLong, .long 1⟩⟩⟩ (by decide)

/-! ## The recursion bound is never reached

Every parser leaves a suffix of its input, the ones that must consume a
character a proper one; so the bound `3 * length + 3` of `parse_line`
suffices for every nesting of parentheses and every repetition. -/

theorem skip_over_length (s : Input) : (skip_over s).length ≤ s.length :=
  (List.dropWhile_suffix isspace).length_le

theorem dropWhile_length (p : Char → Bool) (s : Input) : (s.dropWhile p).length ≤ s.length :=
  (List.dropWhile_suffix p).length_le

theorem string_parse_length (lo hi s r : Input) (h : string_parse lo hi s = some r) :
    r.length + lo.length = s.length := by
  induction lo generalizing hi s with
  | nil => simp [string_parse] at h; subst h; simp
  | cons l lo ih =>
    cases hi with
    | nil => simp [string_parse] at h
    | cons u hi =>
      cases s with
      | nil => simp [string_parse] at h
      | cons c cs =>
        simp only [string_parse] at h
        split at h
        · have := ih hi cs h
          simp only [List.length_cons]
          omega
        · simp at h

theorem no_case_length (kw : String) (s r : Input) (u : Unit) (h : no_case kw s = .ok u r) :
    r.length + kw.toList.length ≤ s.length := by
  unfold no_case at h
  split at h
  · rename_i rest hsp
    simp only [Result.ok.injEq, true_and] at h
    subst h
    have := string_parse_length _ _ _ _ hsp
    have := skip_over_length s
    simp only [List.length_map] at *
    omega
  · simp at h

theorem lit_length (ch : Char) (s r : Input) (u : Unit) (h : lit ch s = .ok u r) :
    r.length < s.length := by
  unfold lit at h
  have := skip_over_length s
  split at h
  · rename_i c cs hsk
    rw [hsk] at this
    split at h
    · simp only [Result.ok.injEq, true_and] at h
      subst h
      simp only [List.length_cons] at this
      omega
    · simp at h
  · simp at h

theorem identifier_length (s r : Input) (v : List Char) (h : identifier s = .ok v r) :
    r.length < s.length := by
  unfold identifier at h
  have := skip_over_length s
  split at h
  · rename_i c cs hsk
    rw [hsk] at this
    split at h
    · simp only [Result.ok.injEq] at h
      rw [← h.2]
      have := dropWhile_length isidchar cs
      simp only [List.length_cons] at *
      omega
    · simp at h
  · simp at h

theorem compare_op_length (s r : Input) (v : CompareOpType) (h : compare_op s = .ok v r) :
    r.length ≤ s.length := by
  unfold compare_op at h
  have := skip_over_length s
  split at h
  · simp only [Result.ok.injEq] at h
    rw [← h.2]
    simp only [List.length_drop]
    omega
  · simp at h

theorem string_literal_length (s r : Input) (v : Literal) (h : string_literal s = .ok v r) :
    r.length ≤ s.length := by
  unfold string_literal at h
  have := skip_over_length s
  split at h
  · rename_i q cs hsk
    rw [hsk] at this
    split at h
    · split at h
      · rename_i c rest hd
        split at h
        · simp only [Result.ok.injEq] at h
          rw [← h.2]
          have := dropWhile_length (fun c => ischar c && c != q) cs
          rw [hd] at this
          simp only [List.length_cons] at *
          omega
        · simp at h
      · simp at h
    · simp at h
  · simp at h

theorem bool_length (s r : Input) (b : Bool) (h : bool_ s = .ok b r) : r.length ≤ s.length := by
  have := skip_over_length s
  rcases (bool_ok_iff s r b).1 h with ⟨h1, _⟩ | ⟨h1, _⟩ <;>
    (rw [h1] at this; simp only [List.length_append] at this; omega)

theorem bool_fail_pos (s p : Input) (h : bool_ s = .fail p) : p = skip_over s := by
  unfold bool_ at h
  split at h
  · simp at h
  · split at h
    · simp at h
    · simp at h; exact h.symm

theorem extract_sign_length (s : Input) : (extract_sign s).2.length ≤ s.length := by
  unfold extract_sign
  split
  · split
    · simp
    · split <;> simp
  · simp

theorem extract_int_length (bits : Nat) (s r : Input) (v : Int)
    (h : extract_int bits s = some (v, r)) : r.length ≤ s.length := by
  unfold extract_int at h
  have h1 := extract_sign_length s
  have h2 := dropWhile_length isdigit (extract_sign s).2
  simp only at h
  split at h
  · simp at h
  · split at h
    · split at h
      · simp only [Option.some.injEq, Prod.mk.injEq] at h
        rw [← h.2]; omega
      · simp at h
    · split at h
      · simp only [Option.some.injEq, Prod.mk.injEq] at h
        rw [← h.2]; omega
      · simp at h

theorem parse_nan_length (s : Input) : (parse_nan s).2.length ≤ s.length := by
  unfold parse_nan
  split
  · simp
  · rename_i rest hsp
    have h1 := string_parse_length _ _ _ _ hsp
    split
    · rename_i more
      split
      · rename_i x after hd
        have := dropWhile_length (fun c => c != ')') more
        rw [hd] at this
        simp only [List.length_cons] at *
        omega
      · simp only [List.length_cons] at *
        omega
    · simp only
      omega

theorem parse_inf_length (s r : Input) (h : parse_inf s = some r) : r.length ≤ s.length := by
  unfold parse_inf at h
  split at h
  · simp at h
  · rename_i rest hsp
    have h1 := string_parse_length _ _ _ _ hsp
    split at h
    · rename_i rest2 hsp2
      have h2 := string_parse_length _ _ _ _ hsp2
      simp only [Option.some.injEq] at h
      subst h
      omega
    · simp only [Option.some.injEq] at h
      subst h
      omega

theorem real_exponent_length (neg : Bool) (d k : Nat) (e_pos r : Input) (v : Real64)
    (h : real_exponent neg d k e_pos = .ok v r) : r.length ≤ e_pos.length := by
  unfold real_exponent at h
  split at h
  · rename_i c cs
    split at h
    · split at h
      · rename_i e rest he
        have := extract_int_length _ _ _ _ he
        simp only [Result.ok.injEq] at h
        rw [← h.2]
        simp only [List.length_cons]
        omega
      · simp only [Result.ok.injEq] at h
        rw [← h.2]
    · simp only [Result.ok.injEq] at h
      rw [← h.2]
  · simp only [Result.ok.injEq] at h
    rw [← h.2]

theorem real_tail_length (save : Input) (neg : Bool) (n first r : Input) (v : Real64)
    (h : real_tail save neg n first = .ok v r) : r.length ≤ first.length := by
  unfold real_tail at h
  split at h
  · rename_i s3
    split at h
    · simp at h
    · have := real_exponent_length _ _ _ _ _ _ h
      have := dropWhile_length isdigit s3
      simp only [List.length_cons]
      omega
  · split at h
    · simp at h
    · split at h
      · exact real_exponent_length _ _ _ _ _ _ h
      · simp at h
  · simp at h

theorem real_tail_fail (save : Input) (neg : Bool) (n first p : Input)
    (h : real_tail save neg n first = .fail p) : p = save := by
  unfold real_tail at h
  split at h
  · split at h
    · simp at h; exact h.symm
    · unfold real_exponent at h
      split at h
      · split at h
        · split at h <;> simp at h
        · simp at h
      · simp at h
  · split at h
    · simp at h; exact h.symm
    · split at h
      · unfold real_exponent at h
        split at h
        · split at h
          · split at h <;> simp at h
          · simp at h
        · simp at h
      · simp at h; exact h.symm
  · simp at h; exact h.symm

theorem real_impl_length (save r : Input) (v : Real64) (h : real_impl save = .ok v r) :
    r.length ≤ save.length := by
  unfold real_impl at h
  have hs := extract_sign_length save
  split at h
  · simp at h
  · split at h
    · have hn := parse_nan_length (extract_sign save).2
      split at h
      · rename_i rest hp
        rw [hp] at hn
        simp only [Result.ok.injEq] at h
        rw [← h.2]
        simp only at hn
        omega
      · rename_i first hp
        rw [hp] at hn
        simp only at hn
        split at h
        · rename_i rest hi
          have := parse_inf_length _ _ hi
          simp only [Result.ok.injEq] at h
          rw [← h.2]
          omega
        · have := real_tail_length _ _ _ _ _ _ h
          omega
    · have := real_tail_length _ _ _ _ _ _ h
      have := dropWhile_length isdigit (extract_sign save).2
      omega

theorem real_impl_fail (save p : Input) (h : real_impl save = .fail p) : p = save := by
  unfold real_impl at h
  split at h
  · simp at h; exact h.symm
  · split at h
    · split at h
      · simp at h
      · split at h
        · simp at h
        · exact real_tail_fail _ _ _ _ _ h
    · exact real_tail_fail _ _ _ _ _ h

theorem long_length (s r : Input) (v : Int) (h : long_ s = .ok v r) : r.length ≤ s.length := by
  unfold long_ at h
  have := skip_over_length s
  split at h
  · rename_i n rest he
    have := extract_int_length _ _ _ _ he
    simp only [Result.ok.injEq] at h
    rw [← h.2]
    omega
  · simp at h

theorem number_literal_length (s r : Input) (v : Literal) (h : number_literal s = .ok v r) :
    r.length ≤ s.length := by
  unfold number_literal at h
  have hsk := skip_over_length s
  split at h
  · rename_i x rest hr
    unfold strict_real at hr
    have := real_impl_length _ _ _ hr
    simp only [Result.ok.injEq] at h
    rw [← h.2]
    omega
  · rename_i pos hr
    unfold strict_real at hr
    have hp := real_impl_fail _ _ hr
    split at h
    · rename_i n rest hl
      have := long_length _ _ _ hl
      simp only [Result.ok.injEq] at h
      rw [← h.2]
      rw [hp] at this
      omega
    all_goals simp at h
  · simp at h
  · simp at h

theorem literal_length (s r : Input) (v : Literal) (h : literal s = .ok v r) :
    r.length ≤ s.length := by
  unfold literal at h
  have hsk := skip_over_length s
  split at h
  · rename_i pos hpos
    have hp := (string_literal_fail_pos s pos hpos).1
    split at h
    · rename_i pos2 hpos2
      unfold bool_literal at hpos2
      split at hpos2
      · simp at hpos2
      · rename_i p3 hb
        simp only [Result.fail.injEq] at hpos2
        have h3 := bool_fail_pos _ _ hb
        have h4 := number_literal_length _ _ _ h
        have h5 := skip_over_length pos
        subst hpos2
        rw [h3] at h4
        rw [hp] at h5 h4
        omega
      · simp at hpos2
      · simp at hpos2
    · unfold bool_literal at h
      split at h
      · rename_i b rest hb
        have h4 := bool_length _ _ _ hb
        simp only [Result.ok.injEq] at h
        rw [← h.2]
        rw [hp] at h4
        omega
      all_goals simp at h
  · exact string_literal_length _ _ _ h

theorem compare_length (s r : Input) (v : Compare) (h : compare s = .ok v r) :
    r.length < s.length := by
  unfold compare at h
  split at h
  · rename_i id r1 hid
    have h1 := identifier_length _ _ _ hid
    split at h
    · rename_i op r2 hop
      have h2 := compare_op_length _ _ _ hop
      split at h
      · rename_i l r3 hl
        have h3 := literal_length _ _ _ hl
        simp only [Result.ok.injEq] at h
        rw [← h.2]
        omega
      all_goals simp at h
    all_goals simp at h
  · simp at h

theorem condition_lengths (n : Nat) :
    (∀ s v r, condition_atom n s = .ok v r → r.length < s.length)
    ∧ (∀ s v r, condition_high n s = .ok v r → r.length < s.length)
    ∧ (∀ s v r, condition n s = .ok v r → r.length < s.length)
    ∧ (∀ acc s v r, condition_high_rep n acc s = .ok v r → r.length ≤ s.length)
    ∧ (∀ acc s v r, condition_rep n acc s = .ok v r → r.length ≤ s.length) := by
  induction n with
  | zero =>
    refine ⟨?_, ?_, ?_, ?_, ?_⟩ <;> intros <;> rename_i h <;>
      first
        | simp [condition_atom] at h
        | simp [condition_high] at h
        | simp [condition] at h
        | simp [condition_high_rep] at h
        | simp [condition_rep] at h
  | succ n ih =>
    obtain ⟨ia, ib, ic, id, ie⟩ := ih
    refine ⟨?_, ?_, ?_, ?_, ?_⟩
    · intro s v r h
      unfold condition_atom at h
      cases hc : compare s with
      | ok c rest =>
        rw [hc] at h
        simp only [Result.ok.injEq] at h
        rw [← h.2]
        exact compare_length _ _ _ hc
      | fail p =>
        rw [hc] at h
        simp only at h
        cases hl : lit '(' s with
        | ok u r1 =>
          rw [hl] at h
          simp only at h
          have h1 := lit_length _ _ _ _ hl
          cases hcond : condition n r1 with
          | ok w r2 =>
            rw [hcond] at h
            simp only at h
            have h2 := ic _ _ _ hcond
            cases hr : lit ')' r2 with
            | ok u3 r3 =>
              rw [hr] at h
              simp only [Result.ok.injEq] at h
              have h3 := lit_length _ _ _ _ hr
              rw [← h.2]
              omega
            | fail q => rw [hr] at h; simp at h
            | error w q => rw [hr] at h; simp at h
            | fuel => rw [hr] at h; simp at h
          | fail q => rw [hcond] at h; simp at h
          | error w q => rw [hcond] at h; simp at h
          | fuel => rw [hcond] at h; simp at h
        | fail q => rw [hl] at h; simp at h
        | error w q => rw [hl] at h; simp at h
        | fuel => rw [hl] at h; simp at h
      | error w p => rw [hc] at h; simp at h
      | fuel => rw [hc] at h; simp at h
    · intro s v r h
      unfold condition_high at h
      cases hc : condition_atom n s with
      | ok w rest =>
        rw [hc] at h
        simp only at h
        have h1 := ia _ _ _ hc
        have h2 := id _ _ _ _ h
        omega
      | fail q => rw [hc] at h; simp at h
      | error w q => rw [hc] at h; simp at h
      | fuel => rw [hc] at h; simp at h
    · intro s v r h
      unfold condition at h
      cases hc : condition_high n s with
      | ok w rest =>
        rw [hc] at h
        simp only at h
        have h1 := ib _ _ _ hc
        have h2 := ie _ _ _ _ h
        omega
      | fail q => rw [hc] at h; simp at h
      | error w q => rw [hc] at h; simp at h
      | fuel => rw [hc] at h; simp at h
    · intro acc s v r h
      unfold condition_high_rep at h
      rcases no_case_cases "and" s with ⟨r1, hk⟩ | hk
      · rw [hk] at h
        simp only at h
        have h1 := no_case_length _ _ _ _ hk
        cases hc : condition_atom n r1 with
        | ok w r2 =>
          rw [hc] at h
          simp only at h
          have h2 := ia _ _ _ hc
          have h3 := id _ _ _ _ h
          omega
        | fail q => rw [hc] at h; simp at h
        | error w q => rw [hc] at h; simp at h
        | fuel => rw [hc] at h; simp at h
      · rw [hk] at h
        simp only [Result.ok.injEq] at h
        rw [← h.2]
    · intro acc s v r h
      unfold condition_rep at h
      rcases no_case_cases "or" s with ⟨r1, hk⟩ | hk
      · rw [hk] at h
        simp only at h
        have h1 := no_case_length _ _ _ _ hk
        cases hc : condition_high n r1 with
        | ok w r2 =>
          rw [hc] at h
          simp only at h
          have h2 := ib _ _ _ hc
          have h3 := ie _ _ _ _ h
          omega
        | fail q => rw [hc] at h; simp at h
        | error w q => rw [hc] at h; simp at h
        | fuel => rw [hc] at h; simp at h
      · rw [hk] at h
        simp only [Result.ok.injEq] at h
        rw [← h.2]

theorem real_exponent_ne_fuel (neg : Bool) (d k : Nat) (e_pos : Input) :
    real_exponent neg d k e_pos ≠ .fuel := by
  unfold real_exponent
  split
  · split
    · split <;> simp
    · simp
  · simp

theorem real_tail_ne_fuel (save : Input) (neg : Bool) (n first : Input) :
    real_tail save neg n first ≠ .fuel := by
  unfold real_tail
  split
  · split
    · simp
    · exact real_exponent_ne_fuel _ _ _ _
  · split
    · simp
    · split
      · exact real_exponent_ne_fuel _ _ _ _
      · simp
  · simp

theorem real_impl_ne_fuel (save : Input) : real_impl save ≠ .fuel := by
  unfold real_impl
  split
  · simp
  · split
    · split
      · simp
      · split
        · simp
        · exact real_tail_ne_fuel _ _ _ _
    · exact real_tail_ne_fuel _ _ _ _

theorem long_ne_fuel (s : Input) : long_ s ≠ .fuel := by
  unfold long_
  split <;> simp

theorem number_literal_ne_fuel (s : Input) : number_literal s ≠ .fuel := by
  unfold number_literal
  cases hr : strict_real s with
  | ok x rest => simp
  | fail pos =>
    simp only
    cases hl : long_ pos with
    | ok n rest => simp
    | fail p => simp
    | error w p => simp
    | fuel => exact absurd hl (long_ne_fuel pos)
  | error w p => simp
  | fuel => exact absurd hr (real_impl_ne_fuel _)

theorem string_literal_ne_fuel (s : Input) : string_literal s ≠ .fuel := by
  unfold string_literal
  split
  · split
    · split
      · split <;> simp
      · simp
    · simp
  · simp

theorem bool_literal_ne_fuel (s : Input) : bool_literal s ≠ .fuel := by
  unfold bool_literal bool_
  split
  · simp
  · simp
  · simp
  · rename_i h
    split at h
    · simp at h
    · split at h <;> simp at h

theorem literal_ne_fuel (s : Input) : literal s ≠ .fuel := by
  unfold literal
  cases hs : string_literal s with
  | ok v r => simp
  | fail pos =>
    simp only
    cases hb : bool_literal pos with
    | ok v r => simp
    | fail p2 => exact number_literal_ne_fuel p2
    | error w p => simp
    | fuel => exact absurd hb (bool_literal_ne_fuel pos)
  | error w p => simp
  | fuel => exact absurd hs (string_literal_ne_fuel s)

theorem compare_ne_fuel (s : Input) : compare s ≠ .fuel := by
  unfold compare
  cases hi : identifier s with
  | ok id r1 =>
    simp only
    cases ho : compare_op r1 with
    | ok op r2 =>
      simp only
      cases hl : literal r2 with
      | ok v r3 => simp
      | fail p => simp
      | error w p => simp
      | fuel => exact absurd hl (literal_ne_fuel r2)
    | fail p => simp
    | error w p => simp
    | fuel =>
      unfold compare_op at ho
      split at ho <;> simp at ho
  | fail p => simp
  | error w p => simp
  | fuel => simp

theorem lit_ne_fuel (ch : Char) (s : Input) : lit ch s ≠ .fuel := by
  unfold lit
  split
  · split <;> simp
  · simp

theorem identifier_ne_fuel (s : Input) : identifier s ≠ .fuel := by
  unfold identifier
  split
  · split <;> simp
  · simp

theorem condition_no_fuel (n : Nat) :
    (∀ s, 3 * s.length + 1 ≤ n → condition_atom n s ≠ .fuel)
    ∧ (∀ s, 3 * s.length + 2 ≤ n → condition_high n s ≠ .fuel)
    ∧ (∀ s, 3 * s.length + 3 ≤ n → condition n s ≠ .fuel)
    ∧ (∀ acc s, 3 * s.length + 1 ≤ n → condition_high_rep n acc s ≠ .fuel)
    ∧ (∀ acc s, 3 * s.length + 1 ≤ n → condition_rep n acc s ≠ .fuel) := by
  induction n with
  | zero =>
    refine ⟨?_, ?_, ?_, ?_, ?_⟩ <;> intros <;> omega
  | succ n ih =>
    obtain ⟨ia, ib, ic, id, ie⟩ := ih
    obtain ⟨la, lb, lc, ld, le⟩ := condition_lengths n
    refine ⟨?_, ?_, ?_, ?_, ?_⟩
    · intro s hn h
      unfold condition_atom at h
      cases hc : compare s with
      | ok c rest => rw [hc] at h; simp at h
      | fail p =>
        rw [hc] at h
        simp only at h
        cases hl : lit '(' s with
        | ok u r1 =>
          rw [hl] at h
          simp only at h
          have h1 := lit_length _ _ _ _ hl
          cases hcond : condition n r1 with
          | ok w r2 =>
            rw [hcond] at h
            simp only at h
            cases hr : lit ')' r2 with
            | ok u3 r3 => rw [hr] at h; simp at h
            | fail q => rw [hr] at h; simp at h
            | error w q => rw [hr] at h; simp at h
            | fuel => exact absurd hr (lit_ne_fuel _ _)
          | fail q => rw [hcond] at h; simp at h
          | error w q => rw [hcond] at h; simp at h
          | fuel => exact absurd hcond (ic r1 (by omega))
        | fail q => rw [hl] at h; simp at h
        | error w q => rw [hl] at h; simp at h
        | fuel => rw [hl] at h; simp at h
      | error w p => rw [hc] at h; simp at h
      | fuel => exact absurd hc (compare_ne_fuel s)
    · intro s hn h
      unfold condition_high at h
      cases hc : condition_atom n s with
      | ok w rest =>
        rw [hc] at h
        simp only at h
        have h1 := la _ _ _ hc
        exact id _ rest (by omega) h
      | fail q => rw [hc] at h; simp at h
      | error w q => rw [hc] at h; simp at h
      | fuel => exact absurd hc (ia s (by omega))
    · intro s hn h
      unfold condition at h
      cases hc : condition_high n s with
      | ok w rest =>
        rw [hc] at h
        simp only at h
        have h1 := lb _ _ _ hc
        exact ie _ rest (by omega) h
      | fail q => rw [hc] at h; simp at h
      | error w q => rw [hc] at h; simp at h
      | fuel => exact absurd hc (ib s (by omega))
    · intro acc s hn h
      unfold condition_high_rep at h
      rcases no_case_cases "and" s with ⟨r1, hk⟩ | hk
      · rw [hk] at h
        simp only at h
        have h1 := no_case_length _ _ _ _ hk
        have h0 : "and".toList.length = 3 := rfl
        cases hc : condition_atom n r1 with
        | ok w r2 =>
          rw [hc] at h
          simp only at h
          have h2 := la _ _ _ hc
          exact id _ r2 (by omega) h
        | fail q => rw [hc] at h; simp at h
        | error w q => rw [hc] at h; simp at h
        | fuel => exact absurd hc (ia r1 (by omega))
      · rw [hk] at h
        simp at h
    · intro acc s hn h
      unfold condition_rep at h
      rcases no_case_cases "or" s with ⟨r1, hk⟩ | hk
      · rw [hk] at h
        simp only at h
        have h1 := no_case_length _ _ _ _ hk
        have h0 : "or".toList.length = 2 := rfl
        cases hc : condition_high n r1 with
        | ok w r2 =>
          rw [hc] at h
          simp only at h
          have h2 := lb _ _ _ hc
          exact ie _ r2 (by omega) h
        | fail q => rw [hc] at h; simp at h
        | error w q => rw [hc] at h; simp at h
        | fuel => exact absurd hc (ib r1 (by omega))
      · rw [hk] at h
        simp at h

theorem fields_rep_no_fuel (n : Nat) : ∀ s : Input, s.length + 1 ≤ n → fields_rep n s ≠ .fuel := by
  induction n with
  | zero => intro s h; omega
  | succ n ih =>
    intro s hn h
    unfold fields_rep at h
    cases hl : lit ',' s with
    | ok u r1 =>
      rw [hl] at h
      simp only at h
      have h1 := lit_length _ _ _ _ hl
      cases hi : identifier r1 with
      | ok id r2 =>
        rw [hi] at h
        simp only at h
        have h2 := identifier_length _ _ _ hi
        cases hr : fields_rep n r2 with
        | ok ids r3 => rw [hr] at h; simp at h
        | fail q => rw [hr] at h; simp at h
        | error w q => rw [hr] at h; simp at h
        | fuel => exact ih r2 (by omega) hr
      | fail q => rw [hi] at h; simp at h
      | error w q => rw [hi] at h; simp at h
      | fuel => rw [hi] at h; simp at h
    | fail q => rw [hl] at h; simp at h
    | error w q => rw [hl] at h; simp at h
    | fuel => rw [hl] at h; simp at h

theorem fields_rep_length (n : Nat) :
    ∀ (s r : Input) (v : List (List Char)), fields_rep n s = .ok v r → r.length ≤ s.length := by
  induction n with
  | zero => intro s r v h; simp [fields_rep] at h
  | succ n ih =>
    intro s r v h
    unfold fields_rep at h
    cases hl : lit ',' s with
    | ok u r1 =>
      rw [hl] at h
      simp only at h
      have h1 := lit_length _ _ _ _ hl
      cases hi : identifier r1 with
      | ok id r2 =>
        rw [hi] at h
        simp only at h
        have h2 := identifier_length _ _ _ hi
        cases hr : fields_rep n r2 with
        | ok ids r3 =>
          rw [hr] at h
          simp only [Result.ok.injEq] at h
          have := ih _ _ _ hr
          rw [← h.2]
          omega
        | fail q => rw [hr] at h; simp at h
        | error w q => rw [hr] at h; simp at h
        | fuel => rw [hr] at h; simp at h
      | fail q => rw [hi] at h; simp at h; rw [← h.2]
      | error w q => rw [hi] at h; simp at h; rw [← h.2]
      | fuel => rw [hi] at h; simp at h; rw [← h.2]
    | fail q => rw [hl] at h; simp at h; rw [← h.2]
    | error w q => rw [hl] at h; simp at h; rw [← h.2]
    | fuel => rw [hl] at h; simp at h; rw [← h.2]

/-- The bound `3 * length + 3` that `parse_line` gives to `phrase_parse` is
never reached: the outcome is a match or a failure of the C++ parser. -/
theorem phrase_parse_total (s : Input) (val : SelectSQL) :
    phrase_parse (3 * s.length + 3) s val ≠ .fuel := by
  intro h
  unfold phrase_parse at h
  cases hb : select_body (3 * s.length + 3) val s with
  | ok v r => rw [hb] at h; simp at h
  | fail p => rw [hb] at h; simp at h
  | error w p => rw [hb] at h; simp at h
  | fuel =>
    unfold select_body at hb
    rcases no_case_cases "select" s with ⟨r1, hk⟩ | hk
    · rw [hk] at hb
      simp only at hb
      have h1 := no_case_length _ _ _ _ hk
      cases hf : fields (3 * s.length + 3) r1 with
      | ok fs r2 =>
        rw [hf] at hb
        simp only at hb
        have h2 : r2.length ≤ r1.length := by
          unfold fields at hf
          cases hi : identifier r1 with
          | ok id r1' =>
            rw [hi] at hf
            simp only at hf
            have := identifier_length _ _ _ hi
            cases hr : fields_rep (3 * s.length + 3) r1' with
            | ok ids r3 =>
              rw [hr] at hf
              simp only [Result.ok.injEq] at hf
              have := fields_rep_length _ _ _ _ hr
              rw [← hf.2]
              omega
            | fail q => rw [hr] at hf; simp at hf
            | error w q => rw [hr] at hf; simp at hf
            | fuel => rw [hr] at hf; simp at hf
          | fail q => rw [hi] at hf; simp at hf
          | error w q => rw [hi] at hf; simp at hf
          | fuel => rw [hi] at hf; simp at hf
        rcases no_case_cases "from" r2 with ⟨r3, hk3⟩ | hk3
        · rw [hk3] at hb
          simp only at hb
          have h3 := no_case_length _ _ _ _ hk3
          cases ht : table r3 with
          | ok t r4 =>
            rw [ht] at hb
            simp only at hb
            have h4 := identifier_length _ _ _ ht
            unfold where_opt at hb
            rcases no_case_cases "where" r4 with ⟨r5, hk5⟩ | hk5
            · rw [hk5] at hb
              simp only at hb
              have h5 := no_case_length _ _ _ _ hk5
              cases hc : condition (3 * s.length + 3) r5 with
              | ok c r6 => rw [hc] at hb; simp at hb
              | fail q => rw [hc] at hb; simp at hb
              | error w q => rw [hc] at hb; simp at hb
              | fuel => exact (condition_no_fuel _).2.2.1 r5 (by omega) hc
            · rw [hk5] at hb
              simp at hb
          | fail q => rw [ht] at hb; simp at hb
          | error w q => rw [ht] at hb; simp at hb
          | fuel => exact absurd ht (identifier_ne_fuel r3)
        · rw [hk3] at hb
          simp at hb
      | fail q => rw [hf] at hb; simp at hb
      | error w q => rw [hf] at hb; simp at hb
      | fuel =>
        unfold fields at hf
        cases hi : identifier r1 with
        | ok id r1' =>
          rw [hi] at hf
          simp only at hf
          have := identifier_length _ _ _ hi
          cases hr : fields_rep (3 * s.length + 3) r1' with
          | ok ids r3 => rw [hr] at hf; simp at hf
          | fail q => rw [hr] at hf; simp at hf
          | error w q => rw [hr] at hf; simp at hf
          | fuel => exact fields_rep_no_fuel _ r1' (by omega) hr
        | fail q => rw [hi] at hf; simp at hf
        | error w q => rw [hi] at hf; simp at hf
        | fuel => rw [hi] at hf; simp at hf
    · rw [hk] at hb
      simp at hb


/-! ## Real literals with a dot at one end, keywords before identifier characters -/

/-- C12 as the code has it: a keyword match looks only at the letters of the
keyword.  Each of `select`, `from`, `where`, `and`, `or` matches whatever
follows it, also an identifier character, and what follows is left as the
start of the next token; so `selection from t` is accepted as `select`
followed by the field `ion`, and keywords need no blank after them. -/
theorem keyword_matches_before_any_character :
    (∀ rest : Input, no_case "select" ("select".toList ++ rest) = .ok () rest)
    ∧ (∀ rest : Input, no_case "from" ("from".toList ++ rest) = .ok () rest)
    ∧ (∀ rest : Input, no_case "where" ("where".toList ++ rest) = .ok () rest)
    ∧ (∀ rest : Input, no_case "and" ("and".toList ++ rest) = .ok () rest)
    ∧ (∀ rest : Input, no_case "or" ("or".toList ++ rest) = .ok () rest)
    ∧ parse_line "selection from t".toList = some ⟨["ion".toList], ['t'], false, Condition.init⟩
    ∧ parse_line "selecta fromt wherea=1andb=2orc=3".toList
        = some ⟨[['a']], ['t'], true,
            Condition.node
              (Condition.node (Condition.leaf ⟨['a'], .kTypeEQ, ⟨.kTypeLong, .long 1⟩⟩)
                .kOpTypeAND (Condition.leaf ⟨['b'], .kTypeEQ, ⟨.kTypeLong, .long 2⟩⟩))
              .kOpTypeOR (Condition.leaf ⟨['c'], .kTypeEQ, ⟨.kTypeLong, .long 3⟩⟩)⟩ := by
  refine ⟨fun _ => rfl, fun _ => rfl, fun _ => rfl, fun _ => rfl, fun _ => rfl, by decide,
    by decide⟩

/-- C12 fails as stated: `selection from t` is accepted, `selection` being
read as the keyword `select` followed by the field `ion`. -/
theorem keyword_boundary_counterexample :
    no_case "select" "selection from t".toList = .ok () "ion from t".toList
    ∧ parse_line "selection from t".toList
        = some ⟨["ion".toList], ['t'], false, Condition.init⟩ := by
  decide

/-! ## Reported errors -/

/-- C14: the line `select a where x=1` fails with an expectation failure
whose expected construct is the keyword `from`, reported at the text
`where x=1`; no statement is returned. -/
theorem missing_from_reported :
    phrase_parse (3 * "select a where x=1".toList.length + 3) "select a where x=1".toList
        SelectSQL.init
      = .failure (some (no_case_what "from", "where x=1".toList))
    ∧ no_case_what "from" = .str "no-case-literal-string" "from".toList
    ∧ parse_line "select a where x=1".toList = none := by
  decide

theorem select_star_error (n : Nat) (val : SelectSQL) (rest : Input) :
    select_body n val ("select *".toList ++ rest) = .error rule_what (" *".toList ++ rest) :=
  rfl

/-- C17 as the code has it: the input `select * from t where a=1 or b=2 and
c=3` is rejected, because `*` is not an identifier: whatever follows
`select *`, the field list is reported as expected right after `select`.
With an identifier in the place of `*` the line is accepted and its condition
is OR(a=1, AND(b=2, c=3)), not AND(OR(a=1, b=2), c=3). -/
theorem select_star_rejected :
    (∀ (n : Nat) (val : SelectSQL) (rest : Input),
      select_body n val ("select *".toList ++ rest) = .error rule_what (" *".toList ++ rest))
    ∧ phrase_parse (3 * "select * from t where a=1 or b=2 and c=3".toList.length + 3)
        "select * from t where a=1 or b=2 and c=3".toList SelectSQL.init
        = .failure (some (rule_what, " * from t where a=1 or b=2 and c=3".toList))
    ∧ parse_line "select * from t where a=1 or b=2 and c=3".toList = none
    ∧ parse_line "select x from t where a=1 or b=2 and c=3".toList
        = some ⟨[['x']], ['t'], true,
            Condition.node (Condition.leaf ⟨['a'], .kTypeEQ, ⟨.kTypeLong, .long 1⟩⟩) .kOpTypeOR
              (Condition.node (Condition.leaf ⟨['b'], .kTypeEQ, ⟨.kTypeLong, .long 2⟩⟩)
                .kOpTypeAND (Condition.leaf ⟨['c'], .kTypeEQ, ⟨.kTypeLong, .long 3⟩⟩))⟩
    ∧ parse_line "select x from t where a=1 or b=2 and c=3".toList
        ≠ some ⟨[['x']], ['t'], true,
            Condition.node
              (Condition.node (Condition.leaf ⟨['a'], .kTypeEQ, ⟨.kTypeLong, .long 1⟩⟩)
                .kOpTypeOR (Condition.leaf ⟨['b'], .kTypeEQ, ⟨.kTypeLong, .long 2⟩⟩))
              .kOpTypeAND (Condition.leaf ⟨['c'], .kTypeEQ, ⟨.kTypeLong, .long 3⟩⟩)⟩ := by
  refine ⟨select_star_error, by decide, by decide, by decide, by decide⟩

/-- C17 fails as stated: the input is not accepted. -/
theorem select_star_counterexample :
    parse_line "select * from t where a=1 or b=2 and c=3".toList = none := by
  decide


/-! ## The recursion bound does not matter once it suffices -/

theorem condition_mono (n : Nat) :
    (∀ s, condition_atom n s ≠ .fuel → condition_atom (n + 1) s = condition_atom n s)
    ∧ (∀ s, condition_high n s ≠ .fuel → condition_high (n + 1) s = condition_high n s)
    ∧ (∀ s, condition n s ≠ .fuel → condition (n + 1) s = condition n s)
    ∧ (∀ acc s, condition_high_rep n acc s ≠ .fuel →
        condition_high_rep (n + 1) acc s = condition_high_rep n acc s)
    ∧ (∀ acc s, condition_rep n acc s ≠ .fuel →
        condition_rep (n + 1) acc s = condition_rep n acc s) := by
  induction n with
  | zero =>
    refine ⟨?_, ?_, ?_, ?_, ?_⟩ <;> intros <;> rename_i h <;>
      first
        | exact absurd (by simp [condition_atom]) h
        | exact absurd (by simp [condition_high]) h
        | exact absurd (by simp [condition]) h
        | exact absurd (by simp [condition_high_rep]) h
        | exact absurd (by simp [condition_rep]) h
  | succ n ih =>
    obtain ⟨ia, ib, ic, id, ie⟩ := ih
    refine ⟨?_, ?_, ?_, ?_, ?_⟩
    · intro s h
      rw [condition_atom, condition_atom] at *
      cases hc : compare s with
      | ok c rest => rfl
      | fail p =>
        rw [hc] at h
        simp only at h ⊢
        cases hl : lit '(' s with
        | ok u r1 =>
          rw [hl] at h
          simp only at h ⊢
          have hne : condition n r1 ≠ .fuel := by
            intro hf
            rw [hf] at h
            exact h rfl
          rw [ic r1 hne]
        | fail q => rfl
        | error w q => rfl
        | fuel => rfl
      | error w p => rfl
      | fuel => rfl
    · intro s h
      rw [condition_high, condition_high] at *
      have hne : condition_atom n s ≠ .fuel := by
        intro hf
        rw [hf] at h
        exact h rfl
      rw [ia s hne]
      cases hc : condition_atom n s with
      | ok v rest =>
        rw [hc] at h
        simp only at h ⊢
        exact id _ _ h
      | fail p => rfl
      | error w p => rfl
      | fuel => rfl
    · intro s h
      rw [condition, condition] at *
      have hne : condition_high n s ≠ .fuel := by
        intro hf
        rw [hf] at h
        exact h rfl
      rw [ib s hne]
      cases hc : condition_high n s with
      | ok v rest =>
        rw [hc] at h
        simp only at h ⊢
        exact ie _ _ h
      | fail p => rfl
      | error w p => rfl
      | fuel => rfl
    · intro acc s h
      rw [condition_high_rep, condition_high_rep] at *
      rcases no_case_cases "and" s with ⟨r1, hk⟩ | hk
      · rw [hk] at h ⊢
        simp only at h ⊢
        have hne : condition_atom n r1 ≠ .fuel := by
          intro hf
          rw [hf] at h
          exact h rfl
        rw [ia r1 hne]
        cases hc : condition_atom n r1 with
        | ok v r2 =>
          rw [hc] at h
          simp only at h ⊢
          exact id _ _ h
        | fail p => rfl
        | error w p => rfl
        | fuel => rfl
      · rw [hk]
    · intro acc s h
      rw [condition_rep, condition_rep] at *
      rcases no_case_cases "or" s with ⟨r1, hk⟩ | hk
      · rw [hk] at h ⊢
        simp only at h ⊢
        have hne : condition_high n r1 ≠ .fuel := by
          intro hf
          rw [hf] at h
          exact h rfl
        rw [ib r1 hne]
        cases hc : condition_high n r1 with
        | ok v r2 =>
          rw [hc] at h
          simp only at h ⊢
          exact ie _ _ h
        | fail p => rfl
        | error w p => rfl
        | fuel => rfl
      · rw [hk]

theorem condition_mono_add (k n : Nat) (s : Input) (h : condition n s ≠ .fuel) :
    condition (n + k) s = condition n s := by
  induction k with
  | zero => rfl
  | succ k ih =>
    have := (condition_mono (n + k)).2.2.1 s (by rw [ih]; exact h)
    rw [← Nat.add_assoc, this, ih]

theorem condition_atom_mono_add (k n : Nat) (s : Input) (h : condition_atom n s ≠ .fuel) :
    condition_atom (n + k) s = condition_atom n s := by
  induction k with
  | zero => rfl
  | succ k ih =>
    have := (condition_mono (n + k)).1 s (by rw [ih]; exact h)
    rw [← Nat.add_assoc, this, ih]

theorem condition_high_mono_add (k n : Nat) (s : Input) (h : condition_high n s ≠ .fuel) :
    condition_high (n + k) s = condition_high n s := by
  induction k with
  | zero => rfl
  | succ k ih =>
    have := (condition_mono (n + k)).2.1 s (by rw [ih]; exact h)
    rw [← Nat.add_assoc, this, ih]

theorem condition_high_rep_mono_add (k n : Nat) (acc : Condition) (s : Input)
    (h : condition_high_rep n acc s ≠ .fuel) :
    condition_high_rep (n + k) acc s = condition_high_rep n acc s := by
  induction k with
  | zero => rfl
  | succ k ih =>
    have := (condition_mono (n + k)).2.2.2.1 acc s (by rw [ih]; exact h)
    rw [← Nat.add_assoc, this, ih]

theorem condition_rep_mono_add (k n : Nat) (acc : Condition) (s : Input)
    (h : condition_rep n acc s ≠ .fuel) :
    condition_rep (n + k) acc s = condition_rep n acc s := by
  induction k with
  | zero => rfl
  | succ k ih =>
    have := (condition_mono (n + k)).2.2.2.2 acc s (by rw [ih]; exact h)
    rw [← Nat.add_assoc, this, ih]

/-- Whatever bound lets `condition` come to a result, every bound of at least
`3 * length + 3` gives the same result. -/
theorem condition_any_fuel (N F : Nat) (s : Input) (h : condition N s ≠ .fuel)
    (hF : 3 * s.length + 3 ≤ F) : condition F s = condition N s := by
  rcases Nat.le_total N F with hle | hle
  · obtain ⟨k, rfl⟩ := Nat.exists_eq_add_of_le hle
    exact condition_mono_add k N s h
  · obtain ⟨k, rfl⟩ := Nat.exists_eq_add_of_le hle
    exact (condition_mono_add k F s ((condition_no_fuel F).2.2.1 s hF)).symm

theorem condition_ok_any_fuel (N F : Nat) (s r : Input) (v : Condition)
    (h : condition N s = .ok v r) (hF : 3 * s.length + 3 ≤ F) : condition F s = .ok v r := by
  rw [condition_any_fuel N F s (by rw [h]; simp) hF, h]

/-- Two bounds that both let `condition` come to a result give the same one. -/
theorem condition_fuel_unique (N M : Nat) (s : Input) (h1 : condition N s ≠ .fuel)
    (h2 : condition M s ≠ .fuel) : condition N s = condition M s := by
  rcases Nat.le_total N M with hle | hle
  · obtain ⟨k, rfl⟩ := Nat.exists_eq_add_of_le hle
    exact (condition_mono_add k N s h1).symm
  · obtain ⟨k, rfl⟩ := Nat.exists_eq_add_of_le hle
    exact condition_mono_add k M s h2


/-! ## Errors go up to the statement rule -/

theorem after_table_some (n : Nat) (s r4 : Input) (h : after_table n s = some r4) :
    ∃ r1 fs r2 r3 t, no_case "select" s = .ok () r1 ∧ fields n r1 = .ok fs r2
      ∧ no_case "from" r2 = .ok () r3 ∧ table r3 = .ok t r4 := by
  unfold after_table at h
  cases h1 : no_case "select" s with
  | ok u r1 =>
    rw [h1] at h
    simp only at h
    cases h2 : fields n r1 with
    | ok fs r2 =>
      rw [h2] at h
      simp only at h
      cases h3 : no_case "from" r2 with
      | ok u3 r3 =>
        rw [h3] at h
        simp only at h
        cases h4 : table r3 with
        | ok t r4' =>
          rw [h4] at h
          simp only [Option.some.injEq] at h
          subst h
          exact ⟨r1, fs, r2, r3, t, rfl, h2, h3, h4⟩
        | fail p => rw [h4] at h; simp at h
        | error w p => rw [h4] at h; simp at h
        | fuel => rw [h4] at h; simp at h
      | fail p => rw [h3] at h; simp at h
      | error w p => rw [h3] at h; simp at h
      | fuel => rw [h3] at h; simp at h
    | fail p => rw [h2] at h; simp at h
    | error w p => rw [h2] at h; simp at h
    | fuel => rw [h2] at h; simp at h
  | fail p => rw [h1] at h; simp at h
  | error w p => rw [h1] at h; simp at h
  | fuel => rw [h1] at h; simp at h

theorem fields_length (n : Nat) (s r : Input) (fs : List (List Char))
    (h : fields n s = .ok fs r) : r.length < s.length := by
  unfold fields at h
  cases hi : identifier s with
  | ok id r1 =>
    rw [hi] at h
    simp only at h
    have h1 := identifier_length _ _ _ hi
    cases hr : fields_rep n r1 with
    | ok ids r3 =>
      rw [hr] at h
      simp only [Result.ok.injEq] at h
      have := fields_rep_length _ _ _ _ hr
      rw [← h.2]
      omega
    | fail q => rw [hr] at h; simp at h
    | error w q => rw [hr] at h; simp at h
    | fuel => rw [hr] at h; simp at h
  | fail q => rw [hi] at h; simp at h
  | error w q => rw [hi] at h; simp at h
  | fuel => rw [hi] at h; simp at h

theorem after_table_length (n : Nat) (s r4 : Input) (h : after_table n s = some r4) :
    r4.length + 12 ≤ s.length := by
  obtain ⟨r1, fs, r2, r3, t, h1, h2, h3, h4⟩ := after_table_some n s r4 h
  have l1 := no_case_length _ _ _ _ h1
  have l2 := fields_length _ _ _ _ h2
  have l3 := no_case_length _ _ _ _ h3
  have l4 := identifier_length _ _ _ h4
  have e1 : "select".toList.length = 6 := rfl
  have e2 : "from".toList.length = 4 := rfl
  omega

/-- The statement rule goes on with the optional `where` group at the text
after the table name. -/
theorem select_body_after_table (n : Nat) (val : SelectSQL) (s r4 : Input)
    (h : after_table n s = some r4) :
    ∃ fs t, select_body n val s = where_opt n { val with fields := fs, table := t } r4 := by
  obtain ⟨r1, fs, r2, r3, t, h1, h2, h3, h4⟩ := after_table_some n s r4 h
  refine ⟨fs, t, ?_⟩
  unfold select_body
  rw [h1]
  simp only [h2, h3, h4]

/-- An exception thrown by `condition` after `where` is reported by the
error handler of `select`, which fails: no statement is returned. -/
theorem where_error_reported (s r4 r5 : Input) (w : info) (p : Input)
    (h1 : after_table (3 * s.length + 3) s = some r4)
    (h2 : no_case "where" r4 = .ok () r5)
    (h3 : condition (3 * s.length + 3) r5 = .error w p) :
    phrase_parse (3 * s.length + 3) s SelectSQL.init = .failure (some (w, p))
    ∧ parse_line s = none := by
  obtain ⟨fs, t, hb⟩ := select_body_after_table (3 * s.length + 3) SelectSQL.init s r4 h1
  have hw : where_opt (3 * s.length + 3) { SelectSQL.init with fields := fs, table := t } r4
      = .error w p := by
    unfold where_opt
    rw [h2]
    simp only [h3]
  have hp : phrase_parse (3 * s.length + 3) s SelectSQL.init = .failure (some (w, p)) := by
    unfold phrase_parse
    rw [hb, hw]
  refine ⟨hp, ?_⟩
  unfold parse_line
  rw [hp]

theorem compare_fail_of_open (s r : Input) (h : lit '(' s = .ok () r) : compare s = .fail s := by
  unfold lit at h
  unfold compare identifier
  split at h
  · rename_i c cs hsk
    split at h
    · rename_i hc
      subst hc
      rfl
    · simp at h
  · simp at h

/-- In the rules of the condition an exception of the first operand is the
exception of the rule. -/
theorem condition_atom_error_up (n : Nat) (s : Input) (w : info) (p : Input)
    (h : condition_atom n s = .error w p) :
    condition_high (n + 1) s = .error w p ∧ condition (n + 1 + 1) s = .error w p := by
  have h1 : condition_high (n + 1) s = .error w p := by
    rw [condition_high, h]
  refine ⟨h1, ?_⟩
  rw [condition, h1]

/-- An opened parenthesis that is not closed before the end of the input:
`)` is expected at the end. -/
theorem condition_atom_unclosed (n : Nat) (s r1 r2 : Input) (c : Condition)
    (h1 : lit '(' s = .ok () r1) (h2 : condition n r1 = .ok c r2) (h3 : skip_over r2 = []) :
    condition_atom (n + 1) s = .error (lit_what ')') [] := by
  have hclose : lit ')' r2 = .fail [] := by
    unfold lit
    rw [h3]
  rw [condition_atom, compare_fail_of_open s r1 h1]
  simp only [h1, h2, hclose]

/-! ## Keywords in any letter case -/

theorem string_parse_spelled (kw k rest : Input) (h : spells kw k = true) :
    string_parse (kw.map Char.toLower) (kw.map Char.toUpper) (k ++ rest) = some rest := by
  induction kw generalizing k with
  | nil =>
    cases k with
    | nil => rfl
    | cons c cs => simp [spells] at h
  | cons l lo ih =>
    cases k with
    | nil => simp [spells] at h
    | cons c cs =>
      simp only [spells, Bool.and_eq_true, Bool.or_eq_true, decide_eq_true_eq] at h
      simp only [List.map_cons, List.cons_append, string_parse]
      rw [if_pos h.1]
      exact ih cs h.2

/-- A keyword in any letter case is matched, after a blank or at once. -/
theorem no_case_spelled (kw : String) (k rest : Input) (h : spells kw.toList k = true)
    (hk : stops isspace k = true) (hne : k ≠ []) :
    no_case kw (k ++ rest) = .ok () rest ∧ no_case kw (' ' :: (k ++ rest)) = .ok () rest := by
  have hsk : skip_over (k ++ rest) = k ++ rest := by
    cases k with
    | nil => exact absurd rfl hne
    | cons c cs =>
      simp only [stops, Bool.not_eq_true'] at hk
      exact skip_over_cons_of_not_space c _ hk
  have h1 : no_case kw (k ++ rest) = .ok () rest := by
    unfold no_case
    rw [hsk, string_parse_spelled kw.toList k rest h]
  refine ⟨h1, ?_⟩
  have : no_case kw (' ' :: (k ++ rest)) = no_case kw (k ++ rest) := rfl
  rw [this, h1]

theorem spells_and (k : Input) (h : spells "and".toList k = true) :
    stops isspace k = true ∧ k ≠ [] := by
  cases k with
  | nil => simp [spells] at h
  | cons c cs =>
    have hc : c = 'a' ∨ c = 'A' := by
      simp only [spells, Bool.and_eq_true, Bool.or_eq_true, decide_eq_true_eq] at h
      exact h.1
    rcases hc with rfl | rfl <;> exact ⟨rfl, by simp⟩

theorem spells_or (k : Input) (h : spells "or".toList k = true) :
    stops isspace k = true ∧ k ≠ [] ∧ ∀ rest, no_case "and" (' ' :: (k ++ rest))
      = .fail (skip_over (' ' :: (k ++ rest))) := by
  cases k with
  | nil => simp [spells] at h
  | cons c cs =>
    have hc : c = 'o' ∨ c = 'O' := by
      simp only [spells, Bool.and_eq_true, Bool.or_eq_true, decide_eq_true_eq] at h
      exact h.1
    rcases hc with rfl | rfl <;> exact ⟨rfl, by simp, fun _ => rfl⟩

theorem spells_select (k : Input) (h : spells "select".toList k = true) :
    stops isspace k = true ∧ k ≠ [] := by
  cases k with
  | nil => simp [spells] at h
  | cons c cs =>
    have hc : c = 's' ∨ c = 'S' := by
      simp only [spells, Bool.and_eq_true, Bool.or_eq_true, decide_eq_true_eq] at h
      exact h.1
    rcases hc with rfl | rfl <;> exact ⟨rfl, by simp⟩

theorem spells_from (k : Input) (h : spells "from".toList k = true) :
    stops isspace k = true ∧ k ≠ [] ∧ stops isidchar (' ' :: k) = true
      ∧ ∀ rest, lit ',' (' ' :: (k ++ rest)) = .fail (skip_over (' ' :: (k ++ rest))) := by
  cases k with
  | nil => simp [spells] at h
  | cons c cs =>
    have hc : c = 'f' ∨ c = 'F' := by
      simp only [spells, Bool.and_eq_true, Bool.or_eq_true, decide_eq_true_eq] at h
      exact h.1
    rcases hc with rfl | rfl <;> exact ⟨rfl, by simp, rfl, fun _ => rfl⟩

theorem spells_where (k : Input) (h : spells "where".toList k = true) :
    stops isspace k = true ∧ k ≠ [] := by
  cases k with
  | nil => simp [spells] at h
  | cons c cs =>
    have hc : c = 'w' ∨ c = 'W' := by
      simp only [spells, Bool.and_eq_true, Bool.or_eq_true, decide_eq_true_eq] at h
      exact h.1
    rcases hc with rfl | rfl <;> exact ⟨rfl, by simp⟩

/-! ## Source forms are read back as their trees -/

theorem eventually_const {α : Type} (R : Result α) : eventually (fun _ => R) R :=
  ⟨0, fun _ _ => rfl⟩

/-- A result that is not a plain failure is not changed by a blank in front. -/
theorem condition_atom_space_any (n : Nat) (s : Input) (R : Result Condition)
    (h : condition_atom n s = R) (hR : ∀ p, R ≠ .fail p) :
    condition_atom n (' ' :: s) = R := by
  cases n with
  | zero => rw [← h]; rfl
  | succ n =>
    rw [condition_atom] at h ⊢
    cases hc : compare s with
    | ok c rest =>
      rw [compare_space _ _ _ hc]
      rw [hc] at h
      exact h
    | fail p =>
      rw [compare_space_fail _ _ hc]
      rw [hc] at h
      simp only [lit_space] at h ⊢
      cases hl : lit '(' s with
      | ok u r1 => rw [hl] at h; exact h
      | fail q => rw [hl] at h; exact absurd h.symm (hR s)
      | error w q => rw [hl] at h; exact absurd h.symm (hR s)
      | fuel => rw [hl] at h; exact absurd h.symm (hR s)
    | error w p =>
      rw [hc] at h
      have : compare (' ' :: s) = .error w p := by
        unfold compare at hc ⊢
        rw [identifier_space]
        cases hid : identifier s with
        | ok id r1 => rw [hid] at hc; exact hc
        | fail q => rw [hid] at hc; simp at hc
        | error w2 q => rw [hid] at hc; simp at hc
        | fuel => rw [hid] at hc; simp at hc
      rw [this]
      exact h
    | fuel => exact absurd hc (compare_ne_fuel s)

theorem condition_high_space_any (n : Nat) (s : Input) (R : Result Condition)
    (h : condition_high n s = R) (hR : ∀ p, R ≠ .fail p) :
    condition_high n (' ' :: s) = R := by
  cases n with
  | zero => rw [← h]; rfl
  | succ n =>
    rw [condition_high] at h ⊢
    cases hx : condition_atom n s with
    | ok w rest =>
      rw [condition_atom_space_any n s _ hx (by simp)]
      rw [hx] at h
      exact h
    | fail p => rw [hx] at h; exact absurd h.symm (hR s)
    | error w p =>
      rw [condition_atom_space_any n s _ hx (by simp)]
      rw [hx] at h
      exact h
    | fuel =>
      rw [condition_atom_space_any n s _ hx (by simp)]
      rw [hx] at h
      exact h

theorem condition_space_any (n : Nat) (s : Input) (R : Result Condition)
    (h : condition n s = R) (hR : ∀ p, R ≠ .fail p) :
    condition n (' ' :: s) = R := by
  cases n with
  | zero => rw [← h]; rfl
  | succ n =>
    rw [condition] at h ⊢
    cases hx : condition_high n s with
    | ok w rest =>
      rw [condition_high_space_any n s _ hx (by simp)]
      rw [hx] at h
      exact h
    | fail p => rw [hx] at h; exact absurd h.symm (hR s)
    | error w p =>
      rw [condition_high_space_any n s _ hx (by simp)]
      rw [hx] at h
      exact h
    | fuel =>
      rw [condition_high_space_any n s _ hx (by simp)]
      rw [hx] at h
      exact h

/-- After an atom the rule `condition_high` goes on with its repetition. -/
theorem high_of_atom (T X : Input) (t : Condition) (R : Result Condition)
    (hA : eventually (fun n => condition_atom n (T ++ X)) (.ok t X))
    (hR : eventually (fun n => condition_high_rep n t X) R) :
    eventually (fun n => condition_high n (T ++ X)) R := by
  obtain ⟨N1, h1⟩ := hA
  obtain ⟨N2, h2⟩ := hR
  beta_reduce at h1 h2
  refine ⟨N1 + N2 + 1, ?_⟩
  intro n hn
  obtain ⟨m, rfl⟩ : ∃ m, n = m + 1 := ⟨n - 1, by omega⟩
  show condition_high (m + 1) (T ++ X) = R
  rw [condition_high, h1 m (by omega)]
  exact h2 m (by omega)

/-- After a chain of `and` the rule `condition` goes on with its repetition. -/
theorem condition_of_high (T X : Input) (t : Condition) (R : Result Condition)
    (hB : eventually (fun n => condition_high n (T ++ X)) (.ok t X))
    (hR : eventually (fun n => condition_rep n t X) R) :
    eventually (fun n => condition n (T ++ X)) R := by
  obtain ⟨N1, h1⟩ := hB
  obtain ⟨N2, h2⟩ := hR
  beta_reduce at h1 h2
  refine ⟨N1 + N2 + 1, ?_⟩
  intro n hn
  obtain ⟨m, rfl⟩ : ∃ m, n = m + 1 := ⟨n - 1, by omega⟩
  show condition (m + 1) (T ++ X) = R
  rw [condition, h1 m (by omega)]
  exact h2 m (by omega)

theorem high_rep_stops (t : Condition) (X : Input)
    (hX : no_case "and" X = .fail (skip_over X)) :
    eventually (fun n => condition_high_rep n t X) (.ok t X) := by
  refine ⟨1, ?_⟩
  intro n hn
  obtain ⟨m, rfl⟩ : ∃ m, n = m + 1 := ⟨n - 1, by omega⟩
  show condition_high_rep (m + 1) t X = _
  rw [condition_high_rep, hX]

theorem rep_stops (t : Condition) (X : Input)
    (hX : no_case "or" X = .fail (skip_over X)) :
    eventually (fun n => condition_rep n t X) (.ok t X) := by
  refine ⟨1, ?_⟩
  intro n hn
  obtain ⟨m, rfl⟩ : ∃ m, n = m + 1 := ⟨n - 1, by omega⟩
  show condition_rep (m + 1) t X = _
  rw [condition_rep, hX]

/-- One more turn of the repetition of `condition_high`: a keyword `and` in
some spelling and an atom. -/
theorem high_rep_step (acc t : Condition) (kw T X : Input) (R : Result Condition)
    (hkw : spells "and".toList kw = true)
    (hA : eventually (fun n => condition_atom n (T ++ X)) (.ok t X))
    (hR : eventually (fun n => condition_high_rep n (Condition.node acc .kOpTypeAND t) X) R) :
    eventually (fun n => condition_high_rep n acc (' ' :: (kw ++ ' ' :: (T ++ X)))) R := by
  obtain ⟨N1, h1⟩ := hA
  obtain ⟨N2, h2⟩ := hR
  beta_reduce at h1 h2
  obtain ⟨hs, hne⟩ := spells_and kw hkw
  have hk := (no_case_spelled "and" kw (' ' :: (T ++ X)) hkw hs hne).2
  refine ⟨N1 + N2 + 1, ?_⟩
  intro n hn
  obtain ⟨m, rfl⟩ : ∃ m, n = m + 1 := ⟨n - 1, by omega⟩
  show condition_high_rep (m + 1) acc _ = R
  rw [condition_high_rep, hk]
  simp only [condition_atom_space_any m _ _ (h1 m (by omega)) (by simp)]
  exact h2 m (by omega)

/-- One more turn of the repetition of `condition`: a keyword `or` in some
spelling and a chain of `and`. -/
theorem rep_step (acc t : Condition) (kw T X : Input) (R : Result Condition)
    (hkw : spells "or".toList kw = true)
    (hB : eventually (fun n => condition_high n (T ++ X)) (.ok t X))
    (hR : eventually (fun n => condition_rep n (Condition.node acc .kOpTypeOR t) X) R) :
    eventually (fun n => condition_rep n acc (' ' :: (kw ++ ' ' :: (T ++ X)))) R := by
  obtain ⟨N1, h1⟩ := hB
  obtain ⟨N2, h2⟩ := hR
  beta_reduce at h1 h2
  obtain ⟨hs, hne, _⟩ := spells_or kw hkw
  have hk := (no_case_spelled "or" kw (' ' :: (T ++ X)) hkw hs hne).2
  refine ⟨N1 + N2 + 1, ?_⟩
  intro n hn
  obtain ⟨m, rfl⟩ : ∃ m, n = m + 1 := ⟨n - 1, by omega⟩
  show condition_rep (m + 1) acc _ = R
  rw [condition_rep, hk]
  simp only [condition_high_space_any m _ _ (h1 m (by omega)) (by simp)]
  exact h2 m (by omega)

/-- A condition in parentheses is an atom. -/
theorem atom_of_paren (T X : Input) (t : Condition)
    (hC : eventually (fun n => condition n (T ++ ')' :: X)) (.ok t (')' :: X))) :
    eventually (fun n => condition_atom n ('(' :: (T ++ [')']) ++ X)) (.ok t X) := by
  obtain ⟨N1, h1⟩ := hC
  beta_reduce at h1
  refine ⟨N1 + 1, ?_⟩
  intro n hn
  obtain ⟨m, rfl⟩ : ∃ m, n = m + 1 := ⟨n - 1, by omega⟩
  have htxt : '(' :: (T ++ [')']) ++ X = '(' :: (T ++ ')' :: X) := by simp
  have hcmp : ∀ s, compare ('(' :: s) = .fail ('(' :: s) := fun _ => rfl
  have hopen : ∀ s, lit '(' ('(' :: s) = .ok () s := fun _ => rfl
  have hclose : ∀ s, lit ')' (')' :: s) = .ok () s := fun _ => rfl
  show condition_atom (m + 1) _ = _
  rw [htxt, condition_atom, hcmp]
  simp only [hopen, h1 m (by omega), hclose]

theorem level1_of_atom (T : Input) (t : Condition)
    (hA : ∀ X, boundary X = true → eventually (fun n => condition_atom n (T ++ X)) (.ok t X)) :
    ∀ X R, boundary X = true → eventually (fun n => condition_high_rep n t X) R →
      eventually (fun n => condition_high n (T ++ X)) R :=
  fun X R hX hR => high_of_atom T X t R (hA X hX) hR

theorem level2_of_level1 (T : Input) (t : Condition)
    (hB : ∀ X R, boundary X = true → eventually (fun n => condition_high_rep n t X) R →
      eventually (fun n => condition_high n (T ++ X)) R) :
    ∀ X R, boundary X = true → no_case "and" X = .fail (skip_over X) →
      eventually (fun n => condition_rep n t X) R →
      eventually (fun n => condition n (T ++ X)) R :=
  fun X R hX hno hR => condition_of_high T X t R (hB X _ hX (high_rep_stops t X hno)) hR

/-- Every source form of the grammar is read back as its tree: an atom by
`condition_atom`, a chain of `and` by `condition_high` (which then goes on
with its repetition), and any form by `condition` (likewise). -/
theorem src_reads (e : Src) :
    e.valid →
    (e.prec = 0 → ∀ X, boundary X = true →
      eventually (fun n => condition_atom n (e.text ++ X)) (.ok e.tree X))
    ∧ (e.prec ≤ 1 → ∀ X R, boundary X = true →
      eventually (fun n => condition_high_rep n e.tree X) R →
      eventually (fun n => condition_high n (e.text ++ X)) R)
    ∧ (∀ X R, boundary X = true → no_case "and" X = .fail (skip_over X) →
      eventually (fun n => condition_rep n e.tree X) R →
      eventually (fun n => condition n (e.text ++ X)) R) := by
  induction e with
  | cmp A a =>
    intro hv
    have hA : ∀ X, boundary X = true →
        eventually (fun n => condition_atom n (A ++ X)) (.ok (Condition.leaf a) X) := by
      intro X hX
      refine ⟨1, ?_⟩
      intro n hn
      obtain ⟨m, rfl⟩ : ∃ m, n = m + 1 := ⟨n - 1, by omega⟩
      exact condition_atom_comparison m A X a hv hX
    exact ⟨fun _ => hA, fun _ => level1_of_atom A _ hA,
      level2_of_level1 A _ (level1_of_atom A _ hA)⟩
  | paren e ih =>
    intro hv
    obtain ⟨_, _, ihC⟩ := ih hv
    have hA : ∀ X, boundary X = true →
        eventually (fun n => condition_atom n ((Src.paren e).text ++ X)) (.ok e.tree X) := by
      intro X _
      exact atom_of_paren e.text X e.tree
        (ihC (')' :: X) _ rfl rfl (rep_stops e.tree (')' :: X) rfl))
    exact ⟨fun _ => hA, fun _ => level1_of_atom _ _ hA,
      level2_of_level1 _ _ (level1_of_atom _ _ hA)⟩
  | bin l kw op r ihl ihr =>
    intro hv
    obtain ⟨hl, hr, hop⟩ := hv
    obtain ⟨_, ihlB, ihlC⟩ := ihl hl
    obtain ⟨ihrA, ihrB, _⟩ := ihr hr
    have htxt : ∀ X, (Src.bin l kw op r).text ++ X
        = l.text ++ ' ' :: (kw ++ ' ' :: (r.text ++ X)) := by
      intro X
      simp [Src.text]
    rcases hop with ⟨rfl, hkw, hlp, hrp⟩ | ⟨rfl, hkw, hrp⟩
    · have hB : ∀ X R, boundary X = true →
          eventually (fun n => condition_high_rep n (Src.bin l kw .kOpTypeAND r).tree X) R →
          eventually (fun n => condition_high n ((Src.bin l kw .kOpTypeAND r).text ++ X)) R := by
        intro X R hX hR
        rw [htxt]
        exact ihlB hlp _ R rfl (high_rep_step l.tree r.tree kw r.text X R hkw (ihrA hrp X hX) hR)
      refine ⟨fun h => ?_, fun _ => hB, level2_of_level1 _ _ hB⟩
      simp [Src.prec] at h
    · refine ⟨fun h => ?_, fun h => ?_, ?_⟩
      · simp [Src.prec] at h
      · simp [Src.prec] at h
      · intro X R hX hno hR
        rw [htxt]
        exact ihlC _ R rfl ((spells_or kw hkw).2.2 _)
          (rep_step l.tree r.tree kw r.text X R hkw
            (ihrB hrp X _ hX (high_rep_stops r.tree X hno)) hR)

/-- The rule `condition` reads the text of a source form up to the end of
the input or a closing parenthesis, for every bound of `3 * length + 3` or
more. -/
theorem condition_src (e : Src) (hv : e.valid) (X : Input) (hX : closes X = true) (F : Nat)
    (hF : 3 * (e.text ++ X).length + 3 ≤ F) :
    condition F (e.text ++ X) = .ok e.tree X := by
  obtain ⟨N, hN⟩ := (src_reads e hv).2.2 X (.ok e.tree X) (closes_boundary X hX)
    (closes_no_and X hX) (rep_stops e.tree X (closes_no_or X hX))
  exact condition_ok_any_fuel N F _ _ _ (hN N (Nat.le_refl N)) hF


/-! ## Statements with keywords in any letter case -/

theorem select_body_spelled (fuel : Nat) (val : SelectSQL) (kS kF f : Input) (fs : List Input)
    (t Y : Input) (hS : spells "select".toList kS = true) (hF : spells "from".toList kF = true)
    (hf : is_identifier f = true) (hfs : ∀ g ∈ fs, is_identifier g = true)
    (ht : is_identifier t = true) (hY : stops isidchar Y = true)
    (hfuel : fs.length + 1 ≤ fuel) :
    select_body fuel val (statement_text kS kF f fs t ++ Y)
      = where_opt fuel { val with fields := f :: fs, table := t } Y := by
  obtain ⟨hS1, hS2⟩ := spells_select kS hS
  obtain ⟨hF1, hF2, hF3, hF4⟩ := spells_from kF hF
  have htxt : statement_text kS kF f fs t ++ Y
      = kS ++ ' ' :: (f ++ (fields_tail fs ++ ' ' :: (kF ++ ' ' :: (t ++ Y)))) := by
    simp [statement_text]
  have hsel := (no_case_spelled "select" kS
    (' ' :: (f ++ (fields_tail fs ++ ' ' :: (kF ++ ' ' :: (t ++ Y))))) hS hS1 hS2).1
  have hid : identifier (' ' :: (f ++ (fields_tail fs ++ ' ' :: (kF ++ ' ' :: (t ++ Y)))))
      = .ok f (fields_tail fs ++ ' ' :: (kF ++ ' ' :: (t ++ Y))) := by
    rw [identifier_space]
    exact identifier_text f _ hf (fields_tail_stops fs _ rfl)
  have hrep : fields_rep fuel (fields_tail fs ++ ' ' :: (kF ++ ' ' :: (t ++ Y)))
      = .ok fs (' ' :: (kF ++ ' ' :: (t ++ Y))) :=
    fields_rep_text fs fuel _ hfs rfl (hF4 _) hfuel
  have hfrom := (no_case_spelled "from" kF (' ' :: (t ++ Y)) hF hF1 hF2).2
  have htab : table (' ' :: (t ++ Y)) = .ok t Y := by
    unfold table
    rw [identifier_space]
    exact identifier_text t Y ht hY
  rw [htxt]
  unfold select_body
  rw [hsel]
  simp only [fields, hid, hrep, hfrom, htab]

theorem statement_text_length (kS kF f : Input) (fs : List Input) (t : Input) :
    fs.length + 1 ≤ (statement_text kS kF f fs t).length := by
  have := fields_tail_length fs
  simp [statement_text]
  omega

/-- A line with keywords in any letter case and a condition in source form is
accepted with the fields, the table and the tree of the source form. -/
theorem parse_line_spelled (kS kF kW f : Input) (fs : List Input) (t : Input) (e : Src)
    (hS : spells "select".toList kS = true) (hF : spells "from".toList kF = true)
    (hW : spells "where".toList kW = true)
    (hf : is_identifier f = true) (hfs : ∀ g ∈ fs, is_identifier g = true)
    (ht : is_identifier t = true) (he : e.valid) :
    parse_line (statement_text kS kF f fs t ++ where_text kW e)
      = some ⟨f :: fs, t, true, e.tree⟩ := by
  have hlen := statement_text_length kS kF f fs t
  obtain ⟨hW1, hW2⟩ := spells_where kW hW
  have hY : stops isidchar (where_text kW e) = true := rfl
  have hbody := select_body_spelled
    (3 * (statement_text kS kF f fs t ++ where_text kW e).length + 3)
    SelectSQL.init kS kF f fs t (where_text kW e) hS hF hf hfs ht hY
    (by simp only [List.length_append]; omega)
  have hkw : no_case "where" (where_text kW e) = .ok () (' ' :: e.text) :=
    (no_case_spelled "where" kW (' ' :: e.text) hW hW1 hW2).2
  have hlen2 : (' ' :: e.text).length ≤ (where_text kW e).length := by
    simp [where_text]
    omega
  have hcond : condition (3 * (statement_text kS kF f fs t ++ where_text kW e).length + 3)
      (' ' :: e.text) = .ok e.tree [] := by
    apply condition_space
    have := condition_src e he [] rfl
      (3 * (statement_text kS kF f fs t ++ where_text kW e).length + 3)
      (by simp only [List.length_append, List.length_cons, List.length_nil] at hlen2 ⊢; omega)
    simpa using this
  have hw : where_opt (3 * (statement_text kS kF f fs t ++ where_text kW e).length + 3)
      ⟨f :: fs, t, false, Condition.init⟩ (where_text kW e)
      = .ok ⟨f :: fs, t, true, e.tree⟩ [] := by
    unfold where_opt
    rw [hkw]
    simp only [hcond]
  unfold parse_line phrase_parse
  rw [hbody]
  change (match (match where_opt _ ⟨f :: fs, t, false, Condition.init⟩ _ with
    | Result.ok v rest => Parsed.succ v (skip_over rest)
    | Result.fail pos => Parsed.failure none
    | Result.error w p => Parsed.failure (some (w, p))
    | Result.fuel => Parsed.fuel) with
    | Parsed.succ v [] => some v
    | x => none) = _
  rw [hw]
  rfl

/-- A line with keywords in any letter case and no condition. -/
theorem parse_line_spelled_select (kS kF f : Input) (fs : List Input) (t : Input)
    (hS : spells "select".toList kS = true) (hF : spells "from".toList kF = true)
    (hf : is_identifier f = true) (hfs : ∀ g ∈ fs, is_identifier g = true)
    (ht : is_identifier t = true) :
    parse_line (statement_text kS kF f fs t) = some ⟨f :: fs, t, false, Condition.init⟩ := by
  have hlen := statement_text_length kS kF f fs t
  have hbody := select_body_spelled (3 * (statement_text kS kF f fs t).length + 3)
    SelectSQL.init kS kF f fs t [] hS hF hf hfs ht rfl (by omega)
  rw [List.append_nil] at hbody
  unfold parse_line phrase_parse
  rw [hbody]
  rfl

theorem src_lower_tree (e : Src) : e.lower.tree = e.tree := by
  induction e with
  | cmp A a => rfl
  | paren e ih => simpa [Src.lower, Src.tree] using ih
  | bin l kw op r ihl ihr => simp [Src.lower, Src.tree, ihl, ihr]

theorem src_lower_prec (e : Src) : e.lower.prec = e.prec := by
  cases e with
  | cmp A a => rfl
  | paren e => rfl
  | bin l kw op r => cases op <;> rfl

theorem src_lower_valid (e : Src) : e.valid → e.lower.valid := by
  induction e with
  | cmp A a => exact id
  | paren e ih => exact ih
  | bin l kw op r ihl ihr =>
    intro hv
    obtain ⟨hl, hr, hop⟩ := hv
    refine ⟨ihl hl, ihr hr, ?_⟩
    rcases hop with ⟨rfl, _, hlp, hrp⟩ | ⟨rfl, _, hrp⟩
    · left
      exact ⟨rfl, rfl, by rw [src_lower_prec]; exact hlp, by rw [src_lower_prec]; exact hrp⟩
    · right
      exact ⟨rfl, rfl, by rw [src_lower_prec]; exact hrp⟩

/-- The rule `identifier` returns the characters of the source as they are. -/
theorem identifier_exact (s r : Input) (v : List Char) (h : identifier s = .ok v r) :
    skip_over s = v ++ r := by
  unfold identifier at h
  split at h
  · rename_i c cs hsk
    split at h
    · simp only [Result.ok.injEq] at h
      rw [hsk, ← h.1, ← h.2]
      simp
    · simp at h
  · simp at h

theorem compare_column_exact (s r : Input) (c : Compare) (h : compare s = .ok c r) :
    ∃ r1, skip_over s = c.left ++ r1 := by
  unfold compare at h
  cases hid : identifier s with
  | ok id r1 =>
    rw [hid] at h
    simp only at h
    refine ⟨r1, ?_⟩
    have := identifier_exact _ _ _ hid
    cases ho : compare_op r1 with
    | ok op r2 =>
      rw [ho] at h
      simp only at h
      cases hl : literal r2 with
      | ok v r3 =>
        rw [hl] at h
        simp only [Result.ok.injEq] at h
        rw [← h.1]
        exact this
      | fail p => rw [hl] at h; simp at h
      | error w p => rw [hl] at h; simp at h
      | fuel => rw [hl] at h; simp at h
    | fail p => rw [ho] at h; simp at h
    | error w p => rw [ho] at h; simp at h
    | fuel => rw [ho] at h; simp at h
  | fail p => rw [hid] at h; simp at h
  | error w p => rw [hid] at h; simp at h
  | fuel => rw [hid] at h; simp at h

/-! ## An exception in an operand, whatever was read before -/

theorem condition_of_high_error (T : Input) (w : info) (p : Input)
    (hB : eventually (fun n => condition_high n T) (.error w p)) :
    eventually (fun n => condition n T) (.error w p) := by
  obtain ⟨N1, h1⟩ := hB
  beta_reduce at h1
  refine ⟨N1 + 1, ?_⟩
  intro n hn
  obtain ⟨m, rfl⟩ : ∃ m, n = m + 1 := ⟨n - 1, by omega⟩
  show condition (m + 1) T = _
  rw [condition, h1 m (by omega)]

theorem high_of_atom_error (T : Input) (w : info) (p : Input)
    (hA : eventually (fun n => condition_atom n T) (.error w p)) :
    eventually (fun n => condition_high n T) (.error w p) := by
  obtain ⟨N1, h1⟩ := hA
  beta_reduce at h1
  refine ⟨N1 + 1, ?_⟩
  intro n hn
  obtain ⟨m, rfl⟩ : ∃ m, n = m + 1 := ⟨n - 1, by omega⟩
  show condition_high (m + 1) T = _
  rw [condition_high, h1 m (by omega)]

theorem high_rep_step_error (acc : Condition) (kw T : Input) (w : info) (p : Input)
    (hkw : spells "and".toList kw = true)
    (hA : eventually (fun n => condition_atom n T) (.error w p)) :
    eventually (fun n => condition_high_rep n acc (' ' :: (kw ++ ' ' :: T))) (.error w p) := by
  obtain ⟨N1, h1⟩ := hA
  beta_reduce at h1
  obtain ⟨hs, hne⟩ := spells_and kw hkw
  have hk := (no_case_spelled "and" kw (' ' :: T) hkw hs hne).2
  refine ⟨N1 + 1, ?_⟩
  intro n hn
  obtain ⟨m, rfl⟩ : ∃ m, n = m + 1 := ⟨n - 1, by omega⟩
  show condition_high_rep (m + 1) acc _ = _
  rw [condition_high_rep, hk]
  simp only [condition_atom_space_any m _ _ (h1 m (by omega)) (by simp)]

theorem rep_step_error (acc : Condition) (kw T : Input) (w : info) (p : Input)
    (hkw : spells "or".toList kw = true)
    (hB : eventually (fun n => condition_high n T) (.error w p)) :
    eventually (fun n => condition_rep n acc (' ' :: (kw ++ ' ' :: T))) (.error w p) := by
  obtain ⟨N1, h1⟩ := hB
  beta_reduce at h1
  obtain ⟨hs, hne, _⟩ := spells_or kw hkw
  have hk := (no_case_spelled "or" kw (' ' :: T) hkw hs hne).2
  refine ⟨N1 + 1, ?_⟩
  intro n hn
  obtain ⟨m, rfl⟩ : ∃ m, n = m + 1 := ⟨n - 1, by omega⟩
  show condition_rep (m + 1) acc _ = _
  rw [condition_rep, hk]
  simp only [condition_high_space_any m _ _ (h1 m (by omega)) (by simp)]

theorem atom_of_paren_error (T : Input) (w : info) (p : Input)
    (hC : eventually (fun n => condition n T) (.error w p)) :
    eventually (fun n => condition_atom n ('(' :: T)) (.error w p) := by
  obtain ⟨N1, h1⟩ := hC
  beta_reduce at h1
  refine ⟨N1 + 1, ?_⟩
  intro n hn
  obtain ⟨m, rfl⟩ : ∃ m, n = m + 1 := ⟨n - 1, by omega⟩
  have hcmp : ∀ s, compare ('(' :: s) = .fail ('(' :: s) := fun _ => rfl
  have hopen : ∀ s, lit '(' ('(' :: s) = .ok () s := fun _ => rfl
  show condition_atom (m + 1) _ = _
  rw [condition_atom, hcmp]
  simp only [hopen, h1 m (by omega)]

/-- An exception of an operand is the exception of `condition`, whatever
valid operands and keywords were read before it at this level. -/
theorem frame_error (fr : Frame) (hv : fr.valid) (Z : Input) (w : info) (p : Input)
    (hZ : eventually (fun n => condition_atom n Z) (.error w p)) :
    eventually (fun n => condition n (fr.pre ++ Z)) (.error w p) := by
  obtain ⟨orp, andp⟩ := fr
  obtain ⟨hvo, hva⟩ := hv
  -- the chain of `and` in front of the operand
  have hhigh : eventually (fun n => condition_high n (keyword_pre andp ++ Z)) (.error w p) := by
    cases andp with
    | none => exact high_of_atom_error Z w p hZ
    | some gk =>
      obtain ⟨g, kw⟩ := gk
      obtain ⟨hg, hgp, hkw⟩ := hva
      have htxt : keyword_pre (some (g, kw)) ++ Z = g.text ++ ' ' :: (kw ++ ' ' :: Z) := by
        simp [keyword_pre]
      rw [htxt]
      exact (src_reads g hg).2.1 hgp _ _ rfl (high_rep_step_error g.tree kw Z w p hkw hZ)
  cases orp with
  | none =>
    simp only [Frame.pre, keyword_pre, List.nil_append]
    exact condition_of_high_error _ w p hhigh
  | some hk =>
    obtain ⟨h, kw⟩ := hk
    obtain ⟨hh, hkw⟩ := hvo
    have htxt : Frame.pre ⟨some (h, kw), andp⟩ ++ Z
        = h.text ++ ' ' :: (kw ++ ' ' :: (keyword_pre andp ++ Z)) := by
      simp [Frame.pre, keyword_pre]
    rw [htxt]
    exact (src_reads h hh).2.2 _ _ rfl ((spells_or kw hkw).2.2 _)
      (rep_step_error h.tree kw _ w p hkw hhigh)

theorem hole_atom_error (frs : List Frame) (hv : ∀ fr ∈ frs, fr.valid) (Z : Input) (w : info)
    (p : Input) (hZ : eventually (fun n => condition_atom n Z) (.error w p)) :
    eventually (fun n => condition_atom n (hole_atom frs Z)) (.error w p) := by
  induction frs with
  | nil => exact hZ
  | cons fr frs ih =>
    have := ih (fun g hg => hv g (List.mem_cons_of_mem fr hg))
    exact atom_of_paren_error _ w p
      (frame_error fr (hv fr (List.mem_cons_self fr frs)) _ w p this)

/-! ## Unterminated text literals -/

theorem dropWhile_not_mem (q : Char) (cs : Input) (h : q ∉ cs) :
    ∀ c rest, cs.dropWhile (fun c => ischar c && c != q) = c :: rest → c ≠ q := by
  intro c rest hd hc
  have hmem : c ∈ cs := by
    have : c ∈ cs.dropWhile (fun c => ischar c && c != q) := by rw [hd]; simp
    exact (List.dropWhile_sublist _).subset this
  exact h (hc ▸ hmem)

/-- A text literal whose quote does not reappear: the closing quote is
expected where the text ends. -/
theorem string_literal_unterminated (s : Input) (q : Char) (cs : Input)
    (hs : skip_over s = q :: cs) (hq : q = Char.ofNat 34 ∨ q = Char.ofNat 39) (hcs : q ∉ cs) :
    string_literal s = .error (quote_what q) (unterminated_at q cs) := by
  unfold string_literal unterminated_at
  rw [hs]
  simp only [hq, if_true]
  cases hd : cs.dropWhile (fun c => ischar c && c != q) with
  | nil => rfl
  | cons c rest =>
    simp only
    rw [if_neg (dropWhile_not_mem q cs hcs c rest hd)]

theorem unterminated_at_ascii (q : Char) (cs : Input) (hcs : q ∉ cs)
    (hascii : ∀ c ∈ cs, ischar c = true) : unterminated_at q cs = [] := by
  unfold unterminated_at
  rw [List.dropWhile_eq_nil_iff]
  intro c hc
  have : c ≠ q := fun e => hcs (e ▸ hc)
  simp [hascii c hc, this]

theorem literal_unterminated (s : Input) (q : Char) (cs : Input)
    (hs : skip_over s = q :: cs) (hq : q = Char.ofNat 34 ∨ q = Char.ofNat 39) (hcs : q ∉ cs) :
    literal s = .error (quote_what q) (unterminated_at q cs) := by
  unfold literal
  rw [string_literal_unterminated s q cs hs hq hcs]

theorem compare_unterminated (col : Input) (e : List Char × CompareOpType) (q : Char)
    (cs : Input) (hcol : is_identifier col = true) (he : e ∈ compare_op_table)
    (hq : q = Char.ofNat 34 ∨ q = Char.ofNat 39) (hcs : q ∉ cs) :
    compare (col ++ e.1 ++ q :: cs) = .error (quote_what q) (unterminated_at q cs) := by
  have hqs : isspace q = false := by rcases hq with h | h <;> subst h <;> decide
  have hqe : q ≠ '=' := by rcases hq with h | h <;> subst h <;> decide
  have hid : identifier (col ++ (e.1 ++ q :: cs)) = .ok col (e.1 ++ q :: cs) :=
    identifier_text col _ hcol (op_char_stops e _ he)
  have hop : compare_op (e.1 ++ q :: cs) = .ok e.2 (q :: cs) :=
    compare_op_text e _ he (by simp [stops, hqe])
  have hlit := literal_unterminated (q :: cs) q cs (skip_over_cons_of_not_space q cs hqs) hq hcs
  rw [List.append_assoc]
  unfold compare
  rw [hid]
  simp only [hop, hlit]

/-- A line `select f1, ..., fn from t where W` on whose condition `W` the rule
`condition` throws: the handler of `select` reports that exception and the
line is rejected. -/
theorem parse_line_where_error (f : Input) (fs : List Input) (t W : Input) (w : info)
    (p : Input) (hf : is_identifier f = true) (hfs : ∀ g ∈ fs, is_identifier g = true)
    (ht : is_identifier t = true)
    (hcond : eventually (fun n => condition n W) (.error w p)) :
    phrase_parse (3 * (select_text f fs t ++ (" where".toList ++ W)).length + 3)
        (select_text f fs t ++ (" where".toList ++ W)) SelectSQL.init
      = .failure (some (w, p))
    ∧ parse_line (select_text f fs t ++ (" where".toList ++ W)) = none := by
  have hlen := select_text_length f fs t
  obtain ⟨N, hN⟩ := hcond
  beta_reduce at hN
  have hN' := hN N (Nat.le_refl N)
  have hF : condition (3 * (select_text f fs t ++ (" where".toList ++ W)).length + 3) W
      = .error w p := by
    rw [condition_any_fuel N _ W (by rw [hN']; simp)
      (by simp only [List.length_append]; omega), hN']
  have hbody := select_body_text (3 * (select_text f fs t ++ (" where".toList ++ W)).length + 3)
    SelectSQL.init f fs t (" where".toList ++ W) hf hfs ht rfl
    (by simp only [List.length_append]; omega)
  have hkw : no_case "where" (" where".toList ++ W) = .ok () W := rfl
  have hw : where_opt (3 * (select_text f fs t ++ (" where".toList ++ W)).length + 3)
      { SelectSQL.init with fields := f :: fs, table := t } (" where".toList ++ W)
      = .error w p := by
    unfold where_opt
    rw [hkw]
    simp only [hF]
  have hp : phrase_parse (3 * (select_text f fs t ++ (" where".toList ++ W)).length + 3)
      (select_text f fs t ++ (" where".toList ++ W)) SelectSQL.init
      = .failure (some (w, p)) := by
    unfold phrase_parse
    rw [hbody, hw]
  refine ⟨hp, ?_⟩
  unfold parse_line
  rw [hp]

theorem unterminated_line_rejected (f : Input) (fs : List Input) (t : Input) (fr : Frame)
    (frs : List Frame) (col : Input) (e : List Char × CompareOpType) (q : Char) (cs : Input)
    (hf : is_identifier f = true) (hfs : ∀ g ∈ fs, is_identifier g = true)
    (ht : is_identifier t = true) (hfr : fr.valid) (hfrs : ∀ g ∈ frs, g.valid)
    (hcol : is_identifier col = true) (he : e ∈ compare_op_table)
    (hq : q = Char.ofNat 34 ∨ q = Char.ofNat 39) (hcs : q ∉ cs) :
    phrase_parse (3 * (unterminated_line f fs t fr frs col e q cs).length + 3)
        (unterminated_line f fs t fr frs col e q cs) SelectSQL.init
      = .failure (some (quote_what q, unterminated_at q cs))
    ∧ parse_line (unterminated_line f fs t fr frs col e q cs) = none := by
  have hZ : eventually (fun n => condition_atom n (col ++ e.1 ++ q :: cs))
      (.error (quote_what q) (unterminated_at q cs)) := by
    refine ⟨1, ?_⟩
    intro n hn
    obtain ⟨m, rfl⟩ : ∃ m, n = m + 1 := ⟨n - 1, by omega⟩
    show condition_atom (m + 1) _ = _
    rw [condition_atom, compare_unterminated col e q cs hcol he hq hcs]
  have hW := frame_error fr hfr _ _ _ (hole_atom_error frs hfrs _ _ _ hZ)
  have hW' : eventually (fun n => condition n
      (' ' :: (fr.pre ++ hole_atom frs (col ++ e.1 ++ q :: cs))))
      (.error (quote_what q) (unterminated_at q cs)) := by
    obtain ⟨N, hN⟩ := hW
    exact ⟨N, fun n hn => condition_space_any n _ _ (hN n hn) (by simp)⟩
  have htxt : unterminated_line f fs t fr frs col e q cs
      = select_text f fs t ++ (" where".toList
          ++ (' ' :: (fr.pre ++ hole_atom frs (col ++ e.1 ++ q :: cs)))) := by
    simp [unterminated_line, List.append_assoc]
  rw [htxt]
  exact parse_line_where_error f fs t _ _ _ hf hfs ht hW'

/-! ## What the rules can return -/

theorem identifier_is_identifier (s r : Input) (v : List Char) (h : identifier s = .ok v r) :
    is_identifier v = true := by
  unfold identifier at h
  split at h
  · rename_i c cs hsk
    split at h
    · rename_i hc
      simp only [Result.ok.injEq] at h
      rw [← h.1]
      simp only [is_identifier, hc, Bool.true_and, List.all_eq_true]
      intro x hx
      exact List.mem_takeWhile_imp hx
    · simp at h
  · simp at h

theorem tst_find_mem {α : Type} (t : List (List Char × α)) (s : Input) (n : Nat) (v : α)
    (h : tst_find t s = some (n, v)) : ∃ k, (k, v) ∈ t := by
  induction t generalizing n v with
  | nil => simp [tst_find] at h
  | cons kv t ih =>
    obtain ⟨k, w⟩ := kv
    unfold tst_find at h
    cases ht : tst_find t s with
    | none =>
      rw [ht] at h
      simp only at h
      split at h
      · simp only [Option.some.injEq, Prod.mk.injEq] at h
        exact ⟨k, by rw [← h.2]; simp⟩
      · simp at h
    | some p =>
      obtain ⟨m, u⟩ := p
      rw [ht] at h
      simp only at h
      split at h
      · simp only [Option.some.injEq, Prod.mk.injEq] at h
        exact ⟨k, by rw [← h.2]; simp⟩
      · simp only [Option.some.injEq, Prod.mk.injEq] at h
        obtain ⟨k2, hk2⟩ := ih m u ht
        exact ⟨k2, by rw [← h.2]; simp [hk2]⟩

theorem compare_op_ne_none (s r : Input) (v : CompareOpType) (h : compare_op s = .ok v r) :
    v ≠ .none := by
  unfold compare_op at h
  split at h
  · rename_i n w hf
    simp only [Result.ok.injEq] at h
    obtain ⟨k, hk⟩ := tst_find_mem _ _ _ _ hf
    rw [← h.1]
    simp only [compare_op_table, List.mem_cons, List.mem_singleton, Prod.mk.injEq,
      List.not_mem_nil, or_false] at hk
    rcases hk with ⟨_, rfl⟩ | ⟨_, rfl⟩ | ⟨_, rfl⟩ | ⟨_, rfl⟩ | ⟨_, rfl⟩ | ⟨_, rfl⟩ <;> simp
  · simp at h

theorem extract_int_range (bits : Nat) (s r : Input) (n : Int)
    (h : extract_int bits s = some (n, r)) :
    -(2 : Int) ^ (bits - 1) ≤ n ∧ n < (2 : Int) ^ (bits - 1) := by
  unfold extract_int at h
  simp only at h
  have hpos : (0 : Int) < (2 : Int) ^ (bits - 1) := by positivity
  split at h
  · simp at h
  · split at h
    · split at h
      · rename_i hle
        simp only [Option.some.injEq, Prod.mk.injEq] at h
        rw [← h.1]
        have : ((decimal ((extract_sign s).2.takeWhile isdigit) : Nat) : Int)
            ≤ (2 : Int) ^ (bits - 1) := by exact_mod_cast hle
        constructor <;> omega
      · simp at h
    · split at h
      · rename_i hlt
        simp only [Option.some.injEq, Prod.mk.injEq] at h
        rw [← h.1]
        have : ((decimal ((extract_sign s).2.takeWhile isdigit) : Nat) : Int)
            < (2 : Int) ^ (bits - 1) := by exact_mod_cast hlt
        constructor <;> omega
      · simp at h

theorem long_range (s r : Input) (n : Int) (h : long_ s = .ok n r) :
    -(2 : Int) ^ 63 ≤ n ∧ n < (2 : Int) ^ 63 := by
  unfold long_ at h
  cases he : extract_int 64 (skip_over s) with
  | none => rw [he] at h; simp at h
  | some p =>
    obtain ⟨m, t⟩ := p
    rw [he] at h
    simp only [Result.ok.injEq] at h
    rw [← h.1]
    exact extract_int_range 64 _ _ _ he

theorem real_exponent_parsed (neg : Bool) (digits frac : Nat) (e_pos r : Input) (x : Real64)
    (h : real_exponent neg digits frac e_pos = .ok x r) : x.parsed = true := by
  have hneg : Real64.parsed (.num neg digits (- (frac : Int))) = true := by
    simp only [Real64.parsed, decide_eq_true_eq]
    have : (0 : Int) < (2 : Int) ^ 31 := by norm_num
    omega
  unfold real_exponent at h
  split at h
  · split at h
    · cases he : extract_int 32 _ with
      | none =>
        rw [he] at h
        simp only [Result.ok.injEq] at h
        rw [← h.1]
        exact hneg
      | some p =>
        obtain ⟨e, t⟩ := p
        rw [he] at h
        simp only [Result.ok.injEq] at h
        rw [← h.1]
        have hr := (extract_int_range 32 _ _ _ he).2
        simp only [Real64.parsed, decide_eq_true_eq]
        norm_num at hr ⊢
        omega
    · simp only [Result.ok.injEq] at h
      rw [← h.1]
      exact hneg
  · simp only [Result.ok.injEq] at h
    rw [← h.1]
    exact hneg

theorem real_tail_parsed (save : Input) (neg : Bool) (n first r : Input) (x : Real64)
    (h : real_tail save neg n first = .ok x r) : x.parsed = true := by
  unfold real_tail at h
  split at h
  · split at h
    · simp at h
    · exact real_exponent_parsed _ _ _ _ _ _ h
  · split at h
    · simp at h
    · split at h
      · exact real_exponent_parsed _ _ _ _ _ _ h
      · simp at h
  · simp at h

theorem real_impl_parsed (save r : Input) (x : Real64) (h : real_impl save = .ok x r) :
    x.parsed = true := by
  unfold real_impl at h
  split at h
  · simp at h
  · split at h
    · split at h
      · simp only [Result.ok.injEq] at h
        rw [← h.1]
        rfl
      · split at h
        · simp only [Result.ok.injEq] at h
          rw [← h.1]
          rfl
        · exact real_tail_parsed _ _ _ _ _ _ h
    · exact real_tail_parsed _ _ _ _ _ _ h

theorem number_literal_parsed (s r : Input) (v : Literal) (h : number_literal s = .ok v r) :
    v.parsed = true := by
  unfold number_literal at h
  cases hr : strict_real s with
  | ok x rest =>
    rw [hr] at h
    simp only [Result.ok.injEq] at h
    rw [← h.1]
    exact real_impl_parsed _ _ _ hr
  | fail pos =>
    rw [hr] at h
    simp only at h
    cases hl : long_ pos with
    | ok n rest =>
      rw [hl] at h
      simp only [Result.ok.injEq] at h
      rw [← h.1]
      have := long_range _ _ _ hl
      simp only [Literal.parsed, Bool.and_eq_true, decide_eq_true_eq]
      exact this
    | fail p => rw [hl] at h; simp at h
    | error w p => rw [hl] at h; simp at h
    | fuel => rw [hl] at h; simp at h
  | error w p => rw [hr] at h; simp at h
  | fuel => rw [hr] at h; simp at h

theorem bool_literal_parsed (s r : Input) (v : Literal) (h : bool_literal s = .ok v r) :
    v.parsed = true := by
  unfold bool_literal at h
  cases hb : bool_ s with
  | ok b rest =>
    rw [hb] at h
    simp only [Result.ok.injEq] at h
    rw [← h.1]
    rfl
  | fail p => rw [hb] at h; simp at h
  | error w p => rw [hb] at h; simp at h
  | fuel => rw [hb] at h; simp at h

theorem string_literal_parsed (s r : Input) (v : Literal) (h : string_literal s = .ok v r) :
    v.parsed = true := by
  unfold string_literal at h
  split at h
  · rename_i q cs hsk
    split at h
    · rename_i hq
      split at h
      · split at h
        · simp only [Result.ok.injEq] at h
          rw [← h.1]
          have hall : ∀ x ∈ cs.takeWhile (fun c => ischar c && c != q),
              ischar x = true ∧ x ≠ q := by
            intro x hx
            have := List.mem_takeWhile_imp hx
            simpa using this
          simp only [Literal.parsed, Bool.and_eq_true, Bool.or_eq_true, List.all_eq_true,
            bne_iff_ne, ne_eq]
          refine ⟨fun x hx => (hall x hx).1, ?_⟩
          rcases hq with rfl | rfl
          · exact Or.inl (fun x hx => (hall x hx).2)
          · exact Or.inr (fun x hx => (hall x hx).2)
        · simp at h
      · simp at h
    · simp at h
  · simp at h

theorem literal_parsed (s r : Input) (v : Literal) (h : literal s = .ok v r) :
    v.parsed = true := by
  unfold literal at h
  cases hs : string_literal s with
  | ok x rest =>
    rw [hs] at h
    simp only [Result.ok.injEq] at h
    rw [← h.1]
    exact string_literal_parsed _ _ _ hs
  | fail pos =>
    rw [hs] at h
    simp only at h
    cases hb : bool_literal pos with
    | ok x rest =>
      rw [hb] at h
      simp only [Result.ok.injEq] at h
      rw [← h.1]
      exact bool_literal_parsed _ _ _ hb
    | fail pos2 =>
      rw [hb] at h
      exact number_literal_parsed _ _ _ h
    | error w p => rw [hb] at h; simp at h
    | fuel => rw [hb] at h; simp at h
  | error w p => rw [hs] at h; simp at h
  | fuel => rw [hs] at h; simp at h

theorem compare_parsed (s r : Input) (c : Compare) (h : compare s = .ok c r) :
    c.parsed = true := by
  unfold compare at h
  cases hid : identifier s with
  | ok id r1 =>
    rw [hid] at h
    simp only at h
    cases ho : compare_op r1 with
    | ok op r2 =>
      rw [ho] at h
      simp only at h
      cases hl : literal r2 with
      | ok v r3 =>
        rw [hl] at h
        simp only [Result.ok.injEq] at h
        rw [← h.1]
        simp [Compare.parsed, identifier_is_identifier _ _ _ hid, compare_op_ne_none _ _ _ ho,
          literal_parsed _ _ _ hl]
      | fail p => rw [hl] at h; simp at h
      | error w p => rw [hl] at h; simp at h
      | fuel => rw [hl] at h; simp at h
    | fail p => rw [ho] at h; simp at h
    | error w p => rw [ho] at h; simp at h
    | fuel => rw [ho] at h; simp at h
  | fail p => rw [hid] at h; simp at h
  | error w p => rw [hid] at h; simp at h
  | fuel => rw [hid] at h; simp at h

/-! ## Well-formed condition trees -/

theorem leaf_well_formed (c : Compare) (h : c.parsed = true) :
    (Condition.leaf c).well_formed = true := by
  simp [Condition.well_formed, Condition.leaf, Condition.toNode, Condition.init,
    NodeType.well_formed, h]

theorem node_well_formed (l r : Condition) (op : OpType) (hop : op ≠ .kOpTypeNONE)
    (hl : l.well_formed = true) (hr : r.well_formed = true) :
    (Condition.node l op r).well_formed = true := by
  unfold Condition.well_formed at *
  cases op with
  | kOpTypeNONE => exact absurd rfl hop
  | kOpTypeAND => simp [Condition.node, Condition.toNode, NodeType.well_formed] at *; exact ⟨hl, hr⟩
  | kOpTypeOR => simp [Condition.node, Condition.toNode, NodeType.well_formed] at *; exact ⟨hl, hr⟩

theorem condition_well_formed (n : Nat) :
    (∀ s v r, condition_atom n s = .ok v r → v.well_formed = true)
    ∧ (∀ s v r, condition_high n s = .ok v r → v.well_formed = true)
    ∧ (∀ s v r, condition n s = .ok v r → v.well_formed = true)
    ∧ (∀ acc s v r, acc.well_formed = true → condition_high_rep n acc s = .ok v r →
        v.well_formed = true)
    ∧ (∀ acc s v r, acc.well_formed = true → condition_rep n acc s = .ok v r →
        v.well_formed = true) := by
  induction n with
  | zero =>
    refine ⟨?_, ?_, ?_, ?_, ?_⟩ <;> intros <;> rename_i h <;>
      first
        | simp [condition_atom] at h
        | simp [condition_high] at h
        | simp [condition] at h
        | simp [condition_high_rep] at h
        | simp [condition_rep] at h
  | succ n ih =>
    obtain ⟨ia, ib, ic, id, ie⟩ := ih
    refine ⟨?_, ?_, ?_, ?_, ?_⟩
    · intro s v r h
      unfold condition_atom at h
      cases hc : compare s with
      | ok c rest =>
        rw [hc] at h
        simp only [Result.ok.injEq] at h
        rw [← h.1]
        exact leaf_well_formed c (compare_parsed _ _ _ hc)
      | fail p =>
        rw [hc] at h
        simp only at h
        cases hl : lit '(' s with
        | ok u r1 =>
          rw [hl] at h
          simp only at h
          cases hcond : condition n r1 with
          | ok w r2 =>
            rw [hcond] at h
            simp only at h
            cases hr : lit ')' r2 with
            | ok u3 r3 =>
              rw [hr] at h
              simp only [Result.ok.injEq] at h
              rw [← h.1]
              exact ic _ _ _ hcond
            | fail q => rw [hr] at h; simp at h
            | error w q => rw [hr] at h; simp at h
            | fuel => rw [hr] at h; simp at h
          | fail q => rw [hcond] at h; simp at h
          | error w q => rw [hcond] at h; simp at h
          | fuel => rw [hcond] at h; simp at h
        | fail q => rw [hl] at h; simp at h
        | error w q => rw [hl] at h; simp at h
        | fuel => rw [hl] at h; simp at h
      | error w p => rw [hc] at h; simp at h
      | fuel => rw [hc] at h; simp at h
    · intro s v r h
      unfold condition_high at h
      cases hc : condition_atom n s with
      | ok w rest =>
        rw [hc] at h
        simp only at h
        exact id _ _ _ _ (ia _ _ _ hc) h
      | fail q => rw [hc] at h; simp at h
      | error w q => rw [hc] at h; simp at h
      | fuel => rw [hc] at h; simp at h
    · intro s v r h
      unfold condition at h
      cases hc : condition_high n s with
      | ok w rest =>
        rw [hc] at h
        simp only at h
        exact ie _ _ _ _ (ib _ _ _ hc) h
      | fail q => rw [hc] at h; simp at h
      | error w q => rw [hc] at h; simp at h
      | fuel => rw [hc] at h; simp at h
    · intro acc s v r hacc h
      unfold condition_high_rep at h
      rcases no_case_cases "and" s with ⟨r1, hk⟩ | hk
      · rw [hk] at h
        simp only at h
        cases hc : condition_atom n r1 with
        | ok w r2 =>
          rw [hc] at h
          simp only at h
          exact id _ _ _ _ (node_well_formed acc w .kOpTypeAND (by simp) hacc (ia _ _ _ hc)) h
        | fail q => rw [hc] at h; simp at h
        | error w q => rw [hc] at h; simp at h
        | fuel => rw [hc] at h; simp at h
      · rw [hk] at h
        simp only [Result.ok.injEq] at h
        rw [← h.1]
        exact hacc
    · intro acc s v r hacc h
      unfold condition_rep at h
      rcases no_case_cases "or" s with ⟨r1, hk⟩ | hk
      · rw [hk] at h
        simp only at h
        cases hc : condition_high n r1 with
        | ok w r2 =>
          rw [hc] at h
          simp only at h
          exact ie _ _ _ _ (node_well_formed acc w .kOpTypeOR (by simp) hacc (ib _ _ _ hc)) h
        | fail q => rw [hc] at h; simp at h
        | error w q => rw [hc] at h; simp at h
        | fuel => rw [hc] at h; simp at h
      · rw [hk] at h
        simp only [Result.ok.injEq] at h
        rw [← h.1]
        exact hacc

theorem parse_line_condition (sql : Input) (v : SelectSQL) (h : parse_line sql = some v)
    (hc : v.has_condition = true) :
    ∃ s r, condition (3 * sql.length + 3) s = .ok v.condition r := by
  obtain ⟨rest, hb, _⟩ := parse_line_some sql v h
  obtain ⟨fs, t, r4, _, _, hw⟩ := select_body_ok _ _ _ _ _ hb
  rcases where_opt_ok _ _ _ _ _ hw with ⟨r5, _, hcond, _⟩ | ⟨_, hv, _⟩
  · exact ⟨r5, rest, hcond⟩
  · rw [hv] at hc
    simp [SelectSQL.init] at hc

theorem well_formed_cases (l r : NodeType) (op : OpType)
    (h : (NodeType.condition l op r).well_formed = true) :
    (op = .kOpTypeNONE ∧ (∃ c, l = .compare c ∧ c.parsed = true ∧ c ≠ Compare.init)
        ∧ r = .compare Compare.init)
    ∨ ((op = .kOpTypeAND ∨ op = .kOpTypeOR)
        ∧ (∃ l1 o1 l2, l = .condition l1 o1 l2 ∧ l.well_formed = true)
        ∧ (∃ r1 o2 r2, r = .condition r1 o2 r2 ∧ r.well_formed = true)) := by
  have sub : ∀ x : NodeType, x.well_formed = true →
      ∃ a o b, x = .condition a o b ∧ x.well_formed = true := by
    intro x hx
    cases x with
    | compare c => simp [NodeType.well_formed] at hx
    | condition a o b => exact ⟨a, o, b, rfl, hx⟩
  cases op with
  | kOpTypeNONE =>
    left
    simp only [NodeType.well_formed, Bool.and_eq_true, decide_eq_true_eq] at h
    refine ⟨rfl, ?_, h.2⟩
    cases l with
    | compare c =>
      refine ⟨c, rfl, h.1, ?_⟩
      rintro rfl
      exact absurd h.1 (by decide)
    | condition a o b => simp at h
  | kOpTypeAND =>
    right
    simp only [NodeType.well_formed, Bool.and_eq_true] at h
    exact ⟨Or.inl rfl, sub l h.1, sub r h.2⟩
  | kOpTypeOR =>
    right
    simp only [NodeType.well_formed, Bool.and_eq_true] at h
    exact ⟨Or.inr rfl, sub l h.1, sub r h.2⟩

/-- C19: every node of a condition tree returned by a successful parse is
well formed.  The tree returned by the rule `condition`, and the tree of a
statement accepted with a `where` clause, satisfy `well_formed` at every
node: a node with `op` NONE is a leaf whose left member holds a `Compare` as
the rule `compare` returns it (not the value-initialised one) and whose right
member is the untouched value-initialised variant; a node with `op` AND or OR
holds a well-formed `Condition` in both members. -/
theorem condition_tree_well_formed :
    (∀ (n : Nat) (s r : Input) (v : Condition), condition n s = .ok v r →
      v.well_formed = true)
    ∧ (∀ (sql : Input) (v : SelectSQL), parse_line sql = some v → v.has_condition = true →
      v.condition.well_formed = true)
    ∧ (∀ (l r : NodeType) (op : OpType), (NodeType.condition l op r).well_formed = true →
      (op = .kOpTypeNONE ∧ (∃ c, l = .compare c ∧ c.parsed = true ∧ c ≠ Compare.init)
          ∧ r = .compare Compare.init)
      ∨ ((op = .kOpTypeAND ∨ op = .kOpTypeOR)
          ∧ (∃ l1 o1 l2, l = .condition l1 o1 l2 ∧ l.well_formed = true)
          ∧ (∃ r1 o2 r2, r = .condition r1 o2 r2 ∧ r.well_formed = true))) := by
  refine ⟨fun n s r v h => (condition_well_formed n).2.2.1 s v r h, ?_, well_formed_cases⟩
  intro sql v h hc
  obtain ⟨s, r, hcond⟩ := parse_line_condition sql v h hc
  exact (condition_well_formed _).2.2.1 s _ r hcond

theorem condition_tree_well_formed_witness :
    (Condition.node (Condition.node (Condition.leaf ⟨['a'], .kTypeEQ, ⟨.kTypeLong, .long 1⟩⟩)
        .kOpTypeOR (Condition.leaf ⟨['b'], .kTypeLT, ⟨.kTypeString, .string ['x']⟩⟩))
      .kOpTypeAND (Condition.leaf ⟨['c'], .kTypeNE, ⟨.kTypeBool, .bool true⟩⟩)).well_formed = true
    ∧ (Condition.leaf ⟨['a'], .kTypeEQ, ⟨.kTypeLong, .long 1⟩⟩).well_formed = true :=
  ⟨condition_tree_well_formed.1 12 "(a=1 or b<'x') and c!=true".toList [] _ (by decide),
   condition_tree_well_formed.2.1 "select f from t where a=1".toList
     ⟨[['f']], ['t'], true, Condition.leaf ⟨['a'], .kTypeEQ, ⟨.kTypeLong, .long 1⟩⟩⟩
     (by decide) rfl⟩

/-! ## What follows a match does not change it -/

theorem ends_of_closing (T : Input) (h : closing T = true) : ends T = true := by
  cases T with
  | nil => rfl
  | cons c t =>
    by_cases hc : isspace c = true
    · simp [ends, hc]
    · simp only [Bool.not_eq_true] at hc
      simp only [closing, skip_over_cons_of_not_space c t hc, closes] at h
      simp [ends, h]

theorem ends_head (T : Input) (h : ends T = true) :
    T = [] ∨ ∃ c t, T = c :: t ∧ (isspace c = true ∨ c = ')') := by
  cases T with
  | nil => exact Or.inl rfl
  | cons c t =>
    simp only [ends, Bool.or_eq_true, decide_eq_true_eq] at h
    exact Or.inr ⟨c, t, rfl, h⟩

theorem ends_stops (p : Char → Bool)
    (hp : ∀ c, (isspace c = true ∨ c = ')') → p c = false) (T : Input) (h : ends T = true) :
    stops p T = true := by
  rcases ends_head T h with rfl | ⟨c, t, rfl, hc⟩
  · rfl
  · simp [stops, hp c hc]

theorem space_not_isidchar (c : Char) (h : isspace c = true ∨ c = ')') : isidchar c = false := by
  rcases h with h | rfl
  · have hu : c ≠ '_' := by rintro rfl; exact absurd h (by decide)
    simp only [isspace, Bool.or_eq_true, Bool.and_eq_true, decide_eq_true_eq] at h
    simp only [isidchar, isalnum, isalpha, isdigit, Bool.or_eq_false_iff, Bool.and_eq_false_iff,
      decide_eq_false_iff_not]
    refine ⟨⟨⟨?_, ?_⟩, ?_⟩, hu⟩ <;> omega
  · decide

theorem space_not_isdigit (c : Char) (h : isspace c = true ∨ c = ')') : isdigit c = false := by
  have := space_not_isidchar c h
  simp only [isidchar, isalnum, Bool.or_eq_false_iff] at this
  exact this.1.2

theorem space_not_isalpha (c : Char) (h : isspace c = true ∨ c = ')') : isalpha c = false := by
  have := space_not_isidchar c h
  simp only [isidchar, isalnum, Bool.or_eq_false_iff] at this
  exact this.1.1

theorem takeWhile_append_ends (p : Char → Bool) (l T : Input) (hT : stops p T = true) :
    (l ++ T).takeWhile p = l.takeWhile p ∧ (l ++ T).dropWhile p = l.dropWhile p ++ T := by
  induction l with
  | nil =>
    cases T with
    | nil => exact ⟨rfl, rfl⟩
    | cons c t =>
      simp only [stops, Bool.not_eq_true'] at hT
      simp [List.takeWhile, List.dropWhile, hT]
  | cons a l ih =>
    by_cases ha : p a = true
    · simp [List.takeWhile, List.dropWhile, ha, ih.1, ih.2]
    · simp only [Bool.not_eq_true] at ha
      simp [List.takeWhile, List.dropWhile, ha]

theorem takeWhile_append_found (p : Char → Bool) (l T : Input) (a : Char) (r : Input)
    (h : l.dropWhile p = a :: r) :
    (l ++ T).takeWhile p = l.takeWhile p ∧ (l ++ T).dropWhile p = a :: (r ++ T) := by
  induction l with
  | nil => simp at h
  | cons b l ih =>
    by_cases hb : p b = true
    · simp only [List.dropWhile, hb] at h
      have := ih h
      simp [List.takeWhile, List.dropWhile, hb, this.1, this.2]
    · simp only [Bool.not_eq_true] at hb
      simp only [List.dropWhile, hb, List.cons.injEq] at h
      obtain ⟨rfl, rfl⟩ := h
      simp [List.takeWhile, List.dropWhile, hb]

theorem skip_over_append_cons (s T : Input) (c : Char) (cs : Input)
    (h : skip_over s = c :: cs) : skip_over (s ++ T) = c :: (cs ++ T) :=
  (takeWhile_append_found isspace s T c cs h).2

theorem skip_over_append_nil (s T : Input) (h : skip_over s = []) :
    skip_over (s ++ T) = skip_over T := by
  induction s with
  | nil => rfl
  | cons a s ih =>
    by_cases ha : isspace a = true
    · rw [skip_over_cons_of_space a s ha] at h
      rw [List.cons_append, skip_over_cons_of_space a _ ha]
      exact ih h
    · simp only [Bool.not_eq_true] at ha
      rw [skip_over_cons_of_not_space a s ha] at h
      simp at h

theorem skip_over_closing (T : Input) (h : closing T = true) :
    skip_over T = [] ∨ ∃ t, skip_over T = ')' :: t := by
  unfold closing at h
  cases hs : skip_over T with
  | nil => exact Or.inl rfl
  | cons c t =>
    rw [hs] at h
    simp only [closes, decide_eq_true_eq] at h
    exact Or.inr ⟨t, by rw [h]⟩

theorem string_parse_append_some (lo hi s r T : Input) (h : string_parse lo hi s = some r) :
    string_parse lo hi (s ++ T) = some (r ++ T) := by
  induction lo generalizing hi s with
  | nil =>
    simp only [string_parse, Option.some.injEq] at h
    subst h
    simp [string_parse]
  | cons l lo ih =>
    cases hi with
    | nil => simp [string_parse] at h
    | cons u hi =>
      cases s with
      | nil => simp [string_parse] at h
      | cons c cs =>
        simp only [string_parse] at h
        simp only [List.cons_append, string_parse]
        split at h
        · rename_i hc
          simp only [hc, if_true]
          exact ih _ _ h
        · simp at h

theorem string_parse_append_none (lo hi s T : Input) (h : string_parse lo hi s = none)
    (hT : ∀ c t, T = c :: t → c ∉ lo ∧ c ∉ hi) :
    string_parse lo hi (s ++ T) = none := by
  induction lo generalizing hi s with
  | nil => simp [string_parse] at h
  | cons l lo ih =>
    cases hi with
    | nil => simp [string_parse]
    | cons u hi =>
      have hT2 : ∀ c t, T = c :: t → c ∉ lo ∧ c ∉ hi := by
        intro c t e
        have := hT c t e
        simp only [List.mem_cons, not_or] at this
        exact ⟨this.1.2, this.2.2⟩
      cases s with
      | nil =>
        cases T with
        | nil => simp [string_parse]
        | cons c t =>
          have := hT c t rfl
          simp only [List.mem_cons, not_or] at this
          simp [string_parse, this.1.1, this.2.1]
      | cons c cs =>
        simp only [string_parse] at h
        simp only [List.cons_append, string_parse]
        split at h
        · rename_i hc
          simp only [hc, if_true]
          exact ih _ _ h hT2
        · rename_i hc
          simp [hc]

theorem ends_not_mem (T : Input) (hT : ends T = true) (k : List Char)
    (hk : ∀ x ∈ k, isspace x = false ∧ x ≠ ')') : ∀ c t, T = c :: t → c ∉ k := by
  intro c t e hc
  subst e
  have h1 := hk c hc
  simp only [ends, Bool.or_eq_true, decide_eq_true_eq] at hT
  rcases hT with h | h
  · rw [h1.1] at h
    exact absurd h (by decide)
  · exact h1.2 h

theorem no_case_append_ok (kw : String) (s r T : Input) (h : no_case kw s = .ok () r)
    (hne : string_parse (kw.toList.map Char.toLower) (kw.toList.map Char.toUpper) [] = none) :
    no_case kw (s ++ T) = .ok () (r ++ T) := by
  unfold no_case at h ⊢
  cases hs : skip_over s with
  | nil =>
    rw [hs, hne] at h
    simp at h
  | cons c cs =>
    rw [hs] at h
    rw [skip_over_append_cons s T c cs hs]
    cases hp : string_parse (kw.toList.map Char.toLower) (kw.toList.map Char.toUpper) (c :: cs) with
    | none => rw [hp] at h; simp at h
    | some r1 =>
      rw [hp] at h
      simp only [Result.ok.injEq, true_and] at h
      have := string_parse_append_some _ _ _ _ T hp
      rw [List.cons_append] at this
      rw [this, h]

theorem no_case_append_fail (kw : String) (s p T : Input) (h : no_case kw s = .fail p)
    (hT : closing T = true)
    (hlo : ∀ x ∈ kw.toList.map Char.toLower, isspace x = false ∧ x ≠ ')')
    (hhi : ∀ x ∈ kw.toList.map Char.toUpper, isspace x = false ∧ x ≠ ')')
    (hne : string_parse (kw.toList.map Char.toLower) (kw.toList.map Char.toUpper) [] = none) :
    no_case kw (s ++ T) = .fail (skip_over (s ++ T)) := by
  have hclose : ∀ X, (X = [] ∨ ∃ t, X = ')' :: t) →
      string_parse (kw.toList.map Char.toLower) (kw.toList.map Char.toUpper) X = none := by
    intro X hX
    rcases hX with rfl | ⟨t, rfl⟩
    · exact hne
    · have := string_parse_append_none _ _ [] (')' :: t) hne (by
        intro c u e
        simp only [List.cons.injEq] at e
        rw [← e.1]
        exact ⟨fun hm => (hlo _ hm).2 rfl, fun hm => (hhi _ hm).2 rfl⟩)
      simpa using this
  unfold no_case at h ⊢
  cases hs : skip_over s with
  | nil =>
    rw [skip_over_append_nil s T hs, hclose _ (skip_over_closing T hT)]
  | cons c cs =>
    rw [hs] at h
    rw [skip_over_append_cons s T c cs hs]
    cases hp : string_parse (kw.toList.map Char.toLower) (kw.toList.map Char.toUpper) (c :: cs) with
    | some r1 => rw [hp] at h; simp at h
    | none =>
      have hE := ends_of_closing T hT
      have := string_parse_append_none _ _ _ T hp (fun a t e =>
        ⟨ends_not_mem T hE _ hlo a t e, ends_not_mem T hE _ hhi a t e⟩)
      rw [List.cons_append] at this
      rw [this]

theorem no_and_append (s p T : Input) (h : no_case "and" s = .fail p) (hT : closing T = true) :
    no_case "and" (s ++ T) = .fail (skip_over (s ++ T)) :=
  no_case_append_fail "and" s p T h hT (by decide) (by decide) rfl

theorem no_or_append (s p T : Input) (h : no_case "or" s = .fail p) (hT : closing T = true) :
    no_case "or" (s ++ T) = .fail (skip_over (s ++ T)) :=
  no_case_append_fail "or" s p T h hT (by decide) (by decide) rfl

theorem lit_append_ok (ch : Char) (s r T : Input) (h : lit ch s = .ok () r) :
    lit ch (s ++ T) = .ok () (r ++ T) := by
  unfold lit at h ⊢
  cases hs : skip_over s with
  | nil => rw [hs] at h; simp at h
  | cons c cs =>
    rw [hs] at h
    rw [skip_over_append_cons s T c cs hs]
    simp only at h ⊢
    split at h
    · rename_i hc
      simp only [Result.ok.injEq, true_and] at h
      simp [hc, h]
    · simp at h

theorem identifier_append_ok (s r T : Input) (v : List Char) (h : identifier s = .ok v r)
    (hT : ends T = true) : identifier (s ++ T) = .ok v (r ++ T) := by
  unfold identifier at h ⊢
  cases hs : skip_over s with
  | nil => rw [hs] at h; simp at h
  | cons c cs =>
    rw [hs] at h
    rw [skip_over_append_cons s T c cs hs]
    simp only at h ⊢
    have := takeWhile_append_ends isidchar cs T (ends_stops isidchar space_not_isidchar T hT)
    split at h
    · rename_i hc
      simp only [Result.ok.injEq] at h
      simp only [hc, if_true, this.1, this.2, Result.ok.injEq]
      exact ⟨h.1, by rw [h.2]⟩
    · simp at h

theorem identifier_fail_pos (s p : Input) (h : identifier s = .fail p) :
    (skip_over s = [] ∨ ∃ c cs, skip_over s = c :: cs ∧ isalpha c = false) := by
  unfold identifier at h
  cases hs : skip_over s with
  | nil => exact Or.inl rfl
  | cons c cs =>
    rw [hs] at h
    simp only at h
    split at h
    · simp at h
    · rename_i hc
      exact Or.inr ⟨c, cs, rfl, by simpa using hc⟩

theorem identifier_append_fail (s p T : Input) (h : identifier s = .fail p)
    (hT : closing T = true) : identifier (s ++ T) = .fail (skip_over (s ++ T)) := by
  rcases identifier_fail_pos s p h with hs | ⟨c, cs, hs, hc⟩
  · unfold identifier
    rw [skip_over_append_nil s T hs]
    rcases skip_over_closing T hT with e | ⟨t, e⟩
    · rw [e]
    · rw [e]
      rfl
  · unfold identifier
    rw [skip_over_append_cons s T c cs hs]
    simp [hc]

theorem starts_with_append (k x T : Input) (hT : ∀ c t, T = c :: t → c ∉ k) :
    starts_with k (x ++ T) = starts_with k x := by
  induction k generalizing x with
  | nil => simp [starts_with]
  | cons a k ih =>
    have hT2 : ∀ c t, T = c :: t → c ∉ k := by
      intro c t e hm
      exact hT c t e (List.mem_cons_of_mem _ hm)
    cases x with
    | nil =>
      cases T with
      | nil => rfl
      | cons c t =>
        have := hT c t rfl
        simp only [List.mem_cons, not_or] at this
        have hne : ¬ a = c := fun e => this.1 e.symm
        simp [starts_with, hne]
    | cons b x =>
      show (decide (a = b) && starts_with k (x ++ T)) = (decide (a = b) && starts_with k x)
      rw [ih x hT2]

theorem starts_with_length (k x : Input) (h : starts_with k x = true) : k.length ≤ x.length := by
  induction k generalizing x with
  | nil => simp
  | cons a k ih =>
    cases x with
    | nil => simp [starts_with] at h
    | cons b x =>
      simp only [starts_with, Bool.and_eq_true] at h
      have := ih x h.2
      simp only [List.length_cons]
      omega

theorem tst_find_append {α : Type} (t : List (List Char × α)) (x T : Input)
    (hT : ∀ kv ∈ t, ∀ c u, T = c :: u → c ∉ kv.1) :
    tst_find t (x ++ T) = tst_find t x := by
  induction t with
  | nil => rfl
  | cons kv t ih =>
    obtain ⟨k, v⟩ := kv
    have h1 := starts_with_append k x T (hT (k, v) (List.mem_cons_self _ _))
    have h2 := ih (fun kv hkv => hT kv (List.mem_cons_of_mem _ hkv))
    simp only [tst_find, h1, h2]

theorem tst_find_length {α : Type} (t : List (List Char × α)) (x : Input) (n : Nat) (v : α)
    (h : tst_find t x = some (n, v)) : n ≤ x.length := by
  induction t generalizing n v with
  | nil => simp [tst_find] at h
  | cons kv t ih =>
    obtain ⟨k, w⟩ := kv
    unfold tst_find at h
    cases ht : tst_find t x with
    | none =>
      rw [ht] at h
      simp only at h
      split at h
      · rename_i hs
        simp only [Option.some.injEq, Prod.mk.injEq] at h
        rw [← h.1]
        exact starts_with_length k x hs
      · simp at h
    | some p =>
      obtain ⟨m, u⟩ := p
      rw [ht] at h
      simp only at h
      split at h
      · rename_i hs
        simp only [Bool.and_eq_true] at hs
        simp only [Option.some.injEq, Prod.mk.injEq] at h
        rw [← h.1]
        exact starts_with_length k x hs.1
      · simp only [Option.some.injEq, Prod.mk.injEq] at h
        rw [← h.1]
        exact ih m u ht

theorem compare_op_append_ok (s r T : Input) (v : CompareOpType) (h : compare_op s = .ok v r)
    (hT : ends T = true) : compare_op (s ++ T) = .ok v (r ++ T) := by
  unfold compare_op at h ⊢
  cases hs : skip_over s with
  | nil =>
    rw [hs] at h
    simp [tst_find, compare_op_table, starts_with] at h
  | cons c cs =>
    rw [hs] at h
    rw [skip_over_append_cons s T c cs hs, ← List.cons_append]
    have hx := tst_find_append compare_op_table (c :: cs) T (by
      intro kv hkv
      apply ends_not_mem T hT
      simp only [compare_op_table, List.mem_cons, List.mem_singleton, List.not_mem_nil,
        or_false] at hkv
      rcases hkv with rfl | rfl | rfl | rfl | rfl | rfl <;> decide)
    rw [hx]
    cases hf : tst_find compare_op_table (c :: cs) with
    | none => rw [hf] at h; simp at h
    | some p =>
      obtain ⟨n, w⟩ := p
      rw [hf] at h
      simp only [Result.ok.injEq] at h
      simp only [Result.ok.injEq]
      refine ⟨h.1, ?_⟩
      rw [← h.2, List.drop_append_of_le_length (tst_find_length _ _ _ _ hf)]

theorem string_literal_append_ok (s r T : Input) (v : Literal)
    (h : string_literal s = .ok v r) : string_literal (s ++ T) = .ok v (r ++ T) := by
  unfold string_literal at h ⊢
  cases hs : skip_over s with
  | nil => rw [hs] at h; simp at h
  | cons q cs =>
    rw [hs] at h
    rw [skip_over_append_cons s T q cs hs]
    simp only at h ⊢
    split at h
    · rename_i hq
      simp only [hq, if_true]
      cases hd : cs.dropWhile (fun c => ischar c && c != q) with
      | nil => rw [hd] at h; simp at h
      | cons c rest =>
        rw [hd] at h
        have := takeWhile_append_found _ cs T c rest hd
        rw [this.1, this.2]
        simp only at h ⊢
        split at h
        · rename_i hc
          simp only [Result.ok.injEq] at h
          simp only [hc, if_true, Result.ok.injEq]
          exact ⟨h.1, by rw [h.2]⟩
        · simp at h
    · simp at h

theorem string_literal_append_fail (s p T : Input) (h : string_literal s = .fail p)
    (hs : skip_over s ≠ []) : string_literal (s ++ T) = .fail (p ++ T) := by
  unfold string_literal at h ⊢
  cases hsk : skip_over s with
  | nil => exact absurd hsk hs
  | cons q cs =>
    rw [hsk] at h
    rw [skip_over_append_cons s T q cs hsk]
    simp only at h ⊢
    split at h
    · split at h
      · split at h <;> simp at h
      · simp at h
    · rename_i hq
      simp only [Result.fail.injEq] at h
      simp [hq, ← h]

theorem bool_append_ok (s r T : Input) (b : Bool) (h : bool_ s = .ok b r) :
    bool_ (s ++ T) = .ok b (r ++ T) := by
  unfold bool_ at h ⊢
  cases hs : skip_over s with
  | nil => rw [hs] at h; simp [string_parse] at h
  | cons c cs =>
    rw [hs] at h
    rw [skip_over_append_cons s T c cs hs, ← List.cons_append]
    cases h1 : string_parse "true".toList "true".toList (c :: cs) with
    | some r1 =>
      rw [h1] at h
      simp only [Result.ok.injEq] at h
      rw [string_parse_append_some _ _ _ _ T h1]
      simp [h.1, h.2]
    | none =>
      rw [h1] at h
      simp only at h
      cases h2 : string_parse "false".toList "false".toList (c :: cs) with
      | some r2 =>
        rw [h2] at h
        simp only [Result.ok.injEq] at h
        have hn : string_parse "true".toList "true".toList ((c :: cs) ++ T) = none := by
          cases c2 : string_parse "true".toList "true".toList ((c :: cs) ++ T) with
          | none => rfl
          | some r3 =>
            exfalso
            have a1 := (string_parse_exact _ _ _).1 h2
            rw [a1] at c2
            simp [string_parse] at c2
        rw [hn, string_parse_append_some _ _ _ _ T h2]
        simp [h.1, h.2]
      | none => rw [h2] at h; simp at h

theorem bool_append_fail (s p T : Input) (h : bool_ s = .fail p) (hT : ends T = true)
    (hs : skip_over s ≠ []) : bool_ (s ++ T) = .fail (skip_over s ++ T) := by
  unfold bool_ at h ⊢
  cases hsk : skip_over s with
  | nil => exact absurd hsk hs
  | cons c cs =>
    rw [hsk] at h
    rw [skip_over_append_cons s T c cs hsk, ← List.cons_append]
    cases h1 : string_parse "true".toList "true".toList (c :: cs) with
    | some r1 => rw [h1] at h; simp at h
    | none =>
      rw [h1] at h
      simp only at h
      cases h2 : string_parse "false".toList "false".toList (c :: cs) with
      | some r2 => rw [h2] at h; simp at h
      | none =>
        rw [string_parse_append_none _ _ _ T h1 (fun a t e =>
            ⟨ends_not_mem T hT _ (by decide) a t e, ends_not_mem T hT _ (by decide) a t e⟩),
          string_parse_append_none _ _ _ T h2 (fun a t e =>
            ⟨ends_not_mem T hT _ (by decide) a t e, ends_not_mem T hT _ (by decide) a t e⟩)]

theorem extract_sign_append (x T : Input) (hT : ends T = true) :
    extract_sign (x ++ T) = ((extract_sign x).1, (extract_sign x).2 ++ T) := by
  cases x with
  | nil =>
    rcases ends_head T hT with rfl | ⟨c, t, rfl, hc⟩
    · rfl
    · have h1 : c ≠ '-' := by
        rintro rfl
        rcases hc with h | h <;> exact absurd h (by decide)
      have h2 : c ≠ '+' := by
        rintro rfl
        rcases hc with h | h <;> exact absurd h (by decide)
      simp [extract_sign, h1, h2]
  | cons c cs =>
    simp only [List.cons_append, extract_sign]
    split
    · rfl
    · split <;> rfl

theorem extract_int_append (bits : Nat) (x T : Input) (hT : ends T = true) :
    extract_int bits (x ++ T)
      = (extract_int bits x).map (fun p => (p.1, p.2 ++ T)) := by
  have hd := takeWhile_append_ends isdigit (extract_sign x).2 T
    (ends_stops isdigit space_not_isdigit T hT)
  unfold extract_int
  simp only [extract_sign_append x T hT, hd.1, hd.2]
  split
  · rfl
  · split
    · split <;> rfl
    · split <;> rfl

theorem parse_nan_append_true (x r T : Input) (h : parse_nan x = (true, r))
    (hT : ends T = true) : parse_nan (x ++ T) = (true, r ++ T) := by
  unfold parse_nan at h ⊢
  cases hp : string_parse "nan".toList "NAN".toList x with
  | none => rw [hp] at h; simp at h
  | some rest =>
    rw [hp] at h
    rw [string_parse_append_some _ _ _ _ T hp]
    simp only at h ⊢
    cases rest with
    | nil =>
      simp only [Prod.mk.injEq, true_and] at h
      subst h
      rcases ends_head T hT with rfl | ⟨c, t, rfl, hc⟩
      · rfl
      · have h1 : c ≠ '(' := by
          rintro rfl
          rcases hc with h | h <;> exact absurd h (by decide)
        simp only [List.nil_append]
        split
        · rename_i more e
          simp only [List.cons.injEq] at e
          exact absurd e.1 h1
        · rfl
    | cons c more =>
      by_cases hc : c = '('
      · subst hc
        simp only [List.cons_append] at h ⊢
        cases hd : more.dropWhile (fun c => c != ')') with
        | nil => rw [hd] at h; simp at h
        | cons a after =>
          rw [hd] at h
          simp only [Prod.mk.injEq, true_and] at h
          rw [(takeWhile_append_found _ more T a after hd).2]
          simp [h]
      · split at h
        · rename_i m e
          simp only [List.cons.injEq] at e
          exact absurd e.1 hc
        · simp only [Prod.mk.injEq, true_and] at h
          subst h
          simp only [List.cons_append]
          split
          · rename_i m e
            simp only [List.cons.injEq] at e
            exact absurd e.1 hc
          · rfl

theorem parse_nan_false (x f : Input) (h : parse_nan x = (false, f)) :
    (f = x ∧ string_parse "nan".toList "NAN".toList x = none) ∨ (∃ m, f = '(' :: m) := by
  unfold parse_nan at h
  cases hp : string_parse "nan".toList "NAN".toList x with
  | none =>
    rw [hp] at h
    simp only [Prod.mk.injEq, true_and] at h
    exact Or.inl ⟨h.symm, rfl⟩
  | some rest =>
    rw [hp] at h
    simp only at h
    split at h
    · rename_i more
      split at h
      · simp at h
      · simp only [Prod.mk.injEq, true_and] at h
        exact Or.inr ⟨more, h.symm⟩
    · simp at h

theorem parse_nan_append_none (x T : Input)
    (h : string_parse "nan".toList "NAN".toList x = none) (hT : ends T = true) :
    parse_nan (x ++ T) = (false, x ++ T) := by
  unfold parse_nan
  rw [string_parse_append_none _ _ _ T h (fun a t e =>
    ⟨ends_not_mem T hT _ (by decide) a t e, ends_not_mem T hT _ (by decide) a t e⟩)]

theorem parse_inf_append (x T : Input) (hT : ends T = true) :
    parse_inf (x ++ T) = (parse_inf x).map (fun r => r ++ T) := by
  unfold parse_inf
  cases h1 : string_parse "inf".toList "INF".toList x with
  | none =>
    rw [string_parse_append_none _ _ _ T h1 (fun a t e =>
      ⟨ends_not_mem T hT _ (by decide) a t e, ends_not_mem T hT _ (by decide) a t e⟩)]
    rfl
  | some rest =>
    rw [string_parse_append_some _ _ _ _ T h1]
    simp only
    cases h2 : string_parse "inity".toList "INITY".toList rest with
    | none =>
      rw [string_parse_append_none _ _ _ T h2 (fun a t e =>
        ⟨ends_not_mem T hT _ (by decide) a t e, ends_not_mem T hT _ (by decide) a t e⟩)]
      rfl
    | some r2 =>
      rw [string_parse_append_some _ _ _ _ T h2]
      rfl

theorem real_exponent_append (neg : Bool) (digits frac : Nat) (e_pos r T : Input) (x : Real64)
    (h : real_exponent neg digits frac e_pos = .ok x r) (hT : ends T = true) :
    real_exponent neg digits frac (e_pos ++ T) = .ok x (r ++ T) := by
  unfold real_exponent at h ⊢
  cases e_pos with
  | nil =>
    simp only [Result.ok.injEq] at h
    rcases ends_head T hT with rfl | ⟨c, t, rfl, hc⟩
    · simp [h.1, ← h.2]
    · have h1 : ¬ (c = 'e' ∨ c = 'E') := by
        rintro (rfl | rfl) <;> rcases hc with h | h <;> exact absurd h (by decide)
      simp only [List.nil_append, h1, if_false, Result.ok.injEq]
      exact ⟨h.1, by rw [← h.2]; rfl⟩
  | cons c cs =>
    simp only [List.cons_append] at h ⊢
    split at h
    · rename_i hc
      simp only [hc, if_true]
      rw [extract_int_append 32 cs T hT]
      cases he : extract_int 32 cs with
      | none =>
        rw [he] at h
        simp only [Result.ok.injEq] at h
        simp only [Option.map_none', Result.ok.injEq]
        exact ⟨h.1, by rw [← h.2]; rfl⟩
      | some p =>
        rw [he] at h
        simp only [Result.ok.injEq] at h
        simp only [Option.map_some', Result.ok.injEq]
        exact ⟨h.1, by rw [h.2]⟩
    · rename_i hc
      simp only [Result.ok.injEq] at h
      simp only [hc, if_false, Result.ok.injEq]
      exact ⟨h.1, by rw [← h.2]; rfl⟩

theorem real_tail_cons (save : Input) (neg : Bool) (n : Input) (c : Char) (cs : Input)
    (hc : c ≠ '.') :
    real_tail save neg n (c :: cs)
      = if n = [] then .fail save
        else if c = 'e' ∨ c = 'E' then real_exponent neg (decimal n) 0 (c :: cs)
        else .fail save := by
  unfold real_tail
  split
  · rename_i s3 e
    simp only [List.cons.injEq] at e
    exact absurd e.1 hc
  · rename_i c2 cs2 _ e
    simp only [List.cons.injEq] at e
    obtain ⟨rfl, rfl⟩ := e
    rfl
  · rename_i e
    simp at e

theorem real_tail_dot (save : Input) (neg : Bool) (n s3 : Input) :
    real_tail save neg n ('.' :: s3)
      = if s3.takeWhile isdigit = [] ∧ n = [] then .fail save
        else real_exponent neg (decimal (n ++ s3.takeWhile isdigit))
          (s3.takeWhile isdigit).length (s3.dropWhile isdigit) := rfl

theorem real_exponent_ne_fail (neg : Bool) (digits frac : Nat) (e_pos q : Input) :
    real_exponent neg digits frac e_pos ≠ .fail q := by
  unfold real_exponent
  split
  · split
    · split <;> simp
    · simp
  · simp

theorem real_tail_append_ok (save save2 : Input) (neg : Bool) (n first r T : Input) (x : Real64)
    (h : real_tail save neg n first = .ok x r) (hT : ends T = true) :
    real_tail save2 neg n (first ++ T) = .ok x (r ++ T) := by
  cases first with
  | nil => simp [real_tail] at h
  | cons c cs =>
    by_cases hc : c = '.'
    · subst hc
      rw [real_tail_dot] at h
      rw [List.cons_append, real_tail_dot]
      have hd := takeWhile_append_ends isdigit cs T (ends_stops isdigit space_not_isdigit T hT)
      rw [hd.1, hd.2]
      split at h
      · simp at h
      · rename_i hn
        simp only [hn, if_false]
        exact real_exponent_append _ _ _ _ _ _ _ h hT
    · rw [real_tail_cons _ _ _ _ _ hc] at h
      rw [List.cons_append, real_tail_cons _ _ _ _ _ hc]
      split at h
      · simp at h
      · rename_i hn
        simp only [hn, if_false]
        split at h
        · rename_i he
          simp only [he, if_true]
          have := real_exponent_append _ _ _ _ _ T _ h hT
          rw [List.cons_append] at this
          exact this
        · simp at h

theorem real_tail_append_fail (save save2 : Input) (neg : Bool) (n first p T : Input)
    (h : real_tail save neg n first = .fail p) (hT : ends T = true) :
    real_tail save2 neg n (first ++ T) = .fail save2 := by
  cases first with
  | nil =>
    rcases ends_head T hT with rfl | ⟨c, t, rfl, hc⟩
    · rfl
    · have h1 : c ≠ '.' := by
        rintro rfl
        rcases hc with h | h <;> exact absurd h (by decide)
      have h2 : ¬ (c = 'e' ∨ c = 'E') := by
        rintro (rfl | rfl) <;> rcases hc with h | h <;> exact absurd h (by decide)
      rw [List.nil_append, real_tail_cons _ _ _ _ _ h1]
      simp [h2]
  | cons c cs =>
    by_cases hc : c = '.'
    · subst hc
      rw [real_tail_dot] at h
      rw [List.cons_append, real_tail_dot]
      have hd := takeWhile_append_ends isdigit cs T (ends_stops isdigit space_not_isdigit T hT)
      rw [hd.1, hd.2]
      split at h
      · rename_i hn
        simp [hn]
      · exact absurd h (real_exponent_ne_fail _ _ _ _ _)
    · rw [real_tail_cons _ _ _ _ _ hc] at h
      rw [List.cons_append, real_tail_cons _ _ _ _ _ hc]
      split at h
      · rename_i hn
        simp [hn]
      · rename_i hn
        split at h
        · exact absurd h (real_exponent_ne_fail _ _ _ _ _)
        · rename_i he
          simp [hn, he]

theorem real_tail_fail_pos (save : Input) (neg : Bool) (n first p : Input)
    (h : real_tail save neg n first = .fail p) : p = save := by
  cases first with
  | nil => simp [real_tail] at h; exact h.symm
  | cons c cs =>
    by_cases hc : c = '.'
    · subst hc
      rw [real_tail_dot] at h
      split at h
      · simp at h; exact h.symm
      · exact absurd h (real_exponent_ne_fail _ _ _ _ _)
    · rw [real_tail_cons _ _ _ _ _ hc] at h
      split at h
      · simp at h; exact h.symm
      · split at h
        · exact absurd h (real_exponent_ne_fail _ _ _ _ _)
        · simp at h; exact h.symm

theorem real_impl_fail_pos (x p : Input) (h : real_impl x = .fail p) : p = x := by
  unfold real_impl at h
  split at h
  · simp at h; exact h.symm
  · split at h
    · cases hp : parse_nan (extract_sign x).2 with
      | mk b f =>
        rw [hp] at h
        cases b with
        | true => simp at h
        | false =>
          simp only at h
          cases hi : parse_inf f with
          | some rest => rw [hi] at h; simp at h
          | none =>
            rw [hi] at h
            exact real_tail_fail_pos _ _ _ _ _ h
    · exact real_tail_fail_pos _ _ _ _ _ h

theorem real_impl_append_ok (x r T : Input) (v : Real64) (h : real_impl x = .ok v r)
    (hT : ends T = true) : real_impl (x ++ T) = .ok v (r ++ T) := by
  have hx : x ≠ [] := by
    rintro rfl
    simp [real_impl] at h
  have hxT : x ++ T ≠ [] := by simp [hx]
  have hd := takeWhile_append_ends isdigit (extract_sign x).2 T
    (ends_stops isdigit space_not_isdigit T hT)
  unfold real_impl at h ⊢
  simp only [hx, hxT, if_false, extract_sign_append x T hT, hd.1, hd.2] at h ⊢
  split at h
  · rename_i hdig
    simp only [hdig, if_true]
    cases hp : parse_nan (extract_sign x).2 with
    | mk b f =>
      rw [hp] at h
      cases b with
      | true =>
        simp only [Result.ok.injEq] at h
        rw [parse_nan_append_true _ _ T hp hT]
        simp [h.1, h.2]
      | false =>
        simp only at h
        rcases parse_nan_false _ _ hp with ⟨hf, hnone⟩ | ⟨m, hf⟩
        · subst hf
          rw [parse_nan_append_none _ T hnone hT]
          simp only
          rw [parse_inf_append _ T hT]
          cases hi : parse_inf (extract_sign x).2 with
          | some rest =>
            rw [hi] at h
            simp only [Result.ok.injEq] at h
            simp [h.1, h.2]
          | none =>
            rw [hi] at h
            simp only [Option.map_none']
            exact real_tail_append_ok _ _ _ _ _ _ _ _ h hT
        · subst hf
          have hi : parse_inf ('(' :: m) = none := by simp [parse_inf, string_parse]
          rw [hi] at h
          simp only at h
          rw [real_tail_cons _ _ _ _ _ (by decide)] at h
          simp at h
  · rename_i hdig
    simp only [hdig, if_false]
    exact real_tail_append_ok _ _ _ _ _ _ _ _ h hT

theorem real_impl_append_fail (x p T : Input) (h : real_impl x = .fail p)
    (hdig : (extract_sign x).2.takeWhile isdigit ≠ []) (hT : ends T = true) :
    real_impl (x ++ T) = .fail (x ++ T) := by
  have hx : x ≠ [] := by
    rintro rfl
    simp [extract_sign] at hdig
  have hxT : x ++ T ≠ [] := by simp [hx]
  have hd := takeWhile_append_ends isdigit (extract_sign x).2 T
    (ends_stops isdigit space_not_isdigit T hT)
  unfold real_impl at h ⊢
  simp only [hx, hxT, hdig, if_false, extract_sign_append x T hT, hd.1, hd.2] at h ⊢
  exact real_tail_append_fail _ _ _ _ _ _ _ h hT

theorem long_append_ok (s r T : Input) (n : Int) (h : long_ s = .ok n r) (hT : ends T = true) :
    long_ (s ++ T) = .ok n (r ++ T) := by
  unfold long_ at h ⊢
  cases hs : skip_over s with
  | nil => rw [hs] at h; simp [extract_int, extract_sign] at h
  | cons c cs =>
    rw [hs] at h
    rw [skip_over_append_cons s T c cs hs, ← List.cons_append, extract_int_append 64 _ T hT]
    cases he : extract_int 64 (c :: cs) with
    | none => rw [he] at h; simp at h
    | some p =>
      rw [he] at h
      simp only [Result.ok.injEq] at h
      simp [h.1, h.2]

theorem long_ok_digits (s r : Input) (n : Int) (h : long_ s = .ok n r) :
    (extract_sign (skip_over s)).2.takeWhile isdigit ≠ [] := by
  unfold long_ at h
  intro hd
  simp [extract_int, hd] at h

theorem number_literal_append_ok (s r T : Input) (v : Literal) (h : number_literal s = .ok v r)
    (hT : ends T = true) : number_literal (s ++ T) = .ok v (r ++ T) := by
  cases hs : skip_over s with
  | nil =>
    unfold number_literal strict_real at h
    rw [hs] at h
    simp [real_impl, long_, skip_over, extract_int, extract_sign] at h
  | cons c cs =>
    unfold number_literal strict_real at h ⊢
    rw [skip_over_append_cons s T c cs hs, ← List.cons_append]
    rw [hs] at h
    cases hr : real_impl (c :: cs) with
    | ok x rest =>
      rw [hr] at h
      simp only [Result.ok.injEq] at h
      rw [real_impl_append_ok _ _ T _ hr hT]
      simp [h.1, h.2]
    | fail pos =>
      rw [hr] at h
      simp only at h
      have hpos := real_impl_fail_pos _ _ hr
      subst hpos
      have hsk : skip_over (c :: cs) = c :: cs := by
        rw [← hs]
        exact skip_over_idem s
      cases hl : long_ (c :: cs) with
      | ok n rest =>
        rw [hl] at h
        simp only [Result.ok.injEq] at h
        have hdig := long_ok_digits _ _ _ hl
        rw [hsk] at hdig
        rw [real_impl_append_fail _ _ T hr hdig hT]
        simp only
        rw [long_append_ok _ _ T _ hl hT]
        simp [h.1, h.2]
      | fail p => rw [hl] at h; simp at h
      | error w p => rw [hl] at h; simp at h
      | fuel => rw [hl] at h; simp at h
    | error w p => rw [hr] at h; simp at h
    | fuel => rw [hr] at h; simp at h

theorem literal_append_ok (s r T : Input) (v : Literal) (h : literal s = .ok v r)
    (hT : ends T = true) : literal (s ++ T) = .ok v (r ++ T) := by
  unfold literal at h ⊢
  cases hs : string_literal s with
  | ok x rest =>
    rw [hs] at h
    simp only [Result.ok.injEq] at h
    rw [string_literal_append_ok _ _ T _ hs]
    simp [h.1, h.2]
  | fail pos =>
    rw [hs] at h
    simp only at h
    have hpos := (string_literal_fail_pos s pos hs).1
    have hidem : skip_over pos = pos := by rw [hpos]; exact skip_over_idem s
    have hne : skip_over s ≠ [] := by
      intro e
      rw [e] at hpos
      subst hpos
      simp [bool_literal, bool_, skip_over, string_parse, number_literal, strict_real, real_impl,
        long_, extract_int, extract_sign] at h
    have hne2 : skip_over pos ≠ [] := by rw [hidem, hpos]; exact hne
    rw [string_literal_append_fail s pos T hs hne]
    simp only
    unfold bool_literal at h ⊢
    cases hb : bool_ pos with
    | ok b rest =>
      rw [hb] at h
      simp only [Result.ok.injEq] at h
      rw [bool_append_ok _ _ T _ hb]
      simp [h.1, h.2]
    | fail pos2 =>
      rw [hb] at h
      simp only at h
      have hpos2 := bool_fail_pos _ _ hb
      rw [hidem] at hpos2
      subst hpos2
      rw [bool_append_fail _ _ T hb hT hne2, hidem]
      simp only
      exact number_literal_append_ok _ _ T _ h hT
    | error w p => rw [hb] at h; simp at h
    | fuel => rw [hb] at h; simp at h
  | error w p => rw [hs] at h; simp at h
  | fuel => rw [hs] at h; simp at h

theorem compare_append_ok (s r T : Input) (c : Compare) (h : compare s = .ok c r)
    (hT : ends T = true) : compare (s ++ T) = .ok c (r ++ T) := by
  unfold compare at h ⊢
  cases hid : identifier s with
  | ok id r1 =>
    rw [hid] at h
    rw [identifier_append_ok _ _ T _ hid hT]
    simp only at h ⊢
    cases ho : compare_op r1 with
    | ok op r2 =>
      rw [ho] at h
      rw [compare_op_append_ok _ _ T _ ho hT]
      simp only at h ⊢
      cases hl : literal r2 with
      | ok v r3 =>
        rw [hl] at h
        rw [literal_append_ok _ _ T _ hl hT]
        simp only [Result.ok.injEq] at h ⊢
        exact ⟨h.1, by rw [h.2]⟩
      | fail p => rw [hl] at h; simp at h
      | error w p => rw [hl] at h; simp at h
      | fuel => rw [hl] at h; simp at h
    | fail p => rw [ho] at h; simp at h
    | error w p => rw [ho] at h; simp at h
    | fuel => rw [ho] at h; simp at h
  | fail p => rw [hid] at h; simp at h
  | error w p => rw [hid] at h; simp at h
  | fuel => rw [hid] at h; simp at h

theorem identifier_cases (s : Input) :
    (∃ v r, identifier s = .ok v r) ∨ identifier s = .fail (skip_over s) := by
  unfold identifier
  cases skip_over s with
  | nil => exact Or.inr rfl
  | cons c cs =>
    simp only
    split
    · exact Or.inl ⟨_, _, rfl⟩
    · exact Or.inr rfl

theorem compare_append_fail (s p T : Input) (h : compare s = .fail p) (hT : closing T = true) :
    compare (s ++ T) = .fail (s ++ T) := by
  rcases identifier_cases s with ⟨v, r, hid⟩ | hid
  · unfold compare at h
    rw [hid] at h
    simp only at h
    cases ho : compare_op r with
    | ok op r2 =>
      rw [ho] at h
      simp only at h
      cases hl : literal r2 with
      | ok v r3 => rw [hl] at h; simp at h
      | fail p => rw [hl] at h; simp at h
      | error w p => rw [hl] at h; simp at h
      | fuel => rw [hl] at h; simp at h
    | fail p => rw [ho] at h; simp at h
    | error w p => rw [ho] at h; simp at h
    | fuel => rw [ho] at h; simp at h
  · unfold compare
    rw [identifier_append_fail s _ T hid hT]

theorem closing_append_right (r T : Input) (hr : skip_over r = []) (hT : closing T = true) :
    closing (r ++ T) = true := by
  unfold closing at hT ⊢
  rw [skip_over_append_nil r T hr]
  exact hT

theorem condition_append (n : Nat) (T : Input) (hT : closing T = true) :
    (∀ s v r, condition_atom n s = .ok v r → condition_atom n (s ++ T) = .ok v (r ++ T))
    ∧ (∀ s v r, condition_high n s = .ok v r → condition_high n (s ++ T) = .ok v (r ++ T))
    ∧ (∀ s v r, condition n s = .ok v r → condition n (s ++ T) = .ok v (r ++ T))
    ∧ (∀ acc s v r, condition_high_rep n acc s = .ok v r →
        condition_high_rep n acc (s ++ T) = .ok v (r ++ T))
    ∧ (∀ acc s v r, condition_rep n acc s = .ok v r →
        condition_rep n acc (s ++ T) = .ok v (r ++ T)) := by
  have hE := ends_of_closing T hT
  induction n with
  | zero =>
    refine ⟨?_, ?_, ?_, ?_, ?_⟩ <;> intros <;> rename_i h <;>
      first
        | simp [condition_atom] at h
        | simp [condition_high] at h
        | simp [condition] at h
        | simp [condition_high_rep] at h
        | simp [condition_rep] at h
  | succ n ih =>
    obtain ⟨ia, ib, ic, id, ie⟩ := ih
    refine ⟨?_, ?_, ?_, ?_, ?_⟩
    · intro s v r h
      rw [condition_atom] at h ⊢
      cases hc : compare s with
      | ok c rest =>
        rw [hc] at h
        simp only [Result.ok.injEq] at h
        rw [compare_append_ok _ _ T _ hc hE]
        simp [h.1, h.2]
      | fail p =>
        rw [hc] at h
        rw [compare_append_fail _ _ T hc hT]
        simp only at h ⊢
        cases hl : lit '(' s with
        | ok u r1 =>
          rw [hl] at h
          rw [lit_append_ok _ _ _ T hl]
          simp only at h ⊢
          cases hcond : condition n r1 with
          | ok w r2 =>
            rw [hcond] at h
            rw [ic _ _ _ hcond]
            simp only at h ⊢
            cases hr : lit ')' r2 with
            | ok u3 r3 =>
              rw [hr] at h
              rw [lit_append_ok _ _ _ T hr]
              simp only [Result.ok.injEq] at h ⊢
              exact ⟨h.1, by rw [h.2]⟩
            | fail q => rw [hr] at h; simp at h
            | error w q => rw [hr] at h; simp at h
            | fuel => rw [hr] at h; simp at h
          | fail q => rw [hcond] at h; simp at h
          | error w q => rw [hcond] at h; simp at h
          | fuel => rw [hcond] at h; simp at h
        | fail q => rw [hl] at h; simp at h
        | error w q => rw [hl] at h; simp at h
        | fuel => rw [hl] at h; simp at h
      | error w p => rw [hc] at h; simp at h
      | fuel => rw [hc] at h; simp at h
    · intro s v r h
      rw [condition_high] at h ⊢
      cases hc : condition_atom n s with
      | ok w rest =>
        rw [hc] at h
        rw [ia _ _ _ hc]
        simp only at h ⊢
        exact id _ _ _ _ h
      | fail q => rw [hc] at h; simp at h
      | error w q => rw [hc] at h; simp at h
      | fuel => rw [hc] at h; simp at h
    · intro s v r h
      rw [condition] at h ⊢
      cases hc : condition_high n s with
      | ok w rest =>
        rw [hc] at h
        rw [ib _ _ _ hc]
        simp only at h ⊢
        exact ie _ _ _ _ h
      | fail q => rw [hc] at h; simp at h
      | error w q => rw [hc] at h; simp at h
      | fuel => rw [hc] at h; simp at h
    · intro acc s v r h
      rw [condition_high_rep] at h ⊢
      rcases no_case_cases "and" s with ⟨r1, hk⟩ | hk
      · rw [hk] at h
        rw [no_case_append_ok "and" _ _ T hk rfl]
        simp only at h ⊢
        cases hc : condition_atom n r1 with
        | ok w r2 =>
          rw [hc] at h
          rw [ia _ _ _ hc]
          simp only at h ⊢
          exact id _ _ _ _ h
        | fail q => rw [hc] at h; simp at h
        | error w q => rw [hc] at h; simp at h
        | fuel => rw [hc] at h; simp at h
      · rw [hk] at h
        rw [no_and_append _ _ T hk hT]
        simp only [Result.ok.injEq] at h ⊢
        exact ⟨h.1, by rw [h.2]⟩
    · intro acc s v r h
      rw [condition_rep] at h ⊢
      rcases no_case_cases "or" s with ⟨r1, hk⟩ | hk
      · rw [hk] at h
        rw [no_case_append_ok "or" _ _ T hk rfl]
        simp only at h ⊢
        cases hc : condition_high n r1 with
        | ok w r2 =>
          rw [hc] at h
          rw [ib _ _ _ hc]
          simp only at h ⊢
          exact ie _ _ _ _ h
        | fail q => rw [hc] at h; simp at h
        | error w q => rw [hc] at h; simp at h
        | fuel => rw [hc] at h; simp at h
      · rw [hk] at h
        rw [no_or_append _ _ T hk hT]
        simp only [Result.ok.injEq] at h ⊢
        exact ⟨h.1, by rw [h.2]⟩

/-! ## Parentheses around a condition -/

theorem identifier_ws (c : Char) (s : Input) (hc : isspace c = true) :
    identifier (c :: s) = identifier s := by
  unfold identifier
  rw [skip_over_cons_of_space c s hc]

theorem lit_ws (ch c : Char) (s : Input) (hc : isspace c = true) :
    lit ch (c :: s) = lit ch s := by
  unfold lit
  rw [skip_over_cons_of_space c s hc]

theorem compare_ws (c : Char) (s r : Input) (a : Compare) (hc : isspace c = true)
    (h : compare s = .ok a r) : compare (c :: s) = .ok a r := by
  unfold compare at h ⊢
  rw [identifier_ws c s hc]
  cases hid : identifier s with
  | ok id r1 => rw [hid] at h; exact h
  | fail p => rw [hid] at h; simp at h
  | error w p => rw [hid] at h; simp at h
  | fuel => rw [hid] at h; simp at h

theorem compare_ws_fail (c : Char) (s p : Input) (hc : isspace c = true)
    (h : compare s = .fail p) : compare (c :: s) = .fail (c :: s) := by
  unfold compare at h ⊢
  rw [identifier_ws c s hc]
  cases hid : identifier s with
  | ok id r1 =>
    rw [hid] at h
    simp only at h
    cases ho : compare_op r1 with
    | ok op r2 =>
      rw [ho] at h
      simp only at h
      cases hl : literal r2 with
      | ok v r3 => rw [hl] at h; simp at h
      | fail p => rw [hl] at h; simp at h
      | error w p => rw [hl] at h; simp at h
      | fuel => rw [hl] at h; simp at h
    | fail p => rw [ho] at h; simp at h
    | error w p => rw [ho] at h; simp at h
    | fuel => rw [ho] at h; simp at h
  | fail q => rfl
  | error w q => rfl
  | fuel => rfl

theorem condition_atom_ws (n : Nat) (c : Char) (s r : Input) (v : Condition)
    (hc : isspace c = true) (h : condition_atom n s = .ok v r) :
    condition_atom n (c :: s) = .ok v r := by
  cases n with
  | zero => simp [condition_atom] at h
  | succ n =>
    rw [condition_atom] at h ⊢
    cases hx : compare s with
    | ok a rest =>
      rw [compare_ws c _ _ _ hc hx]
      rw [hx] at h
      exact h
    | fail p =>
      rw [compare_ws_fail c _ _ hc hx]
      rw [hx] at h
      simp only [lit_ws _ c s hc] at h ⊢
      cases hl : lit '(' s with
      | ok u r1 => rw [hl] at h; exact h
      | fail q => rw [hl] at h; simp at h
      | error w q => rw [hl] at h; simp at h
      | fuel => rw [hl] at h; simp at h
    | error w p => rw [hx] at h; simp at h
    | fuel => rw [hx] at h; simp at h

theorem condition_high_ws (n : Nat) (c : Char) (s r : Input) (v : Condition)
    (hc : isspace c = true) (h : condition_high n s = .ok v r) :
    condition_high n (c :: s) = .ok v r := by
  cases n with
  | zero => simp [condition_high] at h
  | succ n =>
    rw [condition_high] at h ⊢
    cases hx : condition_atom n s with
    | ok w rest =>
      rw [condition_atom_ws n c _ _ _ hc hx]
      rw [hx] at h
      exact h
    | fail p => rw [hx] at h; simp at h
    | error w p => rw [hx] at h; simp at h
    | fuel => rw [hx] at h; simp at h

theorem condition_ws (n : Nat) (c : Char) (s r : Input) (v : Condition)
    (hc : isspace c = true) (h : condition n s = .ok v r) :
    condition n (c :: s) = .ok v r := by
  cases n with
  | zero => simp [condition] at h
  | succ n =>
    rw [condition] at h ⊢
    cases hx : condition_high n s with
    | ok w rest =>
      rw [condition_high_ws n c _ _ _ hc hx]
      rw [hx] at h
      exact h
    | fail p => rw [hx] at h; simp at h
    | error w p => rw [hx] at h; simp at h
    | fuel => rw [hx] at h; simp at h

theorem condition_ws_run (n : Nat) (w s r : Input) (v : Condition)
    (hw : ∀ x ∈ w, isspace x = true) (h : condition n s = .ok v r) :
    condition n (w ++ s) = .ok v r := by
  induction w with
  | nil => exact h
  | cons a w ih =>
    exact condition_ws n a _ _ _ (hw a (List.mem_cons_self _ _))
      (ih (fun x hx => hw x (List.mem_cons_of_mem _ hx)))

theorem skip_over_ws_run (w : Input) (hw : ∀ x ∈ w, isspace x = true) : skip_over w = [] := by
  induction w with
  | nil => rfl
  | cons a w ih =>
    rw [skip_over_cons_of_space a w (hw a (List.mem_cons_self _ _))]
    exact ih (fun x hx => hw x (List.mem_cons_of_mem _ hx))

theorem closing_no_case (kw : String) (T : Input) (hT : closing T = true)
    (hne : string_parse (kw.toList.map Char.toLower) (kw.toList.map Char.toUpper) [] = none)
    (hlo : ∀ x ∈ kw.toList.map Char.toLower, isspace x = false ∧ x ≠ ')')
    (hhi : ∀ x ∈ kw.toList.map Char.toUpper, isspace x = false ∧ x ≠ ')') :
    no_case kw T = .fail (skip_over T) := by
  have h0 : no_case kw [] = .fail [] := by
    unfold no_case
    simp only [skip_over, List.dropWhile_nil]
    rw [hne]
  have := no_case_append_fail kw [] [] T h0 hT hlo hhi hne
  simpa using this

/-- One pair of parentheses: after `(` and white space, a condition read up to
white space and `)`. -/
theorem paren_step (n : Nat) (X r T w : Input) (c : Condition)
    (h : condition n X = .ok c (r ++ ')' :: T)) (hr : skip_over r = [])
    (hT : closing T = true) (hw : ∀ x ∈ w, isspace x = true) :
    condition (n + 3) ('(' :: (w ++ X)) = .ok c T := by
  have hcmp : compare ('(' :: (w ++ X)) = .fail ('(' :: (w ++ X)) := rfl
  have hlit : lit '(' ('(' :: (w ++ X)) = .ok () (w ++ X) := rfl
  have hcond := condition_ws_run n w _ _ _ hw h
  have hclose : lit ')' (r ++ ')' :: T) = .ok () T := by
    unfold lit
    rw [skip_over_append_nil r _ hr]
    rfl
  have hatom : condition_atom (n + 1) ('(' :: (w ++ X)) = .ok c T := by
    rw [condition_atom, hcmp]
    simp only [hlit, hcond, hclose]
  have hand : condition_high_rep (n + 1) c T = .ok c T := by
    rw [condition_high_rep, closing_no_case "and" T hT rfl (by decide) (by decide)]
  have hor : condition_rep (n + 2) c T = .ok c T := by
    rw [condition_rep, closing_no_case "or" T hT rfl (by decide) (by decide)]
  have hhigh : condition_high (n + 2) ('(' :: (w ++ X)) = .ok c T := by
    rw [condition_high, hatom]
    exact hand
  rw [condition, hhigh]
  exact hor

theorem wrapped_reads (ls : List (Input × Input))
    (hws : ∀ p ∈ ls, (∀ x ∈ p.1, isspace x = true) ∧ ∀ x ∈ p.2, isspace x = true)
    (n : Nat) (C r : Input) (c : Condition) (h : condition n C = .ok c r)
    (hr : skip_over r = []) :
    ∀ T, closing T = true →
      ∃ N r2, condition N (wrapped ls C ++ T) = .ok c (r2 ++ T) ∧ skip_over r2 = []
        ∧ (ls ≠ [] → r2 = []) := by
  induction ls with
  | nil =>
    intro T hT
    exact ⟨n, r, (condition_append n T hT).2.2.1 _ _ _ h, hr, fun e => absurd rfl e⟩
  | cons l ls ih =>
    intro T hT
    have hl := hws l (List.mem_cons_self _ _)
    have hT2 : closing (l.2 ++ ')' :: T) = true := by
      unfold closing
      rw [skip_over_append_nil _ _ (skip_over_ws_run l.2 hl.2)]
      rfl
    obtain ⟨N, r2, hN, hr2, _⟩ := ih (fun p hp => hws p (List.mem_cons_of_mem _ hp)) _ hT2
    have hN2 : condition N (wrapped ls C ++ (l.2 ++ ')' :: T))
        = .ok c ((r2 ++ l.2) ++ ')' :: T) := by
      rw [hN, List.append_assoc]
    have hr3 : skip_over (r2 ++ l.2) = [] := by
      rw [skip_over_append_nil _ _ hr2]
      exact skip_over_ws_run l.2 hl.2
    have := paren_step N _ _ T l.1 c hN2 hr3 hT hl.1
    refine ⟨N + 3, [], ?_, rfl, fun _ => rfl⟩
    have e : wrapped (l :: ls) C ++ T = '(' :: (l.1 ++ (wrapped ls C ++ (l.2 ++ ')' :: T))) := by
      simp [wrapped, List.append_assoc]
    rw [e, this]
    rfl

/-- C20: parentheses leave no trace in the tree.  When the rule `condition`
reads the text `C` to its end (up to white space) as the tree `c`, it reads
`C` inside any number of pairs of parentheses, with any white space after each
`(` and before each `)`, to the end as the same tree `c`: from some recursion
bound on, and at the bound of the driver. -/
theorem parentheses_leave_no_trace (n : Nat) (C r : Input) (c : Condition)
    (h : condition n C = .ok c r) (hr : skip_over r = [])
    (l : Input × Input) (ls : List (Input × Input))
    (hws : ∀ p ∈ l :: ls, (∀ x ∈ p.1, isspace x = true) ∧ ∀ x ∈ p.2, isspace x = true) :
    eventually (fun m => condition m (wrapped (l :: ls) C)) (.ok c [])
    ∧ condition (3 * (wrapped (l :: ls) C).length + 3) (wrapped (l :: ls) C) = .ok c [] := by
  obtain ⟨N, r2, hN, _, hnil⟩ := wrapped_reads (l :: ls) hws n C r c h hr [] rfl
  rw [hnil (by simp)] at hN
  simp only [List.append_nil] at hN
  refine ⟨⟨N, ?_⟩, condition_ok_any_fuel N _ _ _ _ hN (Nat.le_refl _)⟩
  intro m hm
  obtain ⟨k, rfl⟩ := Nat.exists_eq_add_of_le hm
  show condition (N + k) _ = _
  rw [condition_mono_add k N _ (by rw [hN]; simp), hN]

theorem parentheses_leave_no_trace_witness :
    eventually (fun m => condition m "( ( a=1 or b=2 and c='x')\t)".toList)
        (.ok (Condition.node (Condition.leaf ⟨['a'], .kTypeEQ, ⟨.kTypeLong, .long 1⟩⟩) .kOpTypeOR
          (Condition.node (Condition.leaf ⟨['b'], .kTypeEQ, ⟨.kTypeLong, .long 2⟩⟩) .kOpTypeAND
            (Condition.leaf ⟨['c'], .kTypeEQ, ⟨.kTypeString, .string ['x']⟩⟩))) [])
    ∧ condition (3 * "( ( a=1 or b=2 and c='x')\t)".toList.length + 3)
        "( ( a=1 or b=2 and c='x')\t)".toList
      = .ok (Condition.node (Condition.leaf ⟨['a'], .kTypeEQ, ⟨.kTypeLong, .long 1⟩⟩) .kOpTypeOR
          (Condition.node (Condition.leaf ⟨['b'], .kTypeEQ, ⟨.kTypeLong, .long 2⟩⟩) .kOpTypeAND
            (Condition.leaf ⟨['c'], .kTypeEQ, ⟨.kTypeString, .string ['x']⟩⟩))) [] :=
  parentheses_leave_no_trace 12 "a=1 or b=2 and c='x'".toList [] _ (by decide) rfl
    ([' '], ['\t']) [([' '], [])] (by decide)

/-! ## The canonical printer -/

/-- An exception thrown by a call is thrown by every call that came to it:
no alternative and no repetition of the condition grammar catches it. -/
theorem throws_up (a b : Call) (h : calls a b) (w : info) (p : Input) (hb : b.throws w p) :
    a.throws w p := by
  induction h with
  | here a => exact hb
  | condition_first n s b _ ih =>
    have := ih hb
    simp only [Call.throws] at this ⊢
    rw [condition, this]
  | condition_more n s r v b hv _ ih =>
    have := ih hb
    simp only [Call.throws] at this ⊢
    rw [condition, hv]
    exact this
  | rep_operand n val s r1 b hk _ ih =>
    have := ih hb
    simp only [Call.throws] at this ⊢
    rw [condition_rep, hk]
    simp only [this]
  | rep_more n val v s r1 r2 b hk hv _ ih =>
    have := ih hb
    simp only [Call.throws] at this ⊢
    rw [condition_rep, hk]
    simp only [hv]
    exact this
  | high_first n s b _ ih =>
    have := ih hb
    simp only [Call.throws] at this ⊢
    rw [condition_high, this]
  | high_more n s r v b hv _ ih =>
    have := ih hb
    simp only [Call.throws] at this ⊢
    rw [condition_high, hv]
    exact this
  | high_rep_operand n val s r1 b hk _ ih =>
    have := ih hb
    simp only [Call.throws] at this ⊢
    rw [condition_high_rep, hk]
    simp only [this]
  | high_rep_more n val v s r1 r2 b hk hv _ ih =>
    have := ih hb
    simp only [Call.throws] at this ⊢
    rw [condition_high_rep, hk]
    simp only [hv]
    exact this
  | atom_compare n s b _ ih =>
    have := ih hb
    simp only [Call.throws] at this ⊢
    rw [condition_atom, this]
  | atom_group n s q r1 b hc hl _ ih =>
    have := ih hb
    simp only [Call.throws] at this ⊢
    rw [condition_atom, hc]
    simp only [hl, this]
  | compare_literal s r1 r2 id op b hid hop _ ih =>
    have := ih hb
    simp only [Call.throws] at this ⊢
    unfold compare
    rw [hid]
    simp only [hop, this]

/-- A line whose condition comes to a literal opened by a quote that does not
reappear: the handler of `select` reports the missing closing quote. -/
theorem unterminated_reached (sql r4 r5 s : Input) (q : Char) (cs : Input)
    (h1 : after_table (3 * sql.length + 3) sql = some r4)
    (h2 : no_case "where" r4 = .ok () r5)
    (h3 : calls (.condition (3 * sql.length + 3) r5) (.literal s))
    (hs : skip_over s = q :: cs) (hq : q = Char.ofNat 34 ∨ q = Char.ofNat 39) (hcs : q ∉ cs) :
    phrase_parse (3 * sql.length + 3) sql SelectSQL.init
      = .failure (some (quote_what q, unterminated_at q cs))
    ∧ parse_line sql = none := by
  have hl : (Call.literal s).throws (quote_what q) (unterminated_at q cs) :=
    literal_unterminated s q cs hs hq hcs
  have := throws_up _ _ h3 _ _ hl
  exact where_error_reported sql r4 r5 _ _ h1 h2 this

/-- C16: an unterminated text literal is rejected.  Where the rule `literal`
stands at a quote character that does not reappear before the end of the
input, it throws the expectation failure of the closing quote, reported where
the text ends (the end of the input when the text is ASCII).  For every line
whose condition, read after `where`, comes to such a call of `literal`, in
whatever layout and at whatever depth, the handler of `select` reports that
failure and no statement is returned; so it is for the lines
`select ... from t where ...` whose condition, after any valid operands and
keywords and inside any opened parentheses, comes to a comparison with such a
literal. -/
theorem unterminated_literal_rejected :
    (∀ (s : Input) (q : Char) (cs : Input), skip_over s = q :: cs →
      (q = Char.ofNat 34 ∨ q = Char.ofNat 39) → q ∉ cs →
      literal s = .error (quote_what q) (unterminated_at q cs))
    ∧ (∀ (q : Char) (cs : Input), q ∉ cs → (∀ c ∈ cs, ischar c = true) →
      unterminated_at q cs = [])
    ∧ (∀ (f : Input) (fs : List Input) (t : Input) (fr : Frame) (frs : List Frame)
        (col : Input) (e : List Char × CompareOpType) (q : Char) (cs : Input),
      is_identifier f = true → (∀ g ∈ fs, is_identifier g = true) → is_identifier t = true →
      fr.valid → (∀ g ∈ frs, g.valid) → is_identifier col = true → e ∈ compare_op_table →
      (q = Char.ofNat 34 ∨ q = Char.ofNat 39) → q ∉ cs →
      phrase_parse (3 * (unterminated_line f fs t fr frs col e q cs).length + 3)
          (unterminated_line f fs t fr frs col e q cs) SelectSQL.init
        = .failure (some (quote_what q, unterminated_at q cs))
      ∧ parse_line (unterminated_line f fs t fr frs col e q cs) = none)
    ∧ quote_what (Char.ofNat 34) = .nested "lazy" (.str "literal-char" [Char.ofNat 34])
    ∧ (∀ (sql r4 r5 s : Input) (q : Char) (cs : Input),
      after_table (3 * sql.length + 3) sql = some r4 → no_case "where" r4 = .ok () r5 →
      calls (.condition (3 * sql.length + 3) r5) (.literal s) →
      skip_over s = q :: cs → (q = Char.ofNat 34 ∨ q = Char.ofNat 39) → q ∉ cs →
      phrase_parse (3 * sql.length + 3) sql SelectSQL.init
        = .failure (some (quote_what q, unterminated_at q cs))
      ∧ parse_line sql = none) :=
  ⟨literal_unterminated, unterminated_at_ascii, unterminated_line_rejected, rfl,
    unterminated_reached⟩

theorem unterminated_literal_rejected_witness :
    (phrase_parse (3 * "select a from t where a=\"abc".toList.length + 3)
        "select a from t where a=\"abc".toList SelectSQL.init
      = .failure (some (quote_what (Char.ofNat 34), []))
      ∧ parse_line "select a from t where a=\"abc".toList = none)
    ∧ (phrase_parse (3 * "select a from t where x=1 OR y=2 and (z<3 or b!='it is".toList.length + 3)
        "select a from t where x=1 OR y=2 and (z<3 or b!='it is".toList SelectSQL.init
      = .failure (some (quote_what (Char.ofNat 39), []))
      ∧ parse_line "select a from t where x=1 OR y=2 and (z<3 or b!='it is".toList = none)
    ∧ (phrase_parse (3 * "select a from t where(x=1)and\tb ='it".toList.length + 3)
        "select a from t where(x=1)and\tb ='it".toList SelectSQL.init
      = .failure (some (quote_what (Char.ofNat 39), []))
      ∧ parse_line "select a from t where(x=1)and\tb ='it".toList = none) :=
  ⟨unterminated_literal_rejected.2.2.1 ['a'] [] ['t'] ⟨none, none⟩ [] ['a'] (['='], .kTypeEQ)
      (Char.ofNat 34) "abc".toList (by decide) (by decide) (by decide) ⟨trivial, trivial⟩
      (by simp) (by decide) (by decide) (Or.inl rfl) (by decide),
   unterminated_literal_rejected.2.2.1 ['a'] [] ['t']
      ⟨some (.cmp "x=1".toList ⟨['x'], .kTypeEQ, ⟨.kTypeLong, .long 1⟩⟩, "OR".toList),
       some (.cmp "y=2".toList ⟨['y'], .kTypeEQ, ⟨.kTypeLong, .long 2⟩⟩, "and".toList)⟩
      [⟨some (.cmp "z<3".toList ⟨['z'], .kTypeLT, ⟨.kTypeLong, .long 3⟩⟩, "or".toList), none⟩]
      ['b'] ("!=".toList, .kTypeNE) (Char.ofNat 39) "it is".toList
      (by decide) (by decide) (by decide)
      ⟨⟨int_comparison_is_comparison ⟨['x'], (['='], .kTypeEQ), none, ['1']⟩ (by decide),
          by decide⟩,
        ⟨int_comparison_is_comparison ⟨['y'], (['='], .kTypeEQ), none, ['2']⟩ (by decide),
          by decide, by decide⟩⟩
      (by
        intro g hg
        simp only [List.mem_singleton] at hg
        subst hg
        exact ⟨⟨int_comparison_is_comparison ⟨['z'], (['<'], .kTypeLT), none, ['3']⟩
          (by decide), by decide⟩, trivial⟩)
      (by decide) (by decide) (Or.inr rfl) (by decide),
   unterminated_literal_rejected.2.2.2.2 "select a from t where(x=1)and\tb ='it".toList
      " where(x=1)and\tb ='it".toList "(x=1)and\tb ='it".toList "'it".toList (Char.ofNat 39)
      "it".toList (by decide) (by decide)
      (calls.condition_first _ _ _
        (calls.high_more _ _ "and\tb ='it".toList
          (Condition.leaf ⟨['x'], .kTypeEQ, ⟨.kTypeLong, .long 1⟩⟩) _ (by decide)
          (calls.high_rep_operand _ _ _ "\tb ='it".toList _ (by decide)
            (calls.atom_compare _ _ _
              (calls.compare_literal _ " ='it".toList "'it".toList ['b'] .kTypeEQ _
                (by decide) (by decide) (calls.here _))))))
      (by decide) (Or.inr rfl) (by decide)⟩

/-! ## Texts equal up to the case of keyword letters -/

theorem same_letter_cases (P : Char → Char → Prop) (hrefl : ∀ c, P c c)
    (hp : ∀ l ∈ keyword_letters, P l l.toUpper ∧ P l.toUpper l) (c d : Char)
    (h : same_letter c d = true) : P c d := by
  simp only [same_letter, Bool.or_eq_true, decide_eq_true_eq, List.any_eq_true,
    Bool.and_eq_true] at h
  rcases h with rfl | ⟨l, hl, ⟨rfl, rfl⟩ | ⟨rfl, rfl⟩⟩
  · exact hrefl c
  · exact (hp _ hl).1
  · exact (hp _ hl).2

theorem same_letter_refl (c : Char) : same_letter c c = true := by
  simp [same_letter]

theorem same_letter_symm (c d : Char) (h : same_letter c d = true) : same_letter d c = true :=
  same_letter_cases (fun a b => same_letter b a = true) same_letter_refl (by decide) c d h

theorem same_letter_class (p : Char → Bool)
    (hp : ∀ l ∈ keyword_letters, p l = p l.toUpper) (c d : Char)
    (h : same_letter c d = true) : p c = p d :=
  same_letter_cases (fun a b => p a = p b) (fun _ => rfl)
    (fun l hl => ⟨hp l hl, (hp l hl).symm⟩) c d h

theorem same_letter_isspace (c d : Char) (h : same_letter c d = true) :
    isspace c = isspace d := same_letter_class isspace (by decide) c d h

theorem same_letter_isdigit (c d : Char) (h : same_letter c d = true) :
    isdigit c = isdigit d := same_letter_class isdigit (by decide) c d h

theorem same_letter_isalpha (c d : Char) (h : same_letter c d = true) :
    isalpha c = isalpha d := same_letter_class isalpha (by decide) c d h

theorem same_letter_isidchar (c d : Char) (h : same_letter c d = true) :
    isidchar c = isidchar d := same_letter_class isidchar (by decide) c d h

/-- A character that is no keyword letter in either case is left as it is. -/
theorem same_letter_fixed (a c d : Char) (h : same_letter c d = true)
    (ha : ∀ l ∈ keyword_letters, a ≠ l ∧ a ≠ l.toUpper) : (c = a ↔ d = a) :=
  same_letter_cases (fun x y => (x = a ↔ y = a)) (fun _ => Iff.rfl)
    (fun l hl => by
      have := ha l hl
      constructor
      · exact ⟨fun e => absurd e.symm this.1, fun e => absurd e.symm this.2⟩
      · exact ⟨fun e => absurd e.symm this.2, fun e => absurd e.symm this.1⟩) c d h

theorem same_letters_refl (X : Input) : same_letters X X = true := by
  induction X with
  | nil => rfl
  | cons c cs ih => simp [same_letters, same_letter_refl, ih]

theorem same_letters_symm (X Y : Input) (h : same_letters X Y = true) :
    same_letters Y X = true := by
  induction X generalizing Y with
  | nil =>
    cases Y with
    | nil => rfl
    | cons d ds => simp [same_letters] at h
  | cons c cs ih =>
    cases Y with
    | nil => simp [same_letters] at h
    | cons d ds =>
      simp only [same_letters, Bool.and_eq_true] at h ⊢
      exact ⟨same_letter_symm c d h.1, ih ds h.2⟩

theorem same_letters_append (A B X Y : Input) (h1 : same_letters A B = true)
    (h2 : same_letters X Y = true) : same_letters (A ++ X) (B ++ Y) = true := by
  induction A generalizing B with
  | nil =>
    cases B with
    | nil => exact h2
    | cons d ds => simp [same_letters] at h1
  | cons c cs ih =>
    cases B with
    | nil => simp [same_letters] at h1
    | cons d ds =>
      simp only [same_letters, Bool.and_eq_true, List.cons_append] at h1 ⊢
      exact ⟨h1.1, ih ds h1.2⟩

theorem same_letters_after (A X Y : Input) (h : same_letters X Y = true) :
    same_letters (A ++ X) (A ++ Y) = true :=
  same_letters_append A A X Y (same_letters_refl A) h

theorem same_letters_length (X Y : Input) (h : same_letters X Y = true) :
    X.length = Y.length := by
  induction X generalizing Y with
  | nil =>
    cases Y with
    | nil => rfl
    | cons d ds => simp [same_letters] at h
  | cons c cs ih =>
    cases Y with
    | nil => simp [same_letters] at h
    | cons d ds =>
      simp only [same_letters, Bool.and_eq_true] at h
      simp [ih ds h.2]

theorem same_letters_nil (Y : Input) (h : same_letters [] Y = true) : Y = [] := by
  cases Y with
  | nil => rfl
  | cons d ds => simp [same_letters] at h

theorem same_letters_cons (c : Char) (cs Y : Input) (h : same_letters (c :: cs) Y = true) :
    ∃ d ds, Y = d :: ds ∧ same_letter c d = true ∧ same_letters cs ds = true := by
  cases Y with
  | nil => simp [same_letters] at h
  | cons d ds =>
    simp only [same_letters, Bool.and_eq_true] at h
    exact ⟨d, ds, rfl, h.1, h.2⟩

theorem same_letters_stops (p : Char → Bool)
    (hp : ∀ c d, same_letter c d = true → p c = p d) (X Y : Input)
    (h : same_letters X Y = true) : stops p X = stops p Y := by
  cases X with
  | nil => rw [same_letters_nil Y h]
  | cons c cs =>
    obtain ⟨d, ds, rfl, hcd, _⟩ := same_letters_cons c cs Y h
    simp [stops, hp c d hcd]

theorem same_letters_dropWhile (p : Char → Bool)
    (hp : ∀ c d, same_letter c d = true → p c = p d) (X Y : Input)
    (h : same_letters X Y = true) :
    same_letters (X.dropWhile p) (Y.dropWhile p) = true := by
  induction X generalizing Y with
  | nil => rw [same_letters_nil Y h]; rfl
  | cons c cs ih =>
    obtain ⟨d, ds, rfl, hcd, hr⟩ := same_letters_cons c cs Y h
    by_cases hc : p c = true
    · have hd : p d = true := by rw [← hp c d hcd]; exact hc
      simp only [List.dropWhile, hc, hd]
      exact ih ds hr
    · simp only [Bool.not_eq_true] at hc
      have hd : p d = false := by rw [← hp c d hcd]; exact hc
      simp only [List.dropWhile, hc, hd]
      exact h

theorem same_letters_skip (X Y : Input) (h : same_letters X Y = true) :
    same_letters (skip_over X) (skip_over Y) = true :=
  same_letters_dropWhile isspace same_letter_isspace X Y h

/-- A text without keyword letters is left as it is. -/
theorem same_letters_fixed (X Y : Input) (h : same_letters X Y = true)
    (hX : ∀ c ∈ X, ∀ l ∈ keyword_letters, c ≠ l ∧ c ≠ l.toUpper) : Y = X := by
  induction X generalizing Y with
  | nil => exact same_letters_nil Y h
  | cons c cs ih =>
    obtain ⟨d, ds, rfl, hcd, hr⟩ := same_letters_cons c cs Y h
    have h1 := (same_letter_fixed c c d hcd (hX c (List.mem_cons_self _ _))).1 rfl
    rw [h1, ih ds hr (fun x hx => hX x (List.mem_cons_of_mem _ hx))]

/-! ## What is left is the end of the input -/

theorem skip_over_suffix (s : Input) : skip_over s <:+ s := List.dropWhile_suffix isspace

theorem string_parse_suffix (lo hi s r : Input) (h : string_parse lo hi s = some r) :
    r <:+ s := by
  induction lo generalizing hi s with
  | nil => simp [string_parse] at h; subst h; exact List.suffix_rfl
  | cons l lo ih =>
    cases hi with
    | nil => simp [string_parse] at h
    | cons u hi =>
      cases s with
      | nil => simp [string_parse] at h
      | cons c cs =>
        simp only [string_parse] at h
        split at h
        · exact (ih hi cs h).trans (List.suffix_cons c cs)
        · simp at h

theorem no_case_suffix (kw : String) (s r : Input) (h : no_case kw s = .ok () r) : r <:+ s := by
  unfold no_case at h
  split at h
  · rename_i rest hsp
    simp only [Result.ok.injEq, true_and] at h
    subst h
    exact (string_parse_suffix _ _ _ _ hsp).trans (skip_over_suffix s)
  · simp at h

theorem lit_suffix (ch : Char) (s r : Input) (h : lit ch s = .ok () r) : r <:+ s := by
  unfold lit at h
  have := skip_over_suffix s
  split at h
  · rename_i c cs hsk
    rw [hsk] at this
    split at h
    · simp only [Result.ok.injEq, true_and] at h
      subst h
      exact (List.suffix_cons c cs).trans this
    · simp at h
  · simp at h

theorem identifier_suffix (s r : Input) (v : List Char) (h : identifier s = .ok v r) :
    r <:+ s := by
  unfold identifier at h
  have := skip_over_suffix s
  split at h
  · rename_i c cs hsk
    rw [hsk] at this
    split at h
    · simp only [Result.ok.injEq] at h
      rw [← h.2]
      exact ((List.dropWhile_suffix isidchar).trans (List.suffix_cons c cs)).trans this
    · simp at h
  · simp at h

theorem compare_op_suffix (s r : Input) (v : CompareOpType) (h : compare_op s = .ok v r) :
    r <:+ s := by
  unfold compare_op at h
  split at h
  · simp only [Result.ok.injEq] at h
    rw [← h.2]
    exact (List.drop_suffix _ _).trans (skip_over_suffix s)
  · simp at h

theorem string_literal_suffix (s r : Input) (v : Literal) (h : string_literal s = .ok v r) :
    r <:+ s := by
  unfold string_literal at h
  have := skip_over_suffix s
  split at h
  · rename_i q cs hsk
    rw [hsk] at this
    split at h
    · split at h
      · rename_i c rest hd
        split at h
        · simp only [Result.ok.injEq] at h
          rw [← h.2]
          have h2 : (c :: rest) <:+ cs := by
            rw [← hd]
            exact List.dropWhile_suffix _
          exact (((List.suffix_cons c rest).trans h2).trans (List.suffix_cons q cs)).trans this
        · simp at h
      · simp at h
    · simp at h
  · simp at h

theorem bool_suffix (s r : Input) (b : Bool) (h : bool_ s = .ok b r) : r <:+ s := by
  have := skip_over_suffix s
  rcases (bool_ok_iff s r b).1 h with ⟨h1, _⟩ | ⟨h1, _⟩ <;>
    (rw [h1] at this; exact (List.suffix_append _ _).trans this)

theorem extract_sign_suffix (s : Input) : (extract_sign s).2 <:+ s := by
  unfold extract_sign
  split
  · rename_i c cs
    split
    · exact List.suffix_cons c cs
    · split
      · exact List.suffix_cons c cs
      · exact List.suffix_rfl
  · exact List.suffix_rfl

theorem extract_int_suffix (bits : Nat) (s r : Input) (v : Int)
    (h : extract_int bits s = some (v, r)) : r <:+ s := by
  unfold extract_int at h
  have h1 := extract_sign_suffix s
  have h2 : (extract_sign s).2.dropWhile isdigit <:+ (extract_sign s).2 :=
    List.dropWhile_suffix isdigit
  simp only at h
  split at h
  · simp at h
  · split at h
    · split at h
      · simp only [Option.some.injEq, Prod.mk.injEq] at h
        rw [← h.2]
        exact h2.trans h1
      · simp at h
    · split at h
      · simp only [Option.some.injEq, Prod.mk.injEq] at h
        rw [← h.2]
        exact h2.trans h1
      · simp at h

theorem parse_nan_suffix (s : Input) : (parse_nan s).2 <:+ s := by
  unfold parse_nan
  split
  · exact List.suffix_rfl
  · rename_i rest hsp
    have h1 := string_parse_suffix _ _ _ _ hsp
    split
    · rename_i more
      split
      · rename_i x after hd
        have h2 : (x :: after) <:+ more := by
          rw [← hd]
          exact List.dropWhile_suffix _
        exact (((List.suffix_cons x after).trans h2).trans (List.suffix_cons '(' more)).trans h1
      · exact h1
    · exact h1

theorem parse_inf_suffix (s r : Input) (h : parse_inf s = some r) : r <:+ s := by
  unfold parse_inf at h
  split at h
  · simp at h
  · rename_i rest hsp
    have h1 := string_parse_suffix _ _ _ _ hsp
    split at h
    · rename_i rest2 hsp2
      have h2 := string_parse_suffix _ _ _ _ hsp2
      simp only [Option.some.injEq] at h
      subst h
      exact h2.trans h1
    · simp only [Option.some.injEq] at h
      subst h
      exact h1

theorem real_exponent_suffix (neg : Bool) (d k : Nat) (e_pos r : Input) (v : Real64)
    (h : real_exponent neg d k e_pos = .ok v r) : r <:+ e_pos := by
  unfold real_exponent at h
  split at h
  · rename_i c cs
    split at h
    · split at h
      · rename_i e rest he
        have := extract_int_suffix _ _ _ _ he
        simp only [Result.ok.injEq] at h
        rw [← h.2]
        exact this.trans (List.suffix_cons c cs)
      · simp only [Result.ok.injEq] at h
        rw [← h.2]
    · simp only [Result.ok.injEq] at h
      rw [← h.2]
  · simp only [Result.ok.injEq] at h
    rw [← h.2]

theorem real_tail_suffix (save : Input) (neg : Bool) (n first r : Input) (v : Real64)
    (h : real_tail save neg n first = .ok v r) : r <:+ first := by
  cases first with
  | nil => simp [real_tail] at h
  | cons c cs =>
    by_cases hc : c = '.'
    · subst hc
      rw [real_tail_dot] at h
      split at h
      · simp at h
      · exact ((real_exponent_suffix _ _ _ _ _ _ h).trans (List.dropWhile_suffix isdigit)).trans
          (List.suffix_cons '.' cs)
    · rw [real_tail_cons _ _ _ _ _ hc] at h
      split at h
      · simp at h
      · split at h
        · exact real_exponent_suffix _ _ _ _ _ _ h
        · simp at h

theorem real_impl_suffix (save r : Input) (v : Real64) (h : real_impl save = .ok v r) :
    r <:+ save := by
  unfold real_impl at h
  have hs := extract_sign_suffix save
  split at h
  · simp at h
  · split at h
    · have hn := parse_nan_suffix (extract_sign save).2
      cases hp : parse_nan (extract_sign save).2 with
      | mk b f =>
        rw [hp] at h hn
        cases b with
        | true =>
          simp only [Result.ok.injEq] at h
          rw [← h.2]
          exact hn.trans hs
        | false =>
          simp only at h hn
          cases hi : parse_inf f with
          | some rest =>
            rw [hi] at h
            simp only [Result.ok.injEq] at h
            rw [← h.2]
            exact ((parse_inf_suffix _ _ hi).trans hn).trans hs
          | none =>
            rw [hi] at h
            exact ((real_tail_suffix _ _ _ _ _ _ h).trans hn).trans hs
    · exact ((real_tail_suffix _ _ _ _ _ _ h).trans (List.dropWhile_suffix isdigit)).trans hs

theorem long_suffix (s r : Input) (v : Int) (h : long_ s = .ok v r) : r <:+ s := by
  unfold long_ at h
  split at h
  · rename_i n rest he
    simp only [Result.ok.injEq] at h
    rw [← h.2]
    exact (extract_int_suffix _ _ _ _ he).trans (skip_over_suffix s)
  · simp at h

theorem number_literal_suffix (s r : Input) (v : Literal) (h : number_literal s = .ok v r) :
    r <:+ s := by
  unfold number_literal at h
  cases hr : strict_real s with
  | ok x rest =>
    rw [hr] at h
    simp only [Result.ok.injEq] at h
    rw [← h.2]
    exact (real_impl_suffix _ _ _ hr).trans (skip_over_suffix s)
  | fail pos =>
    rw [hr] at h
    simp only at h
    have hp := real_impl_fail_pos _ _ hr
    cases hl : long_ pos with
    | ok n rest =>
      rw [hl] at h
      simp only [Result.ok.injEq] at h
      rw [← h.2]
      have := long_suffix _ _ _ hl
      rw [hp] at this
      exact this.trans (skip_over_suffix s)
    | fail p => rw [hl] at h; simp at h
    | error w p => rw [hl] at h; simp at h
    | fuel => rw [hl] at h; simp at h
  | error w p => rw [hr] at h; simp at h
  | fuel => rw [hr] at h; simp at h

theorem literal_suffix (s r : Input) (v : Literal) (h : literal s = .ok v r) : r <:+ s := by
  unfold literal at h
  cases hs : string_literal s with
  | ok x rest =>
    rw [hs] at h
    simp only [Result.ok.injEq] at h
    rw [← h.2]
    exact string_literal_suffix _ _ _ hs
  | fail pos =>
    rw [hs] at h
    simp only at h
    have hpos := (string_literal_fail_pos s pos hs).1
    unfold bool_literal at h
    cases hb : bool_ pos with
    | ok b rest =>
      rw [hb] at h
      simp only [Result.ok.injEq] at h
      rw [← h.2]
      have := bool_suffix _ _ _ hb
      rw [hpos] at this
      exact this.trans (skip_over_suffix s)
    | fail pos2 =>
      rw [hb] at h
      simp only at h
      have hpos2 := bool_fail_pos _ _ hb
      have := number_literal_suffix _ _ _ h
      rw [hpos2, hpos] at this
      exact (this.trans (skip_over_suffix _)).trans (skip_over_suffix s)
    | error w p => rw [hb] at h; simp at h
    | fuel => rw [hb] at h; simp at h
  | error w p => rw [hs] at h; simp at h
  | fuel => rw [hs] at h; simp at h

theorem compare_suffix (s r : Input) (c : Compare) (h : compare s = .ok c r) : r <:+ s := by
  unfold compare at h
  cases hid : identifier s with
  | ok id r1 =>
    rw [hid] at h
    simp only at h
    cases ho : compare_op r1 with
    | ok op r2 =>
      rw [ho] at h
      simp only at h
      cases hl : literal r2 with
      | ok v r3 =>
        rw [hl] at h
        simp only [Result.ok.injEq] at h
        rw [← h.2]
        exact ((literal_suffix _ _ _ hl).trans (compare_op_suffix _ _ _ ho)).trans
          (identifier_suffix _ _ _ hid)
      | fail p => rw [hl] at h; simp at h
      | error w p => rw [hl] at h; simp at h
      | fuel => rw [hl] at h; simp at h
    | fail p => rw [ho] at h; simp at h
    | error w p => rw [ho] at h; simp at h
    | fuel => rw [ho] at h; simp at h
  | fail p => rw [hid] at h; simp at h
  | error w p => rw [hid] at h; simp at h
  | fuel => rw [hid] at h; simp at h

/-! ## A match is not changed by the case of keyword letters after it -/

theorem dropWhile_self (p : Char → Bool) (l r : Input) (h : l.dropWhile p = r ++ l) :
    r = [] ∧ stops p l = true := by
  have hlen := dropWhile_length p l
  rw [h] at hlen
  simp only [List.length_append] at hlen
  have hr : r = [] := List.eq_nil_of_length_eq_zero (by omega)
  subst hr
  refine ⟨rfl, ?_⟩
  cases l with
  | nil => rfl
  | cons c cs =>
    by_cases hc : p c = true
    · simp only [List.dropWhile, hc, List.nil_append] at h
      have := dropWhile_length p cs
      rw [h] at this
      simp only [List.length_cons] at this
      omega
    · simpa [stops] using hc

theorem stops_dropWhile (p : Char → Bool) (l : Input) (h : stops p l = true) :
    l.dropWhile p = l ∧ l.takeWhile p = [] := by
  cases l with
  | nil => exact ⟨rfl, rfl⟩
  | cons c cs =>
    simp only [stops, Bool.not_eq_true'] at h
    simp [List.dropWhile, List.takeWhile, h]

/-- Where a run of characters of a class ends does not depend on the case of
keyword letters after its end. -/
theorem dropWhile_loc (p : Char → Bool)
    (hp : ∀ c d, same_letter c d = true → p c = p d) (x r T0 T : Input)
    (h : (x ++ T0).dropWhile p = r ++ T0) (hT : same_letters T0 T = true) :
    (x ++ T).dropWhile p = r ++ T ∧ (x ++ T).takeWhile p = (x ++ T0).takeWhile p := by
  induction x generalizing r with
  | nil =>
    simp only [List.nil_append] at h ⊢
    obtain ⟨rfl, hs⟩ := dropWhile_self p T0 r h
    have hs2 : stops p T = true := by rw [← same_letters_stops p hp T0 T hT]; exact hs
    rw [(stops_dropWhile p T hs2).1, (stops_dropWhile p T hs2).2, (stops_dropWhile p T0 hs).2]
    exact ⟨rfl, rfl⟩
  | cons a x ih =>
    by_cases ha : p a = true
    · simp only [List.cons_append, List.dropWhile, List.takeWhile, ha] at h ⊢
      have := ih r h
      exact ⟨this.1, congrArg _ this.2⟩
    · simp only [Bool.not_eq_true] at ha
      simp only [List.cons_append, List.dropWhile, List.takeWhile, ha] at h ⊢
      have : a :: x = r := List.append_cancel_right (by simpa using h)
      subst this
      exact ⟨rfl, trivial⟩

theorem skip_over_loc (x r T0 T : Input) (h : skip_over (x ++ T0) = r ++ T0)
    (hT : same_letters T0 T = true) : skip_over (x ++ T) = r ++ T :=
  (dropWhile_loc isspace same_letter_isspace x r T0 T h hT).1

/-- The end of a run that stops before the changed part. -/
theorem dropWhile_inside (p : Char → Bool) (x r T0 T : Input) (a : Char)
    (h : (x ++ T0).dropWhile p = a :: (r ++ T0)) :
    (x ++ T).dropWhile p = a :: (r ++ T) ∧ (x ++ T).takeWhile p = (x ++ T0).takeWhile p := by
  induction x with
  | nil =>
    simp only [List.nil_append] at h
    have := dropWhile_length p T0
    rw [h] at this
    simp only [List.length_cons, List.length_append] at this
    omega
  | cons b x ih =>
    by_cases hb : p b = true
    · simp only [List.cons_append, List.dropWhile, List.takeWhile, hb] at h ⊢
      have := ih h
      exact ⟨this.1, congrArg _ this.2⟩
    · simp only [Bool.not_eq_true] at hb
      simp only [List.cons_append, List.dropWhile, List.takeWhile, hb, List.cons.injEq] at h ⊢
      obtain ⟨rfl, h2⟩ := h
      have : x = r := List.append_cancel_right h2
      subst this
      exact ⟨⟨rfl, rfl⟩, trivial⟩

theorem string_parse_loc (lo hi x r T0 T : Input)
    (h : string_parse lo hi (x ++ T0) = some (r ++ T0)) :
    string_parse lo hi (x ++ T) = some (r ++ T) := by
  induction lo generalizing hi x with
  | nil =>
    simp only [string_parse, Option.some.injEq] at h ⊢
    rw [List.append_cancel_right h]
  | cons l lo ih =>
    cases hi with
    | nil => simp [string_parse] at h
    | cons u hi =>
      cases x with
      | nil =>
        have := string_parse_length _ _ _ _ h
        simp only [List.nil_append, List.length_append, List.length_cons] at this
        omega
      | cons c cs =>
        simp only [List.cons_append, string_parse] at h ⊢
        split at h
        · rename_i hc
          rw [if_pos hc]
          exact ih hi cs h
        · simp at h

/-- A keyword that does not match still does not match when keyword letters
change their case: the letters are compared in both cases. -/
theorem string_parse_none_same (lo hi X Y : Input) (hXY : same_letters X Y = true)
    (hp : ∀ q ∈ lo.zip hi, ∀ c d, same_letter c d = true →
      (d = q.1 ∨ d = q.2) → (c = q.1 ∨ c = q.2))
    (h : string_parse lo hi X = none) : string_parse lo hi Y = none := by
  induction lo generalizing hi X Y with
  | nil => simp [string_parse] at h
  | cons l lo ih =>
    cases hi with
    | nil => simp [string_parse]
    | cons u hi =>
      cases X with
      | nil => rw [same_letters_nil Y hXY]; simp [string_parse]
      | cons c cs =>
        obtain ⟨d, ds, rfl, hcd, hr⟩ := same_letters_cons c cs Y hXY
        simp only [string_parse] at h ⊢
        have hq := hp (l, u) (by simp) c d hcd
        by_cases hd : d = l ∨ d = u
        · rw [if_pos hd]
          rw [if_pos (hq hd)] at h
          exact ih hi cs ds hr (fun q hq2 => hp q (by simp [hq2])) h
        · rw [if_neg hd]

/-- The two cases of a keyword letter are the same letter for the matcher. -/
theorem keyword_pairs (kw : List Char)
    (hkw : ∀ q ∈ (kw.map Char.toLower).zip (kw.map Char.toUpper), ∀ l ∈ keyword_letters,
      ((l = q.1 ∨ l = q.2) ↔ (l.toUpper = q.1 ∨ l.toUpper = q.2))) :
    ∀ q ∈ (kw.map Char.toLower).zip (kw.map Char.toUpper), ∀ c d, same_letter c d = true →
      (d = q.1 ∨ d = q.2) → (c = q.1 ∨ c = q.2) := by
  intro q hq c d hcd
  exact same_letter_cases (fun c d => (d = q.1 ∨ d = q.2) → (c = q.1 ∨ c = q.2))
    (fun _ h => h) (fun l hl => ⟨(hkw q hq l hl).2, (hkw q hq l hl).1⟩) c d hcd

theorem no_case_fail_same (kw : String) (X Y p : Input) (hXY : same_letters X Y = true)
    (hkw : ∀ q ∈ (kw.toList.map Char.toLower).zip (kw.toList.map Char.toUpper),
      ∀ l ∈ keyword_letters, ((l = q.1 ∨ l = q.2) ↔ (l.toUpper = q.1 ∨ l.toUpper = q.2)))
    (h : no_case kw X = .fail p) : no_case kw Y = .fail (skip_over Y) := by
  unfold no_case at h ⊢
  cases hx : string_parse (kw.toList.map Char.toLower) (kw.toList.map Char.toUpper)
      (skip_over X) with
  | some r => rw [hx] at h; simp at h
  | none =>
    rw [string_parse_none_same _ _ _ _ (same_letters_skip X Y hXY)
      (keyword_pairs kw.toList hkw) hx]

theorem string_parse_shape (kw s R : Input)
    (h : string_parse (kw.map Char.toLower) (kw.map Char.toUpper) s = some R) :
    ∃ k, s = k ++ R ∧ spells kw k = true := by
  induction kw generalizing s with
  | nil =>
    simp only [List.map_nil, string_parse, Option.some.injEq] at h
    exact ⟨[], by simp [h], rfl⟩
  | cons l kw ih =>
    cases s with
    | nil => simp [string_parse] at h
    | cons c cs =>
      simp only [List.map_cons, string_parse] at h
      split at h
      · rename_i hc
        obtain ⟨k, hk, hs⟩ := ih cs h
        refine ⟨c :: k, by simp [hk], ?_⟩
        simp only [spells, Bool.and_eq_true, Bool.or_eq_true, decide_eq_true_eq]
        exact ⟨hc, hs⟩
      · simp at h

theorem takeWhile_all (p : Char → Bool) (l : Input) : ∀ c ∈ l.takeWhile p, p c = true :=
  fun _ hc => List.mem_takeWhile_imp hc

theorem skip_over_blank (ws s : Input) (hws : ∀ c ∈ ws, isspace c = true) :
    skip_over (ws ++ s) = skip_over s := by
  induction ws with
  | nil => rfl
  | cons a ws ih =>
    rw [List.cons_append, skip_over_cons_of_space a _ (hws a (List.mem_cons_self _ _))]
    exact ih (fun c hc => hws c (List.mem_cons_of_mem _ hc))

/-- A matched keyword: white space, a spelling of the keyword, the rest; any
other spelling in its place is matched as well, whatever follows. -/
theorem no_case_shape (kw : String) (X R : Input) (h : no_case kw X = .ok () R)
    (hhead : ∀ k, spells kw.toList k = true → stops isspace k = true ∧ k ≠ []) :
    ∃ ws k, X = ws ++ (k ++ R) ∧ (∀ c ∈ ws, isspace c = true) ∧ spells kw.toList k = true
      ∧ ∀ k2 T, spells kw.toList k2 = true → no_case kw (ws ++ (k2 ++ T)) = .ok () T := by
  unfold no_case at h
  cases hx : string_parse (kw.toList.map Char.toLower) (kw.toList.map Char.toUpper)
      (skip_over X) with
  | none => rw [hx] at h; simp at h
  | some r =>
    rw [hx] at h
    simp only [Result.ok.injEq, true_and] at h
    subst h
    obtain ⟨k, hk, hs⟩ := string_parse_shape _ _ _ hx
    refine ⟨X.takeWhile isspace, k, ?_, takeWhile_all isspace X, hs, ?_⟩
    · have := List.takeWhile_append_dropWhile isspace X
      unfold skip_over at hk
      rw [hk] at this
      exact this.symm
    · intro k2 T hs2
      obtain ⟨hst, hne⟩ := hhead k2 hs2
      have h1 := (no_case_spelled kw k2 T hs2 hst hne).1
      unfold no_case at h1 ⊢
      rw [skip_over_blank _ _ (takeWhile_all isspace X)]
      exact h1

theorem lit_shape (ch : Char) (X R : Input) (h : lit ch X = .ok () R)
    (hch : isspace ch = false) :
    ∃ ws, X = ws ++ ch :: R ∧ (∀ c ∈ ws, isspace c = true)
      ∧ ∀ T, lit ch (ws ++ ch :: T) = .ok () T := by
  unfold lit at h
  cases hs : skip_over X with
  | nil => rw [hs] at h; simp at h
  | cons c cs =>
    rw [hs] at h
    simp only at h
    split at h
    · rename_i hc
      simp only [Result.ok.injEq, true_and] at h
      subst hc h
      refine ⟨X.takeWhile isspace, ?_, takeWhile_all isspace X, ?_⟩
      · have := List.takeWhile_append_dropWhile isspace X
        unfold skip_over at hs
        rw [hs] at this
        exact this.symm
      · intro T
        unfold lit
        rw [skip_over_blank _ _ (takeWhile_all isspace X), skip_over_cons_of_not_space c T hch]
        simp
    · simp at h

theorem lit_fail_same (ch : Char) (X Y p : Input) (hXY : same_letters X Y = true)
    (hch : ∀ l ∈ keyword_letters, ch ≠ l ∧ ch ≠ l.toUpper)
    (h : lit ch X = .fail p) : lit ch Y = .fail (skip_over Y) := by
  have hsk := same_letters_skip X Y hXY
  unfold lit at h ⊢
  cases hx : skip_over X with
  | nil =>
    rw [hx] at hsk
    rw [same_letters_nil _ hsk]
  | cons c cs =>
    rw [hx] at h hsk
    obtain ⟨d, ds, hy, hcd, _⟩ := same_letters_cons c cs _ hsk
    rw [hy]
    simp only at h ⊢
    split at h
    · simp at h
    · rename_i hc
      have : ¬ d = ch := fun e => hc ((same_letter_fixed ch c d hcd hch).2 e)
      simp [this]

/-- A lexeme read after white space, as a run of a class of characters: where
it ends does not depend on the case of keyword letters after its end. -/
theorem skip_run_loc (p : Char → Bool)
    (hp : ∀ c d, same_letter c d = true → p c = p d) (x r T0 T : Input) (c : Char)
    (cs : Input) (hs : skip_over (x ++ T0) = c :: cs) (hd : cs.dropWhile p = r ++ T0)
    (hT : same_letters T0 T = true) :
    ∃ cs2, skip_over (x ++ T) = c :: cs2 ∧ cs2.dropWhile p = r ++ T
      ∧ cs2.takeWhile p = cs.takeWhile p := by
  have hcs : cs = (cs.takeWhile p ++ r) ++ T0 := by
    have := List.takeWhile_append_dropWhile p cs
    rw [hd] at this
    rw [List.append_assoc]
    exact this.symm
  have hs2 : skip_over (x ++ T0) = (c :: (cs.takeWhile p ++ r)) ++ T0 := by
    rw [hs, List.cons_append, ← hcs]
  have h1 := skip_over_loc x _ T0 T hs2 hT
  have hd2 : ((cs.takeWhile p ++ r) ++ T0).dropWhile p = r ++ T0 := by
    rw [← hcs]
    exact hd
  have h2 := dropWhile_loc p hp _ r T0 T hd2 hT
  refine ⟨(cs.takeWhile p ++ r) ++ T, h1, h2.1, ?_⟩
  rw [h2.2, ← hcs]

theorem identifier_loc (x r T0 T : Input) (v : List Char)
    (h : identifier (x ++ T0) = .ok v (r ++ T0)) (hT : same_letters T0 T = true) :
    identifier (x ++ T) = .ok v (r ++ T) := by
  unfold identifier at h ⊢
  cases hs : skip_over (x ++ T0) with
  | nil => rw [hs] at h; simp at h
  | cons c cs =>
    rw [hs] at h
    simp only at h
    split at h
    · rename_i hc
      simp only [Result.ok.injEq] at h
      obtain ⟨cs2, h1, h2, h3⟩ := skip_run_loc isidchar same_letter_isidchar x r T0 T c cs hs
        h.2 hT
      rw [h1]
      simp only [hc, if_true, h2, h3, Result.ok.injEq, and_true]
      exact h.1
    · simp at h

theorem identifier_fail_same (X Y p : Input) (hXY : same_letters X Y = true)
    (h : identifier X = .fail p) : identifier Y = .fail (skip_over Y) := by
  have hsk := same_letters_skip X Y hXY
  rcases identifier_fail_pos X p h with hs | ⟨c, cs, hs, hc⟩
  · rw [hs] at hsk
    unfold identifier
    rw [same_letters_nil _ hsk]
  · rw [hs] at hsk
    obtain ⟨d, ds, hy, hcd, _⟩ := same_letters_cons c cs _ hsk
    unfold identifier
    rw [hy]
    have : isalpha d = false := by rw [← same_letter_isalpha c d hcd]; exact hc
    simp [this]

theorem starts_with_same (k X Y : Input) (hXY : same_letters X Y = true)
    (hk : ∀ a ∈ k, ∀ l ∈ keyword_letters, a ≠ l ∧ a ≠ l.toUpper) :
    starts_with k X = starts_with k Y := by
  induction k generalizing X Y with
  | nil => simp [starts_with]
  | cons a k ih =>
    cases X with
    | nil => rw [same_letters_nil Y hXY]
    | cons c cs =>
      obtain ⟨d, ds, rfl, hcd, hr⟩ := same_letters_cons c cs Y hXY
      have h1 : (a = c) ↔ (a = d) := by
        have := same_letter_fixed a c d hcd (hk a (List.mem_cons_self _ _))
        constructor
        · intro e; exact (this.1 e.symm).symm
        · intro e; exact (this.2 e.symm).symm
      simp only [starts_with]
      rw [ih cs ds hr (fun b hb => hk b (List.mem_cons_of_mem _ hb))]
      simp only [h1]

theorem tst_find_same {α : Type} (t : List (List Char × α)) (X Y : Input)
    (hXY : same_letters X Y = true)
    (ht : ∀ kv ∈ t, ∀ a ∈ kv.1, ∀ l ∈ keyword_letters, a ≠ l ∧ a ≠ l.toUpper) :
    tst_find t X = tst_find t Y := by
  induction t with
  | nil => rfl
  | cons kv t ih =>
    obtain ⟨k, v⟩ := kv
    have h1 := starts_with_same k X Y hXY (ht (k, v) (List.mem_cons_self _ _))
    have h2 := ih (fun kv hkv => ht kv (List.mem_cons_of_mem _ hkv))
    simp only [tst_find, h1, h2]

theorem compare_op_loc (x r T0 T : Input) (v : CompareOpType)
    (h : compare_op (x ++ T0) = .ok v (r ++ T0)) (hT : same_letters T0 T = true) :
    compare_op (x ++ T) = .ok v (r ++ T) := by
  unfold compare_op at h ⊢
  cases hf : tst_find compare_op_table (skip_over (x ++ T0)) with
  | none => rw [hf] at h; simp at h
  | some q =>
    obtain ⟨n, w⟩ := q
    rw [hf] at h
    simp only [Result.ok.injEq] at h
    have hn := tst_find_length _ _ _ _ hf
    have hsplit : skip_over (x ++ T0)
        = ((skip_over (x ++ T0)).take n ++ r) ++ T0 := by
      rw [List.append_assoc, ← h.2, List.take_append_drop]
    have hs2 := skip_over_loc x _ T0 T hsplit hT
    have hsame : same_letters (skip_over (x ++ T0)) (skip_over (x ++ T)) = true := by
      rw [hs2]
      nth_rewrite 1 [hsplit]
      exact same_letters_after _ _ _ hT
    have hf2 := tst_find_same compare_op_table _ _ hsame (by decide)
    rw [← hf2, hf]
    simp only [Result.ok.injEq]
    refine ⟨h.1, ?_⟩
    rw [hs2, List.append_assoc]
    exact List.drop_left' (by simp [List.length_take]; omega)

theorem string_literal_loc (x r T0 T : Input) (v : Literal)
    (h : string_literal (x ++ T0) = .ok v (r ++ T0)) :
    string_literal (x ++ T) = .ok v (r ++ T) := by
  unfold string_literal at h ⊢
  cases hs : skip_over (x ++ T0) with
  | nil => rw [hs] at h; simp at h
  | cons q cs =>
    rw [hs] at h
    simp only at h
    split at h
    · rename_i hq
      cases hd : cs.dropWhile (fun c => ischar c && c != q) with
      | nil => rw [hd] at h; simp at h
      | cons c rest =>
        rw [hd] at h
        simp only at h
        split at h
        · rename_i hc
          simp only [Result.ok.injEq] at h
          rw [hc] at hd
          have hrest := h.2
          subst hrest
          have hcs : cs = (cs.takeWhile (fun c => ischar c && c != q) ++ q :: r) ++ T0 := by
            have := List.takeWhile_append_dropWhile (fun c => ischar c && c != q) cs
            rw [hd] at this
            rw [List.append_assoc, List.cons_append]
            exact this.symm
          have hs2 : (x ++ T0).dropWhile isspace
              = q :: ((cs.takeWhile (fun c => ischar c && c != q) ++ q :: r) ++ T0) := by
            rw [← hcs]
            exact hs
          have h1 := (dropWhile_inside isspace x _ T0 T q hs2).1
          have hd2 : ((cs.takeWhile (fun c => ischar c && c != q) ++ q :: r) ++ T0).dropWhile
              (fun c => ischar c && c != q) = q :: (r ++ T0) := by
            rw [← hcs]
            exact hd
          have h2 := dropWhile_inside (fun c => ischar c && c != q) _ r T0 T q hd2
          unfold skip_over
          rw [h1]
          simp only [hq, if_true, h2.1, h2.2, ← hcs, Result.ok.injEq, and_true]
          exact h.1
        · simp at h
    · simp at h

theorem string_literal_fail_same (X Y p : Input) (hXY : same_letters X Y = true)
    (h : string_literal X = .fail p) : string_literal Y = .fail (skip_over Y) := by
  have hsk := same_letters_skip X Y hXY
  unfold string_literal at h ⊢
  cases hx : skip_over X with
  | nil =>
    rw [hx] at hsk
    rw [same_letters_nil _ hsk]
  | cons c cs =>
    rw [hx] at h hsk
    obtain ⟨d, ds, hy, hcd, _⟩ := same_letters_cons c cs _ hsk
    rw [hy]
    simp only at h ⊢
    split at h
    · split at h
      · split at h <;> simp at h
      · simp at h
    · rename_i hq
      have h34 := same_letter_fixed (Char.ofNat 34) c d hcd (by decide)
      have h39 := same_letter_fixed (Char.ofNat 39) c d hcd (by decide)
      have : ¬ (d = Char.ofNat 34 ∨ d = Char.ofNat 39) := by
        rintro (e | e)
        · exact hq (Or.inl (h34.2 e))
        · exact hq (Or.inr (h39.2 e))
      simp [this]

theorem bool_loc (x r T0 T : Input) (b : Bool) (h : bool_ (x ++ T0) = .ok b (r ++ T0)) :
    bool_ (x ++ T) = .ok b (r ++ T) := by
  rw [bool_ok_iff] at h ⊢
  rcases h with ⟨h1, hb⟩ | ⟨h1, hb⟩
  · left
    refine ⟨?_, hb⟩
    have : (x ++ T0).dropWhile isspace = 't' :: (("rue".toList ++ r) ++ T0) := by
      simpa [skip_over] using h1
    have := (dropWhile_inside isspace x _ T0 T 't' this).1
    simpa [skip_over] using this
  · right
    refine ⟨?_, hb⟩
    have : (x ++ T0).dropWhile isspace = 'f' :: (("alse".toList ++ r) ++ T0) := by
      simpa [skip_over] using h1
    have := (dropWhile_inside isspace x _ T0 T 'f' this).1
    simpa [skip_over] using this

theorem bool_fail_head (Y : Input) (c : Char) (cs : Input) (hs : skip_over Y = c :: cs)
    (ht : c ≠ 't') (hf : c ≠ 'f') : bool_ Y = .fail (c :: cs) := by
  unfold bool_
  rw [hs]
  simp [string_parse, ht, hf]

theorem extract_sign_loc (x T : Input) (hx : x ≠ []) :
    extract_sign (x ++ T) = ((extract_sign x).1, (extract_sign x).2 ++ T) := by
  cases x with
  | nil => exact absurd rfl hx
  | cons c cs =>
    simp only [List.cons_append, extract_sign]
    split
    · rfl
    · split <;> rfl

theorem extract_sign_same (X Y : Input) (hXY : same_letters X Y = true) :
    (extract_sign X).1 = (extract_sign Y).1
      ∧ same_letters (extract_sign X).2 (extract_sign Y).2 = true := by
  cases X with
  | nil => rw [same_letters_nil Y hXY]; exact ⟨rfl, rfl⟩
  | cons c cs =>
    obtain ⟨d, ds, rfl, hcd, hr⟩ := same_letters_cons c cs Y hXY
    have hm := same_letter_fixed '-' c d hcd (by decide)
    have hp := same_letter_fixed '+' c d hcd (by decide)
    simp only [extract_sign]
    by_cases h1 : c = '-'
    · rw [if_pos h1, if_pos (hm.1 h1)]
      exact ⟨rfl, hr⟩
    · have h1d : ¬ d = '-' := fun e => h1 (hm.2 e)
      rw [if_neg h1, if_neg h1d]
      by_cases h2 : c = '+'
      · rw [if_pos h2, if_pos (hp.1 h2)]
        exact ⟨rfl, hr⟩
      · have h2d : ¬ d = '+' := fun e => h2 (hp.2 e)
        rw [if_neg h2, if_neg h2d]
        refine ⟨rfl, ?_⟩
        simp only [same_letters, Bool.and_eq_true]
        exact ⟨hcd, hr⟩

/-- A run of characters of a class without keyword letters is the same in two
texts equal up to the case of keyword letters. -/
theorem same_letters_takeWhile (p : Char → Bool)
    (hp : ∀ c d, same_letter c d = true → p c = p d)
    (hfix : ∀ c d, same_letter c d = true → p c = true → d = c) (X Y : Input)
    (h : same_letters X Y = true) : Y.takeWhile p = X.takeWhile p := by
  induction X generalizing Y with
  | nil => rw [same_letters_nil Y h]
  | cons c cs ih =>
    obtain ⟨d, ds, rfl, hcd, hr⟩ := same_letters_cons c cs Y h
    by_cases hc : p c = true
    · have hd : p d = true := by rw [← hp c d hcd]; exact hc
      have := hfix c d hcd hc
      subst this
      simp only [List.takeWhile, hc]
      rw [ih ds hr]
    · simp only [Bool.not_eq_true] at hc
      have hd : p d = false := by rw [← hp c d hcd]; exact hc
      simp [List.takeWhile, hc, hd]

theorem same_letter_digit_fixed (c d : Char) (h : same_letter c d = true)
    (hc : isdigit c = true) : d = c :=
  same_letter_cases (fun c d => isdigit c = true → d = c) (fun _ _ => rfl) (by decide) c d h hc

theorem extract_int_progress (bits : Nat) (s r : Input) (v : Int)
    (h : extract_int bits s = some (v, r)) : r.length < s.length := by
  unfold extract_int at h
  have h1 := extract_sign_length s
  have h2 := List.takeWhile_append_dropWhile isdigit (extract_sign s).2
  have h3 := congrArg List.length h2
  simp only [List.length_append] at h3
  simp only at h
  split at h
  · simp at h
  · rename_i hne
    have hpos : 0 < ((extract_sign s).2.takeWhile isdigit).length :=
      List.length_pos.2 hne
    split at h
    · split at h
      · simp only [Option.some.injEq, Prod.mk.injEq] at h
        rw [← h.2]; omega
      · simp at h
    · split at h
      · simp only [Option.some.injEq, Prod.mk.injEq] at h
        rw [← h.2]; omega
      · simp at h

theorem extract_int_drop (bits : Nat) (s r : Input) (v : Int)
    (h : extract_int bits s = some (v, r)) : (extract_sign s).2.dropWhile isdigit = r := by
  unfold extract_int at h
  simp only at h
  split at h
  · simp at h
  · split at h
    · split at h
      · simp only [Option.some.injEq, Prod.mk.injEq] at h
        exact h.2
      · simp at h
    · split at h
      · simp only [Option.some.injEq, Prod.mk.injEq] at h
        exact h.2
      · simp at h

/-- What `extract_int` returns is a function of the sign, the digits and what
is left after them. -/
theorem extract_int_of_parts (bits : Nat) (s s2 : Input)
    (h1 : (extract_sign s2).1 = (extract_sign s).1)
    (h2 : (extract_sign s2).2.takeWhile isdigit = (extract_sign s).2.takeWhile isdigit) :
    extract_int bits s2 = (extract_int bits s).map
      (fun p => (p.1, (extract_sign s2).2.dropWhile isdigit)) := by
  unfold extract_int
  simp only [h1, h2]
  split
  · rfl
  · split
    · split <;> rfl
    · split <;> rfl

theorem extract_int_loc (bits : Nat) (y r T0 T : Input) (e : Int)
    (h : extract_int bits (y ++ T0) = some (e, r ++ T0)) (hT : same_letters T0 T = true) :
    extract_int bits (y ++ T) = some (e, r ++ T) := by
  have hy : y ≠ [] := by
    rintro rfl
    have := extract_int_progress _ _ _ _ h
    simp only [List.nil_append, List.length_append] at this
    omega
  have hd := extract_int_drop _ _ _ _ h
  rw [extract_sign_loc y T0 hy] at hd
  simp only at hd
  have hl := dropWhile_loc isdigit same_letter_isdigit _ r T0 T hd hT
  have := extract_int_of_parts bits (y ++ T0) (y ++ T)
    (by rw [extract_sign_loc y T hy, extract_sign_loc y T0 hy])
    (by rw [extract_sign_loc y T hy, extract_sign_loc y T0 hy]; exact hl.2)
  rw [this, h, extract_sign_loc y T hy]
  simp only [Option.map_some', hl.1]

theorem extract_int_none_same (bits : Nat) (X Y : Input) (hXY : same_letters X Y = true)
    (h : extract_int bits X = none) : extract_int bits Y = none := by
  obtain ⟨h1, h2⟩ := extract_sign_same X Y hXY
  have h3 := same_letters_takeWhile isdigit same_letter_isdigit same_letter_digit_fixed _ _ h2
  rw [extract_int_of_parts bits X Y h1.symm h3, h]
  rfl

theorem parse_nan_open (s more : Input)
    (hp : string_parse "nan".toList "NAN".toList s = some ('(' :: more)) :
    parse_nan s = (match more.dropWhile (fun c => c != ')') with
      | _ :: after => (true, after)
      | [] => (false, '(' :: more)) := by
  unfold parse_nan
  rw [hp]
  rfl

theorem parse_nan_plain (s rest : Input)
    (hp : string_parse "nan".toList "NAN".toList s = some rest)
    (hrest : ∀ more, rest ≠ '(' :: more) : parse_nan s = (true, rest) := by
  cases rest with
  | nil =>
    unfold parse_nan
    rw [hp]
  | cons c cs =>
    have hc : c ≠ '(' := fun e => hrest cs (by rw [e])
    unfold parse_nan
    rw [hp]
    simp only

theorem parse_nan_loc (y r T0 T : Input) (h : parse_nan (y ++ T0) = (true, r ++ T0))
    (hT : same_letters T0 T = true) : parse_nan (y ++ T) = (true, r ++ T) := by
  cases hp : string_parse "nan".toList "NAN".toList (y ++ T0) with
  | none =>
    unfold parse_nan at h
    rw [hp] at h
    simp at h
  | some rest =>
    have hsuf : (r ++ T0) <:+ rest := by
      have := parse_nan_suffix (y ++ T0)
      rw [h] at this
      have h2 : (parse_nan (y ++ T0)).2 <:+ rest := by
        unfold parse_nan
        rw [hp]
        simp only
        split
        · rename_i more
          split
          · rename_i x after hd
            have h3 : (x :: after) <:+ more := by
              rw [← hd]
              exact List.dropWhile_suffix _
            exact ((List.suffix_cons x after).trans h3).trans (List.suffix_cons '(' more)
          · exact List.suffix_rfl
        · exact List.suffix_rfl
      rw [h] at h2
      exact h2
    obtain ⟨B, hB⟩ := hsuf
    have hrest : rest = (B ++ r) ++ T0 := by rw [List.append_assoc]; exact hB.symm
    rw [hrest] at hp
    have hp2 := string_parse_loc _ _ _ _ T0 T hp
    cases hBr : B ++ r with
    | nil =>
      rw [hBr] at hp hp2
      simp only [List.nil_append] at hp hp2
      have hB0 : B = [] := (List.append_eq_nil.1 hBr).1
      have hr0 : r = [] := (List.append_eq_nil.1 hBr).2
      subst hB0 hr0
      have hT0 : ∀ more, T0 ≠ '(' :: more := by
        intro more e
        rw [e] at hp h
        rw [parse_nan_open _ _ hp] at h
        cases hd : more.dropWhile (fun c => c != ')') with
        | nil => rw [hd] at h; simp at h
        | cons a after =>
          rw [hd] at h
          simp only [List.nil_append, Prod.mk.injEq, true_and] at h
          have := dropWhile_length (fun c => c != ')') more
          rw [hd, h] at this
          simp only [List.length_cons] at this
          omega
      have hT1 : ∀ more, T ≠ '(' :: more := by
        intro more e
        cases T0 with
        | nil => rw [same_letters_nil T hT] at e; simp at e
        | cons c cs =>
          obtain ⟨d, ds, hy, hcd, _⟩ := same_letters_cons c cs T hT
          rw [hy] at e
          simp only [List.cons.injEq] at e
          have := (same_letter_fixed '(' c d hcd (by decide)).2 e.1
          exact hT0 cs (by rw [this])
      simpa using parse_nan_plain _ _ hp2 hT1
    | cons b w =>
      rw [hBr] at hp hp2
      by_cases hb : b = '('
      · subst hb
        simp only [List.cons_append] at hp hp2
        rw [parse_nan_open _ _ hp] at h
        rw [parse_nan_open _ _ hp2]
        cases hd : (w ++ T0).dropWhile (fun c => c != ')') with
        | nil => rw [hd] at h; simp at h
        | cons a after =>
          rw [hd] at h
          simp only [Prod.mk.injEq, true_and] at h
          subst h
          rw [(dropWhile_inside _ w r T0 T a hd).1]
      · have hne0 : ∀ more, (b :: w) ++ T0 ≠ '(' :: more := by
          intro more e
          simp only [List.cons_append, List.cons.injEq] at e
          exact hb e.1
        have hne1 : ∀ more, (b :: w) ++ T ≠ '(' :: more := by
          intro more e
          simp only [List.cons_append, List.cons.injEq] at e
          exact hb e.1
        rw [parse_nan_plain _ _ hp hne0] at h
        rw [parse_nan_plain _ _ hp2 hne1]
        simp only [Prod.mk.injEq, true_and] at h ⊢
        have : b :: w = r := List.append_cancel_right h
        rw [this]

theorem parse_nan_none_same (X Y : Input) (hXY : same_letters X Y = true)
    (h : string_parse "nan".toList "NAN".toList X = none) : parse_nan Y = (false, Y) := by
  have hq : ∀ q ∈ "nan".toList.zip "NAN".toList, ∀ c d, same_letter c d = true →
      (d = q.1 ∨ d = q.2) → (c = q.1 ∨ c = q.2) := keyword_pairs "nan".toList (by decide)
  unfold parse_nan
  rw [string_parse_none_same _ _ X Y hXY hq h]

theorem parse_inf_loc (y r T0 T : Input) (h : parse_inf (y ++ T0) = some (r ++ T0))
    (hT : same_letters T0 T = true) : parse_inf (y ++ T) = some (r ++ T) := by
  unfold parse_inf at h ⊢
  cases h1 : string_parse "inf".toList "INF".toList (y ++ T0) with
  | none => rw [h1] at h; simp at h
  | some rest =>
    rw [h1] at h
    simp only at h
    cases h2 : string_parse "inity".toList "INITY".toList rest with
    | some rest2 =>
      rw [h2] at h
      simp only [Option.some.injEq] at h
      subst h
      obtain ⟨B, hB⟩ := string_parse_suffix _ _ _ _ h2
      have hrest : rest = (B ++ r) ++ T0 := by rw [List.append_assoc]; exact hB.symm
      rw [hrest] at h1 h2
      rw [string_parse_loc _ _ _ _ T0 T h1]
      simp only
      rw [string_parse_loc _ _ _ _ T0 T h2]
    | none =>
      rw [h2] at h
      simp only [Option.some.injEq] at h
      subst h
      rw [string_parse_loc _ _ _ _ T0 T h1]
      simp only
      have hq : ∀ q ∈ "inity".toList.zip "INITY".toList, ∀ c d, same_letter c d = true →
          (d = q.1 ∨ d = q.2) → (c = q.1 ∨ c = q.2) := keyword_pairs "inity".toList (by decide)
      rw [string_parse_none_same _ _ _ _ (same_letters_after r T0 T hT) hq h2]

theorem parse_inf_none_same (X Y : Input) (hXY : same_letters X Y = true)
    (h : parse_inf X = none) : parse_inf Y = none := by
  unfold parse_inf at h ⊢
  cases h1 : string_parse "inf".toList "INF".toList X with
  | none =>
    have hq : ∀ q ∈ "inf".toList.zip "INF".toList, ∀ c d, same_letter c d = true →
        (d = q.1 ∨ d = q.2) → (c = q.1 ∨ c = q.2) := keyword_pairs "inf".toList (by decide)
    rw [string_parse_none_same _ _ X Y hXY hq h1]
  | some rest =>
    rw [h1] at h
    simp only at h
    split at h <;> simp at h

theorem same_letter_exp (c d : Char) (h : same_letter c d = true) :
    (c = 'e' ∨ c = 'E') ↔ (d = 'e' ∨ d = 'E') :=
  same_letter_cases (fun c d => (c = 'e' ∨ c = 'E') ↔ (d = 'e' ∨ d = 'E')) (fun _ => Iff.rfl)
    (by decide) c d h

theorem real_exponent_loc (neg : Bool) (digits frac : Nat) (y r T0 T : Input) (v : Real64)
    (h : real_exponent neg digits frac (y ++ T0) = .ok v (r ++ T0))
    (hT : same_letters T0 T = true) :
    real_exponent neg digits frac (y ++ T) = .ok v (r ++ T) := by
  have hsame := same_letters_after y T0 T hT
  cases hy : y ++ T0 with
  | nil =>
    rw [hy] at hsame h
    rw [same_letters_nil _ hsame]
    have hy0 : y = [] := (List.append_eq_nil.1 hy).1
    have hT0 : T0 = [] := (List.append_eq_nil.1 hy).2
    subst hy0 hT0
    have hTn := same_letters_nil T hT
    subst hTn
    simpa using h
  | cons c cs =>
    rw [hy] at hsame h
    obtain ⟨d, ds, hyT, hcd, hr⟩ := same_letters_cons c cs _ hsame
    rw [hyT]
    have hexp := same_letter_exp c d hcd
    unfold real_exponent at h ⊢
    simp only at h ⊢
    by_cases hc : c = 'e' ∨ c = 'E'
    · rw [if_pos hc] at h
      rw [if_pos (hexp.1 hc)]
      cases he : extract_int 32 cs with
      | none =>
        rw [he] at h
        rw [extract_int_none_same 32 cs ds hr he]
        simp only [Result.ok.injEq] at h ⊢
        refine ⟨h.1, ?_⟩
        have h2 : y ++ T0 = r ++ T0 := by rw [hy]; exact h.2
        rw [← hyT, List.append_cancel_right h2]
      | some p =>
        obtain ⟨e, rest⟩ := p
        rw [he] at h
        simp only [Result.ok.injEq] at h
        cases y with
        | nil =>
          exfalso
          simp only [List.nil_append] at hy
          have := extract_int_length _ _ _ _ he
          rw [h.2, hy] at this
          simp only [List.length_append, List.length_cons] at this
          omega
        | cons a y2 =>
          simp only [List.cons_append, List.cons.injEq] at hy hyT
          obtain ⟨_, hcs⟩ := hy
          obtain ⟨_, hds⟩ := hyT
          rw [← hcs, h.2] at he
          have := extract_int_loc 32 y2 r T0 T e he hT
          rw [hds] at this
          rw [this]
          simp only [Result.ok.injEq, and_true]
          exact h.1
    · rw [if_neg hc] at h
      rw [if_neg (fun e => hc (hexp.2 e))]
      simp only [Result.ok.injEq] at h ⊢
      refine ⟨h.1, ?_⟩
      have h2 : y ++ T0 = r ++ T0 := by rw [hy]; exact h.2
      rw [← hyT, List.append_cancel_right h2]

theorem real_tail_loc (save save2 : Input) (neg : Bool) (n y r T0 T : Input) (v : Real64)
    (h : real_tail save neg n (y ++ T0) = .ok v (r ++ T0)) (hT : same_letters T0 T = true) :
    real_tail save2 neg n (y ++ T) = .ok v (r ++ T) := by
  cases y with
  | nil =>
    have hlen := real_tail_length _ _ _ _ _ _ h
    simp only [List.nil_append, List.length_append] at hlen
    have hr : r = [] := List.eq_nil_of_length_eq_zero (by omega)
    subst hr
    simp only [List.nil_append] at h ⊢
    cases T0 with
    | nil => simp [real_tail] at h
    | cons c cs =>
      obtain ⟨d, ds, rfl, hcd, hr⟩ := same_letters_cons c cs T hT
      by_cases hc : c = '.'
      · subst hc
        rw [real_tail_dot] at h
        split at h
        · simp at h
        · have h1 := real_exponent_length _ _ _ _ _ _ h
          have h2 := dropWhile_length isdigit cs
          simp only [List.length_cons] at h1
          omega
      · have hd : d ≠ '.' := fun e => hc ((same_letter_fixed '.' c d hcd (by decide)).2 e)
        rw [real_tail_cons _ _ _ _ _ hc] at h
        rw [real_tail_cons _ _ _ _ _ hd]
        split at h
        · simp at h
        · rename_i hn
          rw [if_neg hn]
          split at h
          · rename_i he
            rw [if_pos ((same_letter_exp c d hcd).1 he)]
            have := real_exponent_loc neg (decimal n) 0 [] [] (c :: cs) (d :: ds) v h hT
            simpa using this
          · simp at h
  | cons c y2 =>
    by_cases hc : c = '.'
    · subst hc
      rw [List.cons_append, real_tail_dot] at h
      rw [List.cons_append, real_tail_dot]
      split at h
      · simp at h
      · rename_i hcond
        obtain ⟨B, hB⟩ := real_exponent_suffix _ _ _ _ _ _ h
        have hd : (y2 ++ T0).dropWhile isdigit = (B ++ r) ++ T0 := by
          rw [List.append_assoc]
          exact hB.symm
        have hl := dropWhile_loc isdigit same_letter_isdigit y2 (B ++ r) T0 T hd hT
        rw [hd] at h
        rw [hl.1, hl.2, if_neg hcond]
        exact real_exponent_loc _ _ _ _ _ _ _ _ h hT
    · rw [List.cons_append, real_tail_cons _ _ _ _ _ hc] at h
      rw [List.cons_append, real_tail_cons _ _ _ _ _ hc]
      split at h
      · simp at h
      · rename_i hn
        rw [if_neg hn]
        split at h
        · rename_i he
          rw [if_pos he]
          have := real_exponent_loc neg (decimal n) 0 (c :: y2) r T0 T v h hT
          exact this
        · simp at h

theorem real_tail_fail_same (save save2 : Input) (neg : Bool) (n X Y p : Input)
    (hXY : same_letters X Y = true) (h : real_tail save neg n X = .fail p) :
    real_tail save2 neg n Y = .fail save2 := by
  cases X with
  | nil =>
    rw [same_letters_nil Y hXY]
    simp [real_tail]
  | cons c cs =>
    obtain ⟨d, ds, rfl, hcd, hr⟩ := same_letters_cons c cs Y hXY
    by_cases hc : c = '.'
    · have hd : d = '.' := (same_letter_fixed '.' c d hcd (by decide)).1 hc
      subst hc hd
      rw [real_tail_dot] at h
      rw [real_tail_dot,
        same_letters_takeWhile isdigit same_letter_isdigit same_letter_digit_fixed cs ds hr]
      split at h
      · rename_i hcond
        rw [if_pos hcond]
      · exact absurd h (real_exponent_ne_fail _ _ _ _ _)
    · have hd : d ≠ '.' := fun e => hc ((same_letter_fixed '.' c d hcd (by decide)).2 e)
      rw [real_tail_cons _ _ _ _ _ hc] at h
      rw [real_tail_cons _ _ _ _ _ hd]
      split at h
      · rename_i hn
        rw [if_pos hn]
      · rename_i hn
        rw [if_neg hn]
        split at h
        · exact absurd h (real_exponent_ne_fail _ _ _ _ _)
        · rename_i he
          rw [if_neg (fun e => he ((same_letter_exp c d hcd).2 e))]

theorem parse_nan_progress (s r : Input) (h : parse_nan s = (true, r)) :
    r.length < s.length := by
  have hs := parse_nan_suffix s
  rw [h] at hs
  cases hp : string_parse "nan".toList "NAN".toList s with
  | none =>
    unfold parse_nan at h
    rw [hp] at h
    simp at h
  | some rest =>
    have h1 := string_parse_length _ _ _ _ hp
    have h2 : r.length ≤ rest.length := by
      unfold parse_nan at h
      rw [hp] at h
      simp only at h
      split at h
      · rename_i more
        split at h
        · rename_i a after hd
          simp only [Prod.mk.injEq, true_and] at h
          subst h
          have := dropWhile_length (fun c => c != ')') more
          rw [hd] at this
          simp only [List.length_cons] at this ⊢
          omega
        · simp at h
      · simp only [Prod.mk.injEq, true_and] at h
        rw [h]
    have h3 : "nan".toList.length = 3 := rfl
    omega

theorem parse_inf_progress (s r : Input) (h : parse_inf s = some r) : r.length < s.length := by
  unfold parse_inf at h
  cases h1 : string_parse "inf".toList "INF".toList s with
  | none => rw [h1] at h; simp at h
  | some rest =>
    rw [h1] at h
    simp only at h
    have l1 := string_parse_length _ _ _ _ h1
    have h3 : "inf".toList.length = 3 := rfl
    cases h2 : string_parse "inity".toList "INITY".toList rest with
    | some rest2 =>
      rw [h2] at h
      simp only [Option.some.injEq] at h
      subst h
      have l2 := string_parse_length _ _ _ _ h2
      omega
    | none =>
      rw [h2] at h
      simp only [Option.some.injEq] at h
      subst h
      omega

theorem real_tail_progress (save : Input) (neg : Bool) (first r : Input) (v : Real64)
    (h : real_tail save neg [] first = .ok v r) : r.length < first.length := by
  cases first with
  | nil => simp [real_tail] at h
  | cons c cs =>
    by_cases hc : c = '.'
    · subst hc
      rw [real_tail_dot] at h
      split at h
      · simp at h
      · have h1 := real_exponent_length _ _ _ _ _ _ h
        have h2 := dropWhile_length isdigit cs
        simp only [List.length_cons]
        omega
    · rw [real_tail_cons _ _ _ _ _ hc] at h
      simp at h

theorem real_impl_progress (s r : Input) (v : Real64) (h : real_impl s = .ok v r) :
    r.length < s.length := by
  unfold real_impl at h
  have hs := extract_sign_length s
  split at h
  · simp at h
  · split at h
    · have hn := parse_nan_length (extract_sign s).2
      cases hp : parse_nan (extract_sign s).2 with
      | mk b f =>
        rw [hp] at h hn
        cases b with
        | true =>
          simp only [Result.ok.injEq] at h
          rw [← h.2]
          have := parse_nan_progress _ _ hp
          omega
        | false =>
          simp only at h hn
          cases hi : parse_inf f with
          | some rest =>
            rw [hi] at h
            simp only [Result.ok.injEq] at h
            rw [← h.2]
            have := parse_inf_progress _ _ hi
            omega
          | none =>
            rw [hi] at h
            have := real_tail_progress _ _ _ _ _ h
            omega
    · rename_i hdig
      have h1 := real_tail_length _ _ _ _ _ _ h
      have h2 := congrArg List.length (List.takeWhile_append_dropWhile isdigit (extract_sign s).2)
      simp only [List.length_append] at h2
      have h3 : 0 < ((extract_sign s).2.takeWhile isdigit).length := List.length_pos.2 hdig
      omega

theorem real_impl_loc (x r T0 T : Input) (v : Real64)
    (h : real_impl (x ++ T0) = .ok v (r ++ T0)) (hT : same_letters T0 T = true) :
    real_impl (x ++ T) = .ok v (r ++ T) := by
  have hx : x ≠ [] := by
    rintro rfl
    have := real_impl_progress _ _ _ h
    simp only [List.nil_append, List.length_append] at this
    omega
  have hx0 : x ++ T0 ≠ [] := by simp [hx]
  have hx1 : x ++ T ≠ [] := by simp [hx]
  have hsame := same_letters_after (extract_sign x).2 T0 T hT
  have htake := same_letters_takeWhile isdigit same_letter_isdigit same_letter_digit_fixed
    _ _ hsame
  unfold real_impl at h ⊢
  simp only [hx0, hx1, if_false, extract_sign_loc x T0 hx, extract_sign_loc x T hx, htake] at h ⊢
  by_cases hdig : ((extract_sign x).2 ++ T0).takeWhile isdigit = []
  · rw [if_pos hdig] at h
    rw [if_pos hdig]
    cases hp : parse_nan ((extract_sign x).2 ++ T0) with
    | mk b f =>
      rw [hp] at h
      cases b with
      | true =>
        simp only [Result.ok.injEq] at h
        rw [h.2] at hp
        rw [parse_nan_loc _ _ T0 T hp hT]
        simp only [Result.ok.injEq, and_true]
        exact h.1
      | false =>
        simp only at h
        rcases parse_nan_false _ _ hp with ⟨hf, hnone⟩ | ⟨m, hf⟩
        · subst hf
          rw [parse_nan_none_same _ _ hsame hnone]
          simp only
          cases hi : parse_inf ((extract_sign x).2 ++ T0) with
          | some rest =>
            rw [hi] at h
            simp only [Result.ok.injEq] at h
            rw [h.2] at hi
            rw [parse_inf_loc _ _ T0 T hi hT]
            simp only [Result.ok.injEq, and_true]
            exact h.1
          | none =>
            rw [hi] at h
            rw [parse_inf_none_same _ _ hsame hi]
            exact real_tail_loc _ _ _ _ _ _ _ _ _ h hT
        · subst hf
          have hi : parse_inf ('(' :: m) = none := by simp [parse_inf, string_parse]
          rw [hi] at h
          simp only at h
          rw [real_tail_cons _ _ _ _ _ (by decide)] at h
          simp at h
  · rw [if_neg hdig] at h
    rw [if_neg hdig]
    obtain ⟨B, hB⟩ := real_tail_suffix _ _ _ _ _ _ h
    have hd : ((extract_sign x).2 ++ T0).dropWhile isdigit = (B ++ r) ++ T0 := by
      rw [List.append_assoc]
      exact hB.symm
    have hl := dropWhile_loc isdigit same_letter_isdigit _ (B ++ r) T0 T hd hT
    rw [hd] at h
    rw [hl.1]
    exact real_tail_loc _ _ _ _ _ _ _ _ _ h hT

theorem real_impl_fail_same (X Y p : Input) (hXY : same_letters X Y = true)
    (h : real_impl X = .fail p) (hdig : (extract_sign X).2.takeWhile isdigit ≠ []) :
    real_impl Y = .fail Y := by
  have hX : X ≠ [] := by
    rintro rfl
    simp [extract_sign] at hdig
  have hY : Y ≠ [] := by
    rintro rfl
    have := same_letters_length _ _ hXY
    simp only [List.length_nil] at this
    exact hX (List.eq_nil_of_length_eq_zero this)
  obtain ⟨h1, h2⟩ := extract_sign_same X Y hXY
  have htake := same_letters_takeWhile isdigit same_letter_isdigit same_letter_digit_fixed
    _ _ h2
  have hdrop := same_letters_dropWhile isdigit same_letter_isdigit _ _ h2
  unfold real_impl at h ⊢
  rw [if_neg hX, if_neg hdig] at h
  rw [if_neg hY, htake, if_neg hdig, ← h1]
  exact real_tail_fail_same _ _ _ _ _ _ _ hdrop h

theorem long_loc (x r T0 T : Input) (n : Int) (h : long_ (x ++ T0) = .ok n (r ++ T0))
    (hT : same_letters T0 T = true) : long_ (x ++ T) = .ok n (r ++ T) := by
  unfold long_ at h ⊢
  cases he : extract_int 64 (skip_over (x ++ T0)) with
  | none => rw [he] at h; simp at h
  | some q =>
    obtain ⟨m, rest⟩ := q
    rw [he] at h
    simp only [Result.ok.injEq] at h
    obtain ⟨rfl, rfl⟩ := h
    obtain ⟨B, hB⟩ := extract_int_suffix _ _ _ _ he
    have hs : skip_over (x ++ T0) = (B ++ r) ++ T0 := by
      rw [List.append_assoc]
      exact hB.symm
    rw [hs] at he
    rw [skip_over_loc x _ T0 T hs hT, extract_int_loc 64 _ _ T0 T _ he hT]

theorem number_literal_progress (s r : Input) (v : Literal) (h : number_literal s = .ok v r) :
    r.length < s.length := by
  unfold number_literal at h
  have hsk := skip_over_length s
  cases hr : strict_real s with
  | ok x rest =>
    rw [hr] at h
    simp only [Result.ok.injEq] at h
    rw [← h.2]
    have := real_impl_progress _ _ _ hr
    omega
  | fail pos =>
    rw [hr] at h
    simp only at h
    have hp := real_impl_fail_pos _ _ hr
    cases hl : long_ pos with
    | ok n rest =>
      rw [hl] at h
      simp only [Result.ok.injEq] at h
      rw [← h.2]
      unfold long_ at hl
      cases he : extract_int 64 (skip_over pos) with
      | none => rw [he] at hl; simp at hl
      | some q =>
        obtain ⟨m, rest2⟩ := q
        rw [he] at hl
        simp only [Result.ok.injEq] at hl
        have h1 := extract_int_progress _ _ _ _ he
        have h2 := skip_over_length pos
        rw [hl.2] at h1
        have h4 : pos.length = (skip_over s).length := by rw [hp]
        omega
    | fail p => rw [hl] at h; simp at h
    | error w p => rw [hl] at h; simp at h
    | fuel => rw [hl] at h; simp at h
  | error w p => rw [hr] at h; simp at h
  | fuel => rw [hr] at h; simp at h

theorem number_literal_head (s r : Input) (v : Literal) (h : number_literal s = .ok v r) :
    ∃ c cs, skip_over s = c :: cs ∧ c ≠ 't' ∧ c ≠ 'f' := by
  cases hs : skip_over s with
  | nil =>
    have := number_literal_progress _ _ _ h
    unfold number_literal strict_real at h
    rw [hs] at h
    simp [real_impl, long_, skip_over, extract_int, extract_sign] at h
  | cons c cs =>
    refine ⟨c, cs, rfl, ?_, ?_⟩
    · rintro rfl
      unfold number_literal strict_real at h
      rw [hs] at h
      simp [real_impl, extract_sign, isdigit, parse_nan, parse_inf, string_parse, real_tail_cons,
        long_, skip_over, isspace, extract_int] at h
    · rintro rfl
      unfold number_literal strict_real at h
      rw [hs] at h
      simp [real_impl, extract_sign, isdigit, parse_nan, parse_inf, string_parse, real_tail_cons,
        long_, skip_over, isspace, extract_int] at h

theorem number_literal_loc (x r T0 T : Input) (v : Literal)
    (h : number_literal (x ++ T0) = .ok v (r ++ T0)) (hT : same_letters T0 T = true) :
    number_literal (x ++ T) = .ok v (r ++ T) := by
  obtain ⟨B, hB⟩ := (number_literal_suffix _ _ _ h)
  unfold number_literal strict_real at h ⊢
  cases hr : real_impl (skip_over (x ++ T0)) with
  | ok xv rest =>
    rw [hr] at h
    simp only [Result.ok.injEq] at h
    obtain ⟨rfl, rfl⟩ := h
    obtain ⟨B2, hB2⟩ := real_impl_suffix _ _ _ hr
    have hs : skip_over (x ++ T0) = (B2 ++ r) ++ T0 := by
      rw [List.append_assoc]
      exact hB2.symm
    rw [hs] at hr
    rw [skip_over_loc x _ T0 T hs hT, real_impl_loc _ _ T0 T _ hr hT]
  | fail pos =>
    rw [hr] at h
    simp only at h
    have hpos := real_impl_fail_pos _ _ hr
    subst hpos
    cases hl : long_ (skip_over (x ++ T0)) with
    | ok n rest =>
      rw [hl] at h
      simp only [Result.ok.injEq] at h
      obtain ⟨rfl, rfl⟩ := h
      obtain ⟨B2, hB2⟩ := long_suffix _ _ _ hl
      have hs : skip_over (x ++ T0) = (B2 ++ r) ++ T0 := by
        rw [List.append_assoc]
        exact hB2.symm
      have hs2 := skip_over_loc x _ T0 T hs hT
      have hdig := long_ok_digits _ _ _ hl
      rw [skip_over_idem] at hdig
      have hsame : same_letters (skip_over (x ++ T0)) (skip_over (x ++ T)) = true := by
        rw [hs, hs2]
        exact same_letters_after _ _ _ hT
      rw [real_impl_fail_same _ _ _ hsame hr hdig]
      simp only
      rw [hs] at hl
      rw [hs2, long_loc _ _ T0 T _ hl hT]
    | fail p => rw [hl] at h; simp at h
    | error w p => rw [hl] at h; simp at h
    | fuel => rw [hl] at h; simp at h
  | error w p => rw [hr] at h; simp at h
  | fuel => rw [hr] at h; simp at h

theorem literal_loc (x r T0 T : Input) (v : Literal)
    (h : literal (x ++ T0) = .ok v (r ++ T0)) (hT : same_letters T0 T = true) :
    literal (x ++ T) = .ok v (r ++ T) := by
  have hsame := same_letters_after x T0 T hT
  unfold literal at h ⊢
  cases hs : string_literal (x ++ T0) with
  | ok sv rest =>
    rw [hs] at h
    simp only [Result.ok.injEq] at h
    obtain ⟨rfl, rfl⟩ := h
    rw [string_literal_loc _ _ T0 T _ hs]
  | fail pos =>
    rw [hs] at h
    simp only at h
    have hpos := (string_literal_fail_pos _ pos hs).1
    subst hpos
    rw [string_literal_fail_same _ _ _ hsame hs]
    simp only
    unfold bool_literal at h ⊢
    cases hb : bool_ (skip_over (x ++ T0)) with
    | ok b rest =>
      rw [hb] at h
      simp only [Result.ok.injEq] at h
      obtain ⟨rfl, rfl⟩ := h
      obtain ⟨B, hB⟩ := bool_suffix _ _ _ hb
      have hsk : skip_over (x ++ T0) = (B ++ r) ++ T0 := by
        rw [List.append_assoc]
        exact hB.symm
      rw [hsk] at hb
      rw [skip_over_loc x _ T0 T hsk hT, bool_loc _ _ T0 T _ hb]
    | fail pos2 =>
      rw [hb] at h
      simp only at h
      have hpos2 := bool_fail_pos _ _ hb
      rw [skip_over_idem] at hpos2
      subst hpos2
      obtain ⟨B, hB⟩ := number_literal_suffix _ _ _ h
      have hsk : skip_over (x ++ T0) = (B ++ r) ++ T0 := by
        rw [List.append_assoc]
        exact hB.symm
      have hsk2 := skip_over_loc x _ T0 T hsk hT
      obtain ⟨c, cs, hc, hct, hcf⟩ := number_literal_head _ _ _ h
      rw [skip_over_idem] at hc
      have hprog := number_literal_progress _ _ _ h
      have hBr : ∃ w, B ++ r = c :: w := by
        cases hw : B ++ r with
        | nil =>
          rw [hsk, hw] at hprog
          simp only [List.nil_append, List.length_append] at hprog
          have : r = [] := (List.append_eq_nil.1 hw).2
          subst this
          simp at hprog
        | cons a w =>
          rw [hsk, hw] at hc
          simp only [List.cons_append, List.cons.injEq] at hc
          exact ⟨w, by rw [hc.1]⟩
      obtain ⟨w, hw⟩ := hBr
      have hhead : skip_over (skip_over (x ++ T)) = c :: (w ++ T) := by
        rw [skip_over_idem, hsk2, hw]
        rfl
      rw [bool_fail_head _ c _ hhead hct hcf]
      simp only
      rw [← hhead, skip_over_idem, hsk2]
      rw [hsk] at h
      exact number_literal_loc _ _ T0 T _ h hT
    | error w p => rw [hb] at h; simp at h
    | fuel => rw [hb] at h; simp at h
  | error w p => rw [hs] at h; simp at h
  | fuel => rw [hs] at h; simp at h

theorem compare_loc (x r T0 T : Input) (c : Compare)
    (h : compare (x ++ T0) = .ok c (r ++ T0)) (hT : same_letters T0 T = true) :
    compare (x ++ T) = .ok c (r ++ T) := by
  unfold compare at h ⊢
  cases hid : identifier (x ++ T0) with
  | ok id r1 =>
    rw [hid] at h
    simp only at h
    cases ho : compare_op r1 with
    | ok op r2 =>
      rw [ho] at h
      simp only at h
      cases hl : literal r2 with
      | ok v r3 =>
        rw [hl] at h
        simp only [Result.ok.injEq] at h
        obtain ⟨rfl, rfl⟩ := h
        obtain ⟨B2, hB2⟩ := literal_suffix _ _ _ hl
        obtain ⟨B1, hB1⟩ := compare_op_suffix _ _ _ ho
        have h2 : r2 = (B2 ++ r) ++ T0 := by
          rw [List.append_assoc]
          exact hB2.symm
        have h1 : r1 = (B1 ++ (B2 ++ r)) ++ T0 := by
          rw [List.append_assoc, ← h2]
          exact hB1.symm
        rw [h2] at hl
        rw [h1, h2] at ho
        rw [h1] at hid
        rw [identifier_loc _ _ T0 T _ hid hT]
        simp only
        rw [compare_op_loc _ _ T0 T _ ho hT]
        simp only
        rw [literal_loc _ _ T0 T _ hl hT]
      | fail p => rw [hl] at h; simp at h
      | error w p => rw [hl] at h; simp at h
      | fuel => rw [hl] at h; simp at h
    | fail p => rw [ho] at h; simp at h
    | error w p => rw [ho] at h; simp at h
    | fuel => rw [ho] at h; simp at h
  | fail p => rw [hid] at h; simp at h
  | error w p => rw [hid] at h; simp at h
  | fuel => rw [hid] at h; simp at h

theorem compare_fail_same (X Y p : Input) (hXY : same_letters X Y = true)
    (h : compare X = .fail p) : compare Y = .fail Y := by
  rcases identifier_cases X with ⟨v, r, hid⟩ | hid
  · unfold compare at h
    rw [hid] at h
    simp only at h
    cases ho : compare_op r with
    | ok op r2 =>
      rw [ho] at h
      simp only at h
      cases hl : literal r2 with
      | ok v r3 => rw [hl] at h; simp at h
      | fail p => rw [hl] at h; simp at h
      | error w p => rw [hl] at h; simp at h
      | fuel => rw [hl] at h; simp at h
    | fail p => rw [ho] at h; simp at h
    | error w p => rw [ho] at h; simp at h
    | fuel => rw [ho] at h; simp at h
  · unfold compare
    rw [identifier_fail_same X Y _ hXY hid]

/-! ## Pieces of a statement and their respellings -/

theorem pieces_text_append (G H : List Piece) :
    pieces_text (G ++ H) = pieces_text G ++ pieces_text H := by
  induction G with
  | nil => rfl
  | cons p G ih => simp [pieces_text, ih, List.append_assoc]

theorem pieces_keywords_append (G H : List Piece) :
    pieces_keywords (G ++ H) = pieces_keywords G ++ pieces_keywords H := by
  induction G with
  | nil => rfl
  | cons p G ih => cases p <;> simp [pieces_keywords, ih]

theorem pieces_spelled_append (G H : List Piece) (hG : pieces_spelled G)
    (hH : pieces_spelled H) : pieces_spelled (G ++ H) := by
  induction G with
  | nil => exact hH
  | cons p G ih =>
    cases p with
    | keyword kw k => exact ⟨hG.1, hG.2.1, ih hG.2.2⟩
    | text t => exact ih hG

theorem respelled_text (t : Input) (G G2 : List Piece) (h : respelled (.text t :: G) G2) :
    ∃ H, G2 = .text t :: H ∧ respelled G H := by
  cases G2 with
  | nil => exact absurd h (by simp [respelled])
  | cons q H =>
    cases q with
    | keyword kw k => exact absurd h (by simp [respelled])
    | text t2 =>
      simp only [respelled] at h
      exact ⟨H, by rw [h.1], h.2⟩

theorem respelled_keyword (kw : String) (k : Input) (G G2 : List Piece)
    (h : respelled (.keyword kw k :: G) G2) :
    ∃ k2 H, G2 = .keyword kw k2 :: H ∧ spells kw.toList k2 = true ∧ respelled G H := by
  cases G2 with
  | nil => exact absurd h (by simp [respelled])
  | cons q H =>
    cases q with
    | text t => exact absurd h (by simp [respelled])
    | keyword kw2 k2 =>
      simp only [respelled] at h
      exact ⟨k2, H, by rw [h.1], h.2.1, h.2.2⟩

theorem respelled_nil (G2 : List Piece) (h : respelled [] G2) : G2 = [] := by
  cases G2 with
  | nil => rfl
  | cons q H => exact absurd h (by simp [respelled])

theorem respelled_append (G H G2 : List Piece) (h : respelled (G ++ H) G2) :
    ∃ G3 H3, G2 = G3 ++ H3 ∧ respelled G G3 ∧ respelled H H3 := by
  induction G generalizing G2 with
  | nil => exact ⟨[], G2, rfl, trivial, h⟩
  | cons p G ih =>
    cases p with
    | text t =>
      obtain ⟨K, rfl, hK⟩ := respelled_text t _ _ h
      obtain ⟨G3, H3, rfl, h1, h2⟩ := ih K hK
      exact ⟨.text t :: G3, H3, rfl, ⟨rfl, h1⟩, h2⟩
    | keyword kw k =>
      obtain ⟨k2, K, rfl, hs, hK⟩ := respelled_keyword kw k _ _ h
      obtain ⟨G3, H3, rfl, h1, h2⟩ := ih K hK
      exact ⟨.keyword kw k2 :: G3, H3, rfl, ⟨rfl, hs, h1⟩, h2⟩

theorem spells_same (kw k k2 : Input) (hkw : ∀ l ∈ kw, l ∈ keyword_letters)
    (h1 : spells kw k = true) (h2 : spells kw k2 = true) : same_letters k k2 = true := by
  induction kw generalizing k k2 with
  | nil =>
    cases k with
    | nil =>
      cases k2 with
      | nil => rfl
      | cons d ds => simp [spells] at h2
    | cons c cs => simp [spells] at h1
  | cons l kw ih =>
    cases k with
    | nil => simp [spells] at h1
    | cons c cs =>
      cases k2 with
      | nil => simp [spells] at h2
      | cons d ds =>
        simp only [spells, Bool.and_eq_true, Bool.or_eq_true, decide_eq_true_eq] at h1 h2
        simp only [same_letters, Bool.and_eq_true]
        refine ⟨?_, ih cs ds (fun x hx => hkw x (List.mem_cons_of_mem _ hx)) h1.2 h2.2⟩
        have hl := hkw l (List.mem_cons_self _ _)
        have key : ∀ l ∈ keyword_letters,
            same_letter l.toLower l.toLower = true ∧ same_letter l.toLower l.toUpper = true
            ∧ same_letter l.toUpper l.toLower = true
            ∧ same_letter l.toUpper l.toUpper = true := by decide
        obtain ⟨a1, a2, a3, a4⟩ := key l hl
        rcases h1.1 with rfl | rfl <;> rcases h2.1 with rfl | rfl <;> assumption

theorem keyword_in_letters (kw : String) (h : kw ∈ keywords) :
    ∀ l ∈ kw.toList, l ∈ keyword_letters := by
  simp only [keywords, List.mem_cons, List.mem_singleton, List.not_mem_nil, or_false] at h
  rcases h with rfl | rfl | rfl | rfl | rfl <;> decide

theorem respelled_same (G G2 : List Piece) (hG : pieces_spelled G) (h : respelled G G2) :
    same_letters (pieces_text G) (pieces_text G2) = true := by
  induction G generalizing G2 with
  | nil => rw [respelled_nil G2 h]; rfl
  | cons p G ih =>
    cases p with
    | text t =>
      obtain ⟨K, rfl, hK⟩ := respelled_text t _ _ h
      exact same_letters_after _ _ _ (ih K hG hK)
    | keyword kw k =>
      obtain ⟨k2, K, rfl, hs, hK⟩ := respelled_keyword kw k _ _ h
      exact same_letters_append _ _ _ _
        (spells_same kw.toList k k2 (keyword_in_letters kw hG.1) hG.2.1 hs) (ih K hG.2.2 hK)

theorem lit_loc (ch : Char) (x r T0 T : Input) (h : lit ch (x ++ T0) = .ok () (r ++ T0)) :
    lit ch (x ++ T) = .ok () (r ++ T) := by
  unfold lit at h ⊢
  cases hs : skip_over (x ++ T0) with
  | nil => rw [hs] at h; simp at h
  | cons c cs =>
    rw [hs] at h
    simp only at h
    split at h
    · rename_i hc
      simp only [Result.ok.injEq, true_and] at h
      subst h
      have := (dropWhile_inside isspace x r T0 T c hs).1
      unfold skip_over
      rw [this]
      simp [hc]
    · simp at h

theorem lit_ok_same (ch : Char) (X Y r : Input) (hXY : same_letters X Y = true)
    (hch : ∀ l ∈ keyword_letters, ch ≠ l ∧ ch ≠ l.toUpper) (h : lit ch X = .ok () r) :
    ∃ r2, lit ch Y = .ok () r2 ∧ same_letters r r2 = true := by
  have hsk := same_letters_skip X Y hXY
  unfold lit at h ⊢
  cases hx : skip_over X with
  | nil => rw [hx] at h; simp at h
  | cons c cs =>
    rw [hx] at h hsk
    obtain ⟨d, ds, hy, hcd, hr⟩ := same_letters_cons c cs _ hsk
    rw [hy]
    simp only at h ⊢
    split at h
    · rename_i hc
      simp only [Result.ok.injEq, true_and] at h
      subst h
      have : d = ch := (same_letter_fixed ch c d hcd hch).1 hc
      exact ⟨ds, by simp [this], hr⟩
    · simp at h

theorem fields_rep_suffix (n : Nat) (s r : Input) (ids : List (List Char))
    (h : fields_rep n s = .ok ids r) : r <:+ s := by
  induction n generalizing s r ids with
  | zero => simp [fields_rep] at h
  | succ n ih =>
    unfold fields_rep at h
    cases hl : lit ',' s with
    | ok u r1 =>
      rw [hl] at h
      simp only at h
      cases hid : identifier r1 with
      | ok id r2 =>
        rw [hid] at h
        simp only at h
        cases hrep : fields_rep n r2 with
        | ok ids2 r3 =>
          rw [hrep] at h
          simp only [Result.ok.injEq] at h
          rw [← h.2]
          exact ((ih _ _ _ hrep).trans (identifier_suffix _ _ _ hid)).trans (lit_suffix _ _ _ hl)
        | fail p => rw [hrep] at h; simp at h
        | error w p => rw [hrep] at h; simp at h
        | fuel => rw [hrep] at h; simp at h
      | fail p => rw [hid] at h; simp at h; rw [h.2]
      | error w p => rw [hid] at h; simp at h; rw [h.2]
      | fuel => rw [hid] at h; simp at h; rw [h.2]
    | fail p => rw [hl] at h; simp at h; rw [h.2]
    | error w p => rw [hl] at h; simp at h; rw [h.2]
    | fuel => rw [hl] at h; simp at h; rw [h.2]

theorem lit_cases (ch : Char) (s : Input) :
    (∃ r, lit ch s = .ok () r) ∨ lit ch s = .fail (skip_over s) := by
  unfold lit
  cases skip_over s with
  | nil => exact Or.inr rfl
  | cons c cs =>
    simp only
    split
    · exact Or.inl ⟨_, rfl⟩
    · exact Or.inr rfl

theorem fields_rep_loc (n : Nat) (x r T0 T : Input) (ids : List (List Char))
    (h : fields_rep n (x ++ T0) = .ok ids (r ++ T0)) (hT : same_letters T0 T = true) :
    fields_rep n (x ++ T) = .ok ids (r ++ T) := by
  induction n generalizing x r ids with
  | zero => simp [fields_rep] at h
  | succ n ih =>
    have hsame := same_letters_after x T0 T hT
    rw [fields_rep] at h ⊢
    rcases lit_cases ',' (x ++ T0) with ⟨r1, hl⟩ | hl
    · rw [hl] at h
      simp only at h
      rcases identifier_cases r1 with ⟨id, r2, hid⟩ | hid
      · rw [hid] at h
        simp only at h
        cases hrep : fields_rep n r2 with
        | ok ids2 r3 =>
          rw [hrep] at h
          simp only [Result.ok.injEq] at h
          obtain ⟨rfl, rfl⟩ := h
          obtain ⟨B2, hB2⟩ := fields_rep_suffix _ _ _ _ hrep
          obtain ⟨B1, hB1⟩ := identifier_suffix _ _ _ hid
          have h2 : r2 = (B2 ++ r) ++ T0 := by
            rw [List.append_assoc]
            exact hB2.symm
          have h1 : r1 = (B1 ++ (B2 ++ r)) ++ T0 := by
            rw [List.append_assoc, ← h2]
            exact hB1.symm
          rw [h2] at hrep
          rw [h1, h2] at hid
          rw [h1] at hl
          rw [lit_loc _ _ _ T0 T hl]
          simp only
          rw [identifier_loc _ _ T0 T _ hid hT]
          simp only
          rw [ih _ _ _ hrep]
        | fail p => rw [hrep] at h; simp at h
        | error w p => rw [hrep] at h; simp at h
        | fuel => rw [hrep] at h; simp at h
      · rw [hid] at h
        simp only [Result.ok.injEq] at h
        obtain ⟨r1b, hl2, hr1⟩ := lit_ok_same ',' _ _ _ hsame (by decide) hl
        rw [hl2]
        simp only
        rw [identifier_fail_same _ _ _ hr1 hid]
        simp only [Result.ok.injEq]
        refine ⟨h.1, ?_⟩
        rw [List.append_cancel_right h.2]
    · rw [hl] at h
      simp only [Result.ok.injEq] at h
      rw [lit_fail_same ',' _ _ _ hsame (by decide) hl]
      simp only [Result.ok.injEq]
      refine ⟨h.1, ?_⟩
      rw [List.append_cancel_right h.2]

theorem fields_loc (n : Nat) (x r T0 T : Input) (fs : List (List Char))
    (h : fields n (x ++ T0) = .ok fs (r ++ T0)) (hT : same_letters T0 T = true) :
    fields n (x ++ T) = .ok fs (r ++ T) := by
  unfold fields at h ⊢
  rcases identifier_cases (x ++ T0) with ⟨id, r1, hid⟩ | hid
  · rw [hid] at h
    simp only at h
    cases hrep : fields_rep n r1 with
    | ok ids r2 =>
      rw [hrep] at h
      simp only [Result.ok.injEq] at h
      obtain ⟨rfl, rfl⟩ := h
      obtain ⟨B, hB⟩ := fields_rep_suffix _ _ _ _ hrep
      have h1 : r1 = (B ++ r) ++ T0 := by
        rw [List.append_assoc]
        exact hB.symm
      rw [h1] at hrep hid
      rw [identifier_loc _ _ T0 T _ hid hT]
      simp only
      rw [fields_rep_loc _ _ _ T0 T _ hrep hT]
    | fail p => rw [hrep] at h; simp at h
    | error w p => rw [hrep] at h; simp at h
    | fuel => rw [hrep] at h; simp at h
  · rw [hid] at h
    simp at h

/-! ## What a condition reads is read again under any spelling of its keywords -/

theorem leaf_keywords (c : Compare) : (Condition.leaf c).toNode.keywords = [] := rfl

theorem node_keywords (a v : Condition) (op : OpType) :
    (Condition.node a op v).toNode.keywords
      = a.toNode.keywords ++ ((match op with
          | .kOpTypeNONE => []
          | .kOpTypeAND => ["and"]
          | .kOpTypeOR => ["or"]) ++ v.toNode.keywords) := by
  show a.toNode.keywords ++ _ ++ v.toNode.keywords = _
  rw [List.append_assoc]
  rfl

theorem robust_seq (first whole : Input → Result Condition)
    (rep : Condition → Input → Result Condition)
    (hw : ∀ X v1 r1, first X = .ok v1 r1 → whole X = rep v1 r1)
    (s r1 r : Input) (v1 v : Condition) (ks2 : List String)
    (h1 : robust first s r1 v1 v1.toNode.keywords)
    (h2 : robust (rep v1) r1 r v ks2)
    (hk : v.toNode.keywords = v1.toNode.keywords ++ ks2) :
    robust whole s r v v.toNode.keywords := by
  obtain ⟨G1, e1, s1, k1, f1⟩ := h1
  obtain ⟨G2, e2, s2, k2, f2⟩ := h2
  refine ⟨G1 ++ G2, ?_, pieces_spelled_append _ _ s1 s2, ?_, ?_⟩
  · rw [e1, e2, pieces_text_append, List.append_assoc]
  · rw [pieces_keywords_append, k1, k2, hk]
  · intro G3 T hG hT
    obtain ⟨H1, H2, rfl, g1, g2⟩ := respelled_append _ _ _ hG
    rw [pieces_text_append, List.append_assoc]
    have hr1 : same_letters r1 (pieces_text H2 ++ T) = true := by
      rw [e2]
      exact same_letters_append _ _ _ _ (respelled_same _ _ s2 g2) hT
    rw [hw _ _ _ (f1 H1 _ g1 hr1)]
    exact f2 H2 T g2 hT

theorem robust_more (kw : String) (op : OpType) (acc : Condition)
    (operand whole : Input → Result Condition) (rep : Condition → Input → Result Condition)
    (hmem : kw ∈ keywords)
    (hhead : ∀ k, spells kw.toList k = true → stops isspace k = true ∧ k ≠ [])
    (hw : ∀ X r1 v1 r2, no_case kw X = .ok () r1 → operand r1 = .ok v1 r2 →
      whole X = rep (Condition.node acc op v1) r2)
    (s r1 r2 r : Input) (v1 v : Condition) (ks2 : List String)
    (h0 : no_case kw s = .ok () r1)
    (h1 : robust operand r1 r2 v1 v1.toNode.keywords)
    (h2 : robust (rep (Condition.node acc op v1)) r2 r v ks2) :
    robust whole s r v (kw :: (v1.toNode.keywords ++ ks2)) := by
  obtain ⟨ws, k, e0, hws, hk, f0⟩ := no_case_shape kw s r1 h0 hhead
  obtain ⟨G1, e1, s1, k1, f1⟩ := h1
  obtain ⟨G2, e2, s2, k2, f2⟩ := h2
  refine ⟨.text ws :: .keyword kw k :: (G1 ++ G2), ?_,
    ⟨hmem, hk, pieces_spelled_append _ _ s1 s2⟩, ?_, ?_⟩
  · rw [e0, e1, e2]
    simp [pieces_text, Piece.chars, pieces_text_append, List.append_assoc]
  · simp [pieces_keywords, pieces_keywords_append, k1, k2]
  · intro G3 T hG hT
    obtain ⟨K1, rfl, hK1⟩ := respelled_text _ _ _ hG
    obtain ⟨k3, K2, rfl, hk3, hK2⟩ := respelled_keyword _ _ _ _ hK1
    obtain ⟨H1, H2, rfl, g1, g2⟩ := respelled_append _ _ _ hK2
    have hr1 : same_letters r2 (pieces_text H2 ++ T) = true := by
      rw [e2]
      exact same_letters_append _ _ _ _ (respelled_same _ _ s2 g2) hT
    have ex : pieces_text (.text ws :: .keyword kw k3 :: (H1 ++ H2)) ++ T
        = ws ++ (k3 ++ (pieces_text H1 ++ (pieces_text H2 ++ T))) := by
      simp [pieces_text, Piece.chars, pieces_text_append, List.append_assoc]
    rw [ex, hw _ _ _ _ (f0 k3 _ hk3) (f1 H1 _ g1 hr1)]
    exact f2 H2 T g2 hT

theorem robust_stop (kw : String) (acc : Condition) (whole : Input → Result Condition)
    (hkw : ∀ q ∈ (kw.toList.map Char.toLower).zip (kw.toList.map Char.toUpper),
      ∀ l ∈ keyword_letters, ((l = q.1 ∨ l = q.2) ↔ (l.toUpper = q.1 ∨ l.toUpper = q.2)))
    (hw : ∀ X p, no_case kw X = .fail p → whole X = .ok acc X)
    (s p : Input) (h0 : no_case kw s = .fail p) : robust whole s s acc [] := by
  refine ⟨[], rfl, trivial, rfl, ?_⟩
  intro G3 T hG hT
  rw [respelled_nil G3 hG]
  exact hw T _ (no_case_fail_same kw s T p hT hkw h0)

theorem robust_compare (n : Nat) (s rest : Input) (c : Compare)
    (hc : compare s = .ok c rest) :
    robust (condition_atom (n + 1)) s rest (Condition.leaf c)
      (Condition.leaf c).toNode.keywords := by
  obtain ⟨A, hA⟩ := compare_suffix _ _ _ hc
  refine ⟨[.text A], ?_, trivial, rfl, ?_⟩
  · simp [pieces_text, Piece.chars, hA]
  · intro G3 T hG hT
    obtain ⟨K, rfl, hK⟩ := respelled_text _ _ _ hG
    rw [respelled_nil K hK]
    have h1 : compare (A ++ rest) = .ok c ([] ++ rest) := by rw [hA]; exact hc
    have h2 := compare_loc A [] rest T c h1 hT
    have ex : pieces_text [.text A] ++ T = A ++ T := by simp [pieces_text, Piece.chars]
    rw [ex, condition_atom, h2]
    rfl

theorem robust_group (n : Nat) (s r1 r2 r3 : Input) (w : Condition)
    (hl : lit '(' s = .ok () r1)
    (hcd : robust (condition n) r1 r2 w w.toNode.keywords)
    (hl2 : lit ')' r2 = .ok () r3) :
    robust (condition_atom (n + 1)) s r3 w w.toNode.keywords := by
  obtain ⟨ws, e0, hws, f0⟩ := lit_shape '(' s r1 hl rfl
  obtain ⟨G1, e1, s1, k1, f1⟩ := hcd
  obtain ⟨ws2, e2, hws2, f2⟩ := lit_shape ')' r2 r3 hl2 rfl
  refine ⟨.text (ws ++ ['(']) :: (G1 ++ [.text (ws2 ++ [')'])]), ?_, ?_, ?_, ?_⟩
  · rw [e0, e1, e2]
    simp [pieces_text, Piece.chars, pieces_text_append, List.append_assoc]
  · exact pieces_spelled_append _ _ s1 trivial
  · simp [pieces_keywords, pieces_keywords_append, k1]
  · intro G3 T hG hT
    obtain ⟨K1, rfl, hK1⟩ := respelled_text _ _ _ hG
    obtain ⟨H1, H2, rfl, g1, g2⟩ := respelled_append _ _ _ hK1
    obtain ⟨K2, rfl, hK2⟩ := respelled_text _ _ _ g2
    rw [respelled_nil K2 hK2]
    have ex : pieces_text (.text (ws ++ ['(']) :: (H1 ++ [.text (ws2 ++ [')'])])) ++ T
        = ws ++ '(' :: (pieces_text H1 ++ (ws2 ++ ')' :: T)) := by
      simp [pieces_text, Piece.chars, pieces_text_append, List.append_assoc]
    have hr2 : same_letters r2 (ws2 ++ ')' :: T) = true := by
      rw [e2]
      exact same_letters_after _ _ _ (by simp [same_letters, same_letter_refl, hT])
    rw [ex, condition_atom, compare_fail_of_open _ _ (f0 _)]
    simp only
    rw [f0]
    simp only
    rw [f1 H1 _ g1 hr2]
    simp only
    rw [f2]

theorem condition_robust (n : Nat) :
    (∀ s v r, condition_atom n s = .ok v r →
        robust (condition_atom n) s r v v.toNode.keywords)
    ∧ (∀ s v r, condition_high n s = .ok v r →
        robust (condition_high n) s r v v.toNode.keywords)
    ∧ (∀ s v r, condition n s = .ok v r → robust (condition n) s r v v.toNode.keywords)
    ∧ (∀ acc s v r, condition_high_rep n acc s = .ok v r →
        ∃ ks, v.toNode.keywords = acc.toNode.keywords ++ ks
          ∧ robust (condition_high_rep n acc) s r v ks)
    ∧ (∀ acc s v r, condition_rep n acc s = .ok v r →
        ∃ ks, v.toNode.keywords = acc.toNode.keywords ++ ks
          ∧ robust (condition_rep n acc) s r v ks) := by
  induction n with
  | zero =>
    refine ⟨?_, ?_, ?_, ?_, ?_⟩
    · intro s v r h; simp [condition_atom] at h
    · intro s v r h; simp [condition_high] at h
    · intro s v r h; simp [condition] at h
    · intro acc s v r h; simp [condition_high_rep] at h
    · intro acc s v r h; simp [condition_rep] at h
  | succ n ih =>
    obtain ⟨ia, ihh, ic, ihr, ir⟩ := ih
    refine ⟨?_, ?_, ?_, ?_, ?_⟩
    · intro s v r h
      rw [condition_atom] at h
      cases hc : compare s with
      | ok c rest =>
        rw [hc] at h
        simp only [Result.ok.injEq] at h
        obtain ⟨rfl, rfl⟩ := h
        exact robust_compare n s rest c hc
      | fail p =>
        rw [hc] at h
        simp only at h
        cases hl : lit '(' s with
        | ok u r1 =>
          rw [hl] at h
          simp only at h
          cases hcd : condition n r1 with
          | ok w r2 =>
            rw [hcd] at h
            simp only at h
            cases hl2 : lit ')' r2 with
            | ok u2 r3 =>
              rw [hl2] at h
              simp only [Result.ok.injEq] at h
              obtain ⟨rfl, rfl⟩ := h
              exact robust_group n s r1 r2 r3 w hl (ic _ _ _ hcd) hl2
            | fail p => rw [hl2] at h; simp at h
            | error w p => rw [hl2] at h; simp at h
            | fuel => rw [hl2] at h; simp at h
          | fail p => rw [hcd] at h; simp at h
          | error w p => rw [hcd] at h; simp at h
          | fuel => rw [hcd] at h; simp at h
        | fail p => rw [hl] at h; simp at h
        | error w p => rw [hl] at h; simp at h
        | fuel => rw [hl] at h; simp at h
      | error w p => rw [hc] at h; simp at h
      | fuel => rw [hc] at h; simp at h
    · intro s v r h
      rw [condition_high] at h
      cases ha : condition_atom n s with
      | ok v1 r1 =>
        rw [ha] at h
        simp only at h
        obtain ⟨ks, hk, hr⟩ := ihr _ _ _ _ h
        exact robust_seq (condition_atom n) (condition_high (n + 1)) (condition_high_rep n)
          (fun X v1 r1 hX => by rw [condition_high, hX]) s r1 r v1 v ks (ia _ _ _ ha) hr hk
      | fail p => rw [ha] at h; simp at h
      | error w p => rw [ha] at h; simp at h
      | fuel => rw [ha] at h; simp at h
    · intro s v r h
      rw [condition] at h
      cases ha : condition_high n s with
      | ok v1 r1 =>
        rw [ha] at h
        simp only at h
        obtain ⟨ks, hk, hr⟩ := ir _ _ _ _ h
        exact robust_seq (condition_high n) (condition (n + 1)) (condition_rep n)
          (fun X v1 r1 hX => by rw [condition, hX]) s r1 r v1 v ks (ihh _ _ _ ha) hr hk
      | fail p => rw [ha] at h; simp at h
      | error w p => rw [ha] at h; simp at h
      | fuel => rw [ha] at h; simp at h
    · intro acc s v r h
      rw [condition_high_rep] at h
      rcases no_case_cases "and" s with ⟨r1, h0⟩ | h0
      · rw [h0] at h
        simp only at h
        cases ha : condition_atom n r1 with
        | ok v1 r2 =>
          rw [ha] at h
          simp only at h
          obtain ⟨ks, hk, hr⟩ := ihr _ _ _ _ h
          refine ⟨"and" :: (v1.toNode.keywords ++ ks), ?_,
            robust_more "and" .kOpTypeAND acc (condition_atom n)
              (condition_high_rep (n + 1) acc) (condition_high_rep n) (by simp [keywords])
              (fun k hk => spells_and k hk)
              (fun X r1 v1 r2 a b => by rw [condition_high_rep, a]; simp only; rw [b])
              s r1 r2 r v1 v ks h0 (ia _ _ _ ha) hr⟩
          rw [hk, node_keywords]
          simp
        | fail p => rw [ha] at h; simp at h
        | error w p => rw [ha] at h; simp at h
        | fuel => rw [ha] at h; simp at h
      · rw [h0] at h
        simp only [Result.ok.injEq] at h
        obtain ⟨rfl, rfl⟩ := h
        exact ⟨[], by simp, robust_stop "and" acc (condition_high_rep (n + 1) acc) (by decide)
          (fun X p a => by rw [condition_high_rep, a]) s _ h0⟩
    · intro acc s v r h
      rw [condition_rep] at h
      rcases no_case_cases "or" s with ⟨r1, h0⟩ | h0
      · rw [h0] at h
        simp only at h
        cases ha : condition_high n r1 with
        | ok v1 r2 =>
          rw [ha] at h
          simp only at h
          obtain ⟨ks, hk, hr⟩ := ir _ _ _ _ h
          refine ⟨"or" :: (v1.toNode.keywords ++ ks), ?_,
            robust_more "or" .kOpTypeOR acc (condition_high n)
              (condition_rep (n + 1) acc) (condition_rep n) (by simp [keywords])
              (fun k hk => ⟨(spells_or k hk).1, (spells_or k hk).2.1⟩)
              (fun X r1 v1 r2 a b => by rw [condition_rep, a]; simp only; rw [b])
              s r1 r2 r v1 v ks h0 (ihh _ _ _ ha) hr⟩
          rw [hk, node_keywords]
          simp
        | fail p => rw [ha] at h; simp at h
        | error w p => rw [ha] at h; simp at h
        | fuel => rw [ha] at h; simp at h
      · rw [h0] at h
        simp only [Result.ok.injEq] at h
        obtain ⟨rfl, rfl⟩ := h
        exact ⟨[], by simp, robust_stop "or" acc (condition_rep (n + 1) acc) (by decide)
          (fun X p a => by rw [condition_rep, a]) s _ h0⟩

/-! ## An accepted statement is accepted again under any spelling of its keywords -/

theorem fields_suffix (n : Nat) (s r : Input) (fs : List (List Char))
    (h : fields n s = .ok fs r) : r <:+ s := by
  unfold fields at h
  rcases identifier_cases s with ⟨id, r1, hid⟩ | hid
  · rw [hid] at h
    simp only at h
    cases hrep : fields_rep n r1 with
    | ok ids r2 =>
      rw [hrep] at h
      simp only [Result.ok.injEq] at h
      rw [← h.2]
      exact (fields_rep_suffix _ _ _ _ hrep).trans (identifier_suffix _ _ _ hid)
    | fail p => rw [hrep] at h; simp at h
    | error w p => rw [hrep] at h; simp at h
    | fuel => rw [hrep] at h; simp at h
  · rw [hid] at h
    simp at h

theorem where_opt_respelled (n : Nat) (val v : SelectSQL) (s rest : Input)
    (hval : val.has_condition = false) (h : where_opt n val s = .ok v rest) :
    ∃ G, s = pieces_text G ++ rest ∧ pieces_spelled G
      ∧ pieces_keywords G
          = (if v.has_condition then "where" :: v.condition.toNode.keywords else [])
      ∧ ∀ G2 T, respelled G G2 → same_letters rest T = true →
          where_opt n val (pieces_text G2 ++ T) = .ok v T := by
  rcases where_opt_ok n val v s rest h with ⟨r5, h0, hc, hv⟩ | ⟨h0, hv, hr⟩
  · obtain ⟨ws, k, e0, hws, hk, f0⟩ :=
      no_case_shape "where" s r5 h0 (fun k hk => spells_where k hk)
    obtain ⟨G1, e1, s1, k1, f1⟩ := (condition_robust n).2.2.1 _ _ _ hc
    have hhc : v.has_condition = true := by rw [hv]
    refine ⟨.text ws :: .keyword "where" k :: G1, ?_, ⟨by simp [keywords], hk, s1⟩, ?_, ?_⟩
    · rw [e0, e1]
      simp [pieces_text, Piece.chars, List.append_assoc]
    · simp [pieces_keywords, k1, hhc]
    · intro G2 T hG hT
      obtain ⟨K1, rfl, hK1⟩ := respelled_text _ _ _ hG
      obtain ⟨k3, K2, rfl, hk3, hK2⟩ := respelled_keyword _ _ _ _ hK1
      have ex : pieces_text (.text ws :: .keyword "where" k3 :: K2) ++ T
          = ws ++ (k3 ++ (pieces_text K2 ++ T)) := by
        simp [pieces_text, Piece.chars, List.append_assoc]
      rw [ex, where_opt, f0 k3 _ hk3]
      simp only
      rw [f1 K2 T hK2 hT]
      exact congrArg (fun x => Result.ok x T) hv.symm
  · subst hr
    subst hv
    refine ⟨[], rfl, trivial, by simp [pieces_keywords, hval], ?_⟩
    intro G2 T hG hT
    rw [respelled_nil G2 hG]
    show where_opt n v T = .ok v T
    rw [where_opt, no_case_fail_same "where" rest T _ hT (by decide) h0]

theorem select_body_respelled (n : Nat) (s rest : Input) (v : SelectSQL)
    (h : select_body n SelectSQL.init s = .ok v rest) :
    ∃ G, s = pieces_text G ++ rest ∧ pieces_spelled G ∧ pieces_keywords G = v.keywords
      ∧ ∀ G2 T, respelled G G2 → same_letters rest T = true →
          select_body n SelectSQL.init (pieces_text G2 ++ T) = .ok v T := by
  unfold select_body at h
  rcases no_case_cases "select" s with ⟨r1, h1⟩ | h1
  swap
  · rw [h1] at h; simp at h
  rw [h1] at h
  simp only at h
  cases h2 : fields n r1 with
  | fail p => rw [h2] at h; simp at h
  | error w p => rw [h2] at h; simp at h
  | fuel => rw [h2] at h; simp at h
  | ok fs r2 =>
    rw [h2] at h
    simp only at h
    rcases no_case_cases "from" r2 with ⟨r3, h3⟩ | h3
    swap
    · rw [h3] at h; simp at h
    rw [h3] at h
    simp only at h
    rcases identifier_cases r3 with ⟨t, r4, h4⟩ | h4
    swap
    · have h4t : table r3 = .fail (skip_over r3) := h4
      rw [h4t] at h
      simp at h
    have h4t : table r3 = .ok t r4 := h4
    rw [h4t] at h
    simp only at h
    obtain ⟨Gw, ew, sw, kw, fw⟩ := where_opt_respelled n _ v r4 rest rfl h
    obtain ⟨ws1, k1, e1, hws1, hk1, f1⟩ :=
      no_case_shape "select" s r1 h1 (fun k hk => spells_select k hk)
    obtain ⟨F, hF⟩ := fields_suffix _ _ _ _ h2
    obtain ⟨ws2, k2, e2, hws2, hk2, f2⟩ :=
      no_case_shape "from" r2 r3 h3 (fun k hk => ⟨(spells_from k hk).1, (spells_from k hk).2.1⟩)
    obtain ⟨Tb, hTb⟩ := identifier_suffix _ _ _ h4
    refine ⟨.text ws1 :: .keyword "select" k1 :: .text F :: .text ws2 :: .keyword "from" k2
      :: .text Tb :: Gw, ?_, ⟨by simp [keywords], hk1, by simp [keywords], hk2, sw⟩, ?_, ?_⟩
    · rw [e1, ← hF, e2, ← hTb, ew]
      simp [pieces_text, Piece.chars, List.append_assoc]
    · simp [pieces_keywords, kw, SelectSQL.keywords]
    · intro G2 T hG hT
      obtain ⟨K1, rfl, hK1⟩ := respelled_text _ _ _ hG
      obtain ⟨k1b, K2, rfl, hk1b, hK2⟩ := respelled_keyword _ _ _ _ hK1
      obtain ⟨K3, rfl, hK3⟩ := respelled_text _ _ _ hK2
      obtain ⟨K4, rfl, hK4⟩ := respelled_text _ _ _ hK3
      obtain ⟨k2b, K5, rfl, hk2b, hK5⟩ := respelled_keyword _ _ _ _ hK4
      obtain ⟨K6, rfl, hK6⟩ := respelled_text _ _ _ hK5
      have ex : pieces_text (.text ws1 :: .keyword "select" k1b :: .text F :: .text ws2
          :: .keyword "from" k2b :: .text Tb :: K6) ++ T
          = ws1 ++ (k1b ++ (F ++ (ws2 ++ (k2b ++ (Tb ++ (pieces_text K6 ++ T)))))) := by
        simp [pieces_text, Piece.chars, List.append_assoc]
      have s4 : same_letters r4 (pieces_text K6 ++ T) = true := by
        rw [ew]
        exact same_letters_append _ _ _ _ (respelled_same _ _ sw hK6) hT
      have s3 : same_letters r3 (Tb ++ (pieces_text K6 ++ T)) = true := by
        rw [← hTb]
        exact same_letters_after _ _ _ s4
      have s2 : same_letters r2 (ws2 ++ (k2b ++ (Tb ++ (pieces_text K6 ++ T)))) = true := by
        rw [e2]
        exact same_letters_after _ _ _ (same_letters_append _ _ _ _
          (spells_same _ _ _ (keyword_in_letters "from" (by simp [keywords])) hk2 hk2b) s3)
      have hf : fields n (F ++ (ws2 ++ (k2b ++ (Tb ++ (pieces_text K6 ++ T)))))
          = .ok fs (ws2 ++ (k2b ++ (Tb ++ (pieces_text K6 ++ T)))) := by
        have h2b : fields n (F ++ r2) = .ok fs ([] ++ r2) := by rw [hF]; exact h2
        exact fields_loc n F [] r2 _ fs h2b s2
      have ht : table (Tb ++ (pieces_text K6 ++ T)) = .ok t (pieces_text K6 ++ T) := by
        have h4b : identifier (Tb ++ r4) = .ok t ([] ++ r4) := by rw [hTb]; exact h4
        exact identifier_loc Tb [] r4 _ t h4b s4
      rw [ex]
      unfold select_body
      rw [f1 k1b _ hk1b]
      simp only
      rw [hf]
      simp only
      rw [f2 k2b _ hk2b]
      simp only
      rw [ht]
      exact fw K6 T hK6 hT

theorem parse_line_respelled (s : Input) (v : SelectSQL) (h : parse_line s = some v) :
    ∃ G, pieces_text G = s ∧ pieces_spelled G ∧ pieces_keywords G = v.keywords
      ∧ ∀ G2, respelled G G2 → parse_line (pieces_text G2) = some v := by
  obtain ⟨rest, hb, hrest⟩ := parse_line_some s v h
  obtain ⟨G, e, sp, kw, f⟩ := select_body_respelled _ s rest v hb
  refine ⟨G ++ [.text rest], ?_, pieces_spelled_append G [.text rest] sp trivial, ?_, ?_⟩
  · rw [pieces_text_append, e]
    simp [pieces_text, Piece.chars]
  · rw [pieces_keywords_append, kw]
    simp [pieces_keywords]
  · intro G2 hG
    obtain ⟨H1, H2, rfl, g1, g2⟩ := respelled_append _ _ _ hG
    obtain ⟨K, rfl, hK⟩ := respelled_text _ _ _ g2
    rw [respelled_nil K hK]
    have ex : pieces_text (H1 ++ [.text rest]) = pieces_text H1 ++ rest := by
      rw [pieces_text_append]
      simp [pieces_text, Piece.chars]
    have hlen : (pieces_text H1 ++ rest).length = s.length := by
      have := same_letters_length _ _ (same_letters_append _ _ _ _
        (respelled_same _ _ sp g1) (same_letters_refl rest))
      rw [← this, ← e]
    rw [ex]
    unfold parse_line phrase_parse
    rw [hlen, f H1 rest g1 (same_letters_refl rest)]
    simp only [hrest]

/-! ## Keywords in any letter case -/

/-- C13: keywords are case-insensitive and identifiers keep their case.
Every accepted line, whatever its layout, splits into pieces of text and
keyword pieces; the keyword pieces are, in order, exactly the keywords of the
statement that was read (`select`, `from`, `where` when there is a condition,
and the `and` and `or` of the tree), each spelled in some letter case; and
spelling every keyword piece again in any letter case, the text pieces
unchanged, gives a line that is accepted with the same statement.  For all
fields, table and condition in source form the line is accepted, under every
letter case of every keyword, with the fields and the table as spelled in the
source and the tree of the condition, the same as with lower-case keywords.
The rules `identifier` and `compare` return the identifier exactly as it
stands in the source.  `SELECT Ab FROM T WHERE Ab=1 AND c=2` yields fields
[Ab], table T and AND(Ab=1, c=2). -/
theorem keywords_any_case :
    (∀ (s : Input) (v : SelectSQL), parse_line s = some v →
      ∃ G, pieces_text G = s ∧ pieces_spelled G ∧ pieces_keywords G = v.keywords
        ∧ ∀ G2, respelled G G2 → parse_line (pieces_text G2) = some v)
    ∧ (∀ (kS kF kW f : Input) (fs : List Input) (t : Input) (e : Src),
      spells "select".toList kS = true → spells "from".toList kF = true →
      spells "where".toList kW = true →
      is_identifier f = true → (∀ g ∈ fs, is_identifier g = true) → is_identifier t = true →
      e.valid →
      parse_line (statement_text kS kF f fs t ++ where_text kW e)
          = some ⟨f :: fs, t, true, e.tree⟩
        ∧ parse_line (statement_text kS kF f fs t ++ where_text kW e)
          = parse_line (statement_text "select".toList "from".toList f fs t
              ++ where_text "where".toList e.lower)
        ∧ parse_line (statement_text kS kF f fs t) = some ⟨f :: fs, t, false, Condition.init⟩)
    ∧ (∀ (s r : Input) (v : List Char), identifier s = .ok v r → skip_over s = v ++ r)
    ∧ (∀ (s r : Input) (c : Compare), compare s = .ok c r → ∃ r1, skip_over s = c.left ++ r1)
    ∧ parse_line "SELECT Ab FROM T WHERE Ab=1 AND c=2".toList
        = some ⟨["Ab".toList], ['T'], true,
            Condition.node (Condition.leaf ⟨"Ab".toList, .kTypeEQ, ⟨.kTypeLong, .long 1⟩⟩)
              .kOpTypeAND (Condition.leaf ⟨['c'], .kTypeEQ, ⟨.kTypeLong, .long 2⟩⟩)⟩
    ∧ parse_line "SELECT Ab FROM T WHERE Ab=1 AND c=2".toList
        = parse_line "select Ab from T where Ab=1 and c=2".toList := by
  refine ⟨parse_line_respelled, ?_, identifier_exact, compare_column_exact, by decide, by decide⟩
  intro kS kF kW f fs t e hS hF hW hf hfs ht he
  have h1 := parse_line_spelled kS kF kW f fs t e hS hF hW hf hfs ht he
  have h2 := parse_line_spelled "select".toList "from".toList "where".toList f fs t e.lower
    (by decide) (by decide) (by decide) hf hfs ht (src_lower_valid e he)
  refine ⟨h1, ?_, parse_line_spelled_select kS kF f fs t hS hF hf hfs ht⟩
  rw [h1, h2, src_lower_tree]

theorem keywords_any_case_witness :
    parse_line "SeLeCt Ab, cD FROM T wHERE (Ab=1 oR x<'y') AND c=2 aNd d!=3".toList
        = some ⟨["Ab".toList, "cD".toList], ['T'], true,
            Condition.node
              (Condition.node
                (Condition.node (Condition.leaf ⟨"Ab".toList, .kTypeEQ, ⟨.kTypeLong, .long 1⟩⟩)
                  .kOpTypeOR
                  (Condition.leaf ⟨['x'], .kTypeLT, ⟨.kTypeString, .string ['y']⟩⟩))
                .kOpTypeAND (Condition.leaf ⟨['c'], .kTypeEQ, ⟨.kTypeLong, .long 2⟩⟩))
              .kOpTypeAND (Condition.leaf ⟨['d'], .kTypeNE, ⟨.kTypeLong, .long 3⟩⟩)⟩
    ∧ skip_over "  Ab=1".toList = "Ab".toList ++ "=1".toList
    ∧ (∃ G, pieces_text G = "SELECT\ta ,b FROM t WHERE(x=1)AND y<2".toList ∧ pieces_spelled G
        ∧ pieces_keywords G = ["select", "from", "where", "and"]
        ∧ ∀ G2, respelled G G2 → parse_line (pieces_text G2)
            = some ⟨[['a'], ['b']], ['t'], true,
                Condition.node (Condition.leaf ⟨['x'], .kTypeEQ, ⟨.kTypeLong, .long 1⟩⟩)
                  .kOpTypeAND (Condition.leaf ⟨['y'], .kTypeLT, ⟨.kTypeLong, .long 2⟩⟩)⟩) :=
  ⟨(keywords_any_case.2.1 "SeLeCt".toList "FROM".toList "wHERE".toList "Ab".toList ["cD".toList]
      ['T']
      (.bin
        (.bin
          (.paren (.bin
            (.cmp "Ab=1".toList ⟨"Ab".toList, .kTypeEQ, ⟨.kTypeLong, .long 1⟩⟩)
            "oR".toList .kOpTypeOR
            (.cmp "x<'y'".toList ⟨['x'], .kTypeLT, ⟨.kTypeString, .string ['y']⟩⟩)))
          "AND".toList .kOpTypeAND
          (.cmp "c=2".toList ⟨['c'], .kTypeEQ, ⟨.kTypeLong, .long 2⟩⟩))
        "aNd".toList .kOpTypeAND
        (.cmp "d!=3".toList ⟨['d'], .kTypeNE, ⟨.kTypeLong, .long 3⟩⟩))
      (by decide) (by decide) (by decide) (by decide) (by decide) (by decide)
      ⟨⟨⟨int_comparison_is_comparison ⟨"Ab".toList, (['='], .kTypeEQ), none, ['1']⟩ (by decide),
          text_comparison_is_comparison ['x'] (['<'], .kTypeLT) (Char.ofNat 39) ['y']
            (by decide) (by decide) (Or.inr rfl) (by decide),
          Or.inr ⟨rfl, by decide, by decide⟩⟩,
        int_comparison_is_comparison ⟨['c'], (['='], .kTypeEQ), none, ['2']⟩ (by decide),
        Or.inl ⟨rfl, by decide, by decide, by decide⟩⟩,
       int_comparison_is_comparison ⟨['d'], ("!=".toList, .kTypeNE), none, ['3']⟩ (by decide),
       Or.inl ⟨rfl, by decide, by decide, by decide⟩⟩).1,
   keywords_any_case.2.2.1 "  Ab=1".toList "=1".toList "Ab".toList (by decide),
   keywords_any_case.1 "SELECT\ta ,b FROM t WHERE(x=1)AND y<2".toList
     ⟨[['a'], ['b']], ['t'], true,
       Condition.node (Condition.leaf ⟨['x'], .kTypeEQ, ⟨.kTypeLong, .long 1⟩⟩)
         .kOpTypeAND (Condition.leaf ⟨['y'], .kTypeLT, ⟨.kTypeLong, .long 2⟩⟩)⟩ (by decide)⟩

/-! ## A parenthesis that is not closed, wherever it is opened -/

/-- A call that the driver comes to has a recursion bound that suffices. -/
theorem calls_bounded (a b : Call) (h : calls a b) (ha : a.bounded) : b.bounded := by
  induction h with
  | here a => exact ha
  | condition_first n s b _ ih =>
    apply ih
    simp only [Call.bounded] at ha ⊢
    omega
  | condition_more n s r v b hv _ ih =>
    apply ih
    have := (condition_lengths n).2.1 _ _ _ hv
    simp only [Call.bounded] at ha ⊢
    omega
  | rep_operand n val s r1 b hk _ ih =>
    apply ih
    have := no_case_length _ _ _ _ hk
    have e : "or".toList.length = 2 := rfl
    simp only [Call.bounded] at ha ⊢
    omega
  | rep_more n val v s r1 r2 b hk hv _ ih =>
    apply ih
    have := no_case_length _ _ _ _ hk
    have := (condition_lengths n).2.1 _ _ _ hv
    simp only [Call.bounded] at ha ⊢
    omega
  | high_first n s b _ ih =>
    apply ih
    simp only [Call.bounded] at ha ⊢
    omega
  | high_more n s r v b hv _ ih =>
    apply ih
    have := (condition_lengths n).1 _ _ _ hv
    simp only [Call.bounded] at ha ⊢
    omega
  | high_rep_operand n val s r1 b hk _ ih =>
    apply ih
    have := no_case_length _ _ _ _ hk
    have e : "and".toList.length = 3 := rfl
    simp only [Call.bounded] at ha ⊢
    omega
  | high_rep_more n val v s r1 r2 b hk hv _ ih =>
    apply ih
    have := no_case_length _ _ _ _ hk
    have := (condition_lengths n).1 _ _ _ hv
    simp only [Call.bounded] at ha ⊢
    omega
  | atom_compare n s b _ ih => exact ih trivial
  | atom_group n s q r1 b hc hl _ ih =>
    apply ih
    have := lit_length _ _ _ _ hl
    simp only [Call.bounded] at ha ⊢
    omega
  | compare_literal s r1 r2 id op b hid hop _ ih => exact ih trivial

/-- A line whose condition comes to an opened parenthesis, after which a full
condition is read up to the end of the input: the handler of `select` reports
the missing `)`. -/
theorem unclosed_reached (sql r4 r5 s r1 r2 : Input) (m N : Nat) (c : Condition)
    (h1 : after_table (3 * sql.length + 3) sql = some r4)
    (h2 : no_case "where" r4 = .ok () r5)
    (h3 : calls (.condition (3 * sql.length + 3) r5) (.condition_atom m s))
    (h4 : lit '(' s = .ok () r1)
    (h5 : condition N r1 = .ok c r2)
    (h6 : skip_over r2 = []) :
    phrase_parse (3 * sql.length + 3) sql SelectSQL.init = .failure (some (lit_what ')', []))
    ∧ parse_line sql = none := by
  have l1 := after_table_length _ _ _ h1
  have l2 := no_case_length _ _ _ _ h2
  have hb0 : (Call.condition (3 * sql.length + 3) r5).bounded := by
    simp only [Call.bounded]
    omega
  have hb := calls_bounded _ _ h3 hb0
  simp only [Call.bounded] at hb
  have l3 := lit_length _ _ _ _ h4
  obtain ⟨n, rfl⟩ : ∃ n, m = n + 1 := ⟨m - 1, by omega⟩
  have h5b : condition n r1 = .ok c r2 := condition_ok_any_fuel N n r1 r2 c h5 (by omega)
  have hat : (Call.condition_atom (n + 1) s).throws (lit_what ')') [] :=
    condition_atom_unclosed n s r1 r2 c h4 h5b h6
  have := throws_up _ _ h3 _ _ hat
  exact where_error_reported sql r4 r5 _ _ h1 h2 this

/-- C15: a missing closing parenthesis is a hard error.  For every line whose
condition, read after `where`, comes to an opening parenthesis, at whatever
depth and after whatever operands and keywords, after which the rule
`condition` reads a full condition up to the end of the input (white space
apart): the expectation of `)` fails, the exception passes every enclosing
rule, the handler of `select` reports the expected construct, the character
`)`, at the end of the input; the line is rejected and no statement is
returned. -/
theorem missing_close_paren (sql r4 r5 s r1 r2 : Input) (m N : Nat) (c : Condition)
    (h1 : after_table (3 * sql.length + 3) sql = some r4)
    (h2 : no_case "where" r4 = .ok () r5)
    (h3 : calls (.condition (3 * sql.length + 3) r5) (.condition_atom m s))
    (h4 : lit '(' s = .ok () r1)
    (h5 : condition N r1 = .ok c r2)
    (h6 : skip_over r2 = []) :
    phrase_parse (3 * sql.length + 3) sql SelectSQL.init = .failure (some (lit_what ')', []))
    ∧ lit_what ')' = .str "literal-char" [')']
    ∧ parse_line sql = none := by
  obtain ⟨hp, hl⟩ := unclosed_reached sql r4 r5 s r1 r2 m N c h1 h2 h3 h4 h5 h6
  exact ⟨hp, rfl, hl⟩

theorem missing_close_paren_witness :
    (phrase_parse (3 * "select x from t where (a=1".toList.length + 3)
        "select x from t where (a=1".toList SelectSQL.init
      = .failure (some (lit_what ')', []))
      ∧ lit_what ')' = .str "literal-char" [')']
      ∧ parse_line "select x from t where (a=1".toList = none)
    ∧ (phrase_parse (3 * "select x from t where a=1 and (b=2".toList.length + 3)
        "select x from t where a=1 and (b=2".toList SelectSQL.init
      = .failure (some (lit_what ')', []))
      ∧ lit_what ')' = .str "literal-char" [')']
      ∧ parse_line "select x from t where a=1 and (b=2".toList = none)
    ∧ (phrase_parse (3 * "select x from t where ((a=1 or b=2 ".toList.length + 3)
        "select x from t where ((a=1 or b=2 ".toList SelectSQL.init
      = .failure (some (lit_what ')', []))
      ∧ lit_what ')' = .str "literal-char" [')']
      ∧ parse_line "select x from t where ((a=1 or b=2 ".toList = none) :=
  ⟨missing_close_paren "select x from t where (a=1".toList " where (a=1".toList " (a=1".toList
      " (a=1".toList "a=1".toList [] _ 3
      ⟨.compare ⟨['a'], .kTypeEQ, ⟨.kTypeLong, .long 1⟩⟩, .kOpTypeNONE, .compare Compare.init⟩
      (by decide) (by decide)
      (calls.condition_first _ _ _ (calls.high_first _ _ _ (calls.here _)))
      (by decide) (by decide) (by decide),
   missing_close_paren "select x from t where a=1 and (b=2".toList
      " where a=1 and (b=2".toList " a=1 and (b=2".toList " (b=2".toList "b=2".toList [] _ 3
      ⟨.compare ⟨['b'], .kTypeEQ, ⟨.kTypeLong, .long 2⟩⟩, .kOpTypeNONE, .compare Compare.init⟩
      (by decide) (by decide)
      (calls.condition_first _ _ _
        (calls.high_more _ _ " and (b=2".toList
          ⟨.compare ⟨['a'], .kTypeEQ, ⟨.kTypeLong, .long 1⟩⟩, .kOpTypeNONE,
            .compare Compare.init⟩ _ (by decide)
          (calls.high_rep_operand _ _ _ " (b=2".toList _ (by decide) (calls.here _))))
      (by decide) (by decide) (by decide),
   missing_close_paren "select x from t where ((a=1 or b=2 ".toList
      " where ((a=1 or b=2 ".toList " ((a=1 or b=2 ".toList "(a=1 or b=2 ".toList
      "a=1 or b=2 ".toList " ".toList _ 5
      ⟨.condition (.compare ⟨['a'], .kTypeEQ, ⟨.kTypeLong, .long 1⟩⟩) .kOpTypeNONE
          (.compare Compare.init),
        .kOpTypeOR,
        .condition (.compare ⟨['b'], .kTypeEQ, ⟨.kTypeLong, .long 2⟩⟩) .kOpTypeNONE
          (.compare Compare.init)⟩
      (by decide) (by decide)
      (calls.condition_first _ _ _
        (calls.high_first _ _ _
          (calls.atom_group _ _ " ((a=1 or b=2 ".toList "(a=1 or b=2 ".toList _
            (by decide) (by decide)
            (calls.condition_first _ _ _ (calls.high_first _ _ _ (calls.here _))))))
      (by decide) (by decide) (by decide)⟩

/-! ## The statement held by the program, and its round trip -/

theorem condition_init_rounded (rnd : Real64 → Real64) :
    Condition.init.rounded rnd = Condition.init := rfl

end SqlParser
